import Mathlib

/-! Elaboration and rewriting core: matcher and notation environment.

A shallow embedding of
* `src/library/hop_match.cpp` (higher-order pattern matcher),
* `src/frontend/operator_info.cpp` (operator descriptors),
* `src/frontends/lean/frontend.cpp` (notation environment `lean_extension`),
followed by theorems about them.

The host term representation (`kernel/expr.h`, `kernel/free_vars.h`,
`kernel/instantiate.h`, `kernel/context.h`) is not among the sources; the part of it
the embedded code relies on is modelled in the first section.
-/

namespace ElabCore

/-! ## Host terms -/

/-- Hierarchical names: an anonymous root extended by string or numeric segments. -/
inductive name where
  | anonymous
  | str (p : name) (s : String)
  | num (p : name) (k : Nat)
  deriving DecidableEq, Repr

/-- Universe levels (only their identity matters to the code embedded here). -/
inductive level where
  | bottom
  | uvar (n : name)
  | lift (l : level) (k : Nat)
  | max (l1 l2 : level)
  deriving DecidableEq, Repr

/-- Modelled from the spec: the term variant of the host (`kernel/expr.h` is not among
the sources). An application node `f a1 ... an` of the host is always flat (its head is
not itself an application, the smart constructor `mk_app` merges nested heads); it is
represented here by the left-nested spine `App (... (App f a1) ...) an`, which is in
bijection with the flat nodes. Binder names are not part of term identity in the host
(equality is up to alpha) and are omitted. The delayed context of a metavariable is not
inspected by the embedded code and is omitted. -/
inductive expr where
  | Var (idx : Nat)
  | Constant (n : name)
  | Value (v : name)
  | TypeU (l : level)
  | App (f a : expr)
  | Lambda (dom body : expr)
  | Pi (dom body : expr)
  | Let (ty val body : expr)
  | HEq (lhs rhs : expr)
  | MetaVar (id : name)
  deriving DecidableEq, Repr

/-- The `expr_kind` tag of a term. -/
inductive expr_kind where
  | Var | Constant | Value | App | Lambda | Pi | Type | Let | HEq | MetaVar
  deriving DecidableEq, Repr

namespace expr

/-- Kind tag, `expr::kind()`. -/
def kind : expr → expr_kind
  | Var _ => expr_kind.Var
  | Constant _ => expr_kind.Constant
  | Value _ => expr_kind.Value
  | TypeU _ => expr_kind.Type
  | App _ _ => expr_kind.App
  | Lambda _ _ => expr_kind.Lambda
  | Pi _ _ => expr_kind.Pi
  | Let _ _ _ => expr_kind.Let
  | HEq _ _ => expr_kind.HEq
  | MetaVar _ => expr_kind.MetaVar

end expr

/-- Test `is_var`. -/
def is_var : expr → Bool
  | expr.Var _ => true
  | _ => false

/-- Index of a variable, `var_idx` (0 on other terms, where the host asserts). -/
def var_idx : expr → Nat
  | expr.Var i => i
  | _ => 0

/-- Test `is_app`. -/
def is_app : expr → Bool
  | expr.App _ _ => true
  | _ => false

/-- Test `is_constant`. -/
def is_constant : expr → Bool
  | expr.Constant _ => true
  | _ => false

/-- Name of a constant, `const_name`. -/
def const_name : expr → name
  | expr.Constant n => n
  | _ => name.anonymous

/-- Test `is_pi`. -/
def is_pi : expr → Bool
  | expr.Pi _ _ => true
  | _ => false

/-- The flat argument vector of a term seen as an application node: `[arg 0, ..., arg (n-1)]`,
where `arg 0` is the head. A term that is not an application is its own one-element spine. -/
def get_args : expr → List expr
  | expr.App f a => get_args f ++ [a]
  | e => [e]

/-- Number of arguments of an application node (head included), `num_args`. -/
def num_args (e : expr) : Nat := (get_args e).length

/-- The `i`-th argument of an application node, `arg(e, i)`. -/
def arg (e : expr) (i : Nat) : expr := (get_args e).getD i e

/-- Smart constructor `mk_app(n, args)`: the application of `args[0]` to the others;
a head that is itself an application is merged (flat nodes). -/
def mk_app : List expr → expr
  | [] => expr.Var 0
  | f :: as => as.foldl expr.App f

/-- The prefix application `mk_app(n, begin_args(e))`. -/
def mk_app_first (n : Nat) (e : expr) : expr := mk_app ((get_args e).take n)

/-- Modelled from the spec: `has_free_var(e, low, high)` of `kernel/free_vars.h`, the cached
"has free variable in range [low, high)" test. A metavariable is conservatively taken to
contain free variables. -/
def has_free_var : expr → Nat → Nat → Bool
  | expr.Var i, low, high => decide (low ≤ i) && decide (i < high)
  | expr.Constant _, _, _ => false
  | expr.Value _, _, _ => false
  | expr.TypeU _, _, _ => false
  | expr.App f a, low, high => has_free_var f low high || has_free_var a low high
  | expr.Lambda d b, low, high => has_free_var d low high || has_free_var b (low + 1) (high + 1)
  | expr.Pi d b, low, high => has_free_var d low high || has_free_var b (low + 1) (high + 1)
  | expr.Let t v b, low, high =>
      has_free_var t low high || has_free_var v low high || has_free_var b (low + 1) (high + 1)
  | expr.HEq l r, low, high => has_free_var l low high || has_free_var r low high
  | expr.MetaVar _, _, _ => true

/-- Modelled from the spec: `lift_free_vars(e, s, d)` of `kernel/free_vars.h`: every free
variable with index at least `s` is raised by `d`. -/
def lift_free_vars_core : expr → Nat → Nat → expr
  | expr.Var i, s, d => if s ≤ i then expr.Var (i + d) else expr.Var i
  | expr.Constant n, _, _ => expr.Constant n
  | expr.Value v, _, _ => expr.Value v
  | expr.TypeU l, _, _ => expr.TypeU l
  | expr.App f a, s, d => expr.App (lift_free_vars_core f s d) (lift_free_vars_core a s d)
  | expr.Lambda t b, s, d => expr.Lambda (lift_free_vars_core t s d) (lift_free_vars_core b (s + 1) d)
  | expr.Pi t b, s, d => expr.Pi (lift_free_vars_core t s d) (lift_free_vars_core b (s + 1) d)
  | expr.Let t v b, s, d =>
      expr.Let (lift_free_vars_core t s d) (lift_free_vars_core v s d) (lift_free_vars_core b (s + 1) d)
  | expr.HEq l r, s, d => expr.HEq (lift_free_vars_core l s d) (lift_free_vars_core r s d)
  | expr.MetaVar m, _, _ => expr.MetaVar m

/-- The two-argument form `lift_free_vars(e, d)`: all free variables are raised by `d`. -/
def lift_free_vars (e : expr) (d : Nat) : expr := lift_free_vars_core e 0 d

/-- Modelled from the spec: `lower_free_vars(e, s, d)` of `kernel/free_vars.h`: every free
variable with index at least `s` is lowered by `d`. -/
def lower_free_vars : expr → Nat → Nat → expr
  | expr.Var i, s, d => if s ≤ i then expr.Var (i - d) else expr.Var i
  | expr.Constant n, _, _ => expr.Constant n
  | expr.Value v, _, _ => expr.Value v
  | expr.TypeU l, _, _ => expr.TypeU l
  | expr.App f a, s, d => expr.App (lower_free_vars f s d) (lower_free_vars a s d)
  | expr.Lambda t b, s, d => expr.Lambda (lower_free_vars t s d) (lower_free_vars b (s + 1) d)
  | expr.Pi t b, s, d => expr.Pi (lower_free_vars t s d) (lower_free_vars b (s + 1) d)
  | expr.Let t v b, s, d =>
      expr.Let (lower_free_vars t s d) (lower_free_vars v s d) (lower_free_vars b (s + 1) d)
  | expr.HEq l r, s, d => expr.HEq (lower_free_vars l s d) (lower_free_vars r s d)
  | expr.MetaVar m, _, _ => expr.MetaVar m

/-- Modelled from the spec: `instantiate(e, n, subst)` of `kernel/instantiate.h` at binder
depth `k`: the free variable `i < n` is replaced by `subst[n - i - 1]` (lifted over the
binders crossed), the free variables above are lowered by `n`. -/
def instantiate_core : expr → Nat → List expr → expr
  | expr.Var i, k, subst =>
      if i < k then expr.Var i
      else if i - k < subst.length then
        lift_free_vars (subst.getD (subst.length - (i - k) - 1) (expr.Var 0)) k
      else expr.Var (i - subst.length)
  | expr.Constant n, _, _ => expr.Constant n
  | expr.Value v, _, _ => expr.Value v
  | expr.TypeU l, _, _ => expr.TypeU l
  | expr.App f a, k, subst => expr.App (instantiate_core f k subst) (instantiate_core a k subst)
  | expr.Lambda t b, k, subst => expr.Lambda (instantiate_core t k subst) (instantiate_core b (k + 1) subst)
  | expr.Pi t b, k, subst => expr.Pi (instantiate_core t k subst) (instantiate_core b (k + 1) subst)
  | expr.Let t v b, k, subst =>
      expr.Let (instantiate_core t k subst) (instantiate_core v k subst) (instantiate_core b (k + 1) subst)
  | expr.HEq l r, k, subst => expr.HEq (instantiate_core l k subst) (instantiate_core r k subst)
  | expr.MetaVar m, _, _ => expr.MetaVar m

/-- The top-level form `instantiate(e, n, subst)`. -/
def instantiate (e : expr) (subst : List expr) : expr := instantiate_core e 0 subst

/-- Modelled from the spec: `apply_beta(f, n, args)` of `kernel/instantiate.h` ("beta-apply"):
as many leading lambdas of `f` as there are arguments are consumed at once, the remaining
arguments are applied to the result; `f` that is not a lambda is just applied. The
auxiliary `taken` holds the arguments consumed so far (first binder first). -/
def apply_beta_core : expr → List expr → List expr → expr
  | expr.Lambda _ b, taken, a :: rest => apply_beta_core b (taken ++ [a]) rest
  | b, taken, rest => mk_app (instantiate b taken :: rest)

/-- See `apply_beta_core`. -/
def apply_beta (f : expr) (args : List expr) : expr :=
  match f with
  | expr.Lambda _ _ => apply_beta_core f [] args
  | _ => mk_app (f :: args)

/-- Modelled from the spec: a context (`kernel/context.h`) is the list of the entries of the
binders entered, most recent first; an entry records the optional domain of its binder. -/
abbrev context := List (Option expr)

/-- Modelled from the spec: `extend(ctx, name, domain)` pushes an entry. -/
def extend (ctx : context) (domain : expr) : context := some domain :: ctx

/-- Modelled from the spec: `lookup_ext(ctx, i)` returns the entry of de Bruijn index `i`
and the context valid at its binding site. -/
def lookup_ext (ctx : context) (i : Nat) : Option (Option expr × context) :=
  match ctx.drop i with
  | [] => none
  | e :: rest => some (e, rest)

/-- Modelled from the spec: `is_eq_heq` of `library/eq_heq.h`, the test for a heterogeneous
equality. -/
def is_eq_heq : expr → Bool
  | expr.HEq _ _ => true
  | _ => false

/-- Modelled from the spec: `eq_heq_args` of `library/eq_heq.h`, the two sides of an equality. -/
def eq_heq_args : expr → expr × expr
  | expr.HEq l r => (l, r)
  | e => (e, e)

/-! ## The higher-order matcher, `hop_match.cpp` -/

/-- The substitution buffer `m_subst` (`buffer<optional<expr>>`). -/
abbrev subst := List (Option expr)

/-- What a call of the matcher produces: it returns a boolean and leaves the substitution
buffer in some state (the buffer is updated in place, also on the paths that return
false), or throws the exception `ill-formed higher-order matching problem`, or does not
return within the recursion budget of the model. -/
inductive match_result where
  | done (b : Bool) (s : subst)
  | exception
  | out_of_fuel
  deriving DecidableEq, Repr

namespace hop_match_fn

/-- Test `is_free_var(x, ctx_size)`: a variable that is not bound by a binder entered during
matching. -/
def is_free_var (x : expr) (ctx_size : Nat) : Bool := is_var x && decide (ctx_size ≤ var_idx x)

/-- Test `is_locally_bound(x, ctx_size)`. -/
def is_locally_bound (x : expr) (ctx_size : Nat) : Bool := is_var x && decide (var_idx x < ctx_size)

/-- Lookup `get_subst(x, ctx_size)`: `none` is the thrown exception. -/
def get_subst (m_subst : subst) (x : expr) (ctx_size : Nat) : Option (Option expr) :=
  let vidx := var_idx x - ctx_size
  let sz := m_subst.length
  if sz ≤ vidx then none
  else some (m_subst.getD (sz - vidx - 1) none)

/-- Test `has_locally_bound_var(t, ctx_size)`. -/
def has_locally_bound_var (t : expr) (ctx_size : Nat) : Bool := has_free_var t 0 ctx_size

/-- Update `assign(p, t, ctx_size)`. -/
def assign (m_subst : subst) (p t : expr) (ctx_size : Nat) : subst :=
  let vidx := var_idx p - ctx_size
  let sz := m_subst.length
  m_subst.set (sz - vidx - 1) (some (lower_free_vars t ctx_size ctx_size))

/-- The loop of `args_are_distinct_locally_bound_vars` over the arguments still to visit;
`none` is the answer false. -/
def args_are_distinct_locally_bound_vars_loop (ctx_size : Nat) : List expr → List expr → Option (List expr)
  | [], vars => some vars
  | v :: rest, vars =>
      if !is_locally_bound v ctx_size then none
      else if v ∈ vars then none
      else args_are_distinct_locally_bound_vars_loop ctx_size rest (vars ++ [v])

/-- Test `args_are_distinct_locally_bound_vars(p, ctx_size, vars)`: `some vars` is the
answer true together with the buffer filled. -/
def args_are_distinct_locally_bound_vars (p : expr) (ctx_size : Nat) : Option (List expr) :=
  args_are_distinct_locally_bound_vars_loop ctx_size ((get_args p).drop 1) []

/-- The inner loop of `proj_core`: the first `i < vars_size` with `var_idx(vars[i]) == vidx`,
searched from position `i`. -/
def find_var (vars : List expr) (vars_size vidx : Nat) : Nat → Nat → Option Nat
  | 0, _ => none
  | n + 1, i =>
      if i < vars_size then
        if var_idx (vars.getD i (expr.Var 0)) = vidx then some i
        else find_var vars vars_size vidx n (i + 1)
      else none

/-- The traversal `replace(t, f)` of `proj_core` at binder depth `offset`, with the callback of
`proj_core` at the variables; `none` stands for the flag `failed` having been set. -/
def proj_core_at (ctx_size : Nat) (vars : List expr) (vars_size : Nat) : expr → Nat → Option expr
  | expr.Var vidx0, offset =>
      if vidx0 < offset then some (expr.Var vidx0)
      else
        let vidx := vidx0 - offset
        if vidx < ctx_size then
          match find_var vars vars_size vidx vars_size 0 with
          | some i => some (expr.Var (offset + vars_size - i - 1))
          | none => none
        else if ctx_size ≠ vars_size then some (expr.Var (offset + vidx - ctx_size + vars_size))
        else some (expr.Var vidx0)
  | expr.Constant n, _ => some (expr.Constant n)
  | expr.Value v, _ => some (expr.Value v)
  | expr.TypeU l, _ => some (expr.TypeU l)
  | expr.App f a, offset =>
      match proj_core_at ctx_size vars vars_size f offset, proj_core_at ctx_size vars vars_size a offset with
      | some f1, some a1 => some (expr.App f1 a1)
      | _, _ => none
  | expr.Lambda d b, offset =>
      match proj_core_at ctx_size vars vars_size d offset, proj_core_at ctx_size vars vars_size b (offset + 1) with
      | some d1, some b1 => some (expr.Lambda d1 b1)
      | _, _ => none
  | expr.Pi d b, offset =>
      match proj_core_at ctx_size vars vars_size d offset, proj_core_at ctx_size vars vars_size b (offset + 1) with
      | some d1, some b1 => some (expr.Pi d1 b1)
      | _, _ => none
  | expr.Let ty v b, offset =>
      match proj_core_at ctx_size vars vars_size ty offset, proj_core_at ctx_size vars vars_size v offset,
            proj_core_at ctx_size vars vars_size b (offset + 1) with
      | some ty1, some v1, some b1 => some (expr.Let ty1 v1 b1)
      | _, _, _ => none
  | expr.HEq l r, offset =>
      match proj_core_at ctx_size vars vars_size l offset, proj_core_at ctx_size vars vars_size r offset with
      | some l1, some r1 => some (expr.HEq l1 r1)
      | _, _ => none
  | expr.MetaVar m, _ => some (expr.MetaVar m)

/-- Projection `proj_core(t, ctx_size, vars, vars_size)`. -/
def proj_core (t : expr) (ctx_size : Nat) (vars : List expr) (vars_size : Nat) : Option expr :=
  proj_core_at ctx_size vars vars_size t 0

/-- The `while (i > 0)` loop of `proj`, wrapping `r` in one lambda per variable. -/
def proj_loop (ctx : context) (vars : List expr) : Nat → expr → Option expr
  | 0, r => some r
  | i + 1, r =>
      let vidx := var_idx (vars.getD i (expr.Var 0))
      match lookup_ext ctx vidx with
      | none => none
      | some (entry, entry_ctx) =>
          match entry with
          | none => none
          | some d =>
              match proj_core d entry_ctx.length vars i with
              | none => none
              | some new_d => proj_loop ctx vars i (expr.Lambda new_d r)

/-- Projection `proj(t, ctx, ctx_size, vars)`. -/
def proj (t : expr) (ctx : context) (ctx_size : Nat) (vars : List expr) : Option expr :=
  match proj_core t ctx_size vars vars.length with
  | none => none
  | some r => proj_loop ctx vars vars.length r

/-- The `while (i1 > 0 && i2 > 0)` loop of the application case of `match`, over the
recursive call `m`. -/
def app_loop (m : subst → expr → expr → match_result) (p t : expr) : Nat → Nat → subst → match_result
  | i1 + 1, i2 + 1, s =>
      let r :=
        if i1 = 0 ∧ 0 < i2 then m s (arg p i1) (mk_app_first (i2 + 1) t)
        else if i2 = 0 ∧ 0 < i1 then m s (mk_app_first (i1 + 1) p) (arg t i2)
        else m s (arg p i1) (arg t i2)
      match r with
      | match_result.done true s1 => app_loop m p t i1 i2 s1
      | other => other
  | _, _, s => match_result.done true s

/-- The conjunction `match(..) && match(..)` of two recursive calls. -/
def and_then (r : match_result) (k : subst → match_result) : match_result :=
  match r with
  | match_result.done true s1 => k s1
  | other => other

/-- The part of `match` from the test `p == t` on, over the recursive call `m`
(which takes the substitution, the pattern, the target, the context and its size). -/
def match_structural (m : subst → expr → expr → context → Nat → match_result)
    (s : subst) (p t : expr) (ctx : context) (ctx_size : Nat) : match_result :=
  if p = t then match_result.done true s
  else if is_eq_heq p && is_eq_heq t then
    and_then (m s (eq_heq_args p).1 (eq_heq_args t).1 ctx ctx_size)
      (fun s1 => m s1 (eq_heq_args p).2 (eq_heq_args t).2 ctx ctx_size)
  else if p.kind ≠ t.kind then match_result.done false s
  else
    match p, t with
    | expr.App _ _, _ =>
        app_loop (fun s1 p1 t1 => m s1 p1 t1 ctx ctx_size) p t (num_args p) (num_args t) s
    | expr.Lambda pd pb, expr.Lambda td tb =>
        and_then (m s pd td ctx ctx_size) (fun s1 => m s1 pb tb (extend ctx td) (ctx_size + 1))
    | expr.Pi pd pb, expr.Pi td tb =>
        and_then (m s pd td ctx ctx_size) (fun s1 => m s1 pb tb (extend ctx td) (ctx_size + 1))
    | _, _ => match_result.done false s

/-- The method `match(p, t, ctx, ctx_size)`, with the recursion depth bounded by the first
argument. -/
def match_ : Nat → subst → expr → expr → context → Nat → match_result
  | 0, _, _, _, _, _ => match_result.out_of_fuel
  | fuel + 1, s, p, t, ctx, ctx_size =>
      if is_free_var p ctx_size then
        match get_subst s p ctx_size with
        | none => match_result.exception
        | some (some v) => match_ fuel s (lift_free_vars v ctx_size) t ctx ctx_size
        | some none =>
            if has_locally_bound_var t ctx_size then match_result.done false s
            else match_result.done true (assign s p t ctx_size)
      else if is_app p && is_free_var (arg p 0) ctx_size then
        match get_subst s (arg p 0) ctx_size with
        | none => match_result.exception
        | some (some v) =>
            match_ fuel s (apply_beta (lift_free_vars v ctx_size) ((get_args p).drop 1)) t ctx ctx_size
        | some none =>
            match args_are_distinct_locally_bound_vars p ctx_size with
            | some vars =>
                match proj t ctx ctx_size vars with
                | some new_t => match_result.done true (assign s (arg p 0) new_t ctx_size)
                | none => match_result.done false s
            | none => match_structural (match_ fuel) s p t ctx ctx_size
      else match_structural (match_ fuel) s p t ctx ctx_size

end hop_match_fn

/-- The entry point `hop_match(p, t, subst)`. -/
def hop_match (fuel : Nat) (p t : expr) (s : subst) : match_result :=
  hop_match_fn.match_ fuel s p t [] 0

/-! ## Operator descriptors, `operator_info.cpp` -/

/-- The fixity of an operator. -/
inductive fixity where
  | Prefix | Infix | Infixl | Infixr | Postfix | Mixfixl | Mixfixr | Mixfixc | Mixfixo
  deriving DecidableEq, Repr

namespace operator_info

/-- The cell `operator_info::imp` behind a descriptor handle. The field `m_exprs` (the
denotations, read by `get_denotations` and extended by `add_expr` in `frontend.cpp`) is
modelled from the spec: the descriptor of `frontends/lean/operator_info.h` is not among the
sources, it stores the denotations where the one of `frontend/operator_info.cpp` stores
the internal names. -/
structure imp where
  m_fixity : fixity
  m_precedence : Nat
  m_op_parts : List name
  m_names : List name
  m_exprs : List expr
  deriving DecidableEq, Repr

/-- Comparison `imp::is_eq`. -/
def imp.is_eq (self other : imp) : Bool :=
  decide (self.m_fixity = other.m_fixity) &&
  decide (self.m_precedence = other.m_precedence) &&
  decide (self.m_op_parts = other.m_op_parts)

end operator_info

/-- A descriptor seen by value: the null descriptor `operator_info()` or a cell. -/
abbrev operator_info := Option operator_info.imp

/-- The `operator==` of descriptors. -/
def operator_info.eq (op1 op2 : operator_info) : Bool :=
  if op1.isNone ≠ op2.isNone then false
  else
    match op1, op2 with
    | some i1, some i2 => i1.is_eq i2
    | _, _ => true

/-- Method `add_internal_name`. -/
def operator_info.add_internal_name (op : operator_info) (n : name) : operator_info :=
  op.map (fun i => { i with m_names := n :: i.m_names })

/-- Method `add_expr` (see `operator_info.imp`). -/
def operator_info.add_expr (op : operator_info) (d : expr) : operator_info :=
  op.map (fun i => { i with m_exprs := d :: i.m_exprs })

/-- The cell built by `infixr(op, precedence)`. -/
def infixr_op (op : name) (precedence : Nat) : operator_info.imp :=
  ⟨fixity.Infixr, precedence, [op], [], []⟩

/-- The cell built by `infixl(op, precedence)`. -/
def infixl_op (op : name) (precedence : Nat) : operator_info.imp :=
  ⟨fixity.Infixl, precedence, [op], [], []⟩

/-- The cell built by `infix(op, precedence)`. -/
def infix_op (op : name) (precedence : Nat) : operator_info.imp :=
  ⟨fixity.Infix, precedence, [op], [], []⟩

/-- The cell built by `prefix(op, precedence)`. -/
def prefix_op (op : name) (precedence : Nat) : operator_info.imp :=
  ⟨fixity.Prefix, precedence, [op], [], []⟩

/-- The cell built by `postfix(op, precedence)`. -/
def postfix_op (op : name) (precedence : Nat) : operator_info.imp :=
  ⟨fixity.Postfix, precedence, [op], [], []⟩

/-- The cell built by `mixfixl(num_parts, parts, precedence)` and its siblings. -/
def mixfix_op (f : fixity) (parts : List name) (precedence : Nat) : operator_info.imp :=
  ⟨f, precedence, parts, [], []⟩

/-! ## The notation environment, `frontend.cpp` -/

/-- A descriptor handle as held by the tables: the null handle or the address of a cell.
Handles share their cell: `add_expr` through one handle is seen through all of them. -/
abbrev op_ref := Option Nat

/-- The store of descriptor cells. -/
abbrev op_heap := List operator_info.imp

/-- The descriptor a handle stands for. -/
def op_heap.deref (h : op_heap) (r : op_ref) : operator_info :=
  match r with
  | none => none
  | some a => h[a]?

/-- A new cell; the handle returned is its address. -/
def op_heap.alloc (h : op_heap) (i : operator_info.imp) : Nat × op_heap := (h.length, h ++ [i])

/-- In-place `add_expr` through a handle. -/
def op_heap.add_expr (h : op_heap) (r : op_ref) (d : expr) : op_heap :=
  match r with
  | none => h
  | some a => h.modify (fun i => { i with m_exprs := d :: i.m_exprs }) a

/-- A finite map (`name_map`, `expr_struct_map`, ...) as a partial function. -/
abbrev table (K V : Type) := K → Option V

/-- The empty map. -/
def table.empty {K V : Type} : table K V := fun _ => none

/-- Insertion `insert(m, k, v)` and `m[k] = v`. -/
def table.insert {K V : Type} [DecidableEq K] (m : table K V) (k : K) (v : V) : table K V :=
  fun x => if x = k then some v else m x

/-- Removal `m.erase(k)`. -/
def table.erase {K V : Type} [DecidableEq K] (m : table K V) (k : K) : table K V :=
  fun x => if x = k then none else m x

/-- The tables of one `lean_extension`. -/
structure lean_extension where
  m_nud : table name op_ref
  m_led : table name op_ref
  m_other_lbp : table name Nat
  m_expr_to_operators : table expr (List op_ref)
  m_implicit_table : table name (List Bool × name)
  m_coercion_map : table (expr × expr) expr
  m_coercion_set : expr → Bool
  m_type_coercions : table expr (List (expr × expr))
  m_explicit_names : name → Bool
  m_aliases : table name expr
  m_inv_aliases : table expr (List name)

/-- The extension made by `lean_extension()`: all tables empty. -/
def lean_extension.init : lean_extension :=
  ⟨table.empty, table.empty, table.empty, table.empty, table.empty, table.empty,
   fun _ => false, table.empty, fun _ => false, table.empty, table.empty⟩

/-- A message written to the diagnostic channel. -/
inductive diagnostic where
  | precedence_changed (n : name) (old_prec prec : Nat)
  | denotations_replaced (old_op : op_ref) (d : expr)
  | notation_redefined (old_op new_op : op_ref)
  deriving DecidableEq, Repr

/-- The kind of a kernel object. -/
inductive object_kind where
  | UVarDeclaration | Definition | Postulate | Builtin | BuiltinSet | Neutral
  deriving DecidableEq, Repr

/-- Modelled from the spec: a named object of the kernel environment (`kernel/object.h` is
not among the sources), as far as the notation environment reads it. -/
structure object where
  kind : object_kind
  get_name : name
  get_type : expr
  get_value : Option expr
  is_axiom : Bool
  is_theorem : Bool
  deriving DecidableEq, Repr

/-- The neutral objects (declarations) the notation environment adds to the environment. -/
inductive neutral_object where
  | notation_declaration (op : op_ref) (d : expr)
  | mark_implicit_command (n : name) (implicit : List Bool)
  | coercion_declaration (f : expr)
  | alias_declaration (n : name) (e : expr)
  deriving DecidableEq, Repr

/-- Modelled from the spec: one environment (`kernel/environment.h` is not among the sources)
with its frontend extension: the named objects and the neutral objects added to it, in
order of addition, whether it has children, and the extension tables. -/
structure environment_cell where
  objects : List object
  neutral : List neutral_object
  has_children : Bool
  ext : lean_extension

/-- The state the frontend operations act on: the store of descriptor cells, the
environment operated on, its ancestors (parent first), and the diagnostic channel. -/
structure frontend where
  heap : op_heap
  here : environment_cell
  ancestors : List environment_cell
  ios : List diagnostic

/-- The extension of the environment operated on, followed by those of its ancestors. -/
def frontend.chain (s : frontend) : List lean_extension :=
  s.here.ext :: s.ancestors.map (fun c => c.ext)

/-- Replace the extension tables of the environment operated on. -/
def frontend.set_ext (s : frontend) (e : lean_extension) : frontend :=
  { s with here := { s.here with ext := e } }

/-- Modelled from the spec: a fresh frontend (a new environment without parent). -/
def frontend.init : frontend :=
  ⟨[], ⟨[], [], false, lean_extension.init⟩, [], []⟩

/-- Modelled from the spec: `mk_child` of the environment: a new environment with an empty
extension whose parent is the environment operated on, which from then on has children. -/
def frontend.mk_child (s : frontend) : frontend :=
  { s with here := ⟨[], [], false, lean_extension.init⟩,
           ancestors := { s.here with has_children := true } :: s.ancestors }

namespace lean_extension

/-- Method `find_nud`, on the extension followed by its ancestors (`[]` is the null parent). -/
def find_nud : List lean_extension → name → op_ref
  | [], _ => none
  | e :: parent, n =>
      match e.m_nud n with
      | some op => op
      | none => find_nud parent n

/-- Method `find_led`. -/
def find_led : List lean_extension → name → op_ref
  | [], _ => none
  | e :: parent, n =>
      match e.m_led n with
      | some op => op
      | none => find_led parent n

/-- Method `get_other_lbp`. -/
def get_other_lbp : List lean_extension → name → Option Nat
  | [], _ => none
  | e :: parent, n =>
      match e.m_other_lbp n with
      | some p => some p
      | none => get_other_lbp parent n

/-- Method `get_lbp`. -/
def get_lbp (h : op_heap) (c : List lean_extension) (n : name) : Option Nat :=
  match h.deref (find_led c n) with
  | some info => some info.m_precedence
  | none => get_other_lbp c n

/-- The leading token `get_op_name` of a descriptor. -/
def get_op_name (op : operator_info) : name :=
  match op with
  | some i => i.m_op_parts.headD name.anonymous
  | none => name.anonymous

/-- Method `defined_here`. -/
def defined_here (h : op_heap) (e : lean_extension) (n : op_ref) (led : Bool) : Bool :=
  if led then (e.m_led (get_op_name (h.deref n))).isSome
  else (e.m_nud (get_op_name (h.deref n))).isSome

/-- Method `find_op`. -/
def find_op (c : List lean_extension) (n : name) (led : Bool) : op_ref :=
  if led then find_led c n else find_nud c n

/-- Method `insert_op`. -/
def insert_op (h : op_heap) (e : lean_extension) (op : op_ref) (led : Bool) : lean_extension :=
  if led then { e with m_led := e.m_led.insert (get_op_name (h.deref op)) op }
  else { e with m_nud := e.m_nud.insert (get_op_name (h.deref op)) op }

/-- Modelled from the spec: `name::is_safe_ascii`, all characters of the string segments are
ASCII. -/
def name_is_safe_ascii : name → Bool
  | name.anonymous => true
  | name.str p s => name_is_safe_ascii p && s.toList.all (fun c => decide (c.toNat < 128))
  | name.num p _ => name_is_safe_ascii p

/-- Modelled from the spec: `operator_info::is_safe_ascii`, all token parts are ASCII (the
host dereferences the handle; on the null handle the model answers false). -/
def is_safe_ascii (h : op_heap) (op : op_ref) : Bool :=
  match h.deref op with
  | some i => i.m_op_parts.all name_is_safe_ascii
  | none => false

/-- Method `find_op_for`. -/
def find_op_for (h : op_heap) : List lean_extension → expr → Bool → op_ref
  | [], _, _ => none
  | e :: parent, d, unicode =>
      match e.m_expr_to_operators d with
      | some l =>
          match l.find? (fun op => unicode || is_safe_ascii h op) with
          | some op => op
          | none => find_op_for h parent d unicode
      | none => find_op_for h parent d unicode

/-- The body of the loop of `remove_bindings` for one denotation. -/
def remove_binding (h : op_heap) (parent : List lean_extension) (e : lean_extension) (d : expr) :
    lean_extension :=
  if !parent.isEmpty && (find_op_for h parent d true).isSome then
    { e with m_expr_to_operators := e.m_expr_to_operators.insert d [none] }
  else
    { e with m_expr_to_operators := e.m_expr_to_operators.erase d }

/-- Method `remove_bindings`. -/
def remove_bindings (h : op_heap) (parent : List lean_extension) (e : lean_extension) (op : op_ref) :
    lean_extension :=
  match h.deref op with
  | some i => i.m_exprs.foldl (remove_binding h parent) e
  | none => e

/-- Method `insert_expr_to_operator_entry`. -/
def insert_expr_to_operator_entry (e : lean_extension) (d : expr) (op : op_ref) : lean_extension :=
  { e with m_expr_to_operators :=
      e.m_expr_to_operators.insert d (op :: (e.m_expr_to_operators d).getD []) }

/-- Method `check_precedence`: the diagnostics it writes. -/
def check_precedence (h : op_heap) (c : List lean_extension) (n : name) (prec : Nat) :
    List diagnostic :=
  match get_lbp h c n with
  | some old_prec => if old_prec ≠ prec then [diagnostic.precedence_changed n old_prec prec] else []
  | none => []

end lean_extension

/-- The loop over `tail(parts)` of `register_new_op`. -/
def register_parts (prec : Nat) : List name → frontend → frontend
  | [], s => s
  | part :: rest, s =>
      let ds := lean_extension.check_precedence s.heap s.chain part prec
      let e := { s.here.ext with m_other_lbp := s.here.ext.m_other_lbp.insert part prec }
      register_parts prec rest { (s.set_ext e) with ios := s.ios ++ ds }

/-- The token parts of the descriptor behind a handle. -/
def get_op_name_parts (h : op_heap) (op : op_ref) : List name :=
  match h.deref op with
  | some i => i.m_op_parts
  | none => []

/-- The precedence of the descriptor behind a handle. -/
def get_precedence (h : op_heap) (op : op_ref) : Nat :=
  match h.deref op with
  | some i => i.m_precedence
  | none => 0

/-- The statements of `register_new_op` before its loop over the non-leading parts. -/
def register_new_op_head (s : frontend) (new_op : op_ref) (d : expr) (led : Bool) : frontend :=
  let heap1 := s.heap.add_expr new_op d
  let e1 := lean_extension.insert_op heap1 s.here.ext new_op led
  let e2 := lean_extension.insert_expr_to_operator_entry e1 d new_op
  let s1 : frontend := { (s.set_ext e2) with heap := heap1 }
  let parts := get_op_name_parts heap1 new_op
  let prec := get_precedence heap1 new_op
  if led then
    { s1 with ios := s1.ios ++ lean_extension.check_precedence s1.heap s1.chain (parts.headD name.anonymous) prec }
  else s1

/-- Method `register_new_op`. -/
def register_new_op (s : frontend) (new_op : op_ref) (d : expr) (led : Bool) : frontend :=
  let s2 := register_new_op_head s new_op d led
  register_parts (get_precedence s2.heap new_op) (get_op_name_parts s2.heap new_op).tail s2

namespace lean_extension

/-- Method `has_implicit_arguments`. -/
def has_implicit_arguments : List lean_extension → name → Bool
  | [], _ => false
  | e :: parent, n =>
      if (e.m_implicit_table n).isSome then true else has_implicit_arguments parent n

/-- Method `get_implicit_arguments(name)`. -/
def get_implicit_arguments_name : List lean_extension → name → List Bool
  | [], _ => []
  | e :: parent, n =>
      match e.m_implicit_table n with
      | some info => info.1
      | none => get_implicit_arguments_name parent n

/-- Method `get_implicit_arguments(expr)`. -/
def get_implicit_arguments (c : List lean_extension) (n : expr) : List Bool :=
  if is_constant n then get_implicit_arguments_name c (const_name n) else []

/-- Method `get_explicit_version`. -/
def get_explicit_version : List lean_extension → name → name
  | [], _ => name.anonymous
  | e :: parent, n =>
      match e.m_implicit_table n with
      | some info => info.2
      | none => get_explicit_version parent n

/-- Method `is_explicit`. -/
def is_explicit : List lean_extension → name → Bool
  | [], _ => false
  | e :: parent, n => if e.m_explicit_names n then true else is_explicit parent n

/-- The iterator `std::find(imp.begin(), imp.end(), false)`: what is left of the flags from
the first `false` on. -/
def find_false : List Bool → List Bool
  | [] => []
  | b :: rest => if b = false then b :: rest else find_false rest

/-- The `for` loop of `compatible_denotation` followed by its `return`: both iterators are
advanced while the flags agree, and both must have reached the end. -/
def compatible_loop : List Bool → List Bool → Bool
  | b1 :: it1, b2 :: it2 => if b1 = b2 then compatible_loop it1 it2 else false
  | [], [] => true
  | _, _ => false

/-- Method `compatible_denotation`. -/
def compatible_denotation (c : List lean_extension) (d1 d2 : expr) : Bool :=
  let imp1 := get_implicit_arguments c d1
  let imp2 := get_implicit_arguments c d2
  compatible_loop (find_false imp1) (find_false imp2)

/-- Method `compatible_denotations`. -/
def compatible_denotations (h : op_heap) (c : List lean_extension) (op : op_ref) (d : expr) : Bool :=
  match h.deref op with
  | some i => i.m_exprs.all (fun prev_d => compatible_denotation c prev_d d)
  | none => true

end lean_extension

/-- Method `add_op`, up to the declaration object it records. -/
def add_op_core (s : frontend) (new_op : op_ref) (d : expr) (led : Bool) : frontend × op_ref :=
  let opn := lean_extension.get_op_name (s.heap.deref new_op)
  let old_op := lean_extension.find_op s.chain opn led
  if old_op.isNone then
    (register_new_op s new_op d led, new_op)
  else if operator_info.eq (s.heap.deref old_op) (s.heap.deref new_op) then
    if lean_extension.compatible_denotations s.heap s.chain old_op d then
      if lean_extension.defined_here s.heap s.here.ext old_op led then
        let heap1 := s.heap.add_expr old_op d
        let e1 := lean_extension.insert_expr_to_operator_entry s.here.ext d old_op
        ({ (s.set_ext e1) with heap := heap1 }, new_op)
      else
        match s.heap.deref old_op with
        | some i =>
            let (a, heap1) := s.heap.alloc i
            (register_new_op { s with heap := heap1 } (some a) d led, some a)
        | none => (s, new_op)
    else
      let s1 := { s with ios := s.ios ++ [diagnostic.denotations_replaced old_op d] }
      let e1 := lean_extension.remove_bindings s1.heap (s1.chain.tail) s1.here.ext old_op
      (register_new_op (s1.set_ext e1) new_op d led, new_op)
  else
    let s1 := { s with ios := s.ios ++ [diagnostic.notation_redefined old_op new_op] }
    let e1 := lean_extension.remove_bindings s1.heap (s1.chain.tail) s1.here.ext old_op
    (register_new_op (s1.set_ext e1) new_op d led, new_op)

/-- Modelled from the spec: `add_neutral_object` of the environment appends the declaration
to the objects of the environment (`kernel/environment.cpp` is not among the sources). -/
def add_neutral_object (s : frontend) (o : neutral_object) : frontend :=
  { s with here := { s.here with neutral := s.here.neutral ++ [o] } }

/-- Method `lean_extension::add_op`. -/
def add_op (s : frontend) (new_op : op_ref) (d : expr) (led : Bool) : frontend :=
  let r := add_op_core s new_op d led
  add_neutral_object r.1 (neutral_object.notation_declaration r.2 d)

/-- The call `add_op(mk(...), d, led, env, ios)` with a descriptor cell just built, as made
by `add_infix`, `add_infixl`, ... -/
def add_new_op (s : frontend) (i : operator_info.imp) (d : expr) (led : Bool) : frontend :=
  let (a, heap1) := s.heap.alloc i
  add_op { s with heap := heap1 } (some a) d led

/-- Function `add_infix`. -/
def add_infix (s : frontend) (opn : name) (p : Nat) (d : expr) : frontend :=
  add_new_op s (infix_op opn p) d true

/-- Function `add_infixl`. -/
def add_infixl (s : frontend) (opn : name) (p : Nat) (d : expr) : frontend :=
  add_new_op s (infixl_op opn p) d true

/-- Function `add_infixr`. -/
def add_infixr (s : frontend) (opn : name) (p : Nat) (d : expr) : frontend :=
  add_new_op s (infixr_op opn p) d true

/-- Function `add_prefix`. -/
def add_prefix (s : frontend) (opn : name) (p : Nat) (d : expr) : frontend :=
  add_new_op s (prefix_op opn p) d false

/-- Function `add_postfix`. -/
def add_postfix (s : frontend) (opn : name) (p : Nat) (d : expr) : frontend :=
  add_new_op s (postfix_op opn p) d true

/-- Function `add_mixfixl`. -/
def add_mixfixl (s : frontend) (opns : List name) (p : Nat) (d : expr) : frontend :=
  add_new_op s (mixfix_op fixity.Mixfixl opns p) d false

/-- Function `add_mixfixr`. -/
def add_mixfixr (s : frontend) (opns : List name) (p : Nat) (d : expr) : frontend :=
  add_new_op s (mixfix_op fixity.Mixfixr opns p) d true

/-- Function `add_mixfixc`. -/
def add_mixfixc (s : frontend) (opns : List name) (p : Nat) (d : expr) : frontend :=
  add_new_op s (mixfix_op fixity.Mixfixc opns p) d false

/-- Function `add_mixfixo`. -/
def add_mixfixo (s : frontend) (opns : List name) (p : Nat) (d : expr) : frontend :=
  add_new_op s (mixfix_op fixity.Mixfixo opns p) d true

/-- The exceptions thrown by the operations of the notation environment. -/
inductive frontend_error where
  | read_only
  | unknown_object
  | not_definition_or_postulate
  | already_has_implicit
  | anonymous_name
  | explicit_version_exists
  | too_many_arguments
  | all_explicit
  | type_error
  | not_arrow
  | same_types
  | coercion_exists
  | alias_exists
  | out_of_fuel
  deriving DecidableEq, Repr

/-- Modelled from the spec: `find_object` of the environment, in the environment first and
then in its ancestors. -/
def find_object : List environment_cell → name → Option object
  | [], _ => none
  | c :: parent, n =>
      match c.objects.find? (fun o => decide (o.get_name = n)) with
      | some o => some o
      | none => find_object parent n

/-- The environment operated on, followed by its ancestors. -/
def frontend.cells (s : frontend) : List environment_cell := s.here :: s.ancestors

namespace lean_extension

/-- Static method `mk_explicit_name`; `none` is the exception for the anonymous name. -/
def mk_explicit_name : name → Option name
  | name.anonymous => none
  | name.num p k => some (name.str (name.num p k) "explicit")
  | name.str p str => some (name.str p ("@" ++ str))

/-- The loop `while (is_pi(it)) { num_args++; it = abst_body(it); }`. -/
def count_pi : expr → Nat
  | expr.Pi _ b => count_pi b + 1
  | _ => 0

/-- The loop `while (sz > 0 && !implicit[sz - 1]) sz--`. -/
def trim_explicit_suffix (implicit : List Bool) : Nat → Nat
  | 0 => 0
  | sz + 1 => if !(implicit.getD sz false) then trim_explicit_suffix implicit sz else sz + 1

end lean_extension

/-- Method `lean_extension::mark_implicit_arguments(n, sz, implicit, env)`, the flags being
the list `implicit` of length `sz`. -/
def mark_implicit_arguments (s : frontend) (n : name) (implicit : List Bool) :
    Except frontend_error frontend :=
  if s.here.has_children then Except.error frontend_error.read_only
  else
    match find_object s.cells n with
    | none => Except.error frontend_error.unknown_object
    | some obj =>
        if obj.kind ≠ object_kind.Definition ∧ obj.kind ≠ object_kind.Postulate ∧
            obj.kind ≠ object_kind.Builtin then
          Except.error frontend_error.not_definition_or_postulate
        else if lean_extension.has_implicit_arguments s.chain n then
          Except.error frontend_error.already_has_implicit
        else
          match lean_extension.mk_explicit_name n with
          | none => Except.error frontend_error.anonymous_name
          | some explicit_version =>
              if (find_object s.cells explicit_version).isSome then
                Except.error frontend_error.explicit_version_exists
              else
                let num_args := lean_extension.count_pi obj.get_type
                if num_args < implicit.length then Except.error frontend_error.too_many_arguments
                else
                  let sz := lean_extension.trim_explicit_suffix implicit implicit.length
                  if sz = 0 then Except.error frontend_error.all_explicit
                  else
                    let v := implicit.take sz
                    let e1 := { s.here.ext with
                      m_implicit_table := s.here.ext.m_implicit_table.insert n (v, explicit_version),
                      m_explicit_names := fun x => if x = explicit_version then true else s.here.ext.m_explicit_names x }
                    let s1 := add_neutral_object (s.set_ext e1) (neutral_object.mark_implicit_command n v)
                    let new_obj : object :=
                      ⟨object_kind.Definition, explicit_version, obj.get_type, some (expr.Constant n),
                       false, obj.is_axiom || obj.is_theorem⟩
                    Except.ok { s1 with here := { s1.here with objects := s1.here.objects ++ [new_obj] } }

namespace lean_extension

/-- Method `coercion_type_normalization`, the number of iterations of its loop bounded by
the first argument (`none` when the bound is reached). -/
def coercion_type_normalization : Nat → List environment_cell → expr → Option expr
  | 0, _, _ => none
  | fuel + 1, env, t =>
      if is_constant t then
        match find_object env (const_name t) with
        | some obj =>
            if obj.kind = object_kind.Definition then
              match obj.get_value with
              | some v => coercion_type_normalization fuel env v
              | none => some t
            else some t
        | none => some t
      else some t

/-- Method `get_coercion_core`. -/
def get_coercion_core : List lean_extension → expr → expr → Option expr
  | [], _, _ => none
  | e :: parent, from_type, to_type =>
      match e.m_coercion_map (from_type, to_type) with
      | some f => some f
      | none => get_coercion_core parent from_type to_type

/-- Method `get_coercions_core`. -/
def get_coercions_core : List lean_extension → expr → List (expr × expr)
  | [], _ => []
  | e :: parent, from_type =>
      match e.m_type_coercions from_type with
      | some l => l
      | none => get_coercions_core parent from_type

/-- Method `is_coercion`. -/
def is_coercion : List lean_extension → expr → Bool
  | [], _ => false
  | e :: parent, f => if e.m_coercion_set f then true else is_coercion parent f

/-- Method `get_alias`. -/
def get_alias : List lean_extension → name → Option expr
  | [], _ => none
  | e :: parent, n =>
      match e.m_aliases n with
      | some v => some v
      | none => get_alias parent n

/-- Method `get_aliased`. -/
def get_aliased : List lean_extension → expr → Option (List name)
  | [], _ => none
  | e :: parent, v =>
      match e.m_inv_aliases v with
      | some l => some l
      | none => get_aliased parent v

end lean_extension

/-- Modelled from the spec: `is_arrow`, a non-dependent functional type. -/
def is_arrow : expr → Bool
  | expr.Pi _ b => !has_free_var b 0 1
  | _ => false

/-- Accessor `abst_domain`. -/
def abst_domain : expr → expr
  | expr.Pi d _ => d
  | expr.Lambda d _ => d
  | e => e

/-- Accessor `abst_body`. -/
def abst_body : expr → expr
  | expr.Pi _ b => b
  | expr.Lambda _ b => b
  | e => e

/-- Method `lean_extension::add_coercion(f, env)`. The type checker of the kernel is not
among the sources: `type_check` is the type it infers (`none` when it throws); `fuel`
bounds the loops of the two normalizations. -/
def add_coercion (type_check : expr → Option expr) (fuel : Nat) (s : frontend) (f : expr) :
    Except frontend_error frontend :=
  match type_check f with
  | none => Except.error frontend_error.type_error
  | some norm_type =>
      if !is_arrow norm_type then Except.error frontend_error.not_arrow
      else
        match lean_extension.coercion_type_normalization fuel s.cells (abst_domain norm_type),
              lean_extension.coercion_type_normalization fuel s.cells (abst_body norm_type) with
        | some from_type, some to_type =>
            if from_type = to_type then Except.error frontend_error.same_types
            else if (lean_extension.get_coercion_core s.chain from_type to_type).isSome then
              Except.error frontend_error.coercion_exists
            else
              let l := lean_extension.get_coercions_core s.chain from_type
              let e1 := { s.here.ext with
                m_coercion_map := s.here.ext.m_coercion_map.insert (from_type, to_type) f,
                m_coercion_set := fun x => if x = f then true else s.here.ext.m_coercion_set x,
                m_type_coercions := s.here.ext.m_type_coercions.insert from_type ((to_type, f) :: l) }
              Except.ok (add_neutral_object (s.set_ext e1) (neutral_object.coercion_declaration f))
        | _, _ => Except.error frontend_error.out_of_fuel

/-- Method `lean_extension::add_alias(n, e, env)`. -/
def add_alias (s : frontend) (n : name) (e : expr) : Except frontend_error frontend :=
  if (lean_extension.get_alias s.chain n).isSome then Except.error frontend_error.alias_exists
  else
    let l := lean_extension.get_aliased s.chain e
    let inv := match l with
      | some l1 => s.here.ext.m_inv_aliases.insert e (n :: l1)
      | none => s.here.ext.m_inv_aliases.insert e [n]
    let e1 := { s.here.ext with m_aliases := s.here.ext.m_aliases.insert n e, m_inv_aliases := inv }
    Except.ok (add_neutral_object (s.set_ext e1) (neutral_object.alias_declaration n e))

/-- The state in which the conflict branches of `add_op` call `register_new_op`. -/
def conflict_state (s : frontend) (dg : diagnostic) (old_op : op_ref) : frontend :=
  ({ s with ios := s.ios ++ [dg] } : frontend).set_ext
    (lean_extension.remove_bindings s.heap s.chain.tail s.here.ext old_op)

/-! ## Data of the scenarios -/

/-- The atomic name of a string, `name(char const *)`. -/
def mk_name (s : String) : name := name.str name.anonymous s

/-- The constant of an atomic name, `Const("a")` of the tests. -/
def Const (s : String) : expr := expr.Constant (mk_name s)

/-- The frontend after `infixl "+" 65` has been registered for `nat_add`. -/
def frontend_with_plus : frontend := add_infixl frontend.init (mk_name "+") 65 (Const "nat_add")

/-! ## Reachable states of the notation environment -/

/-- A handle is held by the tables of an extension. -/
def lean_extension.holds (e : lean_extension) (b : Nat) : Prop :=
  (∃ n, e.m_nud n = some (some b)) ∨ (∃ n, e.m_led n = some (some b)) ∨
  (∃ d l, e.m_expr_to_operators d = some l ∧ some b ∈ l)

/-- Every handle held by the tables of the environment or of an ancestor has a cell. -/
def frontend.valid (s : frontend) : Prop :=
  ∀ e ∈ s.chain, ∀ b, e.holds b → b < s.heap.length

/-- No handle held by the tables of the environment is held by the tables of an ancestor. -/
def frontend.separated (s : frontend) : Prop :=
  ∀ b, s.here.ext.holds b → ∀ e ∈ s.ancestors.map (fun c => c.ext), ¬ e.holds b

/-- Modelled from the spec: a declaration of the kernel (`add_var`, `add_definition`, ...)
adds a named object to the environment, unless the environment has children or the name
is already declared. -/
def add_object (s : frontend) (o : object) : frontend :=
  if s.here.has_children || (find_object s.cells o.get_name).isSome then s
  else { s with here := { s.here with objects := s.here.objects ++ [o] } }

/-- The operations on a frontend: registering a notation (`add_infix`, ..., `add_mixfixo`, each
building a new descriptor cell), `mark_implicit_arguments`, `add_coercion`, `add_alias`,
a declaration of the kernel, and the creation of a child environment. -/
inductive frontend_op where
  | register (f : fixity) (parts : List name) (prec : Nat) (d : expr) (led : Bool)
  | mark_implicit (n : name) (implicit : List Bool)
  | mk_coercion (type_check : expr → Option expr) (fuel : Nat) (f : expr)
  | mk_alias (n : name) (e : expr)
  | declare (o : object)
  | child

/-- The state after an operation; an operation that throws leaves the state as it was. -/
def frontend.apply (s : frontend) : frontend_op → frontend
  | frontend_op.register f parts prec d led => add_new_op s (mixfix_op f parts prec) d led
  | frontend_op.mark_implicit n implicit =>
      match mark_implicit_arguments s n implicit with
      | Except.ok s1 => s1
      | Except.error _ => s
  | frontend_op.mk_coercion type_check fuel f =>
      match add_coercion type_check fuel s f with
      | Except.ok s1 => s1
      | Except.error _ => s
  | frontend_op.mk_alias n e =>
      match add_alias s n e with
      | Except.ok s1 => s1
      | Except.error _ => s
  | frontend_op.declare o => add_object s o
  | frontend_op.child => s.mk_child

/-- The state after a sequence of operations. -/
def frontend.run (s : frontend) (ops : List frontend_op) : frontend := ops.foldl frontend.apply s

/-- The frontend after `infixl "+" 65` and then `prefix "plus" 10` have been registered, both
for `nat_add`. -/
def frontend_with_plus_twice : frontend :=
  add_prefix frontend_with_plus (mk_name "plus") 10 (Const "nat_add")

/-- The extensions of the ancestors, parent first: what `get_parent()` and its own parents
see. -/
def frontend.parent_chain (s : frontend) : List lean_extension := s.ancestors.map (fun c => c.ext)

/-- A child of the frontend with `infixl "+" 65` for `nat_add`. -/
def child_of_frontend_with_plus : frontend := frontend_with_plus.mk_child

/-- A frontend that has children: the fresh frontend after a child environment was made of
it. -/
def frozen_frontend : frontend :=
  { frontend.init with here := { frontend.init.here with has_children := true } }

/-- The flags of the spec with the leading run of implicit flags and the trailing run of
explicit flags removed. -/
def strip_flags (l : List Bool) : List Bool :=
  ((l.dropWhile (fun b => b)).reverse.dropWhile (fun b => !b)).reverse

/-- Every flag vector recorded in a table of implicit arguments ends with an implicit flag. -/
def frontend.flags_trimmed (s : frontend) : Prop :=
  ∀ e ∈ s.chain, ∀ n info, e.m_implicit_table n = some info → info.1.getLast? = some true

/-- Every two denotations stored under the same descriptor cell are compatible. -/
def frontend.overloads_compatible (s : frontend) : Prop :=
  ∀ i ∈ s.heap, ∀ d1 ∈ i.m_exprs, ∀ d2 ∈ i.m_exprs,
    lean_extension.compatible_denotation s.chain d1 d2 = true

/-- A sequence of operations in which `mark_implicit_arguments` is only applied to objects
that are not, at that moment, a denotation stored under a descriptor. -/
def frontend.marks_before_use : frontend → List frontend_op → Prop
  | _, [] => True
  | s, op :: rest =>
      (∀ n implicit, op = frontend_op.mark_implicit n implicit →
        ∀ i ∈ s.heap, expr.Constant n ∉ i.m_exprs) ∧
      frontend.marks_before_use (s.apply op) rest

/-- The scenario against pairwise compatibility: `f` and `g` are declared with two arguments,
`infixl "+" 65` is registered for `f` and overloaded with `g`, then the second argument of
`f` is marked implicit, then `prefix "-" 40` is registered for `h`. -/
def overload_then_mark : List frontend_op :=
  [frontend_op.declare ⟨object_kind.Postulate, mk_name "f",
      expr.Pi (Const "N") (expr.Pi (Const "N") (Const "N")), none, false, false⟩,
   frontend_op.declare ⟨object_kind.Postulate, mk_name "g",
      expr.Pi (Const "N") (expr.Pi (Const "N") (Const "N")), none, false, false⟩,
   frontend_op.register fixity.Infixl [mk_name "+"] 65 (Const "f") true,
   frontend_op.register fixity.Infixl [mk_name "+"] 65 (Const "g") true,
   frontend_op.mark_implicit (mk_name "f") [false, true],
   frontend_op.register fixity.Prefix [mk_name "-"] 40 (Const "h") false]

/-- A sequence that marks before use: `f` is declared and its first argument marked
implicit, then `infixl "+" 65` is registered for `f`, `g` is declared and the notation is
overloaded with `g`. -/
def mark_then_overload : List frontend_op :=
  [frontend_op.declare ⟨object_kind.Postulate, mk_name "f",
      expr.Pi (Const "N") (expr.Pi (Const "N") (Const "N")), none, false, false⟩,
   frontend_op.mark_implicit (mk_name "f") [true],
   frontend_op.register fixity.Infixl [mk_name "+"] 65 (Const "f") true,
   frontend_op.declare ⟨object_kind.Postulate, mk_name "g",
      expr.Pi (Const "N") (Const "N"), none, false, false⟩,
   frontend_op.register fixity.Infixl [mk_name "+"] 65 (Const "g") true]

/-! ## Instantiation of patterns and equality up to beta -/

/-- Modelled from the spec: `instantiate(p, σ)`, the pattern with its logical variables
replaced by their assignments (slot `sz - vidx - 1` of the buffer, as in `get_subst`), each
lifted over the binders crossed; an unassigned variable is left as it is. -/
def instantiate_subst_core (s : subst) : expr → Nat → expr
  | expr.Var i, k =>
      if i < k then expr.Var i
      else if i - k < s.length then
        match s.getD (s.length - (i - k) - 1) none with
        | some v => lift_free_vars v k
        | none => expr.Var i
      else expr.Var i
  | expr.Constant n, _ => expr.Constant n
  | expr.Value v, _ => expr.Value v
  | expr.TypeU l, _ => expr.TypeU l
  | expr.App f a, k => expr.App (instantiate_subst_core s f k) (instantiate_subst_core s a k)
  | expr.Lambda t b, k => expr.Lambda (instantiate_subst_core s t k) (instantiate_subst_core s b (k + 1))
  | expr.Pi t b, k => expr.Pi (instantiate_subst_core s t k) (instantiate_subst_core s b (k + 1))
  | expr.Let t v b, k =>
      expr.Let (instantiate_subst_core s t k) (instantiate_subst_core s v k)
        (instantiate_subst_core s b (k + 1))
  | expr.HEq l r, k => expr.HEq (instantiate_subst_core s l k) (instantiate_subst_core s r k)
  | expr.MetaVar m, _ => expr.MetaVar m

/-- See `instantiate_subst_core`. -/
def instantiate_subst (s : subst) (p : expr) : expr := instantiate_subst_core s p 0

/-- Modelled from the spec: equality of terms "up to β", the congruence generated by the
contraction of a redex `(fun x : D, b) a` to `b` with `a` for `x`. -/
inductive beta_eq : expr → expr → Prop where
  | refl (e : expr) : beta_eq e e
  | symm {a b : expr} : beta_eq a b → beta_eq b a
  | trans {a b c : expr} : beta_eq a b → beta_eq b c → beta_eq a c
  | beta (d b a : expr) : beta_eq (expr.App (expr.Lambda d b) a) (instantiate b [a])
  | app {f f1 a a1 : expr} : beta_eq f f1 → beta_eq a a1 → beta_eq (expr.App f a) (expr.App f1 a1)
  | lambda {d d1 b b1 : expr} : beta_eq d d1 → beta_eq b b1 → beta_eq (expr.Lambda d b) (expr.Lambda d1 b1)
  | pi {d d1 b b1 : expr} : beta_eq d d1 → beta_eq b b1 → beta_eq (expr.Pi d b) (expr.Pi d1 b1)
  | elet {t t1 v v1 b b1 : expr} : beta_eq t t1 → beta_eq v v1 → beta_eq b b1 →
      beta_eq (expr.Let t v b) (expr.Let t1 v1 b1)
  | heq {l l1 r r1 : expr} : beta_eq l l1 → beta_eq r r1 → beta_eq (expr.HEq l r) (expr.HEq l1 r1)

/-! ## Data of the matcher scenarios -/

/-- The pattern `?F b a`: the logical variable `?F` (de Bruijn index 0 at the top) applied to
the constants `b` and `a`. -/
def pattern_F_b_a : expr := mk_app [expr.Var 0, Const "b", Const "a"]

/-- The target `f b (f a b)`. -/
def target_f_b_fab : expr := mk_app [Const "f", Const "b", mk_app [Const "f", Const "a", Const "b"]]

/-- The pattern `fun (x : N) (y : M), ?F y x`: under the two binders `?F` has index 2. -/
def pattern_F_y_x : expr :=
  expr.Lambda (Const "N") (expr.Lambda (Const "M") (mk_app [expr.Var 2, expr.Var 0, expr.Var 1]))

/-- The target `fun (x : N) (y : M), f y (f x y)`. -/
def target_f_y_fxy : expr :=
  expr.Lambda (Const "N") (expr.Lambda (Const "M")
    (mk_app [Const "f", expr.Var 0, mk_app [Const "f", expr.Var 1, expr.Var 0]]))

/-- The solution `fun (y : M) (x : N), f y (f x y)` for `?F`. -/
def solution_F : expr :=
  expr.Lambda (Const "M") (expr.Lambda (Const "N")
    (mk_app [Const "f", expr.Var 1, mk_app [Const "f", expr.Var 0, expr.Var 1]]))

/-- All free variables of the term have an index below `n` (at the top; below `n + k` under
`k` binders). -/
def vars_below : expr → Nat → Bool
  | expr.Var i, n => decide (i < n)
  | expr.Constant _, _ => true
  | expr.Value _, _ => true
  | expr.TypeU _, _ => true
  | expr.App f a, n => vars_below f n && vars_below a n
  | expr.Lambda d b, n => vars_below d n && vars_below b (n + 1)
  | expr.Pi d b, n => vars_below d n && vars_below b (n + 1)
  | expr.Let t v b, n => vars_below t n && vars_below v n && vars_below b (n + 1)
  | expr.HEq l r, n => vars_below l n && vars_below r n
  | expr.MetaVar _, _ => true

/-- The substitution buffer has `n` slots and the free variables of the terms assigned are
below `n`: they are logical variables of the same problem. -/
def subst_in_range (s : subst) (n : Nat) : Prop :=
  s.length = n ∧ ∀ v, some v ∈ s → vars_below v n = true

/-- The domains recorded in a context only mention logical variables below `n` (and the
binders entered before them). -/
def context_in_range : context → Nat → Prop
  | [], _ => True
  | some d :: rest, n => vars_below d (n + rest.length) = true ∧ context_in_range rest n
  | none :: rest, n => context_in_range rest n

/-- The call did not throw, and if it returned, the buffer is still in range. -/
def match_result.in_range (r : match_result) (n : Nat) : Prop :=
  r ≠ match_result.exception ∧ ∀ b s, r = match_result.done b s → subst_in_range s n

/-- The self-application `fun x : T, x x`. -/
def self_application : expr := expr.Lambda (Const "T") (expr.App (expr.Var 0) (expr.Var 0))

/-- The pattern `g (?F ?F) ?F`. -/
def pattern_g_FF_F : expr :=
  mk_app [Const "g", expr.App (expr.Var 0) (expr.Var 0), expr.Var 0]

/-- The target `g c (fun x : T, x x)`. -/
def target_g_c_self : expr := mk_app [Const "g", Const "c", self_application]

/-- The pattern `f ?5`: the constant `f` applied to the logical variable of index 5. -/
def pattern_f_var5 : expr := expr.App (Const "f") (expr.Var 5)

/-- The terms assigned in the buffer are closed. -/
def subst_closed (s : subst) : Prop := ∀ v, some v ∈ s → vars_below v 0 = true

/-- The buffer `s1` has the slots of `s` and keeps every assignment of `s`. -/
def subst_extends (s s1 : subst) : Prop :=
  s.length = s1.length ∧ ∀ (i : Nat) (v : expr), s[i]? = some (some v) → s1[i]? = some (some v)

/-- Soundness of a matching procedure `m`: when it returns true on a target without free
variable (other than the locally bound ones), from a buffer of closed terms and in a
context of closed domains, the buffer it leaves is of closed terms, keeps the assignments
it found, and the pattern instantiated with that buffer, or with any buffer of closed terms
keeping its assignments, is the target up to beta. -/
def match_sound (m : subst → expr → expr → context → Nat → match_result) : Prop :=
  ∀ s p t ctx cs s1, subst_closed s → vars_below t cs = true → context_in_range ctx 0 →
    ctx.length = cs → m s p t ctx cs = match_result.done true s1 →
    subst_closed s1 ∧ subst_extends s s1 ∧
      ∀ s2, subst_closed s2 → subst_extends s1 s2 → beta_eq (instantiate_subst_core s2 p cs) t

/-- The assignment of the logical variable `vidx` in the buffer, read as `get_subst` reads it;
none when the variable is unassigned or has no slot. -/
def subst_lookup (s : subst) (vidx : Nat) : Option expr :=
  if vidx < s.length then s.getD (s.length - vidx - 1) none else none

/-! ## A model of equality up to beta -/

/-- The points of the model: an atom, or a step `arrow β y`, read "on an input containing
the finitely many points `β` the output contains `y`". -/
inductive point where
  | atom
  | arrow (input : List point) (output : point)

/-- A valuation gives each de Bruijn index a set of points. -/
abbrev valuation := Nat → point → Prop

/-- The valuation under one more binder, whose variable denotes `X`. -/
def valuation.push (X : point → Prop) (ρ : valuation) : valuation
  | 0 => X
  | i + 1 => ρ i

/-- The set of points denoted by a term: an application collects the outputs of the steps
of the function whose input the argument contains, a lambda the steps of its body; the
domain of a lambda is ignored, and the other binders denote the empty set. Terms equal up
to beta denote the same set. -/
def sem : expr → valuation → point → Prop
  | expr.Var i, ρ, y => ρ i y
  | expr.Constant _, _, y => y = point.atom
  | expr.App f a, ρ, y => ∃ β : List point, (∀ x ∈ β, sem a ρ x) ∧ sem f ρ (point.arrow β y)
  | expr.Lambda _ b, ρ, z =>
      ∃ β y, z = point.arrow β y ∧ sem b (valuation.push (fun x => x ∈ β) ρ) y
  | expr.Value _, _, _ => False
  | expr.TypeU _, _, _ => False
  | expr.Pi _ _, _, _ => False
  | expr.Let _ _ _, _, _ => False
  | expr.HEq _ _, _, _ => False
  | expr.MetaVar _, _, _ => False

/-! ## Data of the soundness statements -/

/-- A buffer of two slots handed to the matcher already filled: the logical variable `?0`
is assigned the logical variable `?1` (slot `sz - 0 - 1 = 1`), and `?1` is unassigned. -/
def chained_subst : subst := [none, some (expr.Var 1)]

/-- The non-linear pattern `g ?x ?x`. -/
def pattern_g_x_x : expr := mk_app [Const "g", expr.Var 0, expr.Var 0]

/-- The target `g a a`. -/
def target_g_a_a : expr := mk_app [Const "g", Const "a", Const "a"]

/-- The scenario against parent monotonicity of `lbp`: `infixl "|" 65` is registered for `or`,
then, in a child, the mixfix `| _ |` with precedence 30 for `abs`. The child gets a nud
entry for `|` and the entry 30 for the second `|` in its table of other parts, and no led
entry. -/
def lbp_shadow_ops : List frontend_op :=
  [frontend_op.register fixity.Infixl [mk_name "|"] 65 (Const "or") true,
   frontend_op.child,
   frontend_op.register fixity.Mixfixc [mk_name "|", mk_name "|"] 30 (Const "abs") false]

/-- The state after `lbp_shadow_ops`. -/
def lbp_shadow_frontend : frontend := frontend.init.run lbp_shadow_ops

/-- The tables of an extension that registering a notation does not write. -/
def lean_extension.other_tables (e : lean_extension) :=
  (e.m_implicit_table, e.m_coercion_map, e.m_coercion_set, e.m_type_coercions,
   e.m_explicit_names, e.m_aliases, e.m_inv_aliases)

/-- No entry of a table from denotations to operators is the empty list: an entry is made
by consing a descriptor or is the hiding sentinel. -/
def frontend.entries_nonempty (s : frontend) : Prop :=
  ∀ e ∈ s.chain, ∀ d, e.m_expr_to_operators d ≠ some []

/-- The scenario of the hiding sentinel: `infixl "+" 65` is registered for `nat_add`, then,
in a child, `infixr "+" 70` for `int_add`, which redefines the notation inherited from the
parent. -/
def redefine_in_child_ops : List frontend_op :=
  [frontend_op.register fixity.Infixl [mk_name "+"] 65 (Const "nat_add") true,
   frontend_op.child,
   frontend_op.register fixity.Infixr [mk_name "+"] 70 (Const "int_add") true]

/-- The state after `redefine_in_child_ops`. -/
def redefine_in_child : frontend := frontend.init.run redefine_in_child_ops

/-- The flag list of the spec "with its trailing explicit flags removed". -/
def trim_flags (l : List Bool) : List Bool := (l.reverse.dropWhile (fun b => !b)).reverse

/-- The environment in which the postulate `f : N → N → N` has been declared. -/
def declared_f : frontend :=
  frontend.init.run [frontend_op.declare ⟨object_kind.Postulate, mk_name "f",
    expr.Pi (Const "N") (expr.Pi (Const "N") (Const "N")), none, true, false⟩]

/-- The state after the first argument of `f` has been marked implicit with the flags
`[true, false]`. -/
def marked_f : frontend := declared_f.apply (frontend_op.mark_implicit (mk_name "f") [true, false])

/-- A child of the environment in which `f` has been marked. -/
def child_of_marked_f : frontend := marked_f.run [frontend_op.child]

/-- The environment in which `g : N → N` and an object named `@g` have been declared. -/
def declared_g_and_explicit_g : frontend :=
  frontend.init.run
    [frontend_op.declare ⟨object_kind.Postulate, mk_name "g", expr.Pi (Const "N") (Const "N"),
       none, true, false⟩,
     frontend_op.declare ⟨object_kind.Postulate, mk_name "@g", expr.Pi (Const "N") (Const "N"),
       none, true, false⟩]

/-- At most one coercion is registered per pair of types on a chain of extensions: at most
one level has an entry for the pair in its coercion map, every pair listed for a source
type is the registered coercion to its target type, and no target type is listed twice. -/
def coercions_unique (c : List lean_extension) : Prop :=
  (∀ k, c.countP (fun e => (e.m_coercion_map k).isSome) ≤ 1) ∧
  (∀ from_type to_type f, (to_type, f) ∈ lean_extension.get_coercions_core c from_type →
    lean_extension.get_coercion_core c from_type to_type = some f) ∧
  (∀ from_type, ((lean_extension.get_coercions_core c from_type).map Prod.fst).Nodup)

/-- A type checker for the coercion scenarios: `nat_to_int` and `nat_to_int2` have type
`Nat → Int`, `int_to_real` has type `Int → Real`. -/
def coercion_oracle (e : expr) : Option expr :=
  if e = Const "nat_to_int" ∨ e = Const "nat_to_int2" then
    some (expr.Pi (Const "Nat") (Const "Int"))
  else if e = Const "int_to_real" then some (expr.Pi (Const "Int") (Const "Real"))
  else none

/-- The frontend in which the coercion `nat_to_int` has been registered. -/
def frontend_with_coercion : frontend :=
  frontend.init.run [frontend_op.mk_coercion coercion_oracle 2 (Const "nat_to_int")]

/-- A child of the frontend with the coercion `nat_to_int`. -/
def child_of_frontend_with_coercion : frontend := frontend_with_coercion.run [frontend_op.child]

namespace lean_extension

/-- Method `get_coercion(from_type, to_type, env)`: the two types are normalized, then the
coercion map is asked; the outer `none` when a normalization reaches the bound `fuel`. -/
def get_coercion (fuel : Nat) (env : List environment_cell) (c : List lean_extension)
    (from_type to_type : expr) : Option (Option expr) :=
  match coercion_type_normalization fuel env from_type,
        coercion_type_normalization fuel env to_type with
  | some a, some b => some (get_coercion_core c a b)
  | _, _ => none

/-- Method `get_coercions(from_type, env)`; the outer `none` when the normalization reaches
the bound `fuel`. -/
def get_coercions (fuel : Nat) (env : List environment_cell) (c : List lean_extension)
    (from_type : expr) : Option (List (expr × expr)) :=
  match coercion_type_normalization fuel env from_type with
  | some a => some (get_coercions_core c a)
  | none => none

end lean_extension

/-- The state after the coercion `int_to_real` has been registered in the child of the
frontend with the coercion `nat_to_int`. -/
def child_with_second_coercion : frontend :=
  child_of_frontend_with_coercion.apply
    (frontend_op.mk_coercion coercion_oracle 2 (Const "int_to_real"))

/-! ## Serialization of the mark-implicit declaration, `serializer.h` and `frontend.cpp` -/

/-- The stream written by a serializer and read by a deserializer: bytes, as numbers. -/
abbrev byte_stream := List Nat

/-- Method `serializer_core::write_string(char const *)`: the characters of the string (one
byte each, for an ASCII string) and the terminating zero. -/
def serializer_core.write_string (str : String) : byte_stream :=
  str.toList.map Char.toNat ++ [0]

/-- Method `serializer_core::write_bool`. -/
def serializer_core.write_bool (b : Bool) : byte_stream := [if b then 1 else 0]

/-- Method `deserializer_core::read_bool`, `m_in.get() != 0`; at the end of the stream `get`
returns the end-of-file value, which is not zero. -/
def deserializer_core.read_bool : byte_stream → Bool × byte_stream
  | [] => (true, [])
  | x :: rest => (x != 0, rest)

/-- Modelled from the spec: `deserializer_core::read_string` (declared in `serializer.h`,
defined in `serializer.cpp`, which is not among the sources): the bytes up to the
terminating zero; `none` is `throw_corrupted_file`. -/
def deserializer_core.read_string : byte_stream → Option (List Nat × byte_stream)
  | [] => none
  | x :: rest =>
      if x = 0 then some ([], rest)
      else
        match deserializer_core.read_string rest with
        | some (str, d) => some (x :: str, d)
        | none => none

/-- Modelled from the spec: the encodings of an unsigned number and of a name, written by
`s << sz` and `s << m_obj_name` and read by `read_unsigned` and `read_name` (declared in
`serializer.h` and `util/name.h`; their definitions are not among the sources). A reader
answers the value read and the rest of the stream; `none` is `throw_corrupted_file`. -/
structure codec where
  write_unsigned : Nat → byte_stream
  read_unsigned : byte_stream → Option (Nat × byte_stream)
  write_name : name → byte_stream
  read_name : byte_stream → Option (name × byte_stream)

/-- Method `mark_implicit_command::write`: `s << "Imp" << m_obj_name << sz`, where `sz` is
the size of the flag vector converted to `unsigned`, and then the flags one by one. -/
def mark_implicit_command.write (c : codec) (m_obj_name : name) (m_implicit : List Bool) :
    byte_stream :=
  let sz := m_implicit.length % 2 ^ 32
  m_implicit.foldl (fun out b => out ++ serializer_core.write_bool b)
    (serializer_core.write_string "Imp" ++ c.write_name m_obj_name ++ c.write_unsigned sz)

/-- The loop `for (i = 0; i < num; i++) implicit.push_back(d.read_bool())`. -/
def read_bools : Nat → byte_stream → List Bool → List Bool × byte_stream
  | 0, d, implicit => (implicit, d)
  | num + 1, d, implicit =>
      read_bools num (deserializer_core.read_bool d).2 (implicit ++ [(deserializer_core.read_bool d).1])

/-- Function `read_mark_implicit(env, ios, d)`: the name, the count and that many flags are
read, and `mark_implicit_arguments` is called with them. The result is what that call
returns and the rest of the stream. -/
def read_mark_implicit (c : codec) (s : frontend) (d : byte_stream) :
    Option (Except frontend_error frontend × byte_stream) :=
  match c.read_name d with
  | none => none
  | some (n, d1) =>
      match c.read_unsigned d1 with
      | none => none
      | some (num, d2) =>
          some (mark_implicit_arguments s n (read_bools num d2 []).1, (read_bools num d2 []).2)

/-- Modelled from the spec: the dispatch on the tag of a record (`kernel/object.cpp` is not
among the sources): the tag is read as a string and the reader registered for it is
called; of the readers only `read_mark_implicit`, registered for `"Imp"`, is embedded. -/
def read_object (c : codec) (s : frontend) (d : byte_stream) :
    Option (Except frontend_error frontend × byte_stream) :=
  match deserializer_core.read_string d with
  | none => none
  | some (tag, d1) =>
      if tag = "Imp".toList.map Char.toNat then read_mark_implicit c s d1 else none

/-- Bytes to a name, for `simple_codec`: a tag byte (0 anonymous, 1 string segment, 2
numeric segment), the segment, then the prefix; the first argument bounds the depth. -/
def simple_read_name : Nat → byte_stream → Option (name × byte_stream)
  | 0, _ => none
  | _ + 1, [] => none
  | fuel + 1, tag :: d =>
      if tag = 0 then some (name.anonymous, d)
      else if tag = 1 then
        match deserializer_core.read_string d with
        | some (str, d1) =>
            match simple_read_name fuel d1 with
            | some (p, d2) => some (name.str p (String.mk (str.map Char.ofNat)), d2)
            | none => none
        | none => none
      else
        match d with
        | k :: d1 =>
            match simple_read_name fuel d1 with
            | some (p, d2) => some (name.num p k, d2)
            | none => none
        | [] => none

/-- A name to bytes, for `simple_codec`. -/
def simple_write_name : name → byte_stream
  | name.anonymous => [0]
  | name.str p str => 1 :: (serializer_core.write_string str ++ simple_write_name p)
  | name.num p k => 2 :: k :: simple_write_name p

/-- A codec for the scenarios: an unsigned number is four bytes, most significant first; a
name is written segment by segment. -/
def simple_codec : codec where
  write_unsigned := fun k => [k / 2 ^ 24 % 256, k / 2 ^ 16 % 256, k / 2 ^ 8 % 256, k % 256]
  read_unsigned := fun d =>
    match d with
    | a :: b :: c :: e :: rest => some (a * 2 ^ 24 + b * 2 ^ 16 + c * 2 ^ 8 + e, rest)
    | _ => none
  write_name := simple_write_name
  read_name := fun d => simple_read_name d.length d

/-! ## Rewriters -/

/-- Modelled from the spec: what a rewriter uses of the environment, the type the kernel
infers for a term (`kernel/type_checker.h` is not among the sources). -/
structure rw_env where
  infer_type : context → expr → expr

/-- Modelled from the spec: a rewriter (`library/rewriter/rewriter.h` is not among the
sources) maps `(env, ctx, t)` to `(t1, proof)` with `proof : t = t1`, or to the failure
signal `none`. -/
abbrev rewriter := rw_env → context → expr → Option (expr × expr)

/-- Modelled from the spec: the proof term `Trans(T, a, b, c, H1, H2)` of the equality-trans
law (`library/basic_thms.h` is not among the sources), as the rewriter tests build it. -/
def Trans (T a b c H1 H2 : expr) : expr := mk_app [Const "Trans", T, a, b, c, H1, H2]

/-- Modelled from the spec: the proof term `Refl(T, a)` of `a = a`. -/
def Refl (T a : expr) : expr := mk_app [Const "Refl", T, a]

/-- Modelled from the spec: the rewriter `fail`, which always signals failure. -/
def mk_fail_rewriter : rewriter := fun _ _ _ => none

/-- Modelled from the spec: the rewriter `id`, which returns `(t, refl(t))`. -/
def mk_id_rewriter : rewriter := fun env ctx t => some (t, Refl (env.infer_type ctx t) t)

/-- Modelled from the spec: Then (`r1 ; r2`) applies `r1` to get `(t1, p1)`, applies `r2` to
`t1` to get `(t2, p2)` and combines them by the trans law into
`(t2, trans(t, t1, t2, p1, p2))`; it fails if either rewriter fails. -/
def mk_then_rewriter (r1 r2 : rewriter) : rewriter := fun env ctx t =>
  match r1 env ctx t with
  | none => none
  | some (t1, p1) =>
      match r2 env ctx t1 with
      | none => none
      | some (t2, p2) => some (t2, Trans (env.infer_type ctx t) t t1 t2 p1 p2)

/-- Modelled from the spec: the n-ary Then "chains trans left-to-right":
`then(r1, r2, ..., rn)` is `then(... then(then(r1, r2), r3) ..., rn)`. -/
def mk_then_rewriter_list : List rewriter → rewriter
  | [] => mk_fail_rewriter
  | r :: rs => rs.foldl mk_then_rewriter r

/-- Modelled from the spec: Orelse (`r1 | r2`) tries `r1` and, if it fails, tries `r2`. -/
def mk_orelse_rewriter (r1 r2 : rewriter) : rewriter := fun env ctx t =>
  match r1 env ctx t with
  | some res => some res
  | none => r2 env ctx t

/-- Modelled from the spec: the n-ary Orelse "walks in order". -/
def mk_orelse_rewriter_list : List rewriter → rewriter
  | [] => mk_fail_rewriter
  | r :: rs => rs.foldl mk_orelse_rewriter r

/-- Modelled from the spec: Try is like `r | id`. -/
def mk_try_rewriter (r : rewriter) : rewriter := mk_orelse_rewriter r mk_id_rewriter

/-- The leading Pi binders of a universally quantified equation: their number and the
body under them. -/
def strip_pis : expr → Nat × expr
  | expr.Pi _ b => ((strip_pis b).1 + 1, (strip_pis b).2)
  | e => (0, e)

/-- The terms of a buffer all of whose slots are assigned. -/
def all_assigned : subst → Option (List expr)
  | [] => some []
  | some v :: rest =>
      match all_assigned rest with
      | some l => some (v :: l)
      | none => none
  | none :: _ => none

/-- Modelled from the spec: the theorem rewriter built from a universally quantified
equation `∀ xs. L = R` and its proof term `P` matches `L` against `t` with the matcher of
the spec's section 4.1 (here with recursion bound `fuel`, from the buffer with one
unassigned slot per quantified variable) and on success returns `(R[σ], P(σ))`. -/
def mk_theorem_rewriter (fuel : Nat) (thm_type proof : expr) : rewriter := fun _ _ t =>
  match (strip_pis thm_type).2 with
  | expr.HEq lhs rhs =>
      match hop_match fuel lhs t (List.replicate (strip_pis thm_type).1 none) with
      | match_result.done true s =>
          match all_assigned s with
          | some args => some (instantiate rhs args, mk_app (proof :: args))
          | none => none
      | _ => none
  | _ => none

/-- The steps of a chain of rewriters from a term: the first rewriter applied to the term
returns the first step `(t1, p1)`, the second applied to `t1` the second step, and so on. -/
inductive rewrite_chain (env : rw_env) (ctx : context) :
    List rewriter → expr → List (expr × expr) → Prop where
  | nil (t : expr) : rewrite_chain env ctx [] t []
  | cons (r : rewriter) (rs : List rewriter) (t t1 p1 : expr) (steps : List (expr × expr)) :
      r env ctx t = some (t1, p1) → rewrite_chain env ctx rs t1 steps →
      rewrite_chain env ctx (r :: rs) t ((t1, p1) :: steps)

/-- The proofs of the claim on Then: from the term and proof reached so far, each further
step `(ti, pi)` gives `trans(T, t0, t(i-1), ti, P(i-1), pi)`; the answer is the last term
with the last proof. -/
def left_nested_trans (T t0 : expr) : expr → expr → List (expr × expr) → expr × expr
  | tp, P, [] => (tp, P)
  | tp, P, (ti, p) :: rest => left_nested_trans T t0 ti (Trans T t0 tp ti P p) rest

/-! ## Data of the rewriter scenarios -/

/-- The term `a + b` of the tests, `nAdd(a, b)`. -/
def nAdd (a b : expr) : expr := mk_app [Const "Nat::add", a, b]

/-- The numeral `0`, `nVal(0)`. -/
def nZero : expr := expr.Value (mk_name "0")

/-- The type `Nat`. -/
def Nat_type : expr := Const "Nat"

/-- The statement of `ADD_COMM`: `Pi (x y : Nat), x + y = y + x`. -/
def add_comm_thm_type : expr :=
  expr.Pi Nat_type (expr.Pi Nat_type
    (expr.HEq (nAdd (expr.Var 1) (expr.Var 0)) (nAdd (expr.Var 0) (expr.Var 1))))

/-- The statement of `ADD_ID`: `Pi (x : Nat), x + 0 = x`. -/
def add_id_thm_type : expr :=
  expr.Pi Nat_type (expr.HEq (nAdd (expr.Var 0) nZero) (expr.Var 0))

/-- The statement of `ADD_ASSOC`: `Pi (x y z : Nat), x + (y + z) = (x + y) + z`. -/
def add_assoc_thm_type : expr :=
  expr.Pi Nat_type (expr.Pi Nat_type (expr.Pi Nat_type
    (expr.HEq (nAdd (expr.Var 2) (nAdd (expr.Var 1) (expr.Var 0)))
      (nAdd (nAdd (expr.Var 2) (expr.Var 1)) (expr.Var 0)))))

/-- The three theorem rewriters of the tests. -/
def add_comm_thm_rewriter : rewriter := mk_theorem_rewriter 8 add_comm_thm_type (Const "ADD_COMM")

/-- See `add_comm_thm_rewriter`. -/
def add_id_thm_rewriter : rewriter := mk_theorem_rewriter 8 add_id_thm_type (Const "ADD_ID")

/-- See `add_comm_thm_rewriter`. -/
def add_assoc_thm_rewriter : rewriter :=
  mk_theorem_rewriter 8 add_assoc_thm_type (Const "ADD_ASSOC")

/-- The environment of the tests: every term at hand is a natural number. -/
def nat_env : rw_env := ⟨fun _ _ => Nat_type⟩

/-! ## Free occurrences -/

/-- The variable that has index `j` outside the term occurs free in the term, the term
being read under `d` binders (a free occurrence under `d` binders is the index `j + d`). -/
def occurs_free (j : Nat) : expr → Nat → Bool
  | expr.Var i, d => decide (i = j + d)
  | expr.Constant _, _ => false
  | expr.Value _, _ => false
  | expr.TypeU _, _ => false
  | expr.App f a, d => occurs_free j f d || occurs_free j a d
  | expr.Lambda t b, d => occurs_free j t d || occurs_free j b (d + 1)
  | expr.Pi t b, d => occurs_free j t d || occurs_free j b (d + 1)
  | expr.Let t v b, d => occurs_free j t d || occurs_free j v d || occurs_free j b (d + 1)
  | expr.HEq l r, d => occurs_free j l d || occurs_free j r d
  | expr.MetaVar _, _ => false

/-- The universe `Type`. -/
def Type0 : expr := expr.TypeU level.bottom

/-- The pattern `fun (A : Type) (x : A), ?F A x`: the arguments of `?F` are all the context
variables, in binding order, and the domain of `x` is the variable `A`. -/
def pattern_F_A_x : expr :=
  expr.Lambda Type0 (expr.Lambda (expr.Var 0) (mk_app [expr.Var 2, expr.Var 1, expr.Var 0]))

/-- The target `fun (A : Type) (x : A), x`. -/
def target_A_x_x : expr := expr.Lambda Type0 (expr.Lambda (expr.Var 0) (expr.Var 0))

/-- The pattern `fun (A B : Type) (x : A), ?F B x`. -/
def pattern_F_B_x : expr :=
  expr.Lambda Type0 (expr.Lambda Type0 (expr.Lambda (expr.Var 1)
    (mk_app [expr.Var 3, expr.Var 1, expr.Var 0])))

/-- The target `fun (A B : Type) (x : A), x`. -/
def target_A_B_x_x : expr :=
  expr.Lambda Type0 (expr.Lambda Type0 (expr.Lambda (expr.Var 1) (expr.Var 0)))

/-- The term in which every free occurrence of the variable with index `j` outside the term
is replaced by the variable with index `ρ j` (each shifted by the `d` binders crossed);
the variables bound inside the term are unchanged. -/
def rename_free_vars (ρ : Nat → Nat) : expr → Nat → expr
  | expr.Var i, d => if i < d then expr.Var i else expr.Var (ρ (i - d) + d)
  | expr.Constant n, _ => expr.Constant n
  | expr.Value v, _ => expr.Value v
  | expr.TypeU l, _ => expr.TypeU l
  | expr.App f a, d => expr.App (rename_free_vars ρ f d) (rename_free_vars ρ a d)
  | expr.Lambda t b, d => expr.Lambda (rename_free_vars ρ t d) (rename_free_vars ρ b (d + 1))
  | expr.Pi t b, d => expr.Pi (rename_free_vars ρ t d) (rename_free_vars ρ b (d + 1))
  | expr.Let t v b, d =>
      expr.Let (rename_free_vars ρ t d) (rename_free_vars ρ v d) (rename_free_vars ρ b (d + 1))
  | expr.HEq l r, d => expr.HEq (rename_free_vars ρ l d) (rename_free_vars ρ r d)
  | expr.MetaVar m, _ => expr.MetaVar m

/-- The renaming of the claim on `proj_core`: the locally bound variable `vars[i]`, `i < k`,
goes to `k - 1 - i`, and a variable `j ≥ ctx_size` to `j - ctx_size + k`. -/
def proj_renaming (ctx_size : Nat) (vars : List expr) (k : Nat) (j : Nat) : Nat :=
  if j < ctx_size then
    match (List.range k).find? (fun i => decide (var_idx (vars.getD i (expr.Var 0)) = j)) with
    | some i => k - 1 - i
    | none => 0
  else j - ctx_size + k

/-- The conjunction, from left to right and with the substitution threaded through, of the
recursive call `m` on a list of (pattern, target) pairs. -/
def match_pairs (m : subst → expr → expr → match_result) :
    List (expr × expr) → subst → match_result
  | [], s => match_result.done true s
  | pt :: rest, s => hop_match_fn.and_then (m s pt.1 pt.2) (fun s1 => match_pairs m rest s1)

/-- The pairs matched for `p = h p1 ... pm` and `t = g t1 ... tn`, from right to left. When
`m < n`: `pi` against `t(n-m+i)` for `i = m, ..., 1`, then `h` against `g t1 ... t(n-m)`.
Otherwise: `p(m-n+i)` against `ti` for `i = n, ..., 1`, then `h p1 ... p(m-n)` against `g`. -/
def arity_split_pairs (p t : expr) : List (expr × expr) :=
  let m := num_args p - 1
  let n := num_args t - 1
  if m < n then
    (List.range m).reverse.map (fun i => (arg p (i + 1), arg t (n - m + i + 1))) ++
      [(arg p 0, mk_app ((get_args t).take (n - m + 1)))]
  else
    (List.range n).reverse.map (fun i => (arg p (m - n + i + 1), arg t (i + 1))) ++
      [(mk_app ((get_args p).take (m - n + 1)), arg t 0)]

/-- Every pair of the list matches, in order, each call starting from the substitution the
previous one left. -/
inductive pairs_match (m : subst → expr → expr → match_result) :
    List (expr × expr) → subst → subst → Prop where
  | nil (s : subst) : pairs_match m [] s s
  | cons (p t : expr) (rest : List (expr × expr)) (s s1 s2 : subst) :
      m s p t = match_result.done true s1 → pairs_match m rest s1 s2 →
      pairs_match m ((p, t) :: rest) s s2

/-- The state of `register_new_op` when its loop has gone through the first `k` non-leading
parts. -/
def register_new_op_upto (s : frontend) (new_op : op_ref) (d : expr) (led : Bool) (k : Nat) :
    frontend :=
  let s2 := register_new_op_head s new_op d led
  register_parts (get_precedence s2.heap new_op) ((get_op_name_parts s2.heap new_op).tail.take k) s2

/-- The frontend with `infixl "+" 65` and a fresh descriptor cell for the mixfix notation
`if _ + _ else _` of precedence 10, not yet registered. -/
def frontend_with_if_cell : frontend :=
  { frontend_with_plus with
    heap := frontend_with_plus.heap ++
      [mixfix_op fixity.Mixfixc [mk_name "if", mk_name "+", mk_name "else"] 10] }

/-- The frontend with `infixl "+" 65` and a fresh descriptor cell for `infixl "+" 70`, not
yet registered. -/
def frontend_with_plus_cell : frontend :=
  { frontend_with_plus with heap := frontend_with_plus.heap ++ [infixl_op (mk_name "+") 70] }

/-- Following a chain of definitions: a constant that names a definition is replaced by the
value of the definition, again and again, until a term is reached that is not such a
constant. -/
inductive unfolds_to (env : List environment_cell) : expr → expr → Prop where
  | stop (t : expr) :
      (∀ n obj v, t = expr.Constant n → find_object env n = some obj →
        obj.kind = object_kind.Definition → obj.get_value ≠ some v) →
      unfolds_to env t t
  | step (n : name) (obj : object) (v r : expr) :
      find_object env n = some obj → obj.kind = object_kind.Definition →
      obj.get_value = some v → unfolds_to env v r → unfolds_to env (expr.Constant n) r

/-- An environment in which `A` is defined as the arrow type `N → N`, `B` as `A`, and `N`
is a postulate. -/
def env_with_arrow_definition : List environment_cell :=
  [⟨[⟨object_kind.Postulate, mk_name "N", Type0, none, true, false⟩,
     ⟨object_kind.Definition, mk_name "A", Type0, some (expr.Pi (Const "N") (Const "N")),
      false, false⟩,
     ⟨object_kind.Definition, mk_name "B", Type0, some (Const "A"), false, false⟩],
    [], false, lean_extension.init⟩]

/-- Commands on the frontend: a command may write the state and may throw; the state in
which it throws is kept. -/
abbrev frontend_m := ExceptT frontend_error (StateM frontend)

/-- The state in which a command ends and what it ends with. -/
def frontend_m.exit {α : Type} (c : frontend_m α) (s : frontend) :
    Except frontend_error α × frontend :=
  (c.run).run s

/-- Method `lean_extension::mark_implicit_arguments(n, sz, implicit, env)`, statement by
statement, on the state of the environment and its extension. -/
def mark_implicit_arguments_m (n : name) (implicit : List Bool) : frontend_m Unit := do
  if (← get).here.has_children then
    throw frontend_error.read_only
  else
  match find_object (← get).cells n with
  | none => throw frontend_error.unknown_object
  | some obj =>
    if obj.kind ≠ object_kind.Definition ∧ obj.kind ≠ object_kind.Postulate ∧
        obj.kind ≠ object_kind.Builtin then
      throw frontend_error.not_definition_or_postulate
    else
    if lean_extension.has_implicit_arguments (← get).chain n then
      throw frontend_error.already_has_implicit
    else
    match lean_extension.mk_explicit_name n with
    | none => throw frontend_error.anonymous_name
    | some explicit_version =>
      if (find_object (← get).cells explicit_version).isSome then
        throw frontend_error.explicit_version_exists
      else
      let num_args := lean_extension.count_pi obj.get_type
      if num_args < implicit.length then
        throw frontend_error.too_many_arguments
      else
      let sz := lean_extension.trim_explicit_suffix implicit implicit.length
      if sz = 0 then
        throw frontend_error.all_explicit
      else
      let v := implicit.take sz
      modify (fun s => s.set_ext { s.here.ext with
        m_implicit_table := s.here.ext.m_implicit_table.insert n (v, explicit_version) })
      modify (fun s => s.set_ext { s.here.ext with
        m_explicit_names := fun x => if x = explicit_version then true else s.here.ext.m_explicit_names x })
      modify (fun s => add_neutral_object s (neutral_object.mark_implicit_command n v))
      modify (fun s => { s with here := { s.here with objects := s.here.objects ++
        [⟨object_kind.Definition, explicit_version, obj.get_type, some (expr.Constant n),
          false, obj.is_axiom || obj.is_theorem⟩] } })

/-- Every flag list recorded in a mark-implicit declaration, in the environment or in an
ancestor, ends with an implicit flag. -/
def frontend.implicit_records_trimmed (s : frontend) : Prop :=
  ∀ c ∈ s.cells, ∀ n l, neutral_object.mark_implicit_command n l ∈ c.neutral →
    l.getLast? = some true

/-- The three coercion tables of a chain of extensions agree: every registered coercion is
listed for its source type, and the set of coercions is the set of registered coercions. -/
def coercions_consistent (c : List lean_extension) : Prop :=
  (∀ a b f, lean_extension.get_coercion_core c a b = some f →
    (b, f) ∈ lean_extension.get_coercions_core c a) ∧
  (∀ f, lean_extension.is_coercion c f = true ↔
    ∃ a b, lean_extension.get_coercion_core c a b = some f)

/-- Method `lean_extension::add_alias(n, e, env)`, statement by statement, on the state of
the environment and its extension. -/
def add_alias_m (n : name) (e : expr) : frontend_m Unit := do
  if (lean_extension.get_alias (← get).chain n).isSome then
    throw frontend_error.alias_exists
  else
  modify (fun s => s.set_ext { s.here.ext with m_aliases := s.here.ext.m_aliases.insert n e })
  match lean_extension.get_aliased (← get).chain e with
  | some l =>
    modify (fun s => s.set_ext { s.here.ext with
      m_inv_aliases := s.here.ext.m_inv_aliases.insert e (n :: l) })
    modify (fun s => add_neutral_object s (neutral_object.alias_declaration n e))
  | none =>
    modify (fun s => s.set_ext { s.here.ext with
      m_inv_aliases := s.here.ext.m_inv_aliases.insert e [n] })
    modify (fun s => add_neutral_object s (neutral_object.alias_declaration n e))

/-- The two alias tables of a chain of extensions are inverse to each other. -/
def aliases_inverse (c : List lean_extension) : Prop :=
  ∀ n e, lean_extension.get_alias c n = some e ↔
    ∃ l, lean_extension.get_aliased c e = some l ∧ n ∈ l

/-- The frontend in which `plus` is an alias of `nat_add`. -/
def frontend_with_alias : frontend :=
  frontend.init.run [frontend_op.mk_alias (mk_name "plus") (Const "nat_add")]

/-- A call `match(p, t, ctx, ctx_size)` together with the substitution buffer it starts
from. -/
structure match_call where
  s : subst
  p : expr
  t : expr
  ctx : context
  cs : Nat

/-- The pattern of the call is a logical variable whose index minus `ctx_size` is outside
the range of the buffer, or an application whose head is such a variable: the variable
that `get_subst` is asked for has no slot. -/
def match_call.no_slot (c : match_call) : Prop :=
  (hop_match_fn.is_free_var c.p c.cs = true ∧ c.s.length ≤ var_idx c.p - c.cs) ∨
  (hop_match_fn.is_free_var c.p c.cs = false ∧ is_app c.p = true ∧
    hop_match_fn.is_free_var (arg c.p 0) c.cs = true ∧ c.s.length ≤ var_idx (arg c.p 0) - c.cs)

/-- The pattern and the target of the iteration of the application loop that has just
decremented its counters to `i1` and `i2`. -/
def app_loop_pair (p t : expr) (i1 i2 : Nat) : expr × expr :=
  if i1 = 0 ∧ 0 < i2 then (arg p i1, mk_app_first (i2 + 1) t)
  else if i2 = 0 ∧ 0 < i1 then (mk_app_first (i1 + 1) p, arg t i2)
  else (arg p i1, arg t i2)

/-- The recursive calls made by the application loop started at the counters `i1`, `i2` with
the buffer `s`: the call of the first iteration, and, when that call returns true, the
calls of the rest of the loop. -/
inductive app_loop_calls (m : subst → expr → expr → match_result) (p t : expr) :
    Nat → Nat → subst → subst → expr → expr → Prop where
  | first (i1 i2 : Nat) (s : subst) :
      app_loop_calls m p t (i1 + 1) (i2 + 1) s s (app_loop_pair p t i1 i2).1
        (app_loop_pair p t i1 i2).2
  | rest (i1 i2 : Nat) (s s1 s2 : subst) (p2 t2 : expr) :
      m s (app_loop_pair p t i1 i2).1 (app_loop_pair p t i1 i2).2 = match_result.done true s1 →
      app_loop_calls m p t i1 i2 s1 s2 p2 t2 →
      app_loop_calls m p t (i1 + 1) (i2 + 1) s s2 p2 t2

/-- The recursive calls made by the part of `match` from the test `p == t` on: the two sides
of an equality, the pairs of the application loop, the domain and the body of a binder; a
second call is made when the first returned true, from the buffer it left. -/
inductive structural_calls (m : subst → expr → expr → context → Nat → match_result)
    (s : subst) (p t : expr) (ctx : context) (cs : Nat) : match_call → Prop where
  | heq_lhs : p ≠ t → is_eq_heq p = true → is_eq_heq t = true →
      structural_calls m s p t ctx cs ⟨s, (eq_heq_args p).1, (eq_heq_args t).1, ctx, cs⟩
  | heq_rhs (s1 : subst) : p ≠ t → is_eq_heq p = true → is_eq_heq t = true →
      m s (eq_heq_args p).1 (eq_heq_args t).1 ctx cs = match_result.done true s1 →
      structural_calls m s p t ctx cs ⟨s1, (eq_heq_args p).2, (eq_heq_args t).2, ctx, cs⟩
  | app (s2 : subst) (p2 t2 : expr) : p ≠ t → is_app p = true → is_app t = true →
      app_loop_calls (fun s1 p1 t1 => m s1 p1 t1 ctx cs) p t (num_args p) (num_args t) s s2 p2 t2 →
      structural_calls m s p t ctx cs ⟨s2, p2, t2, ctx, cs⟩
  | lambda_domain (pd pb td tb : expr) : p ≠ t → p = expr.Lambda pd pb → t = expr.Lambda td tb →
      structural_calls m s p t ctx cs ⟨s, pd, td, ctx, cs⟩
  | lambda_body (pd pb td tb : expr) (s1 : subst) : p ≠ t → p = expr.Lambda pd pb →
      t = expr.Lambda td tb → m s pd td ctx cs = match_result.done true s1 →
      structural_calls m s p t ctx cs ⟨s1, pb, tb, extend ctx td, cs + 1⟩
  | pi_domain (pd pb td tb : expr) : p ≠ t → p = expr.Pi pd pb → t = expr.Pi td tb →
      structural_calls m s p t ctx cs ⟨s, pd, td, ctx, cs⟩
  | pi_body (pd pb td tb : expr) (s1 : subst) : p ≠ t → p = expr.Pi pd pb →
      t = expr.Pi td tb → m s pd td ctx cs = match_result.done true s1 →
      structural_calls m s p t ctx cs ⟨s1, pb, tb, extend ctx td, cs + 1⟩

/-- The recursive calls made by the body of `match` on the call `c`, the calls it makes
being evaluated with the recursion budget `fuel`: the assignment of the pattern variable
against the target, the assignment of the head applied to the arguments against the target,
or the calls of the structural part. -/
inductive match_calls (fuel : Nat) (c : match_call) : match_call → Prop where
  | var_assigned (v : expr) : hop_match_fn.is_free_var c.p c.cs = true →
      hop_match_fn.get_subst c.s c.p c.cs = some (some v) →
      match_calls fuel c ⟨c.s, lift_free_vars v c.cs, c.t, c.ctx, c.cs⟩
  | head_assigned (v : expr) : hop_match_fn.is_free_var c.p c.cs = false → is_app c.p = true →
      hop_match_fn.is_free_var (arg c.p 0) c.cs = true →
      hop_match_fn.get_subst c.s (arg c.p 0) c.cs = some (some v) →
      match_calls fuel c
        ⟨c.s, apply_beta (lift_free_vars v c.cs) ((get_args c.p).drop 1), c.t, c.ctx, c.cs⟩
  | structural (c1 : match_call) : hop_match_fn.is_free_var c.p c.cs = false →
      ((is_app c.p && hop_match_fn.is_free_var (arg c.p 0) c.cs) = false ∨
        (hop_match_fn.get_subst c.s (arg c.p 0) c.cs = some none ∧
          hop_match_fn.args_are_distinct_locally_bound_vars c.p c.cs = none)) →
      structural_calls (hop_match_fn.match_ fuel) c.s c.p c.t c.ctx c.cs c1 →
      match_calls fuel c c1

/-- Matching reaches a call: the call `c` evaluated with the recursion budget `fuel` makes,
directly or through the calls it makes, the call `c2` with the budget `fuel2`. -/
inductive match_reaches : Nat → match_call → Nat → match_call → Prop where
  | here (fuel : Nat) (c : match_call) : match_reaches fuel c fuel c
  | call (fuel : Nat) (c c1 : match_call) (fuel2 : Nat) (c2 : match_call) :
      match_calls fuel c c1 → match_reaches fuel c1 fuel2 c2 →
      match_reaches (fuel + 1) c fuel2 c2

/-- The state of a frontend after its parent environment has been operated on: the parent
is shared with its children, not copied, so what is written in it (the operations other
than `mark_implicit_arguments` do not test `has_children`) is seen through the chain of
the child. A frontend without parent is left as it is. -/
def frontend.on_parent (s : frontend) (f : frontend → frontend) : frontend :=
  match s.ancestors with
  | [] => s
  | parent :: rest =>
      let r := f { heap := s.heap, here := parent, ancestors := rest, ios := s.ios }
      { heap := r.heap, here := s.here, ancestors := r.here :: r.ancestors, ios := r.ios }

/-- A child frontend of the frontend in which `f` and `g` are declared with two arguments;
the child has marked the second argument of `g` implicit. -/
def child_with_marked_g : frontend :=
  frontend.init.run
    [frontend_op.declare ⟨object_kind.Postulate, mk_name "f",
       expr.Pi (Const "N") (expr.Pi (Const "N") (Const "N")), none, false, false⟩,
     frontend_op.declare ⟨object_kind.Postulate, mk_name "g",
       expr.Pi (Const "N") (expr.Pi (Const "N") (Const "N")), none, false, false⟩,
     frontend_op.child,
     frontend_op.mark_implicit (mk_name "g") [false, true]]

/-- The state of that child after `infixl "+" 65` has been registered in its parent for `f`
and then for `g`. -/
def child_with_marked_g_and_parent_plus : frontend :=
  child_with_marked_g.on_parent (fun parent => parent.run
    [frontend_op.register fixity.Infixl [mk_name "+"] 65 (Const "f") true,
     frontend_op.register fixity.Infixl [mk_name "+"] 65 (Const "g") true])

/-! ## Theorems: operator descriptors -/

/-- C4: two non-null descriptors are equal iff fixity, precedence and token parts agree;
adding an internal name or a denotation to either side never changes the answer of the
comparison; the null descriptor is equal to the null descriptor only. -/
theorem operator_info_eq_spec (i1 i2 : operator_info.imp) (op1 op2 : operator_info)
    (n : name) (d : expr) :
    (operator_info.eq (some i1) (some i2) = true ↔
        (i1.m_fixity = i2.m_fixity ∧ i1.m_precedence = i2.m_precedence ∧
          i1.m_op_parts = i2.m_op_parts)) ∧
    operator_info.eq (op1.add_internal_name n) op2 = operator_info.eq op1 op2 ∧
    operator_info.eq op1 (op2.add_internal_name n) = operator_info.eq op1 op2 ∧
    operator_info.eq (op1.add_expr d) op2 = operator_info.eq op1 op2 ∧
    operator_info.eq op1 (op2.add_expr d) = operator_info.eq op1 op2 ∧
    (operator_info.eq none op1 = true ↔ op1 = none) ∧
    (operator_info.eq op1 none = true ↔ op1 = none) := by
  refine ⟨?_, ?_, ?_, ?_, ?_, ?_, ?_⟩
  · simp [operator_info.eq, operator_info.imp.is_eq, and_assoc]
  · cases op1 <;> cases op2 <;>
      simp [operator_info.eq, operator_info.add_internal_name, operator_info.imp.is_eq]
  · cases op1 <;> cases op2 <;>
      simp [operator_info.eq, operator_info.add_internal_name, operator_info.imp.is_eq]
  · cases op1 <;> cases op2 <;>
      simp [operator_info.eq, operator_info.add_expr, operator_info.imp.is_eq]
  · cases op1 <;> cases op2 <;>
      simp [operator_info.eq, operator_info.add_expr, operator_info.imp.is_eq]
  · cases op1 <;> simp [operator_info.eq]
  · cases op1 <;> simp [operator_info.eq]

/-! ## Theorems: notation environment -/

theorem deref_alloc_old (h : op_heap) (i : operator_info.imp) (a : Nat) (ha : a < h.length) :
    op_heap.deref (h ++ [i]) (some a) = op_heap.deref h (some a) := by
  simp [op_heap.deref, List.getElem?_append_left ha]

theorem deref_alloc_new (h : op_heap) (i : operator_info.imp) :
    op_heap.deref (h ++ [i]) (some h.length) = some i := by
  simp [op_heap.deref]

theorem deref_lt (h : op_heap) (a : Nat) (i : operator_info.imp)
    (hd : op_heap.deref h (some a) = some i) : a < h.length := by
  simp only [op_heap.deref] at hd
  exact (List.getElem?_eq_some.1 hd).1

theorem deref_add_expr_same (h : op_heap) (a : Nat) (d : expr) (i : operator_info.imp)
    (hd : op_heap.deref h (some a) = some i) :
    op_heap.deref (op_heap.add_expr h (some a) d) (some a) = some { i with m_exprs := d :: i.m_exprs } := by
  simp only [op_heap.deref] at hd ⊢
  simp [op_heap.add_expr, List.getElem?_modify, hd]

theorem deref_add_expr_other (h : op_heap) (a b : Nat) (d : expr) (hab : b ≠ a) :
    op_heap.deref (op_heap.add_expr h (some a) d) (some b) = op_heap.deref h (some b) := by
  simp only [op_heap.deref, op_heap.add_expr]
  simp [List.getElem?_modify, Ne.symm hab]

theorem add_expr_length (h : op_heap) (r : op_ref) (d : expr) :
    (op_heap.add_expr h r d).length = h.length := by
  cases r <;> simp [op_heap.add_expr]

/-- With unicode allowed, `find_op_for` does not read the descriptor cells. -/
theorem find_op_for_unicode_heap (h1 h2 : op_heap) (c : List lean_extension) (d : expr) :
    lean_extension.find_op_for h1 c d true = lean_extension.find_op_for h2 c d true := by
  induction c with
  | nil => rfl
  | cons e parent ih => simp only [lean_extension.find_op_for, Bool.true_or, ih]

/-- What the loop of `remove_bindings` leaves in the table of denotations. -/
theorem remove_binding_foldl (h : op_heap) (parent : List lean_extension) (l : List expr)
    (e : lean_extension) (x : expr) :
    (l.foldl (lean_extension.remove_binding h parent) e).m_expr_to_operators x =
      if x ∈ l then
        (if !parent.isEmpty && (lean_extension.find_op_for h parent x true).isSome
          then some [none] else none)
      else e.m_expr_to_operators x := by
  induction l generalizing e with
  | nil => simp
  | cons d rest ih =>
    rw [List.foldl_cons, ih]
    by_cases hx : x ∈ rest
    · simp [hx]
    · by_cases hxd : x = d
      · subst hxd
        simp only [hx, if_false, List.mem_cons, true_or, if_true]
        unfold lean_extension.remove_binding
        split <;> simp_all [table.insert, table.erase]
      · simp only [hx, if_false, List.mem_cons, hxd, or_self]
        unfold lean_extension.remove_binding
        split <;> simp [table.insert, table.erase, hxd]

/-- The loop of `remove_bindings` touches no other table. -/
theorem remove_binding_foldl_frame (h : op_heap) (parent : List lean_extension) (l : List expr)
    (e : lean_extension) :
    (l.foldl (lean_extension.remove_binding h parent) e).m_nud = e.m_nud ∧
    (l.foldl (lean_extension.remove_binding h parent) e).m_led = e.m_led ∧
    (l.foldl (lean_extension.remove_binding h parent) e).m_other_lbp = e.m_other_lbp ∧
    (l.foldl (lean_extension.remove_binding h parent) e).m_implicit_table = e.m_implicit_table := by
  induction l generalizing e with
  | nil => simp
  | cons d rest ih =>
    rw [List.foldl_cons]
    obtain ⟨h1, h2, h3, h4⟩ := ih (lean_extension.remove_binding h parent e d)
    rw [h1, h2, h3, h4]
    unfold lean_extension.remove_binding
    split <;> simp

/-- The loop over the non-leading parts of `register_new_op` only writes `m_other_lbp` and
precedence diagnostics. -/
theorem register_parts_frame (prec : Nat) (parts : List name) (s : frontend) :
    (register_parts prec parts s).heap = s.heap ∧
    (register_parts prec parts s).ancestors = s.ancestors ∧
    (register_parts prec parts s).here.ext.m_nud = s.here.ext.m_nud ∧
    (register_parts prec parts s).here.ext.m_led = s.here.ext.m_led ∧
    (register_parts prec parts s).here.ext.m_expr_to_operators = s.here.ext.m_expr_to_operators ∧
    (register_parts prec parts s).here.ext.m_implicit_table = s.here.ext.m_implicit_table ∧
    (∃ ds, (register_parts prec parts s).ios = s.ios ++ ds ∧
      ∀ x ∈ ds, ∃ n o p, x = diagnostic.precedence_changed n o p) := by
  induction parts generalizing s with
  | nil => exact ⟨rfl, rfl, rfl, rfl, rfl, rfl, [], by simp [register_parts], by simp⟩
  | cons part rest ih =>
    simp only [register_parts]
    obtain ⟨h1, h2, h3, h4, h5, h6, ds, h7, h8⟩ := ih
      { (s.set_ext { s.here.ext with m_other_lbp := s.here.ext.m_other_lbp.insert part prec }) with
        ios := s.ios ++ lean_extension.check_precedence s.heap s.chain part prec }
    refine ⟨h1, h2, h3, h4, h5, h6, lean_extension.check_precedence s.heap s.chain part prec ++ ds, ?_, ?_⟩
    · rw [h7]; simp [List.append_assoc]
    · intro x hx
      rcases List.mem_append.1 hx with hx | hx
      · unfold lean_extension.check_precedence at hx
        split at hx
        · split at hx
          · simp at hx; exact ⟨_, _, _, hx⟩
          · simp at hx
        · simp at hx
      · exact h8 x hx

/-- Only precedence diagnostics are written by `check_precedence`. -/
theorem check_precedence_kind (h : op_heap) (c : List lean_extension) (n : name) (prec : Nat) :
    ∀ x ∈ lean_extension.check_precedence h c n prec, ∃ m o p, x = diagnostic.precedence_changed m o p := by
  intro x hx
  unfold lean_extension.check_precedence at hx
  split at hx
  · split at hx
    · simp at hx; exact ⟨_, _, _, hx⟩
    · simp at hx
  · simp at hx

/-- The statements before the loop of `register_new_op` write precedence diagnostics only. -/
theorem register_new_op_head_ios (s : frontend) (op : op_ref) (d : expr) (led : Bool) :
    ∃ ds, (register_new_op_head s op d led).ios = s.ios ++ ds ∧
      ∀ x ∈ ds, ∃ n o p, x = diagnostic.precedence_changed n o p := by
  unfold register_new_op_head
  simp only []
  split
  · exact ⟨_, rfl, check_precedence_kind _ _ _ _⟩
  · exact ⟨[], by simp [frontend.set_ext], by simp⟩

/-- The effect of `register_new_op` for a handle with a cell: the cell gets the denotation,
the handle is bound to the leading token on the requested side and put in front of the
entry of the denotation; only precedence diagnostics are written. -/
theorem register_new_op_spec (s : frontend) (a : Nat) (i : operator_info.imp) (d : expr) (led : Bool)
    (hi : s.heap.deref (some a) = some i) :
    (register_new_op s (some a) d led).heap = s.heap.add_expr (some a) d ∧
    (register_new_op s (some a) d led).ancestors = s.ancestors ∧
    (register_new_op s (some a) d led).here.ext.m_nud =
      (if led then s.here.ext.m_nud
       else s.here.ext.m_nud.insert (i.m_op_parts.headD name.anonymous) (some a)) ∧
    (register_new_op s (some a) d led).here.ext.m_led =
      (if led then s.here.ext.m_led.insert (i.m_op_parts.headD name.anonymous) (some a)
       else s.here.ext.m_led) ∧
    (register_new_op s (some a) d led).here.ext.m_expr_to_operators =
      s.here.ext.m_expr_to_operators.insert d (some a :: (s.here.ext.m_expr_to_operators d).getD []) ∧
    (register_new_op s (some a) d led).here.ext.m_implicit_table = s.here.ext.m_implicit_table ∧
    (∃ ds, (register_new_op s (some a) d led).ios = s.ios ++ ds ∧
      ∀ x ∈ ds, ∃ n o p, x = diagnostic.precedence_changed n o p) := by
  have hi' := deref_add_expr_same s.heap a d i hi
  obtain ⟨h1, h2, h3, h4, h5, h6, ds, h7, h8⟩ :=
    register_parts_frame (get_precedence (register_new_op_head s (some a) d led).heap (some a))
      (get_op_name_parts (register_new_op_head s (some a) d led).heap (some a)).tail
      (register_new_op_head s (some a) d led)
  unfold register_new_op
  simp only []
  rw [h1, h2, h3, h4, h5, h6]
  cases led with
  | true =>
    refine ⟨by simp [register_new_op_head], by simp [register_new_op_head, frontend.set_ext], ?_, ?_, ?_, ?_, ?_⟩
    · simp [register_new_op_head, frontend.set_ext, lean_extension.insert_op,
        lean_extension.insert_expr_to_operator_entry]
    · simp [register_new_op_head, frontend.set_ext, lean_extension.insert_op,
        lean_extension.insert_expr_to_operator_entry, hi', lean_extension.get_op_name]
    · simp [register_new_op_head, frontend.set_ext, lean_extension.insert_op,
        lean_extension.insert_expr_to_operator_entry]
    · simp [register_new_op_head, frontend.set_ext, lean_extension.insert_op,
        lean_extension.insert_expr_to_operator_entry]
    · obtain ⟨ds0, hd0, hk0⟩ := register_new_op_head_ios s (some a) d true
      refine ⟨ds0 ++ ds, ?_, ?_⟩
      · rw [h7, hd0, List.append_assoc]
      · intro x hx
        rcases List.mem_append.1 hx with hx | hx
        · exact hk0 x hx
        · exact h8 x hx
  | false =>
    refine ⟨by simp [register_new_op_head], by simp [register_new_op_head, frontend.set_ext], ?_, ?_, ?_, ?_, ?_⟩
    · simp [register_new_op_head, frontend.set_ext, lean_extension.insert_op,
        lean_extension.insert_expr_to_operator_entry, hi', lean_extension.get_op_name]
    · simp [register_new_op_head, frontend.set_ext, lean_extension.insert_op,
        lean_extension.insert_expr_to_operator_entry]
    · simp [register_new_op_head, frontend.set_ext, lean_extension.insert_op,
        lean_extension.insert_expr_to_operator_entry]
    · simp [register_new_op_head, frontend.set_ext, lean_extension.insert_op,
        lean_extension.insert_expr_to_operator_entry]
    · refine ⟨ds, ?_, h8⟩
      rw [h7]; simp [register_new_op_head, frontend.set_ext]

/-- Both conflict branches of `add_op`: a diagnostic, `remove_bindings`, `register_new_op`. -/
theorem add_op_core_conflict (s : frontend) (n a : Nat) (i old_i : operator_info.imp) (d : expr)
    (led : Bool)
    (hn : s.heap.deref (some n) = some i)
    (hold : lean_extension.find_op s.chain (i.m_op_parts.headD name.anonymous) led = some a)
    (hderef : s.heap.deref (some a) = some old_i)
    (hconf : operator_info.eq (some old_i) (some i) = false ∨
      lean_extension.compatible_denotations s.heap s.chain (some a) d = false) :
    ∃ dg, (dg = diagnostic.notation_redefined (some a) (some n) ∨
            dg = diagnostic.denotations_replaced (some a) d) ∧
      add_op_core s (some n) d led =
        (register_new_op (conflict_state s dg (some a)) (some n) d led, some n) := by
  unfold add_op_core
  simp only [hn, lean_extension.get_op_name, hold, hderef, Option.isNone_some, Bool.false_eq_true,
    if_false]
  by_cases heq : operator_info.eq (some old_i) (some i) = true
  · have hc : lean_extension.compatible_denotations s.heap s.chain (some a) d = false := by
      rcases hconf with h | h
      · rw [h] at heq; exact absurd heq (by decide)
      · exact h
    simp only [heq, hc, if_true, Bool.false_eq_true, if_false]
    exact ⟨_, Or.inr rfl, rfl⟩
  · simp only [heq, if_false]
    exact ⟨_, Or.inl rfl, rfl⟩

/-- C5: on the conflict branches of a registration (an operator exists for the leading token
on the requested side and is not equal to the new descriptor, or is equal but has a
denotation incompatible with the new one) a diagnostic is written, afterwards the token
is bound on that side to the new descriptor, which carries exactly the new denotation,
and no old denotation other than the new one resolves to a descriptor (unicode allowed),
whether the old operator was local or inherited. -/
theorem add_op_conflict_spec (s : frontend) (f : fixity) (parts : List name) (prec : Nat)
    (d : expr) (led : Bool) (a : Nat) (old_i : operator_info.imp)
    (hold : lean_extension.find_op s.chain (parts.headD name.anonymous) led = some a)
    (hderef : s.heap.deref (some a) = some old_i)
    (hconf : operator_info.eq (some old_i) (some (mixfix_op f parts prec)) = false ∨
      lean_extension.compatible_denotations s.heap s.chain (some a) d = false) :
    (diagnostic.notation_redefined (some a) (some s.heap.length) ∈
        (add_new_op s (mixfix_op f parts prec) d led).ios ∨
      diagnostic.denotations_replaced (some a) d ∈
        (add_new_op s (mixfix_op f parts prec) d led).ios) ∧
    lean_extension.find_op (add_new_op s (mixfix_op f parts prec) d led).chain
        (parts.headD name.anonymous) led = some s.heap.length ∧
    (add_new_op s (mixfix_op f parts prec) d led).heap.deref (some s.heap.length) =
        some ⟨f, prec, parts, [], [d]⟩ ∧
    ∀ d1 ∈ old_i.m_exprs, d1 ≠ d →
      lean_extension.find_op_for (add_new_op s (mixfix_op f parts prec) d led).heap
        (add_new_op s (mixfix_op f parts prec) d led).chain d1 true = none := by
  have ha : a < s.heap.length := deref_lt _ _ _ hderef
  let s1 : frontend := { s with heap := s.heap ++ [mixfix_op f parts prec] }
  have hn : s1.heap.deref (some s.heap.length) = some (mixfix_op f parts prec) := deref_alloc_new _ _
  have hderef1 : s1.heap.deref (some a) = some old_i := by
    show op_heap.deref (s.heap ++ [_]) (some a) = _
    rw [deref_alloc_old _ _ _ ha]; exact hderef
  have hcompat : lean_extension.compatible_denotations s1.heap s1.chain (some a) d =
      lean_extension.compatible_denotations s.heap s.chain (some a) d := by
    simp only [lean_extension.compatible_denotations, hderef1, hderef]; rfl
  obtain ⟨dg, hdg, hcore⟩ := add_op_core_conflict s1 s.heap.length a (mixfix_op f parts prec) old_i d led
    hn (by simpa [mixfix_op] using hold) hderef1 (by rw [hcompat]; exact hconf)
  have hS : (conflict_state s1 dg (some a)).heap.deref (some s.heap.length) =
      some (mixfix_op f parts prec) := hn
  obtain ⟨r1, r2, r3, r4, r5, r6, ds, r7, r8⟩ :=
    register_new_op_spec (conflict_state s1 dg (some a)) s.heap.length (mixfix_op f parts prec) d led hS
  have hres : add_new_op s (mixfix_op f parts prec) d led =
      add_neutral_object (register_new_op (conflict_state s1 dg (some a)) (some s.heap.length) d led)
        (neutral_object.notation_declaration (some s.heap.length) d) := by
    show add_op s1 (some s.heap.length) d led = _
    unfold add_op
    simp only [hcore]
  rw [hres]
  refine ⟨?_, ?_, ?_, ?_⟩
  · simp only [add_neutral_object]
    rw [r7]
    rcases hdg with h | h
    · left; subst h; simp [conflict_state, frontend.set_ext]
    · right; subst h; simp [conflict_state, frontend.set_ext]
  · simp only [add_neutral_object, frontend.chain, lean_extension.find_op]
    cases led with
    | true => simp [lean_extension.find_led, r4, table.insert, mixfix_op]
    | false => simp [lean_extension.find_nud, r3, table.insert, mixfix_op]
  · simp only [add_neutral_object, r1]
    rw [deref_add_expr_same _ _ _ _ hS]
    rfl
  · intro d1 hd1 hne
    simp only [add_neutral_object, frontend.chain, r2]
    rw [find_op_for_unicode_heap _ s.heap]
    simp only [lean_extension.find_op_for, r5, table.insert, hne, if_false]
    have hfold := remove_binding_foldl s1.heap s1.chain.tail old_i.m_exprs s1.here.ext d1
    have : (conflict_state s1 dg (some a)).here.ext.m_expr_to_operators d1 =
        (if !s1.chain.tail.isEmpty && (lean_extension.find_op_for s1.heap s1.chain.tail d1 true).isSome
          then some [none] else none) := by
      simp only [conflict_state, frontend.set_ext, lean_extension.remove_bindings, hderef1]
      rw [hfold]; simp [hd1]
    rw [this]
    have htail : s1.chain.tail = s.ancestors.map (fun c => c.ext) := rfl
    rw [htail]
    have hanc : (conflict_state s1 dg (some a)).ancestors = s.ancestors := rfl
    rw [hanc]
    by_cases hp : (!(s.ancestors.map (fun c => c.ext)).isEmpty &&
        (lean_extension.find_op_for s1.heap (s.ancestors.map (fun c => c.ext)) d1 true).isSome) = true
    · simp [hp]
    · simp only [hp, if_false]
      rw [find_op_for_unicode_heap _ s1.heap]
      simp only [Bool.and_eq_true, Bool.not_eq_true', not_and, Bool.not_eq_true] at hp
      cases hanc' : s.ancestors.map (fun c => c.ext) with
      | nil => rfl
      | cons e rest =>
        rw [hanc'] at hp
        have := hp (by rfl)
        simpa using this

/-- C5, scenario: `infixl "+" 65` for `nat_add` followed by `infixr "+" 70` for `int_add`
writes the redefinition diagnostic and leaves `led("+")` as `infixr "+" 70` with the single
denotation `int_add`, and `nat_add` resolves to no descriptor. -/
theorem add_op_conflict_spec_witness :
    (lean_extension.find_op frontend_with_plus.chain (mk_name "+") true = some 0 ∧
      frontend_with_plus.heap.deref (some 0) =
        some ⟨fixity.Infixl, 65, [mk_name "+"], [], [Const "nat_add"]⟩) ∧
    diagnostic.notation_redefined (some 0) (some 1) ∈
      ( add_infixr frontend_with_plus (mk_name "+") 70 (Const "int_add")).ios ∧
    lean_extension.find_led ( add_infixr frontend_with_plus (mk_name "+") 70 (Const "int_add")).chain
      (mk_name "+") = some 1 ∧
    ( add_infixr frontend_with_plus (mk_name "+") 70 (Const "int_add")).heap.deref (some 1) =
      some ⟨fixity.Infixr, 70, [mk_name "+"], [], [Const "int_add"]⟩ ∧
    lean_extension.find_op_for ( add_infixr frontend_with_plus (mk_name "+") 70 (Const "int_add")).heap
      ( add_infixr frontend_with_plus (mk_name "+") 70 (Const "int_add")).chain (Const "nat_add") true = none :=
  have h := add_op_conflict_spec frontend_with_plus fixity.Infixr [mk_name "+"] 70 (Const "int_add") true 0
    ⟨fixity.Infixl, 65, [mk_name "+"], [], [Const "nat_add"]⟩ (by decide) (by decide)
    (Or.inl (by decide))
  ⟨⟨by decide, by decide⟩, by decide, h.2.1, h.2.2.1,
    h.2.2.2 (Const "nat_add") (by decide) (by decide)⟩

/-- The answer of `find_op_for` only depends on the token parts of the cells behind the
handles in the entries of the denotation. -/
theorem find_op_for_heap_congr (h1 h2 : op_heap) (c : List lean_extension) (d : expr) (u : Bool)
    (hp : ∀ e ∈ c, ∀ l b, e.m_expr_to_operators d = some l → some b ∈ l →
      (h2.deref (some b)).map (fun i => i.m_op_parts) = (h1.deref (some b)).map (fun i => i.m_op_parts)) :
    lean_extension.find_op_for h2 c d u = lean_extension.find_op_for h1 c d u := by
  induction c with
  | nil => rfl
  | cons e parent ih =>
    have ih' := ih (fun e1 he1 => hp e1 (List.mem_cons_of_mem _ he1))
    simp only [lean_extension.find_op_for]
    cases hl : e.m_expr_to_operators d with
    | none => simpa using ih'
    | some l =>
      have hfind : l.find? (fun op => u || lean_extension.is_safe_ascii h2 op) =
          l.find? (fun op => u || lean_extension.is_safe_ascii h1 op) := by
        have hmem : ∀ op ∈ l, lean_extension.is_safe_ascii h2 op = lean_extension.is_safe_ascii h1 op := by
          intro op hop
          cases op with
          | none => rfl
          | some b =>
            have := hp e (List.mem_cons_self _ _) l b hl hop
            unfold lean_extension.is_safe_ascii
            cases h2d : h2.deref (some b) <;> cases h1d : h1.deref (some b) <;>
              simp_all
        clear hl hp ih ih'
        induction l with
        | nil => rfl
        | cons x xs ihx =>
          simp only [List.find?_cons]
          rw [hmem x (List.mem_cons_self _ _), ihx (fun op hop => hmem op (List.mem_cons_of_mem _ hop))]
      simp only [hfind, ih']

/-- The answer of `find_op_for` for a denotation only depends on the entry of that denotation
in the extension asked. -/
theorem find_op_for_cons_congr (h : op_heap) (e1 e2 : lean_extension) (parent : List lean_extension)
    (d : expr) (u : Bool) (he : e1.m_expr_to_operators d = e2.m_expr_to_operators d) :
    lean_extension.find_op_for h (e1 :: parent) d u = lean_extension.find_op_for h (e2 :: parent) d u := by
  simp only [lean_extension.find_op_for, he]

/-- Equal descriptors have the same token parts. -/
theorem operator_info_eq_parts (i1 i2 : operator_info.imp)
    (h : operator_info.eq (some i1) (some i2) = true) : i1.m_op_parts = i2.m_op_parts := by
  simp [operator_info.eq, operator_info.imp.is_eq] at h
  exact h.2

/-- The overload branch of `add_op`, seen from the caller: either the operator found is
local and gets the denotation in place, or it is copied into a new cell which is then
registered. -/
theorem add_op_core_overload (s : frontend) (n a : Nat) (i old_i : operator_info.imp) (d : expr)
    (led : Bool)
    (hn : s.heap.deref (some n) = some i)
    (hold : lean_extension.find_op s.chain (i.m_op_parts.headD name.anonymous) led = some a)
    (hderef : s.heap.deref (some a) = some old_i)
    (heq : operator_info.eq (some old_i) (some i) = true)
    (hcompat : lean_extension.compatible_denotations s.heap s.chain (some a) d = true) :
    (lean_extension.defined_here s.heap s.here.ext (some a) led = true ∧
      add_op_core s (some n) d led =
        ({ (s.set_ext (lean_extension.insert_expr_to_operator_entry s.here.ext d (some a))) with
            heap := s.heap.add_expr (some a) d }, some n)) ∨
    (lean_extension.defined_here s.heap s.here.ext (some a) led = false ∧
      add_op_core s (some n) d led =
        (register_new_op { s with heap := s.heap ++ [old_i] } (some s.heap.length) d led,
          some s.heap.length)) := by
  unfold add_op_core
  simp only [hn, lean_extension.get_op_name, hold, hderef, Option.isNone_some, Bool.false_eq_true,
    if_false, heq, hcompat, if_true]
  by_cases hdh : lean_extension.defined_here s.heap s.here.ext (some a) led = true
  · left; simp only [hdh, if_true, and_self]
  · right
    simp only [Bool.not_eq_true] at hdh
    simp only [hdh, Bool.false_eq_true, if_false, op_heap.alloc, true_and]

/-- C6 (amended): on the overload branch of a registration (the operator found for the leading
token on the requested side is equal to the new descriptor and the new denotation is
compatible with all of its denotations) the descriptor found afterwards for that token on
that side is equal to the old one, its denotations are the old ones plus the new one, the
answer of `find_op_for` is unchanged for every denotation other than the new one, the new
denotation resolves (unicode allowed) to that descriptor, and only precedence diagnostics
are written. -/
theorem add_op_overload_spec (s : frontend) (f : fixity) (parts : List name) (prec : Nat)
    (d : expr) (led : Bool) (a : Nat) (old_i : operator_info.imp)
    (hvalid : s.valid)
    (hold : lean_extension.find_op s.chain (parts.headD name.anonymous) led = some a)
    (hderef : s.heap.deref (some a) = some old_i)
    (heq : operator_info.eq (some old_i) (some (mixfix_op f parts prec)) = true)
    (hcompat : lean_extension.compatible_denotations s.heap s.chain (some a) d = true) :
    ∃ b new_i,
      lean_extension.find_op (add_new_op s (mixfix_op f parts prec) d led).chain
        (parts.headD name.anonymous) led = some b ∧
      (add_new_op s (mixfix_op f parts prec) d led).heap.deref (some b) = some new_i ∧
      operator_info.eq (some new_i) (some old_i) = true ∧
      new_i.m_exprs = d :: old_i.m_exprs ∧
      (∀ d1 u, d1 ≠ d →
        lean_extension.find_op_for (add_new_op s (mixfix_op f parts prec) d led).heap
          (add_new_op s (mixfix_op f parts prec) d led).chain d1 u =
        lean_extension.find_op_for s.heap s.chain d1 u) ∧
      lean_extension.find_op_for (add_new_op s (mixfix_op f parts prec) d led).heap
        (add_new_op s (mixfix_op f parts prec) d led).chain d true = some b ∧
      ∃ ds, (add_new_op s (mixfix_op f parts prec) d led).ios = s.ios ++ ds ∧
        ∀ x ∈ ds, ∃ m o p, x = diagnostic.precedence_changed m o p := by
  have ha : a < s.heap.length := deref_lt _ _ _ hderef
  have hparts : old_i.m_op_parts = parts := operator_info_eq_parts _ _ heq
  let s1 : frontend := { s with heap := s.heap ++ [mixfix_op f parts prec] }
  have hn : s1.heap.deref (some s.heap.length) = some (mixfix_op f parts prec) := deref_alloc_new _ _
  have hderef1 : s1.heap.deref (some a) = some old_i := by
    show op_heap.deref (s.heap ++ [_]) (some a) = _
    rw [deref_alloc_old _ _ _ ha]; exact hderef
  have hcompat1 : lean_extension.compatible_denotations s1.heap s1.chain (some a) d = true := by
    rw [← hcompat]
    simp only [lean_extension.compatible_denotations, hderef1, hderef]; rfl
  have hself : operator_info.eq (some old_i) (some old_i) = true := by
    simp [operator_info.eq, operator_info.imp.is_eq]
  have hself2 : ∀ (x : operator_info.imp) (l : List expr),
      operator_info.eq (some { x with m_exprs := l }) (some x) = true := by
    intro x l; simp [operator_info.eq, operator_info.imp.is_eq]
  -- token parts of the cells behind valid handles are kept
  have hkeep : ∀ (h2 : op_heap), (∀ b, b < s.heap.length →
        (h2.deref (some b)).map (fun i => i.m_op_parts) = (s.heap.deref (some b)).map (fun i => i.m_op_parts)) →
      ∀ d1 u, lean_extension.find_op_for h2 s.chain d1 u = lean_extension.find_op_for s.heap s.chain d1 u := by
    intro h2 hh d1 u
    apply find_op_for_heap_congr
    intro e he l b hl hb
    exact hh b (hvalid e he b (Or.inr (Or.inr ⟨d1, l, hl, hb⟩)))
  rcases add_op_core_overload s1 s.heap.length a (mixfix_op f parts prec) old_i d led hn
      (by simpa [mixfix_op] using hold) hderef1 heq hcompat1 with ⟨hdh, hcore⟩ | ⟨hdh, hcore⟩
  · -- the operator is local: the denotation is added in place
    have hres : add_new_op s (mixfix_op f parts prec) d led =
        add_neutral_object
          { (s1.set_ext (lean_extension.insert_expr_to_operator_entry s1.here.ext d (some a))) with
            heap := s1.heap.add_expr (some a) d }
          (neutral_object.notation_declaration (some s.heap.length) d) := by
      show add_op s1 (some s.heap.length) d led = _
      unfold add_op; simp only [hcore]
    rw [hres]
    refine ⟨a, { old_i with m_exprs := d :: old_i.m_exprs }, ?_, ?_, hself2 _ _, rfl, ?_, ?_, ?_⟩
    · rw [← hold]
      cases led <;> rfl
    · exact deref_add_expr_same _ _ _ _ hderef1
    · intro d1 u hne
      have h1 : lean_extension.find_op_for (s1.heap.add_expr (some a) d)
          (lean_extension.insert_expr_to_operator_entry s.here.ext d (some a) ::
            s.ancestors.map (fun c => c.ext)) d1 u =
          lean_extension.find_op_for (s1.heap.add_expr (some a) d) s.chain d1 u := by
        apply find_op_for_cons_congr
        simp [lean_extension.insert_expr_to_operator_entry, table.insert, hne]
      show lean_extension.find_op_for (s1.heap.add_expr (some a) d)
          (lean_extension.insert_expr_to_operator_entry s.here.ext d (some a) ::
            s.ancestors.map (fun c => c.ext)) d1 u = _
      rw [h1]
      apply hkeep
      intro b hb
      by_cases hba : b = a
      · subst hba
        rw [deref_add_expr_same _ _ _ _ hderef1, hderef]; rfl
      · rw [deref_add_expr_other _ _ _ _ hba]
        show Option.map _ (op_heap.deref (s.heap ++ [_]) (some b)) = _
        rw [deref_alloc_old _ _ _ hb]
    · show lean_extension.find_op_for (s1.heap.add_expr (some a) d)
          (lean_extension.insert_expr_to_operator_entry s.here.ext d (some a) ::
            s.ancestors.map (fun c => c.ext)) d true = _
      simp [lean_extension.find_op_for, lean_extension.insert_expr_to_operator_entry, table.insert]
    · exact ⟨[], by simp [add_neutral_object, frontend.set_ext], by simp⟩
  · -- the operator is inherited: a copy is registered
    let s2 : frontend := { s1 with heap := s1.heap ++ [old_i] }
    have hlen : s1.heap.length = s.heap.length + 1 := by
      show (s.heap ++ [_]).length = _; simp
    have hb : s2.heap.deref (some s1.heap.length) = some old_i := deref_alloc_new _ _
    have hres : add_new_op s (mixfix_op f parts prec) d led =
        add_neutral_object (register_new_op s2 (some s1.heap.length) d led)
          (neutral_object.notation_declaration (some s1.heap.length) d) := by
      show add_op s1 (some s.heap.length) d led = _
      unfold add_op; simp only [hcore]
    obtain ⟨b0, hb0⟩ : ∃ b0, s1.heap.length = b0 := ⟨_, rfl⟩
    rw [hb0] at hb hres hlen
    obtain ⟨r1, r2, r3, r4, r5, r6, ds, r7, r8⟩ := register_new_op_spec s2 b0 old_i d led hb
    rw [hres]
    refine ⟨b0, { old_i with m_exprs := d :: old_i.m_exprs }, ?_, ?_, hself2 _ _, rfl,
      ?_, ?_, ?_⟩
    · simp only [add_neutral_object, frontend.chain, lean_extension.find_op]
      cases led with
      | true => simp [lean_extension.find_led, r4, table.insert, hparts]
      | false => simp [lean_extension.find_nud, r3, table.insert, hparts]
    · simp only [add_neutral_object, r1]
      exact deref_add_expr_same _ _ _ _ hb
    · intro d1 u hne
      simp only [add_neutral_object, frontend.chain, r1, r2]
      have h1 : lean_extension.find_op_for (s2.heap.add_expr (some b0) d)
          ((register_new_op s2 (some b0) d led).here.ext ::
            s2.ancestors.map (fun c => c.ext)) d1 u =
          lean_extension.find_op_for (s2.heap.add_expr (some b0) d) s.chain d1 u := by
        apply find_op_for_cons_congr
        rw [r5]
        simp only [table.insert, hne, if_false]
      rw [h1]
      apply hkeep
      intro b hb'
      have hne' : b ≠ b0 := by omega
      rw [deref_add_expr_other _ _ _ _ hne']
      show Option.map _ (op_heap.deref ((s.heap ++ [_]) ++ [_]) (some b)) = _
      rw [deref_alloc_old _ _ _ (by simp; omega), deref_alloc_old _ _ _ hb']
    · simp only [add_neutral_object, frontend.chain, r1, r2]
      simp [lean_extension.find_op_for, r5, table.insert]
    · exact ⟨ds, by simp only [add_neutral_object, r7], r8⟩

/-- The loop of `remove_bindings` brings no handle into the tables. -/
theorem remove_bindings_holds (h : op_heap) (parent : List lean_extension) (e : lean_extension)
    (op : op_ref) (b : Nat) (hb : (lean_extension.remove_bindings h parent e op).holds b) :
    e.holds b := by
  unfold lean_extension.remove_bindings at hb
  cases hd : h.deref op with
  | none => simpa [hd] using hb
  | some i =>
    simp only [hd] at hb
    obtain ⟨f1, f2, _, _⟩ := remove_binding_foldl_frame h parent i.m_exprs e
    rcases hb with ⟨n, hn⟩ | ⟨n, hn⟩ | ⟨d, l, hl, hm⟩
    · exact Or.inl ⟨n, by rw [← f1]; exact hn⟩
    · exact Or.inr (Or.inl ⟨n, by rw [← f2]; exact hn⟩)
    · rw [remove_binding_foldl] at hl
      by_cases hmem : d ∈ i.m_exprs
      · simp only [hmem, if_true] at hl
        split at hl
        · simp only [Option.some.injEq] at hl
          subst hl
          simp at hm
        · simp at hl
      · simp only [hmem, if_false] at hl
        exact Or.inr (Or.inr ⟨d, l, hl, hm⟩)

/-- The only handle `register_new_op` brings into the tables is the one registered. -/
theorem register_new_op_holds (s : frontend) (a : Nat) (i : operator_info.imp) (d : expr) (led : Bool)
    (hi : s.heap.deref (some a) = some i) (b : Nat)
    (hb : (register_new_op s (some a) d led).here.ext.holds b) :
    s.here.ext.holds b ∨ b = a := by
  obtain ⟨_, _, r3, r4, r5, _, _⟩ := register_new_op_spec s a i d led hi
  rcases hb with ⟨n, hn⟩ | ⟨n, hn⟩ | ⟨d1, l, hl, hm⟩
  · rw [r3] at hn
    cases led with
    | true => exact Or.inl (Or.inl ⟨n, by simpa using hn⟩)
    | false =>
      simp only [Bool.false_eq_true, if_false, table.insert] at hn
      split at hn
      · right; simp at hn; exact hn.symm
      · exact Or.inl (Or.inl ⟨n, hn⟩)
  · rw [r4] at hn
    cases led with
    | false => exact Or.inl (Or.inr (Or.inl ⟨n, by simpa using hn⟩))
    | true =>
      simp only [if_true, table.insert] at hn
      split at hn
      · right; simp at hn; exact hn.symm
      · exact Or.inl (Or.inr (Or.inl ⟨n, hn⟩))
  · rw [r5] at hl
    simp only [table.insert] at hl
    split at hl
    · rename_i hd
      simp only [Option.some.injEq] at hl
      subst hl
      rcases List.mem_cons.1 hm with h1 | h1
      · right; simp at h1; exact h1
      · left
        cases hold : s.here.ext.m_expr_to_operators d with
        | none => simp [hold] at h1
        | some l0 =>
          simp only [hold, Option.getD_some] at h1
          exact Or.inr (Or.inr ⟨d, l0, hold, h1⟩)
    · exact Or.inl (Or.inr (Or.inr ⟨d1, l, hl, hm⟩))

/-- The loop of `remove_bindings` leaves the table of implicit arguments alone. -/
theorem remove_bindings_implicit (h : op_heap) (parent : List lean_extension) (e : lean_extension)
    (op : op_ref) :
    (lean_extension.remove_bindings h parent e op).m_implicit_table = e.m_implicit_table := by
  unfold lean_extension.remove_bindings
  cases h.deref op with
  | none => rfl
  | some i => exact (remove_binding_foldl_frame h parent i.m_exprs e).2.2.2

/-- An operator found for a token and defined here is held by the tables of the extension. -/
theorem defined_here_holds (h : op_heap) (e : lean_extension) (parent : List lean_extension)
    (led : Bool) (b : Nat) (c : operator_info.imp)
    (hfind : lean_extension.find_op (e :: parent) (c.m_op_parts.headD name.anonymous) led = some b)
    (hd : h.deref (some b) = some c)
    (hdh : lean_extension.defined_here h e (some b) led = true) : e.holds b := by
  unfold lean_extension.defined_here at hdh
  simp only [hd, lean_extension.get_op_name] at hdh
  cases led with
  | true =>
    simp only [if_true] at hdh
    simp only [lean_extension.find_op, if_true, lean_extension.find_led] at hfind
    cases hm : e.m_led (c.m_op_parts.headD name.anonymous) with
    | none => rw [hm] at hdh; simp at hdh
    | some op =>
      simp only [hm] at hfind
      exact Or.inr (Or.inl ⟨_, by rw [hm, hfind]⟩)
  | false =>
    simp only [Bool.false_eq_true, if_false] at hdh
    simp only [lean_extension.find_op, Bool.false_eq_true, if_false, lean_extension.find_nud] at hfind
    cases hm : e.m_nud (c.m_op_parts.headD name.anonymous) with
    | none => rw [hm] at hdh; simp at hdh
    | some op =>
      simp only [hm] at hfind
      exact Or.inl ⟨_, by rw [hm, hfind]⟩

/-- The four ways through `add_op`: no operator for the token, overload of a local operator,
overload of an inherited operator (copied), conflict. -/
theorem add_op_core_cases (s : frontend) (n : Nat) (i : operator_info.imp) (d : expr) (led : Bool)
    (hn : s.heap.deref (some n) = some i) :
    (lean_extension.find_op s.chain (i.m_op_parts.headD name.anonymous) led = none ∧
      add_op_core s (some n) d led = (register_new_op s (some n) d led, some n)) ∨
    (∃ a c, lean_extension.find_op s.chain (i.m_op_parts.headD name.anonymous) led = some a ∧
      s.heap.deref (some a) = some c ∧ operator_info.eq (some c) (some i) = true ∧
      lean_extension.compatible_denotations s.heap s.chain (some a) d = true ∧
      lean_extension.defined_here s.heap s.here.ext (some a) led = true ∧
      add_op_core s (some n) d led =
        ({ (s.set_ext (lean_extension.insert_expr_to_operator_entry s.here.ext d (some a))) with
            heap := s.heap.add_expr (some a) d }, some n)) ∨
    (∃ a c, lean_extension.find_op s.chain (i.m_op_parts.headD name.anonymous) led = some a ∧
      s.heap.deref (some a) = some c ∧ operator_info.eq (some c) (some i) = true ∧
      lean_extension.compatible_denotations s.heap s.chain (some a) d = true ∧
      lean_extension.defined_here s.heap s.here.ext (some a) led = false ∧
      add_op_core s (some n) d led =
        (register_new_op { s with heap := s.heap ++ [c] } (some s.heap.length) d led,
          some s.heap.length)) ∨
    (∃ dg a, lean_extension.find_op s.chain (i.m_op_parts.headD name.anonymous) led = some a ∧
      (operator_info.eq (s.heap.deref (some a)) (some i) = false ∨
        lean_extension.compatible_denotations s.heap s.chain (some a) d = false) ∧
      (dg = diagnostic.notation_redefined (some a) (some n) ∨
        dg = diagnostic.denotations_replaced (some a) d) ∧
      add_op_core s (some n) d led =
        (register_new_op (conflict_state s dg (some a)) (some n) d led, some n)) := by
  cases hf : lean_extension.find_op s.chain (i.m_op_parts.headD name.anonymous) led with
  | none =>
    left
    refine ⟨rfl, ?_⟩
    unfold add_op_core
    simp only [hn, lean_extension.get_op_name, hf, Option.isNone_none, if_true]
  | some a =>
    right
    cases hd : s.heap.deref (some a) with
    | none =>
      right; right
      refine ⟨_, a, rfl, Or.inl (by rw [hd]; simp [operator_info.eq]), Or.inl rfl, ?_⟩
      unfold add_op_core
      have he : operator_info.eq none (some i) = false := by simp [operator_info.eq]
      simp only [hn, lean_extension.get_op_name, hf, hd, he, Option.isNone_some, Bool.false_eq_true,
        if_false]
      rfl
    | some c =>
      by_cases heq : operator_info.eq (some c) (some i) = true
      · by_cases hcompat : lean_extension.compatible_denotations s.heap s.chain (some a) d = true
        · rcases add_op_core_overload s n a i c d led hn hf hd heq hcompat with ⟨h1, h2⟩ | ⟨h1, h2⟩
          · left; exact ⟨a, c, rfl, hd, heq, hcompat, h1, h2⟩
          · right; left; exact ⟨a, c, rfl, hd, heq, hcompat, h1, h2⟩
        · right; right
          simp only [Bool.not_eq_true] at hcompat
          obtain ⟨dg, hdg, hcore⟩ := add_op_core_conflict s n a i c d led hn hf hd (Or.inr hcompat)
          exact ⟨dg, a, rfl, Or.inr hcompat, hdg, hcore⟩
      · right; right
        simp only [Bool.not_eq_true] at heq
        obtain ⟨dg, hdg, hcore⟩ := add_op_core_conflict s n a i c d led hn hf hd (Or.inl heq)
        exact ⟨dg, a, rfl, Or.inl (by rw [hd]; exact heq), hdg, hcore⟩

/-- A registration leaves the ancestors as they are, makes one or two new cells, and the
handles held by the tables afterwards are those held before and handles of new cells. -/
theorem add_new_op_frame (s : frontend) (i : operator_info.imp) (d : expr) (led : Bool) :
    (add_new_op s i d led).ancestors = s.ancestors ∧
    s.heap.length < (add_new_op s i d led).heap.length ∧
    (add_new_op s i d led).here.ext.m_implicit_table = s.here.ext.m_implicit_table ∧
    ∀ b, (add_new_op s i d led).here.ext.holds b →
      s.here.ext.holds b ∨ (s.heap.length ≤ b ∧ b < (add_new_op s i d led).heap.length) := by
  let s1 : frontend := { s with heap := s.heap ++ [i] }
  have hn : s1.heap.deref (some s.heap.length) = some i := deref_alloc_new _ _
  have hlen1 : s1.heap.length = s.heap.length + 1 := by
    show (s.heap ++ [_]).length = _; simp
  have hunf : add_new_op s i d led =
      add_neutral_object (add_op_core s1 (some s.heap.length) d led).1
        (neutral_object.notation_declaration (add_op_core s1 (some s.heap.length) d led).2 d) := rfl
  rw [hunf]
  simp only [add_neutral_object]
  -- the shape shared by the branches that call `register_new_op`
  have hreg : ∀ (S : frontend) (m : Nat) (c : operator_info.imp),
      S.heap.deref (some m) = some c → S.ancestors = s.ancestors →
      s.heap.length < S.heap.length → s.heap.length ≤ m → m < S.heap.length →
      S.here.ext.m_implicit_table = s.here.ext.m_implicit_table →
      (∀ b, S.here.ext.holds b → s.here.ext.holds b) →
      (register_new_op S (some m) d led).ancestors = s.ancestors ∧
      s.heap.length < (register_new_op S (some m) d led).heap.length ∧
      (register_new_op S (some m) d led).here.ext.m_implicit_table = s.here.ext.m_implicit_table ∧
      ∀ b, (register_new_op S (some m) d led).here.ext.holds b →
        s.here.ext.holds b ∨ (s.heap.length ≤ b ∧ b < (register_new_op S (some m) d led).heap.length) := by
    intro S m c hc hanc hl1 hl2 hl3 himp hh
    obtain ⟨r1, r2, _, _, _, r6, _⟩ := register_new_op_spec S m c d led hc
    refine ⟨by rw [r2, hanc], by rw [r1, add_expr_length]; exact hl1, by rw [r6, himp], ?_⟩
    intro b hb
    rcases register_new_op_holds S m c d led hc b hb with h | h
    · exact Or.inl (hh b h)
    · right; subst h; rw [r1, add_expr_length]; exact ⟨hl2, hl3⟩
  rcases add_op_core_cases s1 s.heap.length i d led hn with
    ⟨_, hcore⟩ | ⟨a, c, hf, hc, heq, _, hdh, hcore⟩ | ⟨a, c, _, hc, _, _, _, hcore⟩ | ⟨dg, a, _, _, _, hcore⟩
  · rw [hcore]
    exact hreg s1 _ i hn rfl (by omega) (Nat.le_refl _) (by omega) rfl (fun b hb => hb)
  · rw [hcore]
    have hparts : c.m_op_parts = i.m_op_parts := operator_info_eq_parts _ _ heq
    have hheld : s.here.ext.holds a :=
      defined_here_holds s1.heap s.here.ext (s.ancestors.map (fun c => c.ext)) led a c
        (by rw [hparts]; exact hf) hc hdh
    refine ⟨rfl, ?_, rfl, ?_⟩
    · show _ < (op_heap.add_expr s1.heap (some a) d).length
      rw [add_expr_length]; omega
    · intro b hb
      rcases hb with ⟨m, hm'⟩ | ⟨m, hm'⟩ | ⟨d1, l, hl, hm⟩
      · exact Or.inl (Or.inl ⟨m, hm'⟩)
      · exact Or.inl (Or.inr (Or.inl ⟨m, hm'⟩))
      · simp only [frontend.set_ext, lean_extension.insert_expr_to_operator_entry,
          table.insert] at hl
        split at hl
        · simp only [Option.some.injEq] at hl
          subst hl
          rcases List.mem_cons.1 hm with h1 | h1
          · left
            simp only [Option.some.injEq] at h1
            subst h1
            exact hheld
          · left
            cases hold : s.here.ext.m_expr_to_operators d with
            | none => simp [s1, hold] at h1
            | some l0 =>
              simp only [s1, hold, Option.getD_some] at h1
              exact Or.inr (Or.inr ⟨d, l0, hold, h1⟩)
        · exact Or.inl (Or.inr (Or.inr ⟨d1, l, hl, hm⟩))
  · rw [hcore]
    have hc' : ({ s1 with heap := s1.heap ++ [c] } : frontend).heap.deref (some s1.heap.length) = some c :=
      deref_alloc_new _ _
    exact hreg _ _ c hc' rfl (by show _ < (s1.heap ++ [c]).length; simp [s1]) (by omega)
      (by show _ < (s1.heap ++ [c]).length; simp) rfl (fun b hb => hb)
  · rw [hcore]
    exact hreg (conflict_state s1 dg (some a)) _ i hn rfl (by show _ < s1.heap.length; omega)
      (Nat.le_refl _) (by show _ < s1.heap.length; omega)
      (remove_bindings_implicit _ _ _ _) (fun b hb => remove_bindings_holds _ _ _ _ b hb)

/-- What a successful `mark_implicit_arguments` has checked and done. -/
theorem mark_implicit_arguments_ok (s s1 : frontend) (n : name) (implicit : List Bool)
    (h : mark_implicit_arguments s n implicit = Except.ok s1) :
    s.here.has_children = false ∧
    ∃ obj explicit_version,
      find_object s.cells n = some obj ∧
      lean_extension.has_implicit_arguments s.chain n = false ∧
      lean_extension.mk_explicit_name n = some explicit_version ∧
      find_object s.cells explicit_version = none ∧
      implicit.length ≤ lean_extension.count_pi obj.get_type ∧
      lean_extension.trim_explicit_suffix implicit implicit.length ≠ 0 ∧
      s1.heap = s.heap ∧ s1.ancestors = s.ancestors ∧ s1.ios = s.ios ∧
      s1.here.has_children = false ∧
      s1.here.neutral = s.here.neutral ++ [neutral_object.mark_implicit_command n
        (implicit.take (lean_extension.trim_explicit_suffix implicit implicit.length))] ∧
      s1.here.ext = { s.here.ext with
        m_implicit_table := s.here.ext.m_implicit_table.insert n
          (implicit.take (lean_extension.trim_explicit_suffix implicit implicit.length), explicit_version),
        m_explicit_names := fun x => if x = explicit_version then true else s.here.ext.m_explicit_names x } := by
  unfold mark_implicit_arguments at h
  by_cases hc : s.here.has_children = true
  · simp [hc] at h
  · simp only [hc, Bool.false_eq_true, if_false] at h
    cases ho : find_object s.cells n with
    | none => simp [ho] at h
    | some obj =>
      simp only [ho] at h
      split at h
      · simp at h
      · split at h
        · simp at h
        · rename_i himp
          cases he : lean_extension.mk_explicit_name n with
          | none => simp [he] at h
          | some ev =>
            simp only [he] at h
            split at h
            · simp at h
            · rename_i hfo
              split at h
              · simp at h
              · rename_i hlen
                split at h
                · simp at h
                · rename_i hsz
                  simp only [Except.ok.injEq] at h
                  subst h
                  refine ⟨by simpa using hc, obj, ev, rfl, by simpa using himp, rfl, ?_, by omega, hsz,
                    rfl, rfl, rfl, ?_, rfl, rfl⟩
                  · cases hf : find_object s.cells ev with
                    | none => rfl
                    | some o => simp [hf] at hfo
                  · simpa [add_neutral_object, frontend.set_ext] using hc

/-- A successful `add_coercion` leaves the store of cells, the ancestors, the notation tables
and the table of implicit arguments as they are. -/
theorem add_coercion_ok_frame (tc : expr → Option expr) (fuel : Nat) (s s1 : frontend) (f : expr)
    (h : add_coercion tc fuel s f = Except.ok s1) :
    s1.heap = s.heap ∧ s1.ancestors = s.ancestors ∧ s1.ios = s.ios ∧
    s1.here.ext.m_nud = s.here.ext.m_nud ∧ s1.here.ext.m_led = s.here.ext.m_led ∧
    s1.here.ext.m_other_lbp = s.here.ext.m_other_lbp ∧
    s1.here.ext.m_expr_to_operators = s.here.ext.m_expr_to_operators ∧
    s1.here.ext.m_implicit_table = s.here.ext.m_implicit_table := by
  unfold add_coercion at h
  cases ht : tc f with
  | none => simp [ht] at h
  | some ty =>
    simp only [ht] at h
    split at h
    · simp at h
    · split at h
      · split at h
        · simp at h
        · split at h
          · simp at h
          · simp only [Except.ok.injEq] at h
            subst h
            simp [add_neutral_object, frontend.set_ext]
      · simp at h

/-- A successful `add_alias` leaves the store of cells, the ancestors, the notation tables
and the table of implicit arguments as they are. -/
theorem add_alias_ok_frame (s s1 : frontend) (n : name) (e : expr)
    (h : add_alias s n e = Except.ok s1) :
    s1.heap = s.heap ∧ s1.ancestors = s.ancestors ∧ s1.ios = s.ios ∧
    s1.here.ext.m_nud = s.here.ext.m_nud ∧ s1.here.ext.m_led = s.here.ext.m_led ∧
    s1.here.ext.m_other_lbp = s.here.ext.m_other_lbp ∧
    s1.here.ext.m_expr_to_operators = s.here.ext.m_expr_to_operators ∧
    s1.here.ext.m_implicit_table = s.here.ext.m_implicit_table := by
  unfold add_alias at h
  split at h
  · simp at h
  · simp only [Except.ok.injEq] at h
    subst h
    simp [add_neutral_object, frontend.set_ext]

/-- The operations other than a registration and the creation of a child leave the store
of cells, the ancestors and the notation tables as they are. -/
theorem apply_other_frame (s : frontend) (op : frontend_op)
    (hreg : ∀ f parts prec d led, op ≠ frontend_op.register f parts prec d led)
    (hchild : op ≠ frontend_op.child) :
    (s.apply op).heap = s.heap ∧ (s.apply op).ancestors = s.ancestors ∧
    (s.apply op).here.ext.m_nud = s.here.ext.m_nud ∧
    (s.apply op).here.ext.m_led = s.here.ext.m_led ∧
    (s.apply op).here.ext.m_expr_to_operators = s.here.ext.m_expr_to_operators := by
  cases op with
  | register f parts prec d led => exact absurd rfl (hreg f parts prec d led)
  | child => exact absurd rfl hchild
  | mark_implicit n implicit =>
    simp only [frontend.apply]
    cases h : mark_implicit_arguments s n implicit with
    | error e => simp
    | ok s1 =>
      obtain ⟨_, obj, ev, _, _, _, _, _, _, h1, h2, _, _, _, h3⟩ := mark_implicit_arguments_ok s s1 n implicit h
      simp [h1, h2, h3]
  | mk_coercion tc fuel f =>
    simp only [frontend.apply]
    cases h : add_coercion tc fuel s f with
    | error e => simp
    | ok s1 =>
      obtain ⟨h1, h2, _, h3, h4, _, h5, _⟩ := add_coercion_ok_frame tc fuel s s1 f h
      exact ⟨h1, h2, h3, h4, h5⟩
  | mk_alias n e =>
    simp only [frontend.apply]
    cases h : add_alias s n e with
    | error e => simp
    | ok s1 =>
      obtain ⟨h1, h2, _, h3, h4, _, h5, _⟩ := add_alias_ok_frame s s1 n e h
      exact ⟨h1, h2, h3, h4, h5⟩
  | declare o =>
    simp only [frontend.apply, add_object]
    split <;> simp

/-- Handles held only depend on the notation tables. -/
theorem holds_congr (e1 e2 : lean_extension) (b : Nat)
    (h1 : e1.m_nud = e2.m_nud) (h2 : e1.m_led = e2.m_led)
    (h3 : e1.m_expr_to_operators = e2.m_expr_to_operators) : e1.holds b ↔ e2.holds b := by
  unfold lean_extension.holds
  rw [h1, h2, h3]

/-- The fresh extension holds no handle. -/
theorem init_holds (b : Nat) : ¬ lean_extension.init.holds b := by
  intro h
  rcases h with ⟨n, hn⟩ | ⟨n, hn⟩ | ⟨d, l, hl, _⟩
  · simp [lean_extension.init, table.empty] at hn
  · simp [lean_extension.init, table.empty] at hn
  · simp [lean_extension.init, table.empty] at hl

/-- Validity of the handles and separation from the ancestors are kept by every operation. -/
theorem apply_wf (s : frontend) (op : frontend_op) (hv : s.valid) (hs : s.separated) :
    (s.apply op).valid ∧ (s.apply op).separated := by
  by_cases hreg : ∃ f parts prec d led, op = frontend_op.register f parts prec d led
  · obtain ⟨f, parts, prec, d, led, rfl⟩ := hreg
    obtain ⟨h1, h2, _, h4⟩ := add_new_op_frame s (mixfix_op f parts prec) d led
    simp only [frontend.apply]
    constructor
    · intro e he b hb
      simp only [frontend.chain, List.mem_cons] at he
      rcases he with rfl | he
      · rcases h4 b hb with h | h
        · have := hv s.here.ext (by simp [frontend.chain]) b h
          omega
        · exact h.2
      · rw [h1] at he
        have := hv e (by simp [frontend.chain]; right; simpa using he) b hb
        omega
    · intro b hb e he
      rw [h1] at he
      rcases h4 b hb with h | h
      · exact hs b h e he
      · intro hcon
        have := hv e (by simp [frontend.chain]; right; simpa using he) b hcon
        omega
  · by_cases hchild : op = frontend_op.child
    · subst hchild
      simp only [frontend.apply, frontend.mk_child]
      constructor
      · intro e he b hb
        simp only [frontend.chain, List.mem_cons, List.map_cons] at he
        rcases he with rfl | rfl | he
        · exact absurd hb (init_holds b)
        · exact hv s.here.ext (by simp [frontend.chain]) b hb
        · exact hv e (by simp [frontend.chain]; right; simpa using he) b hb
      · intro b hb
        exact absurd hb (init_holds b)
    · obtain ⟨h1, h2, h3, h4, h5⟩ := apply_other_frame s op
        (fun f parts prec d led h => hreg ⟨f, parts, prec, d, led, h⟩) hchild
      constructor
      · intro e he b hb
        rw [h1]
        simp only [frontend.chain, List.mem_cons] at he
        rcases he with rfl | he
        · exact hv s.here.ext (by simp [frontend.chain]) b ((holds_congr _ _ b h3 h4 h5).1 hb)
        · rw [h2] at he
          exact hv e (by simp [frontend.chain]; right; simpa using he) b hb
      · intro b hb e he
        rw [h2] at he
        exact hs b ((holds_congr _ _ b h3 h4 h5).1 hb) e he

/-- Every state reached from the fresh frontend has valid handles, separated from those of
the ancestors. -/
theorem run_wf (ops : List frontend_op) :
    (frontend.init.run ops).valid ∧ (frontend.init.run ops).separated := by
  have hinit : frontend.init.valid ∧ frontend.init.separated := by
    constructor
    · intro e he b hb
      simp [frontend.chain, frontend.init] at he
      subst he
      exact absurd hb (init_holds b)
    · intro b hb
      exact absurd hb (init_holds b)
  have hgen : ∀ (l : List frontend_op) (s : frontend), s.valid ∧ s.separated →
      (s.run l).valid ∧ (s.run l).separated := by
    intro l
    induction l with
    | nil => intro s h; exact h
    | cons op rest ih =>
      intro s h
      exact ih (s.apply op) (apply_wf s op h.1 h.2)
  exact hgen ops _ hinit

/-- C6, counterexample: after `infixl "+" 65` and `prefix "plus" 10` have been registered for
`nat_add`, registering `infixl "+" 65` for `int_add` is an overload (the operator found for
`+` is equal to the new descriptor and `int_add` is compatible with its denotations), yet
afterwards the old denotation `nat_add` resolves through `find_op_for` to `prefix "plus"`,
which is not equal to the descriptor of `+`. -/
theorem add_op_overload_counterexample :
    lean_extension.find_op frontend_with_plus_twice.chain (mk_name "+") true = some 0 ∧
    operator_info.eq (frontend_with_plus_twice.heap.deref (some 0))
      (some (infixl_op (mk_name "+") 65)) = true ∧
    lean_extension.compatible_denotations frontend_with_plus_twice.heap
      frontend_with_plus_twice.chain (some 0) (Const "int_add") = true ∧
    Const "nat_add" ∈ ((frontend_with_plus_twice.heap.deref (some 0)).map (fun i => i.m_exprs)).getD [] ∧
    operator_info.eq
      (( add_infixl frontend_with_plus_twice (mk_name "+") 65 (Const "int_add")).heap.deref
        (lean_extension.find_op_for
          ( add_infixl frontend_with_plus_twice (mk_name "+") 65 (Const "int_add")).heap
          ( add_infixl frontend_with_plus_twice (mk_name "+") 65 (Const "int_add")).chain
          (Const "nat_add") true))
      (( add_infixl frontend_with_plus_twice (mk_name "+") 65 (Const "int_add")).heap.deref
        (lean_extension.find_led
          ( add_infixl frontend_with_plus_twice (mk_name "+") 65 (Const "int_add")).chain
          (mk_name "+"))) = false := by
  decide

/-- C6, scenario: on the frontend with `infixl "+" 65` for `nat_add`, registering
`infixl "+" 65` for `int_add` is an overload. -/
theorem add_op_overload_spec_witness :
    (frontend_with_plus.valid ∧
      lean_extension.find_op frontend_with_plus.chain (mk_name "+") true = some 0 ∧
      frontend_with_plus.heap.deref (some 0) =
        some ⟨fixity.Infixl, 65, [mk_name "+"], [], [Const "nat_add"]⟩) ∧
    ∃ b new_i,
      lean_extension.find_op ( add_infixl frontend_with_plus (mk_name "+") 65 (Const "int_add")).chain
        (mk_name "+") true = some b ∧
      ( add_infixl frontend_with_plus (mk_name "+") 65 (Const "int_add")).heap.deref (some b) = some new_i ∧
      new_i.m_exprs = [Const "int_add", Const "nat_add"] :=
  have hv : frontend_with_plus.valid :=
    (run_wf [frontend_op.register fixity.Infixl [mk_name "+"] 65 (Const "nat_add") true]).1
  have h := add_op_overload_spec frontend_with_plus fixity.Infixl [mk_name "+"] 65 (Const "int_add") true 0
    ⟨fixity.Infixl, 65, [mk_name "+"], [], [Const "nat_add"]⟩ hv (by decide) (by decide)
    (by decide) (by decide)
  ⟨⟨hv, by decide, by decide⟩,
    match h with
    | ⟨b, new_i, h1, h2, _, h4, _⟩ => ⟨b, new_i, h1, h2, h4⟩⟩

/-- A registration leaves alone every cell that was there and whose handle is not held by the
tables of the environment operated on. -/
theorem add_new_op_heap_frame (s : frontend) (i : operator_info.imp) (d : expr) (led : Bool)
    (b : Nat) (hb : b < s.heap.length) (hnot : ¬ s.here.ext.holds b) :
    (add_new_op s i d led).heap.deref (some b) = s.heap.deref (some b) := by
  let s1 : frontend := { s with heap := s.heap ++ [i] }
  have hn : s1.heap.deref (some s.heap.length) = some i := deref_alloc_new _ _
  have hlen1 : s1.heap.length = s.heap.length + 1 := by
    show (s.heap ++ [_]).length = _; simp
  have h1 : s1.heap.deref (some b) = s.heap.deref (some b) := deref_alloc_old _ _ _ hb
  have hunf : add_new_op s i d led =
      add_neutral_object (add_op_core s1 (some s.heap.length) d led).1
        (neutral_object.notation_declaration (add_op_core s1 (some s.heap.length) d led).2 d) := rfl
  rw [hunf]
  simp only [add_neutral_object]
  have hreg : ∀ (S : frontend) (m : Nat) (c : operator_info.imp),
      S.heap.deref (some m) = some c → b ≠ m → S.heap.deref (some b) = s.heap.deref (some b) →
      (register_new_op S (some m) d led).heap.deref (some b) = s.heap.deref (some b) := by
    intro S m c hc hne hS
    obtain ⟨r1, _⟩ := register_new_op_spec S m c d led hc
    rw [r1, deref_add_expr_other _ _ _ _ hne, hS]
  rcases add_op_core_cases s1 s.heap.length i d led hn with
    ⟨_, hcore⟩ | ⟨a, c, hf, hc, heq, _, hdh, hcore⟩ | ⟨a, c, _, hc, _, _, _, hcore⟩ | ⟨dg, a, _, _, _, hcore⟩
  · rw [hcore]
    exact hreg s1 _ i hn (by omega) h1
  · rw [hcore]
    have hparts : c.m_op_parts = i.m_op_parts := operator_info_eq_parts _ _ heq
    have hheld : s.here.ext.holds a :=
      defined_here_holds s1.heap s.here.ext (s.ancestors.map (fun c => c.ext)) led a c
        (by rw [hparts]; exact hf) hc hdh
    have hne : b ≠ a := by
      intro h; subst h; exact hnot hheld
    show op_heap.deref (op_heap.add_expr s1.heap (some a) d) (some b) = _
    rw [deref_add_expr_other _ _ _ _ hne, h1]
  · rw [hcore]
    have hc' : ({ s1 with heap := s1.heap ++ [c] } : frontend).heap.deref (some s1.heap.length) = some c :=
      deref_alloc_new _ _
    refine hreg _ _ c hc' (by omega) ?_
    show op_heap.deref (s1.heap ++ [c]) (some b) = _
    rw [deref_alloc_old _ _ _ (by omega), h1]
  · rw [hcore]
    exact hreg (conflict_state s1 dg (some a)) _ i hn (by omega) h1

/-- An operator found by `find_nud` is held by the tables of a level. -/
theorem find_nud_holds (c : List lean_extension) (n : name) (b : Nat)
    (h : lean_extension.find_nud c n = some b) : ∃ e ∈ c, e.holds b := by
  induction c with
  | nil => simp [lean_extension.find_nud] at h
  | cons e parent ih =>
    simp only [lean_extension.find_nud] at h
    cases hm : e.m_nud n with
    | none =>
      rw [hm] at h
      obtain ⟨e1, he1, hh⟩ := ih h
      exact ⟨e1, List.mem_cons_of_mem _ he1, hh⟩
    | some op =>
      rw [hm] at h
      exact ⟨e, List.mem_cons_self _ _, Or.inl ⟨n, by rw [hm]; exact congrArg some h⟩⟩

/-- An operator found by `find_led` is held by the tables of a level. -/
theorem find_led_holds (c : List lean_extension) (n : name) (b : Nat)
    (h : lean_extension.find_led c n = some b) : ∃ e ∈ c, e.holds b := by
  induction c with
  | nil => simp [lean_extension.find_led] at h
  | cons e parent ih =>
    simp only [lean_extension.find_led] at h
    cases hm : e.m_led n with
    | none =>
      rw [hm] at h
      obtain ⟨e1, he1, hh⟩ := ih h
      exact ⟨e1, List.mem_cons_of_mem _ he1, hh⟩
    | some op =>
      rw [hm] at h
      exact ⟨e, List.mem_cons_self _ _, Or.inr (Or.inl ⟨n, by rw [hm]; exact congrArg some h⟩)⟩

/-- An operator found by `find_op_for` is held by the tables of a level. -/
theorem find_op_for_holds (hp : op_heap) (c : List lean_extension) (d : expr) (u : Bool) (b : Nat)
    (h : lean_extension.find_op_for hp c d u = some b) : ∃ e ∈ c, e.holds b := by
  induction c with
  | nil => simp [lean_extension.find_op_for] at h
  | cons e parent ih =>
    simp only [lean_extension.find_op_for] at h
    cases hm : e.m_expr_to_operators d with
    | none =>
      rw [hm] at h
      obtain ⟨e1, he1, hh⟩ := ih h
      exact ⟨e1, List.mem_cons_of_mem _ he1, hh⟩
    | some l =>
      rw [hm] at h
      simp only at h
      cases hf : l.find? (fun op => u || lean_extension.is_safe_ascii hp op) with
      | none =>
        rw [hf] at h
        obtain ⟨e1, he1, hh⟩ := ih h
        exact ⟨e1, List.mem_cons_of_mem _ he1, hh⟩
      | some op =>
        rw [hf] at h
        simp only at h
        subst h
        exact ⟨e, List.mem_cons_self _ _, Or.inr (Or.inr ⟨d, l, hm, List.mem_of_find?_eq_some hf⟩)⟩

/-- C10: registering a notation on a frontend never changes its parent: the tables of the
ancestors are the same, every cell held by them has the same content (denotations
included), and `find_nud`, `find_led`, `get_lbp` and `find_op_for` asked of the parent give
the same descriptors with the same content before and after; this covers the overload of
an operator that lives only in the parent, which is copied. -/
theorem register_preserves_parent (s : frontend) (f : fixity) (parts : List name) (prec : Nat)
    (d : expr) (led : Bool) (hv : s.valid) (hs : s.separated) :
    (add_new_op s (mixfix_op f parts prec) d led).parent_chain = s.parent_chain ∧
    (∀ e ∈ s.parent_chain, ∀ b, e.holds b →
      (add_new_op s (mixfix_op f parts prec) d led).heap.deref (some b) = s.heap.deref (some b)) ∧
    (∀ n, (add_new_op s (mixfix_op f parts prec) d led).heap.deref
        (lean_extension.find_nud (add_new_op s (mixfix_op f parts prec) d led).parent_chain n) =
      s.heap.deref (lean_extension.find_nud s.parent_chain n)) ∧
    (∀ n, (add_new_op s (mixfix_op f parts prec) d led).heap.deref
        (lean_extension.find_led (add_new_op s (mixfix_op f parts prec) d led).parent_chain n) =
      s.heap.deref (lean_extension.find_led s.parent_chain n)) ∧
    (∀ n, lean_extension.get_lbp (add_new_op s (mixfix_op f parts prec) d led).heap
        (add_new_op s (mixfix_op f parts prec) d led).parent_chain n =
      lean_extension.get_lbp s.heap s.parent_chain n) ∧
    (∀ d1 u, lean_extension.find_op_for (add_new_op s (mixfix_op f parts prec) d led).heap
        (add_new_op s (mixfix_op f parts prec) d led).parent_chain d1 u =
      lean_extension.find_op_for s.heap s.parent_chain d1 u) ∧
    (∀ d1 u, (add_new_op s (mixfix_op f parts prec) d led).heap.deref
        (lean_extension.find_op_for s.heap s.parent_chain d1 u) =
      s.heap.deref (lean_extension.find_op_for s.heap s.parent_chain d1 u)) := by
  obtain ⟨h1, _, _, _⟩ := add_new_op_frame s (mixfix_op f parts prec) d led
  have hpc : (add_new_op s (mixfix_op f parts prec) d led).parent_chain = s.parent_chain := by
    simp only [frontend.parent_chain, h1]
  have hcell : ∀ e ∈ s.parent_chain, ∀ b, e.holds b →
      (add_new_op s (mixfix_op f parts prec) d led).heap.deref (some b) = s.heap.deref (some b) := by
    intro e he b hb
    apply add_new_op_heap_frame
    · exact hv e (by simp only [frontend.chain, List.mem_cons]; right; exact he) b hb
    · intro hhere
      exact hs b hhere e he hb
  have href : ∀ r : op_ref, (∀ b, r = some b → ∃ e ∈ s.parent_chain, e.holds b) →
      (add_new_op s (mixfix_op f parts prec) d led).heap.deref r = s.heap.deref r := by
    intro r hr
    cases r with
    | none => rfl
    | some b =>
      obtain ⟨e, he, hb⟩ := hr b rfl
      exact hcell e he b hb
  have hnud : ∀ n, (add_new_op s (mixfix_op f parts prec) d led).heap.deref
      (lean_extension.find_nud s.parent_chain n) = s.heap.deref (lean_extension.find_nud s.parent_chain n) :=
    fun n => href _ (fun b hb => find_nud_holds _ _ _ hb)
  have hled : ∀ n, (add_new_op s (mixfix_op f parts prec) d led).heap.deref
      (lean_extension.find_led s.parent_chain n) = s.heap.deref (lean_extension.find_led s.parent_chain n) :=
    fun n => href _ (fun b hb => find_led_holds _ _ _ hb)
  refine ⟨hpc, hcell, ?_, ?_, ?_, ?_, ?_⟩
  · intro n; rw [hpc]; exact hnud n
  · intro n; rw [hpc]; exact hled n
  · intro n; rw [hpc]; simp only [lean_extension.get_lbp, hled n]
  · intro d1 u
    rw [hpc]
    apply find_op_for_heap_congr
    intro e he l b hl hb
    rw [hcell e he b (Or.inr (Or.inr ⟨d1, l, hl, hb⟩))]
  · intro d1 u
    exact href _ (fun b hb => find_op_for_holds _ _ _ _ _ hb)

/-- C10, scenario: on a child of the frontend with `infixl "+" 65` for `nat_add`, registering
`infixl "+" 65` for `int_add` (an overload of the operator of the parent) leaves the
descriptor of the parent with the single denotation `nat_add`, while the child finds a
descriptor with both. -/
theorem register_preserves_parent_witness :
    (child_of_frontend_with_plus.valid ∧ child_of_frontend_with_plus.separated) ∧
    ( add_infixl child_of_frontend_with_plus (mk_name "+") 65 (Const "int_add")).heap.deref
        (lean_extension.find_led
          ( add_infixl child_of_frontend_with_plus (mk_name "+") 65 (Const "int_add")).parent_chain
          (mk_name "+")) =
      some ⟨fixity.Infixl, 65, [mk_name "+"], [], [Const "nat_add"]⟩ ∧
    ( add_infixl child_of_frontend_with_plus (mk_name "+") 65 (Const "int_add")).heap.deref
        (lean_extension.find_led
          ( add_infixl child_of_frontend_with_plus (mk_name "+") 65 (Const "int_add")).chain
          (mk_name "+")) =
      some ⟨fixity.Infixl, 65, [mk_name "+"], [], [Const "int_add", Const "nat_add"]⟩ :=
  have hw : child_of_frontend_with_plus.valid ∧ child_of_frontend_with_plus.separated :=
    run_wf [frontend_op.register fixity.Infixl [mk_name "+"] 65 (Const "nat_add") true,
      frontend_op.child]
  have h := register_preserves_parent child_of_frontend_with_plus fixity.Infixl [mk_name "+"] 65
    (Const "int_add") true hw.1 hw.2
  ⟨hw, (h.2.2.2.1 (mk_name "+")).trans (by decide), by decide⟩

/-- C9, evaluation at the failing input: on a frontend that has children
`mark_implicit_arguments` throws (read-only), but registering `infixl "+" 65` for `nat_add`
throws nothing and binds `+` in the led table, and `add_alias` succeeds and records the
alias. -/
theorem mutation_on_frozen_frontend :
    frozen_frontend.here.has_children = true ∧
    mark_implicit_arguments frozen_frontend (mk_name "f") [true] = Except.error frontend_error.read_only ∧
    lean_extension.find_led frozen_frontend.chain (mk_name "+") = none ∧
    lean_extension.find_led ( add_infixl frozen_frontend (mk_name "+") 65 (Const "nat_add")).chain
      (mk_name "+") = some 0 ∧
    ( add_infixl frozen_frontend (mk_name "+") 65 (Const "nat_add")).heap.deref (some 0) =
      some ⟨fixity.Infixl, 65, [mk_name "+"], [], [Const "nat_add"]⟩ ∧
    lean_extension.get_alias frozen_frontend.chain (mk_name "a") = none ∧
    (match add_alias frozen_frontend (mk_name "a") (Const "b") with
      | Except.ok s1 => lean_extension.get_alias s1.chain (mk_name "a")
      | Except.error _ => none) = some (Const "b") :=
  ⟨by decide, rfl, by decide, by decide, by decide, by decide, by decide⟩

/-- The iterator of `std::find(.., false)` is the list without its leading implicit flags. -/
theorem find_false_eq_dropWhile (l : List Bool) :
    lean_extension.find_false l = l.dropWhile (fun b => b) := by
  induction l with
  | nil => rfl
  | cons b rest ih =>
    cases b with
    | true => simp [lean_extension.find_false, ih]
    | false => simp [lean_extension.find_false]

/-- The loop of `compatible_denotation` answers true exactly on equal flag lists. -/
theorem compatible_loop_iff (l1 l2 : List Bool) :
    lean_extension.compatible_loop l1 l2 = true ↔ l1 = l2 := by
  induction l1 generalizing l2 with
  | nil => cases l2 <;> simp [lean_extension.compatible_loop]
  | cons a as ih =>
    cases l2 with
    | nil => simp [lean_extension.compatible_loop]
    | cons b bs =>
      simp only [lean_extension.compatible_loop]
      by_cases hab : a = b
      · simp [hab, ih]
      · simp [hab]

/-- Dropping the leading implicit flags of a list that is empty or ends with an implicit flag
leaves a list that is empty or ends with an implicit flag. -/
theorem dropWhile_last (l : List Bool) (h : l = [] ∨ l.getLast? = some true) :
    l.dropWhile (fun b => b) = [] ∨ (l.dropWhile (fun b => b)).getLast? = some true := by
  induction l with
  | nil => left; rfl
  | cons b rest ih =>
    cases b with
    | false => right; simpa using h
    | true =>
      simp only [List.dropWhile_cons_of_pos]
      apply ih
      cases rest with
      | nil => left; rfl
      | cons c cs =>
        right
        rcases h with h | h
        · simp at h
        · simpa [List.getLast?_cons_cons] using h

/-- On a list that is empty or ends with an implicit flag, stripping is dropping the leading
implicit flags. -/
theorem strip_flags_of_trimmed (l : List Bool) (h : l = [] ∨ l.getLast? = some true) :
    strip_flags l = l.dropWhile (fun b => b) := by
  unfold strip_flags
  rcases dropWhile_last l h with h1 | h1
  · rw [h1]; rfl
  · generalize l.dropWhile (fun b => b) = m at h1
    have : m.reverse.head? = some true := by simpa using h1
    cases hr : m.reverse with
    | nil => rw [hr] at this; simp at this
    | cons x xs =>
      rw [hr] at this
      simp only [List.head?_cons, Option.some.injEq] at this
      subst this
      simp only [List.dropWhile_cons, Bool.not_true, Bool.false_eq_true, if_false]
      rw [← hr, List.reverse_reverse]

/-- The loop trimming the explicit suffix stops below an implicit flag. -/
theorem trim_explicit_suffix_spec (implicit : List Bool) (k : Nat) (hk : k ≤ implicit.length)
    (h : lean_extension.trim_explicit_suffix implicit k ≠ 0) :
    lean_extension.trim_explicit_suffix implicit k ≤ implicit.length ∧
    implicit[lean_extension.trim_explicit_suffix implicit k - 1]? = some true := by
  induction k with
  | zero => simp [lean_extension.trim_explicit_suffix] at h
  | succ m ih =>
    simp only [lean_extension.trim_explicit_suffix] at h ⊢
    by_cases hb : (!(implicit.getD m false)) = true
    · simp only [hb, if_true] at h ⊢
      exact ih (by omega) h
    · simp only [hb, if_false] at h ⊢
      refine ⟨hk, ?_⟩
      have hm : m < implicit.length := by omega
      rw [List.getD_eq_getElem?_getD, List.getElem?_eq_getElem hm] at hb
      show implicit[m + 1 - 1]? = some true
      rw [Nat.add_sub_cancel, List.getElem?_eq_getElem hm]
      simpa using hb

/-- The flags recorded by `mark_implicit_arguments` end with an implicit flag. -/
theorem take_trim_last (implicit : List Bool)
    (h : lean_extension.trim_explicit_suffix implicit implicit.length ≠ 0) :
    (implicit.take (lean_extension.trim_explicit_suffix implicit implicit.length)).getLast? = some true := by
  obtain ⟨h1, h2⟩ := trim_explicit_suffix_spec implicit implicit.length (Nat.le_refl _) h
  rw [List.getLast?_eq_getElem?, List.length_take, Nat.min_eq_left h1, List.getElem?_take]
  simp only [h2]
  have : lean_extension.trim_explicit_suffix implicit implicit.length - 1 <
      lean_extension.trim_explicit_suffix implicit implicit.length := by omega
  simp [this]

/-- Every operation keeps the recorded flag vectors trimmed. -/
theorem apply_flags_trimmed (s : frontend) (op : frontend_op) (h : s.flags_trimmed) :
    (s.apply op).flags_trimmed := by
  have hframe : ∀ s1 : frontend, s1.ancestors = s.ancestors →
      s1.here.ext.m_implicit_table = s.here.ext.m_implicit_table → s1.flags_trimmed := by
    intro s1 h1 h2 e he n info hn
    simp only [frontend.chain, List.mem_cons] at he
    rcases he with rfl | he
    · rw [h2] at hn
      exact h s.here.ext (by simp [frontend.chain]) n info hn
    · rw [h1] at he
      exact h e (by simp only [frontend.chain, List.mem_cons]; right; exact he) n info hn
  cases op with
  | register f parts prec d led =>
    obtain ⟨h1, _, h3, _⟩ := add_new_op_frame s (mixfix_op f parts prec) d led
    exact hframe _ h1 h3
  | mark_implicit n implicit =>
    simp only [frontend.apply]
    cases hm : mark_implicit_arguments s n implicit with
    | error e => exact h
    | ok s1 =>
      obtain ⟨_, obj, ev, _, _, _, _, _, hsz, _, h2, _, _, _, h3⟩ := mark_implicit_arguments_ok s s1 n implicit hm
      intro e he m info hn
      simp only [frontend.chain, List.mem_cons] at he
      rcases he with rfl | he
      · rw [h3] at hn
        simp only [table.insert] at hn
        split at hn
        · simp only [Option.some.injEq] at hn
          subst hn
          exact take_trim_last implicit hsz
        · exact h s.here.ext (by simp [frontend.chain]) m info hn
      · rw [h2] at he
        exact h e (by simp only [frontend.chain, List.mem_cons]; right; exact he) m info hn
  | mk_coercion tc fuel f =>
    simp only [frontend.apply]
    cases hm : add_coercion tc fuel s f with
    | error e => exact h
    | ok s1 =>
      obtain ⟨_, h2, _, _, _, _, _, h8⟩ := add_coercion_ok_frame tc fuel s s1 f hm
      exact hframe _ h2 h8
  | mk_alias n e =>
    simp only [frontend.apply]
    cases hm : add_alias s n e with
    | error e => exact h
    | ok s1 =>
      obtain ⟨_, h2, _, _, _, _, _, h8⟩ := add_alias_ok_frame s s1 n e hm
      exact hframe _ h2 h8
  | declare o =>
    simp only [frontend.apply, add_object]
    split
    · exact h
    · exact hframe _ rfl rfl
  | child =>
    intro e he n info hn
    simp only [frontend.apply, frontend.mk_child, frontend.chain, List.mem_cons, List.map_cons] at he
    rcases he with rfl | rfl | he
    · simp [lean_extension.init, table.empty] at hn
    · exact h s.here.ext (by simp [frontend.chain]) n info hn
    · exact h e (by simp only [frontend.chain, List.mem_cons]; right; exact he) n info hn

/-- In every state reached from the fresh frontend the recorded flag vectors are trimmed. -/
theorem run_flags_trimmed (ops : List frontend_op) : (frontend.init.run ops).flags_trimmed := by
  have hinit : frontend.init.flags_trimmed := by
    intro e he n info hn
    simp [frontend.chain, frontend.init] at he
    subst he
    simp [lean_extension.init, table.empty] at hn
  have hgen : ∀ (l : List frontend_op) (s : frontend), s.flags_trimmed → (s.run l).flags_trimmed := by
    intro l
    induction l with
    | nil => intro s h; exact h
    | cons op rest ih => intro s h; exact ih (s.apply op) (apply_flags_trimmed s op h)
  exact hgen ops _ hinit

/-- The flags found for a denotation are empty or end with an implicit flag when the
recorded vectors are trimmed. -/
theorem get_implicit_arguments_trimmed (c : List lean_extension)
    (h : ∀ e ∈ c, ∀ n info, e.m_implicit_table n = some info → info.1.getLast? = some true)
    (d : expr) :
    lean_extension.get_implicit_arguments c d = [] ∨
    (lean_extension.get_implicit_arguments c d).getLast? = some true := by
  unfold lean_extension.get_implicit_arguments
  split
  · generalize const_name d = n
    induction c with
    | nil => left; rfl
    | cons e parent ih =>
      simp only [lean_extension.get_implicit_arguments_name]
      cases hm : e.m_implicit_table n with
      | none => exact ih (fun e1 he1 => h e1 (List.mem_cons_of_mem _ he1))
      | some info => right; exact h e (List.mem_cons_self _ _) n info hm
  · left; rfl

/-- C8: in every state reached from the fresh frontend by the frontend operations, two
denotations are compatible iff their recorded flag lists (empty when the denotation is not
a constant or has none) agree once the leading run of implicit flags and the trailing run
of explicit flags are removed; the patterns `_ * _ *` and `* _ *` are compatible,
`_ * _ *` and `_ _ * *` are not. -/
theorem compatible_denotation_iff_strip (ops : List frontend_op) (d1 d2 : expr) :
    (lean_extension.compatible_denotation (frontend.init.run ops).chain d1 d2 = true ↔
      strip_flags (lean_extension.get_implicit_arguments (frontend.init.run ops).chain d1) =
        strip_flags (lean_extension.get_implicit_arguments (frontend.init.run ops).chain d2)) ∧
    strip_flags [true, false, true, false] = strip_flags [false, true, false] ∧
    strip_flags [true, false, true, false] ≠ strip_flags [true, true, false, false] := by
  refine ⟨?_, by decide, by decide⟩
  have ht := run_flags_trimmed ops
  rw [strip_flags_of_trimmed _ (get_implicit_arguments_trimmed _ ht d1),
    strip_flags_of_trimmed _ (get_implicit_arguments_trimmed _ ht d2)]
  unfold lean_extension.compatible_denotation
  simp only [compatible_loop_iff, find_false_eq_dropWhile]

/-- C7, counterexample: after `overload_then_mark`, whose last operation is a registration,
the descriptor found for `+` stores the denotations `g` and `f`, which are not compatible.
And when a child has marked `g` before any use and its parent, which `add_op` does not
refuse to write although it has a child, then registers `+` for `f` and for `g`, the
descriptor found for `+` from the child stores `g` and `f`, compatible in the parent and
not compatible in the child. -/
theorem overloads_compatible_counterexample :
    lean_extension.find_led (frontend.init.run overload_then_mark).chain (mk_name "+") = some 0 ∧
    (frontend.init.run overload_then_mark).heap.deref (some 0) =
      some ⟨fixity.Infixl, 65, [mk_name "+"], [], [Const "g", Const "f"]⟩ ∧
    lean_extension.get_implicit_arguments (frontend.init.run overload_then_mark).chain (Const "f") =
      [false, true] ∧
    lean_extension.compatible_denotation (frontend.init.run overload_then_mark).chain
      (Const "g") (Const "f") = false ∧
    (child_with_marked_g.heap = [] ∧
      lean_extension.get_implicit_arguments child_with_marked_g.chain (Const "g") =
        [false, true]) ∧
    lean_extension.find_led child_with_marked_g_and_parent_plus.chain (mk_name "+") = some 0 ∧
    child_with_marked_g_and_parent_plus.heap.deref (some 0) =
      some ⟨fixity.Infixl, 65, [mk_name "+"], [], [Const "g", Const "f"]⟩ ∧
    lean_extension.compatible_denotation child_with_marked_g_and_parent_plus.parent_chain
      (Const "g") (Const "f") = true ∧
    lean_extension.compatible_denotation child_with_marked_g_and_parent_plus.chain
      (Const "g") (Const "f") = false := by
  decide

/-- The cells after `add_expr` through a handle. -/
theorem mem_add_expr (h : op_heap) (a : Nat) (d : expr) (j : operator_info.imp)
    (hj : j ∈ op_heap.add_expr h (some a) d) :
    j ∈ h ∨ ∃ c, h.deref (some a) = some c ∧ j = { c with m_exprs := d :: c.m_exprs } := by
  simp only [op_heap.add_expr] at hj
  obtain ⟨k, hk⟩ := List.mem_iff_getElem?.1 hj
  rw [List.getElem?_modify] at hk
  cases hh : h[k]? with
  | none => simp [hh] at hk
  | some c =>
    by_cases hak : a = k
    · subst hak
      simp only [hh, if_true, Option.map_eq_map, Option.map_some', Option.some.injEq] at hk
      right
      exact ⟨c, by simpa [op_heap.deref] using hh, hk.symm⟩
    · simp only [hh, hak, if_false, Option.map_eq_map, Option.map_some', Option.some.injEq] at hk
      left
      subst hk
      exact List.mem_iff_getElem?.2 ⟨k, hh⟩

/-- The cells after a registration with a descriptor just built: those that were there, the
cell just built (without denotation or with the new one alone), or a cell that was there
extended by the new denotation, which is then compatible with its denotations. -/
theorem add_new_op_cells (s : frontend) (f : fixity) (parts : List name) (prec : Nat) (d : expr)
    (led : Bool) (j : operator_info.imp)
    (hj : j ∈ (add_new_op s (mixfix_op f parts prec) d led).heap) :
    j ∈ s.heap ∨ j.m_exprs = [] ∨ j.m_exprs = [d] ∨
    ∃ c ∈ s.heap, j.m_exprs = d :: c.m_exprs ∧
      ∀ p ∈ c.m_exprs, lean_extension.compatible_denotation s.chain p d = true := by
  let i := mixfix_op f parts prec
  let s1 : frontend := { s with heap := s.heap ++ [i] }
  have hn : s1.heap.deref (some s.heap.length) = some i := deref_alloc_new _ _
  have hunf : add_new_op s i d led =
      add_neutral_object (add_op_core s1 (some s.heap.length) d led).1
        (neutral_object.notation_declaration (add_op_core s1 (some s.heap.length) d led).2 d) := rfl
  have hs1 : ∀ c, c ∈ s1.heap → c ∈ s.heap ∨ c = i := by
    intro c hc
    have : c ∈ s.heap ++ [i] := hc
    simpa using this
  have hderef_mem : ∀ (h : op_heap) (a : Nat) (c : operator_info.imp),
      h.deref (some a) = some c → c ∈ h := by
    intro h a c hc
    exact List.mem_iff_getElem?.2 ⟨a, by simpa [op_heap.deref] using hc⟩
  change j ∈ (add_new_op s i d led).heap at hj
  rw [hunf] at hj
  simp only [add_neutral_object] at hj
  -- a cell just built, then given the denotation
  have hnew : ∀ S : frontend, S.heap = s1.heap → S.heap.deref (some s.heap.length) = some i →
      j ∈ (register_new_op S (some s.heap.length) d led).heap →
      j ∈ s.heap ∨ j.m_exprs = [] ∨ j.m_exprs = [d] ∨
      ∃ c ∈ s.heap, j.m_exprs = d :: c.m_exprs ∧
        ∀ p ∈ c.m_exprs, lean_extension.compatible_denotation s.chain p d = true := by
    intro S hS hSn hjS
    obtain ⟨r1, _⟩ := register_new_op_spec S s.heap.length i d led hSn
    rw [r1] at hjS
    rcases mem_add_expr _ _ _ _ hjS with h | ⟨c, hc, hjc⟩
    · rw [hS] at h
      rcases hs1 j h with h | h
      · exact Or.inl h
      · right; left; rw [h]; rfl
    · rw [hSn] at hc
      simp only [Option.some.injEq] at hc
      subst hc
      right; right; left
      rw [hjc]; rfl
  rcases add_op_core_cases s1 s.heap.length i d led hn with
    ⟨_, hcore⟩ | ⟨a, c, hf, hc, heq, hcompat, hdh, hcore⟩ | ⟨a, c, _, hc, _, hcompat, _, hcore⟩ |
    ⟨dg, a, _, _, _, hcore⟩
  · rw [hcore] at hj
    exact hnew s1 rfl hn hj
  · rw [hcore] at hj
    have hj' : j ∈ op_heap.add_expr s1.heap (some a) d := hj
    rcases mem_add_expr _ _ _ _ hj' with h | ⟨c', hc', hjc⟩
    · rcases hs1 j h with h | h
      · exact Or.inl h
      · right; left; rw [h]; rfl
    · rw [hc] at hc'
      simp only [Option.some.injEq] at hc'
      subst hc'
      rcases hs1 c (hderef_mem _ _ _ hc) with h | h
      · right; right; right
        refine ⟨c, h, by rw [hjc], ?_⟩
        intro p hp
        simp only [lean_extension.compatible_denotations, hc, List.all_eq_true] at hcompat
        exact hcompat p hp
      · right; right; left
        rw [hjc, h]; rfl
  · rw [hcore] at hj
    have hc' : ({ s1 with heap := s1.heap ++ [c] } : frontend).heap.deref (some s1.heap.length) = some c :=
      deref_alloc_new _ _
    obtain ⟨r1, _⟩ := register_new_op_spec { s1 with heap := s1.heap ++ [c] } s1.heap.length c d led hc'
    rw [r1] at hj
    have hcm : c ∈ s.heap ∨ c = i := hs1 c (hderef_mem _ _ _ hc)
    rcases mem_add_expr _ _ _ _ hj with h | ⟨c2, hc2, hjc⟩
    · have h' : j ∈ s1.heap ++ [c] := h
      rcases List.mem_append.1 h' with h | h
      · rcases hs1 j h with h | h
        · exact Or.inl h
        · right; left; rw [h]; rfl
      · simp only [List.mem_singleton] at h
        subst h
        rcases hcm with h | h
        · exact Or.inl h
        · right; left; rw [h]; rfl
    · rw [hc'] at hc2
      simp only [Option.some.injEq] at hc2
      subst hc2
      rcases hcm with h | h
      · right; right; right
        refine ⟨c, h, by rw [hjc], ?_⟩
        intro p hp
        simp only [lean_extension.compatible_denotations, hc, List.all_eq_true] at hcompat
        exact hcompat p hp
      · right; right; left
        rw [hjc, h]; rfl
  · rw [hcore] at hj
    exact hnew (conflict_state s1 dg (some a)) rfl hn hj

/-- Compatibility is reflexive. -/
theorem compatible_denotation_refl (c : List lean_extension) (d : expr) :
    lean_extension.compatible_denotation c d d = true := by
  simp [lean_extension.compatible_denotation, compatible_loop_iff]

/-- Compatibility is symmetric. -/
theorem compatible_denotation_symm (c : List lean_extension) (d1 d2 : expr)
    (h : lean_extension.compatible_denotation c d1 d2 = true) :
    lean_extension.compatible_denotation c d2 d1 = true := by
  simp only [lean_extension.compatible_denotation, compatible_loop_iff] at h ⊢
  exact h.symm

/-- Compatibility only depends on the flags found for the two denotations. -/
theorem compatible_denotation_congr (c1 c2 : List lean_extension) (d1 d2 : expr)
    (h1 : lean_extension.get_implicit_arguments c1 d1 = lean_extension.get_implicit_arguments c2 d1)
    (h2 : lean_extension.get_implicit_arguments c1 d2 = lean_extension.get_implicit_arguments c2 d2) :
    lean_extension.compatible_denotation c1 d1 d2 = lean_extension.compatible_denotation c2 d1 d2 := by
  simp only [lean_extension.compatible_denotation, h1, h2]

/-- The flags found for a denotation only depend, at the first level, on the entry of its
name in the table of implicit arguments. -/
theorem get_implicit_arguments_cons_congr (e1 e2 : lean_extension) (parent : List lean_extension)
    (d : expr) (h : e1.m_implicit_table (const_name d) = e2.m_implicit_table (const_name d)) :
    lean_extension.get_implicit_arguments (e1 :: parent) d =
      lean_extension.get_implicit_arguments (e2 :: parent) d := by
  simp only [lean_extension.get_implicit_arguments, lean_extension.get_implicit_arguments_name, h]

/-- A level without implicit information is transparent. -/
theorem get_implicit_arguments_init (c : List lean_extension) (d : expr) :
    lean_extension.get_implicit_arguments (lean_extension.init :: c) d =
      lean_extension.get_implicit_arguments c d := by
  simp only [lean_extension.get_implicit_arguments, lean_extension.get_implicit_arguments_name,
    lean_extension.init, table.empty]

/-- One operation keeps the denotations of every descriptor pairwise compatible, provided
that, if it marks implicit arguments, the object marked is not a stored denotation. -/
theorem apply_overloads_compatible (s : frontend) (op : frontend_op)
    (h : s.overloads_compatible)
    (hm : ∀ n implicit, op = frontend_op.mark_implicit n implicit →
      ∀ i ∈ s.heap, expr.Constant n ∉ i.m_exprs) :
    (s.apply op).overloads_compatible := by
  have hframe : ∀ s1 : frontend, s1.heap = s.heap → s1.ancestors = s.ancestors →
      s1.here.ext.m_implicit_table = s.here.ext.m_implicit_table → s1.overloads_compatible := by
    intro s1 h0 h1 h2 i hi d1 hd1 d2 hd2
    rw [h0] at hi
    rw [← h i hi d1 hd1 d2 hd2]
    simp only [frontend.chain, h1]
    exact compatible_denotation_congr _ _ _ _
      (get_implicit_arguments_cons_congr _ _ _ _ (by rw [h2]))
      (get_implicit_arguments_cons_congr _ _ _ _ (by rw [h2]))
  cases op with
  | register f parts prec d led =>
    obtain ⟨h1, _, h3, _⟩ := add_new_op_frame s (mixfix_op f parts prec) d led
    have hc : ∀ d1 d2, lean_extension.compatible_denotation
        (add_new_op s (mixfix_op f parts prec) d led).chain d1 d2 =
        lean_extension.compatible_denotation s.chain d1 d2 := by
      intro d1 d2
      simp only [frontend.chain, h1]
      exact compatible_denotation_congr _ _ _ _
        (get_implicit_arguments_cons_congr _ _ _ _ (by rw [h3]))
        (get_implicit_arguments_cons_congr _ _ _ _ (by rw [h3]))
    intro j hj d1 hd1 d2 hd2
    simp only [frontend.apply] at hj ⊢
    rw [hc]
    rcases add_new_op_cells s f parts prec d led j hj with hin | hnil | hone | ⟨c, hcin, hce, hcc⟩
    · exact h j hin d1 hd1 d2 hd2
    · rw [hnil] at hd1; simp at hd1
    · rw [hone] at hd1 hd2
      simp only [List.mem_singleton] at hd1 hd2
      subst hd1; subst hd2
      exact compatible_denotation_refl _ _
    · rw [hce] at hd1 hd2
      rcases List.mem_cons.1 hd1 with e1 | m1 <;> rcases List.mem_cons.1 hd2 with e2 | m2
      · subst e1; subst e2; exact compatible_denotation_refl _ _
      · subst e1; exact compatible_denotation_symm _ _ _ (hcc d2 m2)
      · subst e2; exact hcc d1 m1
      · exact h c hcin d1 m1 d2 m2
  | mark_implicit n implicit =>
    simp only [frontend.apply]
    cases hmk : mark_implicit_arguments s n implicit with
    | error e => exact h
    | ok s1 =>
      obtain ⟨_, obj, ev, _, _, _, _, _, _, h1, h2, _, _, _, h3⟩ := mark_implicit_arguments_ok s s1 n implicit hmk
      intro i hi d1 hd1 d2 hd2
      simp only
      rw [h1] at hi
      have hne : ∀ d0 ∈ i.m_exprs, lean_extension.get_implicit_arguments s1.chain d0 =
          lean_extension.get_implicit_arguments s.chain d0 := by
        intro d0 hd0
        have hd0n : d0 ≠ expr.Constant n := by
          intro hh; subst hh
          exact hm n implicit rfl i hi hd0
        simp only [frontend.chain, h2]
        by_cases hcst : is_constant d0 = true
        · apply get_implicit_arguments_cons_congr
          rw [h3]
          have : const_name d0 ≠ n := by
            intro hh
            apply hd0n
            cases d0 <;> simp_all [is_constant, const_name]
          simp [table.insert, this]
        · simp only [lean_extension.get_implicit_arguments, hcst]
          simp
      rw [compatible_denotation_congr _ _ _ _ (hne d1 hd1) (hne d2 hd2)]
      exact h i hi d1 hd1 d2 hd2
  | mk_coercion tc fuel f =>
    simp only [frontend.apply]
    cases hmk : add_coercion tc fuel s f with
    | error e => exact h
    | ok s1 =>
      obtain ⟨h1, h2, _, _, _, _, _, h8⟩ := add_coercion_ok_frame tc fuel s s1 f hmk
      exact hframe _ h1 h2 h8
  | mk_alias n e =>
    simp only [frontend.apply]
    cases hmk : add_alias s n e with
    | error e => exact h
    | ok s1 =>
      obtain ⟨h1, h2, _, _, _, _, _, h8⟩ := add_alias_ok_frame s s1 n e hmk
      exact hframe _ h1 h2 h8
  | declare o =>
    simp only [frontend.apply, add_object]
    split
    · exact h
    · exact hframe _ rfl rfl rfl
  | child =>
    intro i hi d1 hd1 d2 hd2
    simp only [frontend.apply, frontend.mk_child, frontend.chain, List.map_cons] at hi ⊢
    rw [compatible_denotation_congr _ _ _ _ (get_implicit_arguments_init _ _)
      (get_implicit_arguments_init _ _)]
    exact h i hi d1 hd1 d2 hd2

/-- C7 (amended): pairwise compatibility of the denotations stored under each descriptor is
kept by every sequence of frontend operations (registrations, `mark_implicit_arguments`,
`add_coercion`, `add_alias`, declarations, child creation) in which
`mark_implicit_arguments` is only applied to objects that are not already a stored
denotation; so it holds after every registration of such a sequence. -/
theorem overloads_compatible_run (ops : List frontend_op) (s : frontend)
    (h : s.overloads_compatible) (hm : s.marks_before_use ops) :
    (s.run ops).overloads_compatible := by
  induction ops generalizing s with
  | nil => exact h
  | cons op rest ih =>
    exact ih (s.apply op) (apply_overloads_compatible s op h hm.1) hm.2

/-- C7, scenario: `mark_then_overload` marks before use, and after it the descriptor of `+`
stores `g` and `f`, pairwise compatible. -/
theorem overloads_compatible_run_witness :
    (frontend.init.overloads_compatible ∧ frontend.init.marks_before_use mark_then_overload) ∧
    (frontend.init.run mark_then_overload).heap.deref (some 0) =
      some ⟨fixity.Infixl, 65, [mk_name "+"], [], [Const "g", Const "f"]⟩ ∧
    (frontend.init.run mark_then_overload).overloads_compatible :=
  have h0 : frontend.init.overloads_compatible := fun i hi => absurd hi (List.not_mem_nil i)
  have h1 : frontend.init.marks_before_use mark_then_overload :=
    And.intro (fun _ _ h => nomatch h)
      (And.intro (fun _ _ _ i hi => absurd hi (List.not_mem_nil i))
        (And.intro (fun _ _ h => nomatch h)
          (And.intro (fun _ _ h => nomatch h)
            (And.intro (fun _ _ h => nomatch h) trivial))))
  ⟨⟨h0, h1⟩, by decide, overloads_compatible_run mark_then_overload frontend.init h0 h1⟩

/-! ## Theorems: the matcher -/

/-- C2, counterexample: on the pattern `?F b a` with the constants `b` and `a` and the target
`f b (f a b)`, with the one-slot substitution unassigned, the matcher returns false and
assigns nothing; no recursion budget makes it return true. -/
theorem hop_match_F_b_a_counterexample :
    hop_match 2 pattern_F_b_a target_f_b_fab [none] = match_result.done false [none] ∧
    ∀ fuel s, hop_match fuel pattern_F_b_a target_f_b_fab [none] ≠ match_result.done true s := by
  refine ⟨by decide, ?_⟩
  intro fuel s
  match fuel with
  | 0 =>
    have : hop_match 0 pattern_F_b_a target_f_b_fab [none] = match_result.out_of_fuel := rfl
    rw [this]; intro h; exact absurd h (by simp)
  | 1 =>
    have : hop_match 1 pattern_F_b_a target_f_b_fab [none] = match_result.out_of_fuel := by decide
    rw [this]; intro h; exact absurd h (by simp)
  | n + 2 =>
    have : hop_match (n + 2) pattern_F_b_a target_f_b_fab [none] = match_result.done false [none] := rfl
    rw [this]
    intro h
    exact absurd h (by simp)

/-- C2 (amended): on the pattern `?F b a` with the constants `b` and `a` the matcher returns
false for every budget of at least two calls and leaves the substitution unassigned; when
`b` and `a` are locally bound variables instead, pattern `fun (x : N) (y : M), ?F y x`
against `fun (x : N) (y : M), f y (f x y)`, it succeeds for every budget of at least three
calls with `?F := fun (y : M) (x : N), f y (f x y)`, and the pattern instantiated with this
substitution is the target up to beta. -/
theorem hop_match_F_scenario :
    (∀ fuel, hop_match (fuel + 2) pattern_F_b_a target_f_b_fab [none] =
      match_result.done false [none]) ∧
    (∀ fuel, hop_match (fuel + 3) pattern_F_y_x target_f_y_fxy [none] =
      match_result.done true [some solution_F]) ∧
    beta_eq (instantiate_subst [some solution_F] pattern_F_y_x) target_f_y_fxy := by
  refine ⟨fun fuel => rfl, fun fuel => rfl, ?_⟩
  -- the instantiated pattern is `fun x y, (fun y x, f y (f x y)) y x`
  have h1 : instantiate_subst [some solution_F] pattern_F_y_x =
      expr.Lambda (Const "N") (expr.Lambda (Const "M")
        (expr.App (expr.App solution_F (expr.Var 0)) (expr.Var 1))) := by decide
  rw [h1]
  refine beta_eq.lambda (beta_eq.refl _) (beta_eq.lambda (beta_eq.refl _) ?_)
  -- contract the outer redex, then the inner one
  have s1 : beta_eq (expr.App solution_F (expr.Var 0))
      (expr.Lambda (Const "N")
        (mk_app [Const "f", expr.Var 1, mk_app [Const "f", expr.Var 0, expr.Var 1]])) := by
    have := beta_eq.beta (Const "M") (expr.Lambda (Const "N")
      (mk_app [Const "f", expr.Var 1, mk_app [Const "f", expr.Var 0, expr.Var 1]])) (expr.Var 0)
    exact this
  have s2 : beta_eq (expr.App (expr.Lambda (Const "N")
        (mk_app [Const "f", expr.Var 1, mk_app [Const "f", expr.Var 0, expr.Var 1]])) (expr.Var 1))
      (mk_app [Const "f", expr.Var 0, mk_app [Const "f", expr.Var 1, expr.Var 0]]) := by
    have := beta_eq.beta (Const "N")
      (mk_app [Const "f", expr.Var 1, mk_app [Const "f", expr.Var 0, expr.Var 1]]) (expr.Var 1)
    exact this
  exact beta_eq.trans (beta_eq.app s1 (beta_eq.refl _)) s2

/-- A bound on the free variables can be raised. -/
theorem vars_below_mono (e : expr) (n m : Nat) (h : vars_below e n = true) (hnm : n ≤ m) :
    vars_below e m = true := by
  induction e generalizing n m with
  | Var i => simp only [vars_below, decide_eq_true_eq] at h ⊢; omega
  | Constant _ => rfl
  | Value _ => rfl
  | TypeU _ => rfl
  | MetaVar _ => rfl
  | App f a ihf iha =>
    simp only [vars_below, Bool.and_eq_true] at h ⊢
    exact ⟨ihf n m h.1 hnm, iha n m h.2 hnm⟩
  | Lambda d b ihd ihb =>
    simp only [vars_below, Bool.and_eq_true] at h ⊢
    exact ⟨ihd n m h.1 hnm, ihb (n + 1) (m + 1) h.2 (by omega)⟩
  | Pi d b ihd ihb =>
    simp only [vars_below, Bool.and_eq_true] at h ⊢
    exact ⟨ihd n m h.1 hnm, ihb (n + 1) (m + 1) h.2 (by omega)⟩
  | Let t v b iht ihv ihb =>
    simp only [vars_below, Bool.and_eq_true] at h ⊢
    exact ⟨⟨iht n m h.1.1 hnm, ihv n m h.1.2 hnm⟩, ihb (n + 1) (m + 1) h.2 (by omega)⟩
  | HEq l r ihl ihr =>
    simp only [vars_below, Bool.and_eq_true] at h ⊢
    exact ⟨ihl n m h.1 hnm, ihr n m h.2 hnm⟩

/-- Lifting raises the bound by the amount lifted. -/
theorem vars_below_lift (e : expr) (n s d : Nat) (h : vars_below e n = true) :
    vars_below (lift_free_vars_core e s d) (n + d) = true := by
  induction e generalizing n s with
  | Var i =>
    simp only [lift_free_vars_core]
    split <;> simp only [vars_below, decide_eq_true_eq] at h ⊢ <;> omega
  | Constant _ => rfl
  | Value _ => rfl
  | TypeU _ => rfl
  | MetaVar _ => rfl
  | App f a ihf iha =>
    simp only [vars_below, lift_free_vars_core, Bool.and_eq_true] at h ⊢
    exact ⟨ihf n s h.1, iha n s h.2⟩
  | Lambda t b iht ihb =>
    simp only [vars_below, lift_free_vars_core, Bool.and_eq_true] at h ⊢
    exact ⟨iht n s h.1, by have := ihb (n + 1) (s + 1) h.2; rwa [Nat.add_right_comm] at this⟩
  | Pi t b iht ihb =>
    simp only [vars_below, lift_free_vars_core, Bool.and_eq_true] at h ⊢
    exact ⟨iht n s h.1, by have := ihb (n + 1) (s + 1) h.2; rwa [Nat.add_right_comm] at this⟩
  | Let t v b iht ihv ihb =>
    simp only [vars_below, lift_free_vars_core, Bool.and_eq_true] at h ⊢
    exact ⟨⟨iht n s h.1.1, ihv n s h.1.2⟩,
      by have := ihb (n + 1) (s + 1) h.2; rwa [Nat.add_right_comm] at this⟩
  | HEq l r ihl ihr =>
    simp only [vars_below, lift_free_vars_core, Bool.and_eq_true] at h ⊢
    exact ⟨ihl n s h.1, ihr n s h.2⟩

/-- Lowering never raises the bound. -/
theorem vars_below_lower (e : expr) (n s d : Nat) (h : vars_below e n = true) :
    vars_below (lower_free_vars e s d) n = true := by
  induction e generalizing n s with
  | Var i =>
    simp only [lower_free_vars]
    split <;> simp only [vars_below, decide_eq_true_eq] at h ⊢ <;> omega
  | Constant _ => rfl
  | Value _ => rfl
  | TypeU _ => rfl
  | MetaVar _ => rfl
  | App f a ihf iha =>
    simp only [vars_below, lower_free_vars, Bool.and_eq_true] at h ⊢
    exact ⟨ihf n s h.1, iha n s h.2⟩
  | Lambda t b iht ihb =>
    simp only [vars_below, lower_free_vars, Bool.and_eq_true] at h ⊢
    exact ⟨iht n s h.1, ihb (n + 1) (s + 1) h.2⟩
  | Pi t b iht ihb =>
    simp only [vars_below, lower_free_vars, Bool.and_eq_true] at h ⊢
    exact ⟨iht n s h.1, ihb (n + 1) (s + 1) h.2⟩
  | Let t v b iht ihv ihb =>
    simp only [vars_below, lower_free_vars, Bool.and_eq_true] at h ⊢
    exact ⟨⟨iht n s h.1.1, ihv n s h.1.2⟩, ihb (n + 1) (s + 1) h.2⟩
  | HEq l r ihl ihr =>
    simp only [vars_below, lower_free_vars, Bool.and_eq_true] at h ⊢
    exact ⟨ihl n s h.1, ihr n s h.2⟩

/-- Lowering a term without locally bound variable by the number of local binders brings the
bound down by that number. -/
theorem vars_below_lower_local (e : expr) (n cs k : Nat) (h : vars_below e (n + cs + k) = true)
    (hl : has_free_var e k (cs + k) = false) :
    vars_below (lower_free_vars e (cs + k) cs) (n + k) = true := by
  induction e generalizing k with
  | Var i =>
    simp only [has_free_var, Bool.and_eq_false_iff, decide_eq_false_iff_not] at hl
    simp only [lower_free_vars]
    split <;> simp only [vars_below, decide_eq_true_eq] at h ⊢ <;> omega
  | Constant _ => rfl
  | Value _ => rfl
  | TypeU _ => rfl
  | MetaVar _ => rfl
  | App f a ihf iha =>
    simp only [has_free_var, Bool.or_eq_false_iff] at hl
    simp only [vars_below, lower_free_vars, Bool.and_eq_true] at h ⊢
    exact ⟨ihf k h.1 hl.1, iha k h.2 hl.2⟩
  | Lambda t b iht ihb =>
    simp only [has_free_var, Bool.or_eq_false_iff] at hl
    simp only [vars_below, lower_free_vars, Bool.and_eq_true] at h ⊢
    exact ⟨iht k h.1 hl.1, ihb (k + 1) h.2 hl.2⟩
  | Pi t b iht ihb =>
    simp only [has_free_var, Bool.or_eq_false_iff] at hl
    simp only [vars_below, lower_free_vars, Bool.and_eq_true] at h ⊢
    exact ⟨iht k h.1 hl.1, ihb (k + 1) h.2 hl.2⟩
  | Let t v b iht ihv ihb =>
    simp only [has_free_var, Bool.or_eq_false_iff] at hl
    simp only [vars_below, lower_free_vars, Bool.and_eq_true] at h ⊢
    exact ⟨⟨iht k h.1.1 hl.1.1, ihv k h.1.2 hl.1.2⟩, ihb (k + 1) h.2 hl.2⟩
  | HEq l r ihl ihr =>
    simp only [has_free_var, Bool.or_eq_false_iff] at hl
    simp only [vars_below, lower_free_vars, Bool.and_eq_true] at h ⊢
    exact ⟨ihl k h.1 hl.1, ihr k h.2 hl.2⟩

/-- Instantiation with terms below `m` removes the variables instantiated from the bound. -/
theorem vars_below_instantiate (b : expr) (m k : Nat) (sub : List expr)
    (hs : ∀ a ∈ sub, vars_below a m = true)
    (h : vars_below b (m + sub.length + k) = true) :
    vars_below (instantiate_core b k sub) (m + k) = true := by
  induction b generalizing k with
  | Var i =>
    simp only [instantiate_core]
    simp only [vars_below, decide_eq_true_eq] at h
    split
    · simp only [vars_below, decide_eq_true_eq]; omega
    · split
      · rename_i h1 h2
        apply vars_below_lift
        have hlt : sub.length - (i - k) - 1 < sub.length := by omega
        rw [List.getD_eq_getElem?_getD, List.getElem?_eq_getElem hlt]
        exact hs _ (List.getElem_mem _)
      · simp only [vars_below, decide_eq_true_eq]; omega
  | Constant _ => rfl
  | Value _ => rfl
  | TypeU _ => rfl
  | MetaVar _ => rfl
  | App f a ihf iha =>
    simp only [vars_below, instantiate_core, Bool.and_eq_true] at h ⊢
    exact ⟨ihf k h.1, iha k h.2⟩
  | Lambda t b iht ihb =>
    simp only [vars_below, instantiate_core, Bool.and_eq_true] at h ⊢
    exact ⟨iht k h.1, ihb (k + 1) h.2⟩
  | Pi t b iht ihb =>
    simp only [vars_below, instantiate_core, Bool.and_eq_true] at h ⊢
    exact ⟨iht k h.1, ihb (k + 1) h.2⟩
  | Let t v b iht ihv ihb =>
    simp only [vars_below, instantiate_core, Bool.and_eq_true] at h ⊢
    exact ⟨⟨iht k h.1.1, ihv k h.1.2⟩, ihb (k + 1) h.2⟩
  | HEq l r ihl ihr =>
    simp only [vars_below, instantiate_core, Bool.and_eq_true] at h ⊢
    exact ⟨ihl k h.1, ihr k h.2⟩

/-- An application of terms below `m` is below `m`. -/
theorem vars_below_foldl_app (as : List expr) (f : expr) (m : Nat)
    (hf : vars_below f m = true) (has : ∀ a ∈ as, vars_below a m = true) :
    vars_below (as.foldl expr.App f) m = true := by
  induction as generalizing f with
  | nil => exact hf
  | cons a rest ih =>
    simp only [List.foldl_cons]
    apply ih
    · simp only [vars_below, Bool.and_eq_true]
      exact ⟨hf, has a (List.mem_cons_self _ _)⟩
    · intro x hx; exact has x (List.mem_cons_of_mem _ hx)

/-- The arguments of an application below `m` are below `m`. -/
theorem vars_below_get_args (e : expr) (m : Nat) (h : vars_below e m = true) :
    ∀ a ∈ get_args e, vars_below a m = true := by
  induction e with
  | App f a ihf _ =>
    simp only [vars_below, Bool.and_eq_true] at h
    intro x hx
    simp only [get_args, List.mem_append, List.mem_singleton] at hx
    rcases hx with hx | hx
    · exact ihf h.1 x hx
    · rw [hx]; exact h.2
  | Var i => intro x hx; simp only [get_args, List.mem_singleton] at hx; rw [hx]; exact h
  | Constant _ => intro x hx; simp only [get_args, List.mem_singleton] at hx; rw [hx]; exact h
  | Value _ => intro x hx; simp only [get_args, List.mem_singleton] at hx; rw [hx]; exact h
  | TypeU _ => intro x hx; simp only [get_args, List.mem_singleton] at hx; rw [hx]; exact h
  | MetaVar _ => intro x hx; simp only [get_args, List.mem_singleton] at hx; rw [hx]; exact h
  | Lambda _ _ _ _ => intro x hx; simp only [get_args, List.mem_singleton] at hx; rw [hx]; exact h
  | Pi _ _ _ _ => intro x hx; simp only [get_args, List.mem_singleton] at hx; rw [hx]; exact h
  | Let _ _ _ _ _ _ => intro x hx; simp only [get_args, List.mem_singleton] at hx; rw [hx]; exact h
  | HEq _ _ _ _ => intro x hx; simp only [get_args, List.mem_singleton] at hx; rw [hx]; exact h

/-- The application built by `mk_app` from terms below `m` is below `m`. -/
theorem vars_below_mk_app (l : List expr) (m : Nat) (hne : l ≠ [])
    (h : ∀ a ∈ l, vars_below a m = true) : vars_below (mk_app l) m = true := by
  cases l with
  | nil => exact absurd rfl hne
  | cons f as =>
    exact vars_below_foldl_app as f m (h f (List.mem_cons_self _ _))
      (fun a ha => h a (List.mem_cons_of_mem _ ha))

/-- The vector of arguments is never empty. -/
theorem get_args_ne_nil (e : expr) : get_args e ≠ [] := by
  cases e <;> simp [get_args]

/-- An argument of a term below `m` is below `m`. -/
theorem vars_below_arg (e : expr) (i m : Nat) (h : vars_below e m = true) :
    vars_below (arg e i) m = true := by
  unfold arg
  rw [List.getD_eq_getElem?_getD]
  cases hg : (get_args e)[i]? with
  | none => simpa using h
  | some a =>
    simp only [Option.getD_some]
    exact vars_below_get_args e m h a (List.mem_iff_getElem?.2 ⟨i, hg⟩)

/-- A prefix application of a term below `m` is below `m`. -/
theorem vars_below_mk_app_first (e : expr) (i m : Nat) (h : vars_below e m = true) :
    vars_below (mk_app_first (i + 1) e) m = true := by
  unfold mk_app_first
  apply vars_below_mk_app
  · cases hg : get_args e with
    | nil => exact absurd hg (get_args_ne_nil e)
    | cons a as => simp
  · intro a ha
    exact vars_below_get_args e m h a (List.mem_of_mem_take ha)

/-- The beta-application of terms below `m` is below `m`. -/
theorem vars_below_apply_beta_core (b : expr) (taken rest : List expr) (m : Nat)
    (hb : vars_below b (m + taken.length) = true)
    (ht : ∀ a ∈ taken, vars_below a m = true) (hr : ∀ a ∈ rest, vars_below a m = true) :
    vars_below (apply_beta_core b taken rest) m = true := by
  have hbase : ∀ (b : expr) (taken rest : List expr), vars_below b (m + taken.length) = true →
      (∀ a ∈ taken, vars_below a m = true) → (∀ a ∈ rest, vars_below a m = true) →
      vars_below (mk_app (instantiate b taken :: rest)) m = true := by
    intro b taken rest hb ht hr
    apply vars_below_mk_app _ _ (by simp)
    intro a ha
    rcases List.mem_cons.1 ha with ha | ha
    · rw [ha]
      exact vars_below_instantiate b m 0 taken ht hb
    · exact hr a ha
  induction b generalizing taken rest with
  | Lambda d b _ ihb =>
    cases rest with
    | nil => simp only [apply_beta_core]; exact hbase _ _ _ hb ht hr
    | cons a rest =>
      simp only [apply_beta_core]
      apply ihb
      · simp only [vars_below, Bool.and_eq_true] at hb
        simpa [Nat.add_assoc] using hb.2
      · intro x hx
        rcases List.mem_append.1 hx with hx | hx
        · exact ht x hx
        · simp only [List.mem_singleton] at hx
          rw [hx]; exact hr a (List.mem_cons_self _ _)
      · intro x hx; exact hr x (List.mem_cons_of_mem _ hx)
  | Var i => simp only [apply_beta_core]; exact hbase _ _ _ hb ht hr
  | Constant _ => simp only [apply_beta_core]; exact hbase _ _ _ hb ht hr
  | Value _ => simp only [apply_beta_core]; exact hbase _ _ _ hb ht hr
  | TypeU _ => simp only [apply_beta_core]; exact hbase _ _ _ hb ht hr
  | MetaVar _ => simp only [apply_beta_core]; exact hbase _ _ _ hb ht hr
  | App _ _ _ _ => simp only [apply_beta_core]; exact hbase _ _ _ hb ht hr
  | Pi _ _ _ _ => simp only [apply_beta_core]; exact hbase _ _ _ hb ht hr
  | Let _ _ _ _ _ _ => simp only [apply_beta_core]; exact hbase _ _ _ hb ht hr
  | HEq _ _ _ _ => simp only [apply_beta_core]; exact hbase _ _ _ hb ht hr

/-- See `vars_below_apply_beta_core`. -/
theorem vars_below_apply_beta (f : expr) (args : List expr) (m : Nat)
    (hf : vars_below f m = true) (ha : ∀ a ∈ args, vars_below a m = true) :
    vars_below (apply_beta f args) m = true := by
  unfold apply_beta
  split
  · exact vars_below_apply_beta_core _ [] args m (by simpa using hf) (by simp) ha
  · apply vars_below_mk_app _ _ (by simp)
    intro a h
    rcases List.mem_cons.1 h with h | h
    · rw [h]; exact hf
    · exact ha a h

/-- The position found by the inner loop of `proj_core` is below `vars_size`. -/
theorem find_var_lt (vars : List expr) (vs v : Nat) (n i j : Nat)
    (h : hop_match_fn.find_var vars vs v n i = some j) : j < vs := by
  induction n generalizing i with
  | zero => simp [hop_match_fn.find_var] at h
  | succ m ih =>
    simp only [hop_match_fn.find_var] at h
    split at h
    · split at h
      · simp only [Option.some.injEq] at h; omega
      · exact ih (i + 1) h
    · simp at h

/-- The projection of a term whose logical variables are below `n` has its free variables
below `n`, seen from inside the `vars_size` lambdas to come. -/
theorem vars_below_proj_core_at (cs : Nat) (vars : List expr) (vs : Nat) (t : expr) (off n : Nat)
    (r : expr) (h : hop_match_fn.proj_core_at cs vars vs t off = some r)
    (ht : vars_below t (n + cs + off) = true) : vars_below r (n + vs + off) = true := by
  induction t generalizing off r with
  | Var i =>
    simp only [hop_match_fn.proj_core_at] at h
    simp only [vars_below, decide_eq_true_eq] at ht
    split at h
    · simp only [Option.some.injEq] at h; subst h
      simp only [vars_below, decide_eq_true_eq]; omega
    · split at h
      · split at h
        · rename_i j hj
          have := find_var_lt _ _ _ _ _ _ hj
          simp only [Option.some.injEq] at h; subst h
          simp only [vars_below, decide_eq_true_eq]; omega
        · simp at h
      · split at h
        · simp only [Option.some.injEq] at h; subst h
          simp only [vars_below, decide_eq_true_eq]; omega
        · simp only [Option.some.injEq] at h; subst h
          simp only [vars_below, decide_eq_true_eq]
          rename_i h1 h2 h3
          simp only [ne_eq, Decidable.not_not] at h3
          omega
  | Constant _ => simp only [hop_match_fn.proj_core_at, Option.some.injEq] at h; subst h; rfl
  | Value _ => simp only [hop_match_fn.proj_core_at, Option.some.injEq] at h; subst h; rfl
  | TypeU _ => simp only [hop_match_fn.proj_core_at, Option.some.injEq] at h; subst h; rfl
  | MetaVar _ => simp only [hop_match_fn.proj_core_at, Option.some.injEq] at h; subst h; rfl
  | App f a ihf iha =>
    simp only [hop_match_fn.proj_core_at] at h
    simp only [vars_below, Bool.and_eq_true] at ht
    split at h
    · rename_i f1 a1 hf1 ha1
      simp only [Option.some.injEq] at h; subst h
      simp only [vars_below, Bool.and_eq_true]
      exact ⟨ihf off f1 hf1 ht.1, iha off a1 ha1 ht.2⟩
    · simp at h
  | Lambda d b ihd ihb =>
    simp only [hop_match_fn.proj_core_at] at h
    simp only [vars_below, Bool.and_eq_true] at ht
    split at h
    · rename_i d1 b1 hd1 hb1
      simp only [Option.some.injEq] at h; subst h
      simp only [vars_below, Bool.and_eq_true]
      exact ⟨ihd off d1 hd1 ht.1, ihb (off + 1) b1 hb1 ht.2⟩
    · simp at h
  | Pi d b ihd ihb =>
    simp only [hop_match_fn.proj_core_at] at h
    simp only [vars_below, Bool.and_eq_true] at ht
    split at h
    · rename_i d1 b1 hd1 hb1
      simp only [Option.some.injEq] at h; subst h
      simp only [vars_below, Bool.and_eq_true]
      exact ⟨ihd off d1 hd1 ht.1, ihb (off + 1) b1 hb1 ht.2⟩
    · simp at h
  | Let ty v b ihty ihv ihb =>
    simp only [hop_match_fn.proj_core_at] at h
    simp only [vars_below, Bool.and_eq_true] at ht
    split at h
    · rename_i ty1 v1 b1 hty1 hv1 hb1
      simp only [Option.some.injEq] at h; subst h
      simp only [vars_below, Bool.and_eq_true]
      exact ⟨⟨ihty off ty1 hty1 ht.1.1, ihv off v1 hv1 ht.1.2⟩, ihb (off + 1) b1 hb1 ht.2⟩
    · simp at h
  | HEq l r1 ihl ihr =>
    simp only [hop_match_fn.proj_core_at] at h
    simp only [vars_below, Bool.and_eq_true] at ht
    split at h
    · rename_i l1 r2 hl1 hr2
      simp only [Option.some.injEq] at h; subst h
      simp only [vars_below, Bool.and_eq_true]
      exact ⟨ihl off l1 hl1 ht.1, ihr off r2 hr2 ht.2⟩
    · simp at h

/-- The entries of a context in range, from any position on, are in range. -/
theorem context_in_range_drop (ctx : context) (n i : Nat) (h : context_in_range ctx n) :
    context_in_range (ctx.drop i) n := by
  induction i generalizing ctx with
  | zero => simpa using h
  | succ k ih =>
    cases ctx with
    | nil => simpa using h
    | cons e rest =>
      simp only [List.drop_succ_cons]
      apply ih
      cases e with
      | none => exact h
      | some d => exact h.2

/-- The domain found by `lookup_ext` in a context in range is in range at its binding site. -/
theorem lookup_ext_in_range (ctx : context) (n i : Nat) (d : expr) (ectx : context)
    (h : context_in_range ctx n) (hl : lookup_ext ctx i = some (some d, ectx)) :
    vars_below d (n + ectx.length) = true := by
  unfold lookup_ext at hl
  have hd := context_in_range_drop ctx n i h
  cases hdrop : ctx.drop i with
  | nil => simp [hdrop] at hl
  | cons e rest =>
    simp only [hdrop, Option.some.injEq, Prod.mk.injEq] at hl
    obtain ⟨h1, h2⟩ := hl
    subst h1; subst h2
    rw [hdrop] at hd
    exact hd.1

/-- The lambdas wrapped by the loop of `proj` keep the free variables below `n`. -/
theorem vars_below_proj_loop (ctx : context) (vars : List expr) (n i : Nat) (r out : expr)
    (hctx : context_in_range ctx n)
    (h : hop_match_fn.proj_loop ctx vars i r = some out)
    (hr : vars_below r (n + i) = true) : vars_below out n = true := by
  induction i generalizing r with
  | zero =>
    simp only [hop_match_fn.proj_loop, Option.some.injEq] at h
    subst h; simpa using hr
  | succ k ih =>
    simp only [hop_match_fn.proj_loop] at h
    split at h
    · simp at h
    · rename_i entry ectx hl
      split at h
      · simp at h
      · rename_i d
        split at h
        · simp at h
        · rename_i new_d hnd
          apply ih _ h
          simp only [vars_below, Bool.and_eq_true]
          refine ⟨?_, hr⟩
          have hd := lookup_ext_in_range ctx n _ d ectx hctx hl
          have := vars_below_proj_core_at ectx.length vars k d 0 n new_d hnd (by simpa using hd)
          simpa using this

/-- The term assigned by the projection rule has its free variables below `n`. -/
theorem vars_below_proj (t : expr) (ctx : context) (cs : Nat) (vars : List expr) (n : Nat)
    (new_t : expr) (hctx : context_in_range ctx n)
    (h : hop_match_fn.proj t ctx cs vars = some new_t)
    (ht : vars_below t (n + cs) = true) : vars_below new_t n = true := by
  unfold hop_match_fn.proj at h
  split at h
  · simp at h
  · rename_i r hr
    apply vars_below_proj_loop ctx vars n vars.length r new_t hctx h
    have := vars_below_proj_core_at cs vars vars.length t 0 n r hr (by simpa using ht)
    simpa using this

/-- An assignment of a term in range keeps the buffer in range. -/
theorem subst_in_range_set (s : subst) (n i : Nat) (v : expr) (hs : subst_in_range s n)
    (hv : vars_below v n = true) : subst_in_range (s.set i (some v)) n := by
  refine ⟨by rw [List.length_set]; exact hs.1, ?_⟩
  intro w hw
  rcases List.mem_or_eq_of_mem_set hw with h | h
  · exact hs.2 w h
  · simp only [Option.some.injEq] at h
    rw [h]; exact hv

/-- A term read from a buffer in range is in range. -/
theorem get_subst_in_range (s : subst) (n : Nat) (x : expr) (cs : Nat) (v : expr)
    (hs : subst_in_range s n) (h : hop_match_fn.get_subst s x cs = some (some v)) :
    vars_below v n = true := by
  unfold hop_match_fn.get_subst at h
  simp only at h
  split at h
  · simp at h
  · simp only [Option.some.injEq] at h
    rw [List.getD_eq_getElem?_getD] at h
    cases hg : s[s.length - (var_idx x - cs) - 1]? with
    | none => simp [hg] at h
    | some o =>
      simp only [hg, Option.getD_some] at h
      subst h
      exact hs.2 v (List.mem_iff_getElem?.2 ⟨_, hg⟩)

/-- A term recognized by `is_eq_heq` is a heterogeneous equality. -/
theorem is_eq_heq_inv (e : expr) (h : is_eq_heq e = true) : ∃ l r, e = expr.HEq l r := by
  cases e <;> simp [is_eq_heq] at h
  exact ⟨_, _, rfl⟩

/-- A term recognized by `is_free_var` is a variable that is not locally bound. -/
theorem is_free_var_inv (x : expr) (cs : Nat) (h : hop_match_fn.is_free_var x cs = true) :
    ∃ i, x = expr.Var i ∧ cs ≤ i := by
  cases x <;> simp [hop_match_fn.is_free_var, is_var, var_idx] at h
  exact ⟨_, rfl, h⟩

/-- A returned answer with a buffer in range is in range. -/
theorem done_in_range (b : Bool) (s : subst) (n : Nat) (hs : subst_in_range s n) :
    (match_result.done b s).in_range n := by
  refine ⟨by simp, ?_⟩
  intro b1 s1 h
  simp only [match_result.done.injEq] at h
  rw [← h.2]; exact hs

/-- The conjunction of two calls in range is in range. -/
theorem and_then_in_range (r : match_result) (k : subst → match_result) (n : Nat)
    (hr : r.in_range n) (hk : ∀ s1, subst_in_range s1 n → (k s1).in_range n) :
    (hop_match_fn.and_then r k).in_range n := by
  unfold hop_match_fn.and_then
  split
  · rename_i s1
    exact hk s1 (hr.2 true s1 rfl)
  · exact hr

/-- The loop of the application case is in range when the recursive calls are. -/
theorem app_loop_in_range (m : subst → expr → expr → match_result) (p t : expr) (n k : Nat)
    (hm : ∀ s1 p1 t1, subst_in_range s1 n → vars_below p1 k = true → vars_below t1 k = true →
      (m s1 p1 t1).in_range n)
    (hp : vars_below p k = true) (ht : vars_below t k = true) (i1 i2 : Nat) (s : subst)
    (hs : subst_in_range s n) : (hop_match_fn.app_loop m p t i1 i2 s).in_range n := by
  induction i1 generalizing i2 s with
  | zero => simp only [hop_match_fn.app_loop]; exact done_in_range _ _ _ hs
  | succ j ih =>
    cases i2 with
    | zero => simp only [hop_match_fn.app_loop]; exact done_in_range _ _ _ hs
    | succ l =>
      simp only [hop_match_fn.app_loop]
      have hr : (if j = 0 ∧ 0 < l then m s (arg p j) (mk_app_first (l + 1) t)
          else if l = 0 ∧ 0 < j then m s (mk_app_first (j + 1) p) (arg t l)
          else m s (arg p j) (arg t l)).in_range n := by
        split
        · exact hm _ _ _ hs (vars_below_arg p j k hp) (vars_below_mk_app_first t l k ht)
        · split
          · exact hm _ _ _ hs (vars_below_mk_app_first p j k hp) (vars_below_arg t l k ht)
          · exact hm _ _ _ hs (vars_below_arg p j k hp) (vars_below_arg t l k ht)
      split
      · rename_i s1 heq
        exact ih l s1 (hr.2 true s1 heq)
      · exact hr

/-- The part of `match` from the test `p == t` on is in range when the recursive calls are. -/
theorem match_structural_in_range (m : subst → expr → expr → context → Nat → match_result)
    (n : Nat)
    (hm : ∀ s p t ctx cs, subst_in_range s n → vars_below p (n + cs) = true →
      vars_below t (n + cs) = true → context_in_range ctx n → ctx.length = cs →
      (m s p t ctx cs).in_range n)
    (s : subst) (p t : expr) (ctx : context) (cs : Nat)
    (hs : subst_in_range s n) (hp : vars_below p (n + cs) = true)
    (ht : vars_below t (n + cs) = true) (hctx : context_in_range ctx n) (hlen : ctx.length = cs) :
    (hop_match_fn.match_structural m s p t ctx cs).in_range n := by
  unfold hop_match_fn.match_structural
  split
  · exact done_in_range _ _ _ hs
  · split
    · rename_i heq
      simp only [Bool.and_eq_true] at heq
      obtain ⟨pl, pr, rfl⟩ := is_eq_heq_inv p heq.1
      obtain ⟨tl, tr, rfl⟩ := is_eq_heq_inv t heq.2
      simp only [vars_below, Bool.and_eq_true] at hp ht
      simp only [eq_heq_args]
      exact and_then_in_range _ _ _ (hm _ _ _ _ _ hs hp.1 ht.1 hctx hlen)
        (fun s1 hs1 => hm _ _ _ _ _ hs1 hp.2 ht.2 hctx hlen)
    · split
      · exact done_in_range _ _ _ hs
      · split
        · exact app_loop_in_range _ _ _ n (n + cs)
            (fun s1 p1 t1 hs1 hp1 ht1 => hm _ _ _ _ _ hs1 hp1 ht1 hctx hlen) hp ht _ _ s hs
        · simp only [vars_below, Bool.and_eq_true] at hp ht
          refine and_then_in_range _ _ _ (hm _ _ _ _ _ hs hp.1 ht.1 hctx hlen) ?_
          intro s1 hs1
          refine hm _ _ _ _ _ hs1 hp.2 ht.2 ?_ (by simp [extend, hlen])
          exact ⟨by rw [hlen]; exact ht.1, hctx⟩
        · simp only [vars_below, Bool.and_eq_true] at hp ht
          refine and_then_in_range _ _ _ (hm _ _ _ _ _ hs hp.1 ht.1 hctx hlen) ?_
          intro s1 hs1
          refine hm _ _ _ _ _ hs1 hp.2 ht.2 ?_ (by simp [extend, hlen])
          exact ⟨by rw [hlen]; exact ht.1, hctx⟩
        · exact done_in_range _ _ _ hs

/-- On a problem in range (pattern, target, context and buffer only mention logical variables
that have a slot) the matcher throws nothing and keeps the buffer in range. -/
theorem match_in_range (n : Nat) (fuel : Nat) :
    ∀ (s : subst) (p t : expr) (ctx : context) (cs : Nat), subst_in_range s n →
      vars_below p (n + cs) = true → vars_below t (n + cs) = true → context_in_range ctx n →
      ctx.length = cs → (hop_match_fn.match_ fuel s p t ctx cs).in_range n := by
  induction fuel with
  | zero =>
    intro s p t ctx cs _ _ _ _ _
    exact ⟨by simp [hop_match_fn.match_], by simp [hop_match_fn.match_]⟩
  | succ f ih =>
    intro s p t ctx cs hs hp ht hctx hlen
    have hget : ∀ x, hop_match_fn.is_free_var x cs = true → vars_below x (n + cs) = true →
        hop_match_fn.get_subst s x cs ≠ none := by
      intro x hx hxb
      obtain ⟨i, rfl, hx⟩ := is_free_var_inv x cs hx
      simp only [vars_below, decide_eq_true_eq] at hxb
      simp only [hop_match_fn.get_subst, var_idx, ne_eq, ite_eq_left_iff, not_le, not_forall]
      rw [hs.1]
      exact ⟨by omega, by simp⟩
    have hassign : ∀ x v, vars_below v n = true →
        subst_in_range (hop_match_fn.assign s x v cs) n := by
      intro x v hv
      unfold hop_match_fn.assign
      exact subst_in_range_set _ _ _ _ hs (vars_below_lower _ _ _ _ hv)
    simp only [hop_match_fn.match_]
    split
    · rename_i hfv
      cases hg : hop_match_fn.get_subst s p cs with
      | none => exact absurd hg (hget p hfv hp)
      | some o =>
        cases o with
        | some v =>
          simp only
          refine ih _ _ _ _ _ hs ?_ ht hctx hlen
          exact vars_below_lift v n 0 cs (get_subst_in_range s n p cs v hs hg)
        | none =>
          simp only
          split
          · exact done_in_range _ _ _ hs
          · rename_i hl
            apply done_in_range
            unfold hop_match_fn.assign
            apply subst_in_range_set _ _ _ _ hs
            have := vars_below_lower_local t n cs 0 (by simpa using ht)
              (by simpa [hop_match_fn.has_locally_bound_var] using hl)
            simpa using this
    · split
      · rename_i hnf happ
        simp only [Bool.and_eq_true] at happ
        have harg0 : vars_below (arg p 0) (n + cs) = true := vars_below_arg p 0 _ hp
        cases hg : hop_match_fn.get_subst s (arg p 0) cs with
        | none => exact absurd hg (hget _ happ.2 harg0)
        | some o =>
          cases o with
          | some v =>
            simp only
            refine ih _ _ _ _ _ hs ?_ ht hctx hlen
            apply vars_below_apply_beta
            · exact vars_below_lift v n 0 cs (get_subst_in_range s n _ cs v hs hg)
            · intro a ha
              exact vars_below_get_args p _ hp a (List.mem_of_mem_drop ha)
          | none =>
            simp only
            split
            · rename_i vars hv
              split
              · rename_i new_t hnt
                exact done_in_range _ _ _ (hassign _ _ (vars_below_proj t ctx cs vars n new_t hctx hnt ht))
              · exact done_in_range _ _ _ hs
            · exact match_structural_in_range _ n ih s p t ctx cs hs hp ht hctx hlen
      · exact match_structural_in_range _ n ih s p t ctx cs hs hp ht hctx hlen

/-- Once `?F` is assigned the self-application, matching `?F ?F` beta-applies the assignment
to `?F` and is back at `?F ?F`: no budget is enough. -/
theorem match_self_application_loops (k : Nat) :
    hop_match_fn.match_ k [some self_application] (expr.App (expr.Var 0) (expr.Var 0)) (Const "c") [] 0 =
      match_result.out_of_fuel := by
  induction k with
  | zero => rfl
  | succ j ih =>
    have step : hop_match_fn.match_ (j + 1) [some self_application]
        (expr.App (expr.Var 0) (expr.Var 0)) (Const "c") [] 0 =
        hop_match_fn.match_ j [some self_application]
          (expr.App (expr.Var 0) (expr.Var 0)) (Const "c") [] 0 := rfl
    rw [step, ih]

/-- The matcher does not return on `g (?F ?F) ?F` against `g c (fun x : T, x x)`. -/
theorem hop_match_diverges (fuel : Nat) :
    hop_match fuel pattern_g_FF_F target_g_c_self [none] = match_result.out_of_fuel := by
  match fuel with
  | 0 => rfl
  | 1 => decide
  | n + 2 =>
    have step : hop_match (n + 2) pattern_g_FF_F target_g_c_self [none] =
        (match hop_match_fn.match_ (n + 1) [some self_application]
            (expr.App (expr.Var 0) (expr.Var 0)) (Const "c") [] 0 with
          | match_result.done true s1 =>
              hop_match_fn.app_loop (fun s1 p1 t1 => hop_match_fn.match_ (n + 1) s1 p1 t1 [] 0)
                pattern_g_FF_F target_g_c_self 1 1 s1
          | other => other) := rfl
    rw [step, match_self_application_loops]

/-- C3, counterexample: the pattern `f ?5` contains a logical variable outside the range of
the one-slot substitution, yet against the target `c` the matcher returns false (the kinds
differ before the variable is reached) and no budget makes it throw. -/
theorem hop_match_out_of_range_counterexample :
    vars_below pattern_f_var5 1 = false ∧
    hop_match 1 pattern_f_var5 (Const "c") [none] = match_result.done false [none] ∧
    ∀ fuel, hop_match fuel pattern_f_var5 (Const "c") [none] ≠ match_result.exception := by
  refine ⟨by decide, by decide, ?_⟩
  intro fuel
  match fuel with
  | 0 => intro h; exact absurd h (by simp [hop_match, hop_match_fn.match_])
  | n + 1 =>
    have : hop_match (n + 1) pattern_f_var5 (Const "c") [none] = match_result.done false [none] := rfl
    rw [this]; simp

/-- Lifting above the free variables of a term does nothing. -/
theorem lift_of_vars_below (e : expr) (k s d : Nat) (h : vars_below e k = true) (hks : k ≤ s) :
    lift_free_vars_core e s d = e := by
  induction e generalizing k s with
  | Var i =>
    simp only [vars_below, decide_eq_true_eq] at h
    simp only [lift_free_vars_core]
    rw [if_neg (by omega)]
  | Constant _ => rfl
  | Value _ => rfl
  | TypeU _ => rfl
  | MetaVar _ => rfl
  | App f a ihf iha =>
    simp only [vars_below, Bool.and_eq_true] at h
    simp only [lift_free_vars_core, ihf k s h.1 hks, iha k s h.2 hks]
  | Lambda t b iht ihb =>
    simp only [vars_below, Bool.and_eq_true] at h
    simp only [lift_free_vars_core, iht k s h.1 hks, ihb (k + 1) (s + 1) h.2 (by omega)]
  | Pi t b iht ihb =>
    simp only [vars_below, Bool.and_eq_true] at h
    simp only [lift_free_vars_core, iht k s h.1 hks, ihb (k + 1) (s + 1) h.2 (by omega)]
  | Let t v b iht ihv ihb =>
    simp only [vars_below, Bool.and_eq_true] at h
    simp only [lift_free_vars_core, iht k s h.1.1 hks, ihv k s h.1.2 hks,
      ihb (k + 1) (s + 1) h.2 (by omega)]
  | HEq l r ihl ihr =>
    simp only [vars_below, Bool.and_eq_true] at h
    simp only [lift_free_vars_core, ihl k s h.1 hks, ihr k s h.2 hks]

/-- Lowering above the free variables of a term does nothing. -/
theorem lower_of_vars_below (e : expr) (k s d : Nat) (h : vars_below e k = true) (hks : k ≤ s) :
    lower_free_vars e s d = e := by
  induction e generalizing k s with
  | Var i =>
    simp only [vars_below, decide_eq_true_eq] at h
    simp only [lower_free_vars]
    rw [if_neg (by omega)]
  | Constant _ => rfl
  | Value _ => rfl
  | TypeU _ => rfl
  | MetaVar _ => rfl
  | App f a ihf iha =>
    simp only [vars_below, Bool.and_eq_true] at h
    simp only [lower_free_vars, ihf k s h.1 hks, iha k s h.2 hks]
  | Lambda t b iht ihb =>
    simp only [vars_below, Bool.and_eq_true] at h
    simp only [lower_free_vars, iht k s h.1 hks, ihb (k + 1) (s + 1) h.2 (by omega)]
  | Pi t b iht ihb =>
    simp only [vars_below, Bool.and_eq_true] at h
    simp only [lower_free_vars, iht k s h.1 hks, ihb (k + 1) (s + 1) h.2 (by omega)]
  | Let t v b iht ihv ihb =>
    simp only [vars_below, Bool.and_eq_true] at h
    simp only [lower_free_vars, iht k s h.1.1 hks, ihv k s h.1.2 hks,
      ihb (k + 1) (s + 1) h.2 (by omega)]
  | HEq l r ihl ihr =>
    simp only [vars_below, Bool.and_eq_true] at h
    simp only [lower_free_vars, ihl k s h.1 hks, ihr k s h.2 hks]

/-- Instantiating the logical variables of a term that has none does nothing. -/
theorem instantiate_subst_of_vars_below (s : subst) (e : expr) (k : Nat)
    (h : vars_below e k = true) : instantiate_subst_core s e k = e := by
  induction e generalizing k with
  | Var i =>
    simp only [vars_below, decide_eq_true_eq] at h
    simp only [instantiate_subst_core]
    rw [if_pos h]
  | Constant _ => rfl
  | Value _ => rfl
  | TypeU _ => rfl
  | MetaVar _ => rfl
  | App f a ihf iha =>
    simp only [vars_below, Bool.and_eq_true] at h
    simp only [instantiate_subst_core, ihf k h.1, iha k h.2]
  | Lambda t b iht ihb =>
    simp only [vars_below, Bool.and_eq_true] at h
    simp only [instantiate_subst_core, iht k h.1, ihb (k + 1) h.2]
  | Pi t b iht ihb =>
    simp only [vars_below, Bool.and_eq_true] at h
    simp only [instantiate_subst_core, iht k h.1, ihb (k + 1) h.2]
  | Let t v b iht ihv ihb =>
    simp only [vars_below, Bool.and_eq_true] at h
    simp only [instantiate_subst_core, iht k h.1.1, ihv k h.1.2, ihb (k + 1) h.2]
  | HEq l r ihl ihr =>
    simp only [vars_below, Bool.and_eq_true] at h
    simp only [instantiate_subst_core, ihl k h.1, ihr k h.2]

/-- A term without locally bound variable whose free variables are locally bound is closed. -/
theorem vars_below_of_no_local (e : expr) (cs k : Nat) (h : vars_below e (cs + k) = true)
    (hl : has_free_var e k (cs + k) = false) : vars_below e k = true := by
  induction e generalizing k with
  | Var i =>
    simp only [has_free_var, Bool.and_eq_false_iff, decide_eq_false_iff_not] at hl
    simp only [vars_below, decide_eq_true_eq] at h ⊢
    omega
  | Constant _ => rfl
  | Value _ => rfl
  | TypeU _ => rfl
  | MetaVar _ => rfl
  | App f a ihf iha =>
    simp only [has_free_var, Bool.or_eq_false_iff] at hl
    simp only [vars_below, Bool.and_eq_true] at h ⊢
    exact ⟨ihf k h.1 hl.1, iha k h.2 hl.2⟩
  | Lambda t b iht ihb =>
    simp only [has_free_var, Bool.or_eq_false_iff] at hl
    simp only [vars_below, Bool.and_eq_true] at h ⊢
    exact ⟨iht k h.1 hl.1, ihb (k + 1) h.2 hl.2⟩
  | Pi t b iht ihb =>
    simp only [has_free_var, Bool.or_eq_false_iff] at hl
    simp only [vars_below, Bool.and_eq_true] at h ⊢
    exact ⟨iht k h.1 hl.1, ihb (k + 1) h.2 hl.2⟩
  | Let t v b iht ihv ihb =>
    simp only [has_free_var, Bool.or_eq_false_iff] at hl
    simp only [vars_below, Bool.and_eq_true] at h ⊢
    exact ⟨⟨iht k h.1.1 hl.1.1, ihv k h.1.2 hl.1.2⟩, ihb (k + 1) h.2 hl.2⟩
  | HEq l r ihl ihr =>
    simp only [has_free_var, Bool.or_eq_false_iff] at hl
    simp only [vars_below, Bool.and_eq_true] at h ⊢
    exact ⟨ihl k h.1 hl.1, ihr k h.2 hl.2⟩

/-- Keeping assignments is reflexive. -/
theorem subst_extends_refl (s : subst) : subst_extends s s := ⟨rfl, fun _ _ h => h⟩

/-- Keeping assignments is transitive. -/
theorem subst_extends_trans (s1 s2 s3 : subst) (h12 : subst_extends s1 s2)
    (h23 : subst_extends s2 s3) : subst_extends s1 s3 :=
  ⟨h12.1.trans h23.1, fun i v h => h23.2 i v (h12.2 i v h)⟩

/-- Left-nested application of one more argument. -/
theorem mk_app_append_singleton (l : List expr) (a : expr) (hne : l ≠ []) :
    mk_app (l ++ [a]) = expr.App (mk_app l) a := by
  cases l with
  | nil => exact absurd rfl hne
  | cons f as => simp [mk_app, List.foldl_append]

/-- A term is the application of its vector of arguments. -/
theorem mk_app_get_args (e : expr) : mk_app (get_args e) = e := by
  induction e with
  | App f a ihf _ =>
    simp only [get_args]
    rw [mk_app_append_singleton _ _ (get_args_ne_nil f), ihf]
  | Var _ => rfl
  | Constant _ => rfl
  | Value _ => rfl
  | TypeU _ => rfl
  | MetaVar _ => rfl
  | Lambda _ _ _ _ => rfl
  | Pi _ _ _ _ => rfl
  | Let _ _ _ _ _ _ => rfl
  | HEq _ _ _ _ => rfl

/-- The whole prefix is the term. -/
theorem mk_app_first_all (e : expr) : mk_app_first (num_args e) e = e := by
  simp only [mk_app_first, num_args, List.take_length, mk_app_get_args]

/-- The prefix of length one is the head. -/
theorem mk_app_first_one (e : expr) : mk_app_first 1 e = arg e 0 := by
  unfold mk_app_first arg
  cases h : get_args e with
  | nil => exact absurd h (get_args_ne_nil e)
  | cons a as => simp [mk_app]

/-- A prefix with one more argument. -/
theorem mk_app_first_succ (e : expr) (i : Nat) (h1 : 1 ≤ i) (h2 : i < num_args e) :
    mk_app_first (i + 1) e = expr.App (mk_app_first i e) (arg e i) := by
  unfold mk_app_first arg
  unfold num_args at h2
  rw [List.take_succ, List.getD_eq_getElem?_getD, List.getElem?_eq_getElem h2]
  simp only [Option.toList_some, Option.getD_some]
  apply mk_app_append_singleton
  intro hnil
  have := congrArg List.length hnil
  simp only [List.length_take, List.length_nil] at this
  omega

/-- Instantiation goes through a left-nested application. -/
theorem instantiate_subst_foldl (s : subst) (k : Nat) (as : List expr) (f : expr) :
    instantiate_subst_core s (as.foldl expr.App f) k =
      (as.map (fun a => instantiate_subst_core s a k)).foldl expr.App (instantiate_subst_core s f k) := by
  induction as generalizing f with
  | nil => rfl
  | cons a rest ih => simp only [List.foldl_cons, List.map_cons, ih, instantiate_subst_core]

/-- Instantiation goes through `mk_app`. -/
theorem instantiate_subst_mk_app (s : subst) (k : Nat) (f : expr) (as : List expr) :
    instantiate_subst_core s (mk_app (f :: as)) k =
      mk_app (instantiate_subst_core s f k :: as.map (fun a => instantiate_subst_core s a k)) := by
  simp only [mk_app, instantiate_subst_foldl]

/-- An application node is its head applied to its other arguments. -/
theorem get_args_head_tail (e : expr) : get_args e = arg e 0 :: (get_args e).drop 1 := by
  unfold arg
  cases h : get_args e with
  | nil => exact absurd h (get_args_ne_nil e)
  | cons a as => simp

/-- See `get_args_head_tail`. -/
theorem eq_mk_app_head_tail (e : expr) : e = mk_app (arg e 0 :: (get_args e).drop 1) := by
  rw [← get_args_head_tail, mk_app_get_args]

/-- Equality up to beta goes through a left-nested application with the same arguments. -/
theorem beta_eq_foldl_app (as : List expr) (f g : expr) (h : beta_eq f g) :
    beta_eq (as.foldl expr.App f) (as.foldl expr.App g) := by
  induction as generalizing f g with
  | nil => exact h
  | cons a rest ih => exact ih _ _ (beta_eq.app h (beta_eq.refl a))

/-- Instantiating one variable just below a lift by one more cancels one level of the lift. -/
theorem instantiate_lift_cancel (x : expr) (c k : Nat) (a : expr) :
    instantiate_core (lift_free_vars_core x c (k + 1)) (c + k) [a] = lift_free_vars_core x c k := by
  induction x generalizing c with
  | Var i =>
    simp only [lift_free_vars_core]
    split
    · simp only [instantiate_core, List.length_singleton]
      rw [if_neg (by omega), if_neg (by omega)]
      congr 1
    · simp only [instantiate_core]
      rw [if_pos (by omega)]
  | Constant _ => rfl
  | Value _ => rfl
  | TypeU _ => rfl
  | MetaVar _ => rfl
  | App f b ihf ihb => simp only [lift_free_vars_core, instantiate_core, ihf, ihb]
  | Lambda t b iht ihb =>
    simp only [lift_free_vars_core, instantiate_core, iht]
    rw [Nat.add_right_comm c k 1, ihb]
  | Pi t b iht ihb =>
    simp only [lift_free_vars_core, instantiate_core, iht]
    rw [Nat.add_right_comm c k 1, ihb]
  | Let t v b iht ihv ihb =>
    simp only [lift_free_vars_core, instantiate_core, iht, ihv]
    rw [Nat.add_right_comm c k 1, ihb]
  | HEq l r ihl ihr => simp only [lift_free_vars_core, instantiate_core, ihl, ihr]

/-- Instantiating the outer binders first and the innermost one afterwards is instantiating
all of them at once. -/
theorem instantiate_instantiate (b : expr) (k : Nat) (taken : List expr) (a : expr) :
    instantiate_core (instantiate_core b (k + 1) taken) k [a] =
      instantiate_core b k (taken ++ [a]) := by
  induction b generalizing k with
  | Var i =>
    by_cases h1 : i < k
    · simp only [instantiate_core]
      rw [if_pos (by omega), if_pos h1]
      simp only [instantiate_core]
      rw [if_pos h1]
    · by_cases h2 : i = k
      · subst h2
        simp only [instantiate_core]
        rw [if_pos (by omega)]
        simp only [instantiate_core, List.length_singleton, List.length_append]
        rw [if_neg (by omega), if_pos (by omega), if_neg (by omega), if_pos (by omega)]
        simp only [Nat.sub_self, Nat.sub_zero]
        congr 1
        simp [List.getD_eq_getElem?_getD]
      · by_cases h3 : i - (k + 1) < taken.length
        · simp only [instantiate_core, List.length_append, List.length_singleton]
          rw [if_neg (by omega), if_pos h3, if_neg (by omega), if_pos (by omega)]
          have := instantiate_lift_cancel
            (taken.getD (taken.length - (i - (k + 1)) - 1) (expr.Var 0)) 0 k a
          simp only [Nat.zero_add] at this
          simp only [lift_free_vars]
          rw [this]
          congr 1
          have hidx : taken.length + 1 - (i - k) - 1 = taken.length - (i - (k + 1)) - 1 := by omega
          rw [hidx]
          simp only [List.getD_eq_getElem?_getD]
          rw [List.getElem?_append_left (by omega)]
        · simp only [instantiate_core, List.length_append, List.length_singleton]
          rw [if_neg (by omega), if_neg h3]
          simp only [instantiate_core, List.length_singleton]
          rw [if_neg (by omega), if_neg (by omega), if_neg (by omega), if_neg (by omega)]
          congr 1
  | Constant _ => rfl
  | Value _ => rfl
  | TypeU _ => rfl
  | MetaVar _ => rfl
  | App f x ihf ihx => simp only [instantiate_core, ihf, ihx]
  | Lambda t x iht ihx => simp only [instantiate_core, iht, ihx]
  | Pi t x iht ihx => simp only [instantiate_core, iht, ihx]
  | Let t v x iht ihv ihx => simp only [instantiate_core, iht, ihv, ihx]
  | HEq l r ihl ihr => simp only [instantiate_core, ihl, ihr]

/-- Instantiating no variable does nothing. -/
theorem instantiate_nil (b : expr) (k : Nat) : instantiate_core b k [] = b := by
  induction b generalizing k with
  | Var i =>
    simp only [instantiate_core, List.length_nil, Nat.not_lt_zero, if_false, Nat.sub_zero]
    split <;> rfl
  | Constant _ => rfl
  | Value _ => rfl
  | TypeU _ => rfl
  | MetaVar _ => rfl
  | App f x ihf ihx => simp only [instantiate_core, ihf, ihx]
  | Lambda t x iht ihx => simp only [instantiate_core, iht, ihx]
  | Pi t x iht ihx => simp only [instantiate_core, iht, ihx]
  | Let t v x iht ihv ihx => simp only [instantiate_core, iht, ihv, ihx]
  | HEq l r ihl ihr => simp only [instantiate_core, ihl, ihr]

/-- The beta-application is reached by contracting redexes. -/
theorem beta_eq_apply_beta_core (b : expr) (taken rest : List expr) :
    beta_eq (mk_app (instantiate b taken :: rest)) (apply_beta_core b taken rest) := by
  induction b generalizing taken rest with
  | Lambda d x _ ihx =>
    cases rest with
    | nil => simp only [apply_beta_core]; exact beta_eq.refl _
    | cons a rest =>
      simp only [apply_beta_core]
      refine beta_eq.trans ?_ (ihx (taken ++ [a]) rest)
      simp only [mk_app, List.foldl_cons, instantiate, instantiate_core]
      apply beta_eq_foldl_app
      have := beta_eq.beta (instantiate_core d 0 taken) (instantiate_core x (0 + 1) taken) a
      simp only [instantiate, instantiate_instantiate] at this
      exact this
  | Var _ => simp only [apply_beta_core]; exact beta_eq.refl _
  | Constant _ => simp only [apply_beta_core]; exact beta_eq.refl _
  | Value _ => simp only [apply_beta_core]; exact beta_eq.refl _
  | TypeU _ => simp only [apply_beta_core]; exact beta_eq.refl _
  | MetaVar _ => simp only [apply_beta_core]; exact beta_eq.refl _
  | App _ _ _ _ => simp only [apply_beta_core]; exact beta_eq.refl _
  | Pi _ _ _ _ => simp only [apply_beta_core]; exact beta_eq.refl _
  | Let _ _ _ _ _ _ => simp only [apply_beta_core]; exact beta_eq.refl _
  | HEq _ _ _ _ => simp only [apply_beta_core]; exact beta_eq.refl _

/-- An application is equal up to beta to its beta-application. -/
theorem beta_eq_apply_beta (f : expr) (args : List expr) :
    beta_eq (mk_app (f :: args)) (apply_beta f args) := by
  unfold apply_beta
  split
  · rename_i d x
    have := beta_eq_apply_beta_core (expr.Lambda d x) [] args
    simp only [instantiate, instantiate_nil] at this
    exact this
  · exact beta_eq.refl _

/-- Instantiation at a logical variable. -/
theorem instantiate_subst_var (s : subst) (i k : Nat) (h : k ≤ i) :
    instantiate_subst_core s (expr.Var i) k =
      match subst_lookup s (i - k) with
      | some v => lift_free_vars v k
      | none => expr.Var i := by
  simp only [instantiate_subst_core, subst_lookup]
  rw [if_neg (by omega)]
  split
  · rfl
  · rfl

/-- The assignments read from a buffer of closed terms are closed. -/
theorem subst_lookup_closed (s : subst) (j : Nat) (v : expr) (hs : subst_closed s)
    (h : subst_lookup s j = some v) : vars_below v 0 = true := by
  unfold subst_lookup at h
  split at h
  · rw [List.getD_eq_getElem?_getD] at h
    cases hg : s[s.length - j - 1]? with
    | none => simp [hg] at h
    | some o =>
      simp only [hg, Option.getD_some] at h
      subst h
      exact hs v (List.mem_iff_getElem?.2 ⟨_, hg⟩)
  · simp at h

/-- Instantiation with closed terms commutes with lifting. -/
theorem instantiate_subst_lift (s : subst) (hs : subst_closed s) (x : expr) (c d k : Nat)
    (hcd : c ≤ d) :
    instantiate_subst_core s (lift_free_vars_core x c k) (d + k) =
      lift_free_vars_core (instantiate_subst_core s x d) c k := by
  induction x generalizing c d with
  | Var i =>
    by_cases h1 : i < c
    · simp only [lift_free_vars_core]
      rw [if_neg (by omega)]
      simp only [instantiate_subst_core]
      rw [if_pos (by omega), if_pos (by omega)]
      simp only [lift_free_vars_core]
      rw [if_neg (by omega)]
    · by_cases h2 : i < d
      · simp only [lift_free_vars_core]
        rw [if_pos (by omega)]
        simp only [instantiate_subst_core]
        rw [if_pos (by omega), if_pos h2]
        simp only [lift_free_vars_core]
        rw [if_pos (by omega)]
      · simp only [lift_free_vars_core]
        rw [if_pos (by omega)]
        rw [instantiate_subst_var s (i + k) (d + k) (by omega),
          instantiate_subst_var s i d (by omega)]
        have hidx : i + k - (d + k) = i - d := by omega
        rw [hidx]
        cases hl : subst_lookup s (i - d) with
        | none =>
          simp only [lift_free_vars_core]
          rw [if_pos (by omega)]
        | some v =>
          have hv := subst_lookup_closed s _ v hs hl
          simp only [lift_free_vars]
          rw [lift_of_vars_below v 0 0 (d + k) hv (Nat.le_refl _),
            lift_of_vars_below v 0 0 d hv (Nat.le_refl _),
            lift_of_vars_below v 0 c k hv (Nat.zero_le _)]
  | Constant _ => rfl
  | Value _ => rfl
  | TypeU _ => rfl
  | MetaVar _ => rfl
  | App f a ihf iha =>
    simp only [lift_free_vars_core, instantiate_subst_core, ihf c d hcd, iha c d hcd]
  | Lambda t b iht ihb =>
    simp only [lift_free_vars_core, instantiate_subst_core, iht c d hcd]
    rw [Nat.add_right_comm d k 1, ihb (c + 1) (d + 1) (by omega)]
  | Pi t b iht ihb =>
    simp only [lift_free_vars_core, instantiate_subst_core, iht c d hcd]
    rw [Nat.add_right_comm d k 1, ihb (c + 1) (d + 1) (by omega)]
  | Let t v b iht ihv ihb =>
    simp only [lift_free_vars_core, instantiate_subst_core, iht c d hcd, ihv c d hcd]
    rw [Nat.add_right_comm d k 1, ihb (c + 1) (d + 1) (by omega)]
  | HEq l r ihl ihr =>
    simp only [lift_free_vars_core, instantiate_subst_core, ihl c d hcd, ihr c d hcd]

/-- Instantiation of the logical variables commutes with the instantiation of the binders of
a term that has no other variable. -/
theorem instantiate_subst_instantiate (s : subst) (hs : subst_closed s) (b : expr) (cs k : Nat)
    (taken : List expr) (hb : vars_below b (taken.length + k) = true) :
    instantiate_subst_core s (instantiate_core b k taken) (cs + k) =
      instantiate_core b k (taken.map (fun a => instantiate_subst_core s a cs)) := by
  induction b generalizing k with
  | Var i =>
    simp only [vars_below, decide_eq_true_eq] at hb
    by_cases h1 : i < k
    · simp only [instantiate_core]
      rw [if_pos h1, if_pos h1]
      simp only [instantiate_subst_core]
      rw [if_pos (by omega)]
    · simp only [instantiate_core, List.length_map]
      rw [if_neg h1, if_pos (by omega), if_neg h1, if_pos (by omega)]
      simp only [lift_free_vars]
      have := instantiate_subst_lift s hs
        (taken.getD (taken.length - (i - k) - 1) (expr.Var 0)) 0 cs k (Nat.zero_le _)
      rw [this]
      congr 1
      have hlt : taken.length - (i - k) - 1 < taken.length := by omega
      simp only [List.getD_eq_getElem?_getD, List.getElem?_map, List.getElem?_eq_getElem hlt,
        Option.map_some', Option.getD_some]
  | Constant _ => rfl
  | Value _ => rfl
  | TypeU _ => rfl
  | MetaVar _ => rfl
  | App f a ihf iha =>
    simp only [vars_below, Bool.and_eq_true] at hb
    simp only [instantiate_core, instantiate_subst_core, ihf k hb.1, iha k hb.2]
  | Lambda t x iht ihx =>
    simp only [vars_below, Bool.and_eq_true] at hb
    simp only [instantiate_core, instantiate_subst_core, iht k hb.1]
    rw [Nat.add_assoc cs k 1, ihx (k + 1) hb.2]
  | Pi t x iht ihx =>
    simp only [vars_below, Bool.and_eq_true] at hb
    simp only [instantiate_core, instantiate_subst_core, iht k hb.1]
    rw [Nat.add_assoc cs k 1, ihx (k + 1) hb.2]
  | Let t v x iht ihv ihx =>
    simp only [vars_below, Bool.and_eq_true] at hb
    simp only [instantiate_core, instantiate_subst_core, iht k hb.1.1, ihv k hb.1.2]
    rw [Nat.add_assoc cs k 1, ihx (k + 1) hb.2]
  | HEq l r ihl ihr =>
    simp only [vars_below, Bool.and_eq_true] at hb
    simp only [instantiate_core, instantiate_subst_core, ihl k hb.1, ihr k hb.2]

/-- Instantiation of the logical variables goes through the beta-application of a closed
function. -/
theorem instantiate_subst_apply_beta_core (s : subst) (hs : subst_closed s) (cs : Nat) (b : expr)
    (taken rest : List expr) (hb : vars_below b taken.length = true) :
    instantiate_subst_core s (apply_beta_core b taken rest) cs =
      apply_beta_core b (taken.map (fun a => instantiate_subst_core s a cs))
        (rest.map (fun a => instantiate_subst_core s a cs)) := by
  have hbase : ∀ (b : expr) (taken rest : List expr), vars_below b taken.length = true →
      instantiate_subst_core s (mk_app (instantiate b taken :: rest)) cs =
      mk_app (instantiate b (taken.map (fun a => instantiate_subst_core s a cs)) ::
        rest.map (fun a => instantiate_subst_core s a cs)) := by
    intro b taken rest hb
    rw [instantiate_subst_mk_app]
    have := instantiate_subst_instantiate s hs b cs 0 taken (by simpa using hb)
    simp only [Nat.add_zero] at this
    simp only [instantiate, this]
  induction b generalizing taken rest with
  | Lambda d x _ ihx =>
    cases rest with
    | nil => simp only [apply_beta_core, List.map_nil]; exact hbase _ _ _ hb
    | cons a rest =>
      simp only [apply_beta_core, List.map_cons]
      simp only [vars_below, Bool.and_eq_true] at hb
      have := ihx (taken ++ [a]) rest (by simpa using hb.2)
      simpa using this
  | Var _ => simp only [apply_beta_core]; exact hbase _ _ _ hb
  | Constant _ => simp only [apply_beta_core]; exact hbase _ _ _ hb
  | Value _ => simp only [apply_beta_core]; exact hbase _ _ _ hb
  | TypeU _ => simp only [apply_beta_core]; exact hbase _ _ _ hb
  | MetaVar _ => simp only [apply_beta_core]; exact hbase _ _ _ hb
  | App _ _ _ _ => simp only [apply_beta_core]; exact hbase _ _ _ hb
  | Pi _ _ _ _ => simp only [apply_beta_core]; exact hbase _ _ _ hb
  | Let _ _ _ _ _ _ => simp only [apply_beta_core]; exact hbase _ _ _ hb
  | HEq _ _ _ _ => simp only [apply_beta_core]; exact hbase _ _ _ hb

/-- See `instantiate_subst_apply_beta_core`. -/
theorem instantiate_subst_apply_beta (s : subst) (hs : subst_closed s) (cs : Nat) (f : expr)
    (args : List expr) (hf : vars_below f 0 = true) :
    instantiate_subst_core s (apply_beta f args) cs =
      apply_beta f (args.map (fun a => instantiate_subst_core s a cs)) := by
  have hinst : instantiate_subst_core s f cs = f :=
    instantiate_subst_of_vars_below s f cs (vars_below_mono f 0 cs hf (Nat.zero_le _))
  unfold apply_beta
  split
  · rename_i d x
    have := instantiate_subst_apply_beta_core s hs cs (expr.Lambda d x) [] args (by simpa using hf)
    simpa using this
  · rw [instantiate_subst_mk_app, hinst]

/-- The position found by the inner loop of `proj_core` holds the variable searched. -/
theorem find_var_spec (vars : List expr) (vs v : Nat) (n i j : Nat)
    (h : hop_match_fn.find_var vars vs v n i = some j) :
    var_idx (vars.getD j (expr.Var 0)) = v := by
  induction n generalizing i with
  | zero => simp [hop_match_fn.find_var] at h
  | succ m ih =>
    simp only [hop_match_fn.find_var] at h
    split at h
    · split at h
      · rename_i _ hv
        simp only [Option.some.injEq] at h
        subst h; exact hv
      · exact ih (i + 1) h
    · simp at h

/-- What `args_are_distinct_locally_bound_vars` has checked when it answers true. -/
theorem args_are_distinct_loop_spec (cs : Nat) (rest acc vars : List expr)
    (h : hop_match_fn.args_are_distinct_locally_bound_vars_loop cs rest acc = some vars) :
    vars = acc ++ rest ∧ ∀ x ∈ rest, hop_match_fn.is_locally_bound x cs = true := by
  induction rest generalizing acc with
  | nil =>
    simp only [hop_match_fn.args_are_distinct_locally_bound_vars_loop, Option.some.injEq] at h
    exact ⟨by simp [h], by simp⟩
  | cons v rest ih =>
    simp only [hop_match_fn.args_are_distinct_locally_bound_vars_loop] at h
    split at h
    · simp at h
    · rename_i hlb
      split at h
      · simp at h
      · obtain ⟨h1, h2⟩ := ih (acc ++ [v]) h
        refine ⟨by simp [h1], ?_⟩
        intro x hx
        rcases List.mem_cons.1 hx with hx | hx
        · subst hx; simpa using hlb
        · exact h2 x hx

/-- A locally bound variable is a variable below the number of local binders. -/
theorem is_locally_bound_inv (x : expr) (cs : Nat) (h : hop_match_fn.is_locally_bound x cs = true) :
    ∃ i, x = expr.Var i ∧ i < cs := by
  cases x <;> simp [hop_match_fn.is_locally_bound, is_var, var_idx] at h
  exact ⟨_, rfl, h⟩

/-- Instantiating the projection of a term with the variables projected gives the term back. -/
theorem instantiate_proj_core_at (cs : Nat) (vars : List expr) (t : expr) (k : Nat) (r : expr)
    (hvars : ∀ x ∈ vars, ∃ i, x = expr.Var i)
    (h : hop_match_fn.proj_core_at cs vars vars.length t k = some r)
    (ht : vars_below t (cs + k) = true) : instantiate_core r k vars = t := by
  induction t generalizing k r with
  | Var j =>
    simp only [hop_match_fn.proj_core_at] at h
    simp only [vars_below, decide_eq_true_eq] at ht
    split at h
    · rename_i hjk
      simp only [Option.some.injEq] at h; subst h
      simp only [instantiate_core]
      rw [if_pos hjk]
    · rename_i hjk
      split at h
      · split at h
        · rename_i i hi
          have hlt := find_var_lt _ _ _ _ _ _ hi
          have hv := find_var_spec _ _ _ _ _ _ hi
          simp only [Option.some.injEq] at h; subst h
          simp only [instantiate_core]
          rw [if_neg (by omega), if_pos (by omega)]
          have hidx : vars.length - (k + vars.length - i - 1 - k) - 1 = i := by omega
          rw [hidx]
          have hmem : vars.getD i (expr.Var 0) ∈ vars := by
            rw [List.getD_eq_getElem?_getD, List.getElem?_eq_getElem hlt]
            exact List.getElem_mem _
          obtain ⟨w, hw⟩ := hvars _ hmem
          rw [hw] at hv ⊢
          simp only [var_idx] at hv
          simp only [lift_free_vars, lift_free_vars_core, Nat.zero_le, if_true]
          congr 1
          omega
        · simp at h
      · omega
  | Constant _ => simp only [hop_match_fn.proj_core_at, Option.some.injEq] at h; subst h; rfl
  | Value _ => simp only [hop_match_fn.proj_core_at, Option.some.injEq] at h; subst h; rfl
  | TypeU _ => simp only [hop_match_fn.proj_core_at, Option.some.injEq] at h; subst h; rfl
  | MetaVar _ => simp only [hop_match_fn.proj_core_at, Option.some.injEq] at h; subst h; rfl
  | App f a ihf iha =>
    simp only [hop_match_fn.proj_core_at] at h
    simp only [vars_below, Bool.and_eq_true] at ht
    split at h
    · rename_i f1 a1 hf1 ha1
      simp only [Option.some.injEq] at h; subst h
      simp only [instantiate_core, ihf k f1 hf1 ht.1, iha k a1 ha1 ht.2]
    · simp at h
  | Lambda d b ihd ihb =>
    simp only [hop_match_fn.proj_core_at] at h
    simp only [vars_below, Bool.and_eq_true] at ht
    split at h
    · rename_i d1 b1 hd1 hb1
      simp only [Option.some.injEq] at h; subst h
      simp only [instantiate_core, ihd k d1 hd1 ht.1, ihb (k + 1) b1 hb1 ht.2]
    · simp at h
  | Pi d b ihd ihb =>
    simp only [hop_match_fn.proj_core_at] at h
    simp only [vars_below, Bool.and_eq_true] at ht
    split at h
    · rename_i d1 b1 hd1 hb1
      simp only [Option.some.injEq] at h; subst h
      simp only [instantiate_core, ihd k d1 hd1 ht.1, ihb (k + 1) b1 hb1 ht.2]
    · simp at h
  | Let ty v b ihty ihv ihb =>
    simp only [hop_match_fn.proj_core_at] at h
    simp only [vars_below, Bool.and_eq_true] at ht
    split at h
    · rename_i ty1 v1 b1 hty1 hv1 hb1
      simp only [Option.some.injEq] at h; subst h
      simp only [instantiate_core, ihty k ty1 hty1 ht.1.1, ihv k v1 hv1 ht.1.2,
        ihb (k + 1) b1 hb1 ht.2]
    · simp at h
  | HEq l r1 ihl ihr =>
    simp only [hop_match_fn.proj_core_at] at h
    simp only [vars_below, Bool.and_eq_true] at ht
    split at h
    · rename_i l1 r2 hl1 hr2
      simp only [Option.some.injEq] at h; subst h
      simp only [instantiate_core, ihl k l1 hl1 ht.1, ihr k r2 hr2 ht.2]
    · simp at h

/-- The beta-application of the lambdas wrapped by the loop of `proj` consumes them all. -/
theorem apply_beta_core_proj_loop (ctx : context) (vars : List expr) (i : Nat) (r out : expr)
    (h : hop_match_fn.proj_loop ctx vars i r = some out) (taken as more : List expr)
    (hlen : as.length = i) :
    apply_beta_core out taken (as ++ more) = apply_beta_core r (taken ++ as) more := by
  induction i generalizing r as more with
  | zero =>
    simp only [hop_match_fn.proj_loop, Option.some.injEq] at h
    subst h
    have : as = [] := List.length_eq_zero.1 hlen
    subst this
    simp
  | succ k ih =>
    simp only [hop_match_fn.proj_loop] at h
    split at h
    · simp at h
    · split at h
      · simp at h
      · split at h
        · simp at h
        · rename_i new_d _
          have hne : as ≠ [] := by
            intro hnil; rw [hnil] at hlen; simp at hlen
          obtain ⟨ini, last, rfl⟩ : ∃ ini last, as = ini ++ [last] :=
            ⟨as.dropLast, as.getLast hne, (List.dropLast_append_getLast hne).symm⟩
          have hini : ini.length = k := by simpa using hlen
          have := ih _ h ini ([last] ++ more) hini
          simp only [List.append_assoc] at this ⊢
          rw [this]
          simp only [List.singleton_append, apply_beta_core, List.append_assoc]
          rfl

/-- The loop of `proj` started on a lambda ends on a lambda. -/
theorem proj_loop_lambda (ctx : context) (vars : List expr) (i : Nat) (d r out : expr)
    (h : hop_match_fn.proj_loop ctx vars i (expr.Lambda d r) = some out) :
    ∃ d1 r1, out = expr.Lambda d1 r1 := by
  induction i generalizing d r with
  | zero =>
    simp only [hop_match_fn.proj_loop, Option.some.injEq] at h
    exact ⟨d, r, h.symm⟩
  | succ k ih =>
    simp only [hop_match_fn.proj_loop] at h
    split at h
    · simp at h
    · split at h
      · simp at h
      · split at h
        · simp at h
        · exact ih _ _ h

/-- The term assigned by the projection rule, beta-applied to the variables projected, is the
target. -/
theorem apply_beta_proj (t : expr) (ctx : context) (cs : Nat) (vars : List expr) (new_t : expr)
    (hne : vars ≠ []) (hvars : ∀ x ∈ vars, ∃ i, x = expr.Var i)
    (h : hop_match_fn.proj t ctx cs vars = some new_t) (ht : vars_below t cs = true) :
    apply_beta new_t vars = t := by
  unfold hop_match_fn.proj at h
  split at h
  · simp at h
  · rename_i r hr
    have hinst : instantiate r vars = t :=
      instantiate_proj_core_at cs vars t 0 r hvars hr (by simpa using ht)
    have hcore := apply_beta_core_proj_loop ctx vars vars.length r new_t h [] vars [] rfl
    simp only [List.append_nil, List.nil_append] at hcore
    have hlam : ∃ d1 r1, new_t = expr.Lambda d1 r1 := by
      cases hl : vars.length with
      | zero => exact absurd (List.length_eq_zero.1 hl) hne
      | succ k =>
        rw [hl] at h
        simp only [hop_match_fn.proj_loop] at h
        split at h
        · simp at h
        · split at h
          · simp at h
          · split at h
            · simp at h
            · exact proj_loop_lambda _ _ _ _ _ _ h
    obtain ⟨d1, r1, hnt⟩ := hlam
    have hfin : apply_beta_core r vars [] = instantiate r vars := by
      cases r <;> simp [apply_beta_core, mk_app]
    rw [hnt] at hcore ⊢
    simp only [apply_beta]
    rw [hcore, hfin, hinst]

/-- What `get_subst` returns is what `subst_lookup` reads. -/
theorem get_subst_some (s : subst) (i cs : Nat) (v : expr)
    (h : hop_match_fn.get_subst s (expr.Var i) cs = some (some v)) :
    subst_lookup s (i - cs) = some v := by
  simp only [hop_match_fn.get_subst, var_idx] at h
  split at h
  · simp at h
  · rename_i hlt
    simp only [Option.some.injEq] at h
    simp only [subst_lookup]
    rw [if_pos (by omega), h]

/-- An unassigned variable with a slot. -/
theorem get_subst_none (s : subst) (i cs : Nat)
    (h : hop_match_fn.get_subst s (expr.Var i) cs = some none) :
    i - cs < s.length ∧ s[s.length - (i - cs) - 1]? = some none := by
  simp only [hop_match_fn.get_subst, var_idx] at h
  split at h
  · simp at h
  · rename_i hlt
    simp only [Option.some.injEq] at h
    refine ⟨by omega, ?_⟩
    have hidx : s.length - (i - cs) - 1 < s.length := by omega
    rw [List.getD_eq_getElem?_getD, List.getElem?_eq_getElem hidx] at h
    rw [List.getElem?_eq_getElem hidx]
    simpa using h

/-- An assignment read from a buffer is read from every buffer that keeps its assignments. -/
theorem subst_lookup_extends (s s1 : subst) (j : Nat) (v : expr) (h : subst_extends s s1)
    (hl : subst_lookup s j = some v) : subst_lookup s1 j = some v := by
  simp only [subst_lookup] at hl ⊢
  split at hl
  · rename_i hj
    rw [if_pos (by rw [← h.1]; exact hj)]
    have hidx : s.length - j - 1 < s.length := by omega
    rw [List.getD_eq_getElem?_getD, List.getElem?_eq_getElem hidx] at hl
    have := h.2 (s.length - j - 1) v (by rw [List.getElem?_eq_getElem hidx]; simpa using hl)
    rw [List.getD_eq_getElem?_getD, ← h.1, this]
    rfl
  · simp at hl

/-- Assigning an unassigned variable that has a slot keeps the assignments and is read back. -/
theorem assign_spec (s : subst) (i cs : Nat) (t : expr)
    (h : hop_match_fn.get_subst s (expr.Var i) cs = some none) :
    subst_extends s (hop_match_fn.assign s (expr.Var i) t cs) ∧
    subst_lookup (hop_match_fn.assign s (expr.Var i) t cs) (i - cs) =
      some (lower_free_vars t cs cs) := by
  obtain ⟨h1, h2⟩ := get_subst_none s i cs h
  simp only [hop_match_fn.assign, var_idx]
  refine ⟨⟨by simp, ?_⟩, ?_⟩
  · intro j v hj
    by_cases hji : j = s.length - (i - cs) - 1
    · subst hji
      rw [h2] at hj
      simp at hj
    · rw [List.getElem?_set_ne (Ne.symm hji)]
      exact hj
  · simp only [subst_lookup, List.length_set]
    rw [if_pos h1]
    have hidx : s.length - (i - cs) - 1 < s.length := by omega
    rw [List.getD_eq_getElem?_getD, List.getElem?_set_self hidx]
    rfl

/-- Assigning a closed term keeps the buffer closed. -/
theorem assign_closed (s : subst) (x t : expr) (cs : Nat) (hs : subst_closed s)
    (ht : vars_below (lower_free_vars t cs cs) 0 = true) :
    subst_closed (hop_match_fn.assign s x t cs) := by
  intro v hv
  simp only [hop_match_fn.assign] at hv
  rcases List.mem_or_eq_of_mem_set hv with h | h
  · exact hs v h
  · simp only [Option.some.injEq] at h
    rw [h]; exact ht

/-- The two calls behind a conjunction that answers true. -/
theorem and_then_true (r : match_result) (k : subst → match_result) (s1 : subst)
    (h : hop_match_fn.and_then r k = match_result.done true s1) :
    ∃ s0, r = match_result.done true s0 ∧ k s0 = match_result.done true s1 := by
  unfold hop_match_fn.and_then at h
  split at h
  · rename_i s0
    exact ⟨s0, rfl, h⟩
  · rename_i hne
    exact absurd h (fun hh => hne s1 hh)

/-- A variable assigned a closed term is instantiated to that term. -/
theorem instantiate_subst_assigned (s : subst) (i cs : Nat) (v : expr) (hcs : cs ≤ i)
    (hl : subst_lookup s (i - cs) = some v) (hv : vars_below v 0 = true) :
    instantiate_subst_core s (expr.Var i) cs = v := by
  rw [instantiate_subst_var s i cs hcs, hl]
  exact lift_of_vars_below v 0 0 cs hv (Nat.le_refl 0)

/-- The loop over the arguments of two applications is sound when the recursive call is. -/
theorem app_loop_sound (m : subst → expr → expr → context → Nat → match_result)
    (hm : match_sound m) (ctx : context) (cs : Nat) (p t : expr)
    (ht : vars_below t cs = true) (hctx : context_in_range ctx 0) (hlen : ctx.length = cs) :
    ∀ (i1 i2 : Nat) (s s1 : subst), 1 ≤ i1 → i1 ≤ num_args p → 1 ≤ i2 → i2 ≤ num_args t →
      subst_closed s →
      hop_match_fn.app_loop (fun s0 p1 t1 => m s0 p1 t1 ctx cs) p t i1 i2 s =
        match_result.done true s1 →
      subst_closed s1 ∧ subst_extends s s1 ∧
        ∀ s2, subst_closed s2 → subst_extends s1 s2 →
          beta_eq (instantiate_subst_core s2 (mk_app_first i1 p) cs) (mk_app_first i2 t) := by
  intro i1
  induction i1 with
  | zero => intro i2 s s1 h1; omega
  | succ j ih =>
    intro i2 s s1 h1 h2 h3 h4 hs h
    cases i2 with
    | zero => omega
    | succ l =>
      rw [hop_match_fn.app_loop] at h
      obtain ⟨s0, hr, hk⟩ := and_then_true _
        (fun s0 => hop_match_fn.app_loop (fun s0 p1 t1 => m s0 p1 t1 ctx cs) p t j l s0) s1 h
      rcases j with _ | j
      · rcases l with _ | l
        · have hr1 : m s (arg p 0) (arg t 0) ctx cs = match_result.done true s0 := by
            simpa using hr
          have hk1 : s0 = s1 := by
            simpa [hop_match_fn.app_loop] using hk
          subst hk1
          have := hm s (arg p 0) (arg t 0) ctx cs s0 hs (vars_below_arg t 0 cs ht) hctx hlen hr1
          rw [mk_app_first_one, mk_app_first_one]
          exact this
        · have hr1 : m s (arg p 0) (mk_app_first (l + 1 + 1) t) ctx cs =
              match_result.done true s0 := by
            simpa using hr
          have hk1 : s0 = s1 := by
            simpa [hop_match_fn.app_loop] using hk
          subst hk1
          have := hm s (arg p 0) (mk_app_first (l + 1 + 1) t) ctx cs s0 hs
            (vars_below_mk_app_first t (l + 1) cs ht) hctx hlen hr1
          rw [mk_app_first_one]
          exact this
      · rcases l with _ | l
        · have hr1 : m s (mk_app_first (j + 1 + 1) p) (arg t 0) ctx cs =
              match_result.done true s0 := by
            simpa using hr
          have hk1 : s0 = s1 := by
            simpa [hop_match_fn.app_loop] using hk
          subst hk1
          have := hm s (mk_app_first (j + 1 + 1) p) (arg t 0) ctx cs s0 hs
            (vars_below_arg t 0 cs ht) hctx hlen hr1
          rw [mk_app_first_one]
          exact this
        · have hr1 : m s (arg p (j + 1)) (arg t (l + 1)) ctx cs =
              match_result.done true s0 := by
            simpa using hr
          obtain ⟨hc0, he0, hb0⟩ := hm s (arg p (j + 1)) (arg t (l + 1)) ctx cs s0 hs
            (vars_below_arg t (l + 1) cs ht) hctx hlen hr1
          obtain ⟨hc1, he1, hb1⟩ := ih (l + 1) s0 s1 (by omega) (by omega) (by omega) (by omega)
            hc0 hk
          refine ⟨hc1, subst_extends_trans _ _ _ he0 he1, ?_⟩
          intro s2 hc2 he2
          rw [mk_app_first_succ p (j + 1) (by omega) (by omega),
            mk_app_first_succ t (l + 1) (by omega) (by omega)]
          exact beta_eq.app (hb1 s2 hc2 he2) (hb0 s2 hc2 (subst_extends_trans _ _ _ he1 he2))

/-- Two sound calls in sequence. -/
theorem and_then_sound (m : subst → expr → expr → context → Nat → match_result)
    (hm : match_sound m) (s s1 : subst) (p1 t1 p2 t2 : expr) (ctx1 ctx2 : context) (cs1 cs2 : Nat)
    (hs : subst_closed s) (ht1 : vars_below t1 cs1 = true) (ht2 : vars_below t2 cs2 = true)
    (hctx1 : context_in_range ctx1 0) (hctx2 : context_in_range ctx2 0)
    (hlen1 : ctx1.length = cs1) (hlen2 : ctx2.length = cs2)
    (h : hop_match_fn.and_then (m s p1 t1 ctx1 cs1) (fun s0 => m s0 p2 t2 ctx2 cs2) =
      match_result.done true s1) :
    subst_closed s1 ∧ subst_extends s s1 ∧
      ∀ s2, subst_closed s2 → subst_extends s1 s2 →
        beta_eq (instantiate_subst_core s2 p1 cs1) t1 ∧
        beta_eq (instantiate_subst_core s2 p2 cs2) t2 := by
  obtain ⟨s0, hr, hk⟩ := and_then_true _ _ _ h
  obtain ⟨hc0, he0, hb0⟩ := hm s p1 t1 ctx1 cs1 s0 hs ht1 hctx1 hlen1 hr
  obtain ⟨hc1, he1, hb1⟩ := hm s0 p2 t2 ctx2 cs2 s1 hc0 ht2 hctx2 hlen2 hk
  refine ⟨hc1, subst_extends_trans _ _ _ he0 he1, ?_⟩
  intro s2 hc2 he2
  exact ⟨hb0 s2 hc2 (subst_extends_trans _ _ _ he1 he2), hb1 s2 hc2 he2⟩

/-- The structural part of `match` is sound when the recursive call is. -/
theorem match_structural_sound (m : subst → expr → expr → context → Nat → match_result)
    (hm : match_sound m) : match_sound (hop_match_fn.match_structural m) := by
  intro s p t ctx cs s1 hs ht hctx hlen h
  unfold hop_match_fn.match_structural at h
  split at h
  · rename_i hpt
    simp only [match_result.done.injEq, true_and] at h
    subst h
    subst hpt
    refine ⟨hs, subst_extends_refl s, ?_⟩
    intro s2 _ _
    rw [instantiate_subst_of_vars_below s2 p cs ht]
    exact beta_eq.refl p
  · split at h
    · rename_i hh
      simp only [Bool.and_eq_true] at hh
      obtain ⟨l, r, hp⟩ := is_eq_heq_inv p hh.1
      obtain ⟨l1, r1, ht1⟩ := is_eq_heq_inv t hh.2
      subst hp
      subst ht1
      simp only [eq_heq_args] at h
      simp only [vars_below, Bool.and_eq_true] at ht
      obtain ⟨hc1, he1, hb1⟩ := and_then_sound m hm s s1 l l1 r r1 ctx ctx cs cs hs ht.1 ht.2
        hctx hctx hlen hlen h
      refine ⟨hc1, he1, ?_⟩
      intro s2 hc2 he2
      exact beta_eq.heq (hb1 s2 hc2 he2).1 (hb1 s2 hc2 he2).2
    · split at h
      · simp at h
      · split at h
        · rename_i f a h1 h2 h3
          have hn : 1 ≤ num_args (expr.App f a) := by
            have := get_args_ne_nil (expr.App f a)
            unfold num_args
            exact List.length_pos.2 this
          have hn2 : 1 ≤ num_args t := by
            have := get_args_ne_nil t
            unfold num_args
            exact List.length_pos.2 this
          have := app_loop_sound m hm ctx cs _ t ht hctx hlen _ _ s s1 hn
            (Nat.le_refl _) hn2 (Nat.le_refl _) hs h
          rw [mk_app_first_all, mk_app_first_all] at this
          exact this
        · rename_i pd pb td tb h1 h2 h3
          simp only [vars_below, Bool.and_eq_true] at ht
          have hctx2 : context_in_range (extend ctx td) 0 := by
            refine ⟨?_, hctx⟩
            rw [Nat.zero_add, hlen]
            exact ht.1
          obtain ⟨hc1, he1, hb1⟩ := and_then_sound m hm s s1 pd td pb tb ctx (extend ctx td) cs
            (cs + 1) hs ht.1 ht.2 hctx hctx2 hlen (by simp [extend, hlen]) h
          refine ⟨hc1, he1, ?_⟩
          intro s2 hc2 he2
          exact beta_eq.lambda (hb1 s2 hc2 he2).1 (hb1 s2 hc2 he2).2
        · rename_i pd pb td tb h1 h2 h3
          simp only [vars_below, Bool.and_eq_true] at ht
          have hctx2 : context_in_range (extend ctx td) 0 := by
            refine ⟨?_, hctx⟩
            rw [Nat.zero_add, hlen]
            exact ht.1
          obtain ⟨hc1, he1, hb1⟩ := and_then_sound m hm s s1 pd td pb tb ctx (extend ctx td) cs
            (cs + 1) hs ht.1 ht.2 hctx hctx2 hlen (by simp [extend, hlen]) h
          refine ⟨hc1, he1, ?_⟩
          intro s2 hc2 he2
          exact beta_eq.pi (hb1 s2 hc2 he2).1 (hb1 s2 hc2 he2).2
        · simp at h

/-- An application node has a head and at least one argument. -/
theorem drop_get_args_ne_nil (p : expr) (h : is_app p = true) : (get_args p).drop 1 ≠ [] := by
  cases p <;> simp [is_app] at h
  rename_i f a
  have := List.length_pos.2 (get_args_ne_nil f)
  intro hd
  have hl := congrArg List.length hd
  rw [List.length_drop] at hl
  simp only [get_args, List.length_append, List.length_singleton, List.length_nil] at hl
  omega

/-- The matcher is sound at every recursion bound. -/
theorem match_fuel_sound : ∀ fuel, match_sound (hop_match_fn.match_ fuel) := by
  intro fuel
  induction fuel with
  | zero =>
    intro s p t ctx cs s1 _ _ _ _ h
    simp [hop_match_fn.match_] at h
  | succ n ih =>
    intro s p t ctx cs s1 hs ht hctx hlen h
    rw [hop_match_fn.match_] at h
    split at h
    · rename_i hfv
      obtain ⟨i, hp, hi⟩ := is_free_var_inv p cs hfv
      subst hp
      split at h
      · simp at h
      · rename_i v hg
        have hl := get_subst_some s i cs v hg
        have hv := subst_lookup_closed s (i - cs) v hs hl
        have hlift : lift_free_vars v cs = v := lift_of_vars_below v 0 0 cs hv (Nat.le_refl 0)
        rw [hlift] at h
        obtain ⟨hc1, he1, hb1⟩ := ih s v t ctx cs s1 hs ht hctx hlen h
        refine ⟨hc1, he1, ?_⟩
        intro s2 hc2 he2
        rw [instantiate_subst_assigned s2 i cs v hi
          (subst_lookup_extends s s2 _ v (subst_extends_trans _ _ _ he1 he2) hl) hv]
        have := hb1 s2 hc2 he2
        rw [instantiate_subst_of_vars_below s2 v cs (vars_below_mono v 0 cs hv (Nat.zero_le cs))]
          at this
        exact this
      · rename_i hg
        split at h
        · simp at h
        · rename_i hl
          simp only [match_result.done.injEq, true_and] at h
          subst h
          have ht0 : vars_below t 0 = true := by
            apply vars_below_of_no_local t cs 0 (by simpa using ht)
            simpa [hop_match_fn.has_locally_bound_var] using hl
          have hlow : lower_free_vars t cs cs = t :=
            lower_of_vars_below t 0 cs cs ht0 (Nat.zero_le cs)
          obtain ⟨hext, hlook⟩ := assign_spec s i cs t hg
          rw [hlow] at hlook
          refine ⟨assign_closed s _ t cs hs (by rw [hlow]; exact ht0), hext, ?_⟩
          intro s2 _ he2
          rw [instantiate_subst_assigned s2 i cs t hi
            (subst_lookup_extends _ s2 _ t he2 hlook) ht0]
          exact beta_eq.refl t
    · split at h
      · rename_i hh
        simp only [Bool.and_eq_true] at hh
        obtain ⟨i, hp0, hi⟩ := is_free_var_inv (arg p 0) cs hh.2
        obtain ⟨args, hargs⟩ : ∃ args, args = (get_args p).drop 1 := ⟨_, rfl⟩
        have hpeq : p = mk_app (expr.Var i :: args) := by
          rw [hargs, ← hp0]
          exact eq_mk_app_head_tail p
        rw [hp0] at h
        split at h
        · simp at h
        · rename_i v hg
          rw [← hargs] at h
          have hl := get_subst_some s i cs v hg
          have hv := subst_lookup_closed s (i - cs) v hs hl
          have hlift : lift_free_vars v cs = v := lift_of_vars_below v 0 0 cs hv (Nat.le_refl 0)
          rw [hlift] at h
          obtain ⟨hc1, he1, hb1⟩ := ih s (apply_beta v args) t ctx cs s1 hs ht hctx hlen h
          refine ⟨hc1, he1, ?_⟩
          intro s2 hc2 he2
          have := hb1 s2 hc2 he2
          rw [instantiate_subst_apply_beta s2 hc2 cs v args hv] at this
          rw [hpeq, instantiate_subst_mk_app, instantiate_subst_assigned s2 i cs v hi
            (subst_lookup_extends s s2 _ v (subst_extends_trans _ _ _ he1 he2) hl) hv]
          exact beta_eq.trans (beta_eq_apply_beta v _) this
        · rename_i hg
          split at h
          · rename_i vars hvars
            split at h
            · rename_i new_t hproj
              simp only [match_result.done.injEq, true_and] at h
              subst h
              obtain ⟨hveq, hloc⟩ := args_are_distinct_loop_spec cs _ [] vars hvars
              rw [List.nil_append, ← hargs] at hveq
              rw [hveq] at hproj
              rw [← hargs] at hloc
              have hform : ∀ x ∈ args, ∃ j, x = expr.Var j := by
                intro x hx
                obtain ⟨j, hj, _⟩ := is_locally_bound_inv x cs (hloc x hx)
                exact ⟨j, hj⟩
              have hne : args ≠ [] := by
                rw [hargs]
                exact drop_get_args_ne_nil p hh.1
              have hnt : vars_below new_t 0 = true :=
                vars_below_proj t ctx cs args 0 new_t hctx hproj (by simpa using ht)
              have hlow : lower_free_vars new_t cs cs = new_t :=
                lower_of_vars_below new_t 0 cs cs hnt (Nat.zero_le cs)
              obtain ⟨hext, hlook⟩ := assign_spec s i cs new_t hg
              rw [hlow] at hlook
              refine ⟨assign_closed s _ new_t cs hs (by rw [hlow]; exact hnt), hext, ?_⟩
              intro s2 _ he2
              have hmap : args.map (fun a => instantiate_subst_core s2 a cs) = args := by
                conv => rhs; rw [← List.map_id args]
                apply List.map_congr_left
                intro a ha
                obtain ⟨j, hj, hjc⟩ := is_locally_bound_inv a cs (hloc a ha)
                rw [hj]
                exact instantiate_subst_of_vars_below s2 (expr.Var j) cs (by simpa [vars_below] using hjc)
              rw [hpeq, instantiate_subst_mk_app, hmap, instantiate_subst_assigned s2 i cs new_t hi
                (subst_lookup_extends _ s2 _ new_t he2 hlook) hnt]
              have hb := beta_eq_apply_beta new_t args
              rw [apply_beta_proj t ctx cs args new_t hne hform hproj ht] at hb
              exact hb
            · simp at h
          · exact match_structural_sound _ ih s p t ctx cs s1 hs ht hctx hlen h
      · exact match_structural_sound _ ih s p t ctx cs s1 hs ht hctx hlen h

/-- The denotation grows with the valuation. -/
theorem sem_mono (e : expr) : ∀ (ρ ρ1 : valuation), (∀ i x, ρ i x → ρ1 i x) →
    ∀ y, sem e ρ y → sem e ρ1 y := by
  induction e with
  | Var i => intro ρ ρ1 h y hy; exact h i y hy
  | Constant n => intro ρ ρ1 _ y hy; exact hy
  | App f a ihf iha =>
    intro ρ ρ1 h y hy
    obtain ⟨β, hβ, hf⟩ := hy
    exact ⟨β, fun x hx => iha ρ ρ1 h x (hβ x hx), ihf ρ ρ1 h _ hf⟩
  | Lambda d b _ ihb =>
    intro ρ ρ1 h z hz
    obtain ⟨β, y, hzy, hb⟩ := hz
    refine ⟨β, y, hzy, ihb _ _ ?_ y hb⟩
    intro i x hx
    cases i with
    | zero => exact hx
    | succ i => exact h i x hx
  | Value v => intro ρ ρ1 _ y hy; exact hy
  | TypeU l => intro ρ ρ1 _ y hy; exact hy
  | Pi d b _ _ => intro ρ ρ1 _ y hy; exact hy
  | Let t v b _ _ _ => intro ρ ρ1 _ y hy; exact hy
  | HEq l r _ _ => intro ρ ρ1 _ y hy; exact hy
  | MetaVar m => intro ρ ρ1 _ y hy; exact hy

/-- Valuations with the same sets give the same denotation. -/
theorem sem_congr (e : expr) (ρ ρ1 : valuation) (h : ∀ i x, ρ i x ↔ ρ1 i x) (y : point) :
    sem e ρ y ↔ sem e ρ1 y :=
  ⟨sem_mono e ρ ρ1 (fun i x => (h i x).1) y, sem_mono e ρ1 ρ (fun i x => (h i x).2) y⟩

/-- Lifting the free variables of a term shifts the valuation. -/
theorem sem_lift (e : expr) : ∀ (s d : Nat) (ρ : valuation) (y : point),
    sem (lift_free_vars_core e s d) ρ y ↔
      sem e (fun i => if i < s then ρ i else ρ (i + d)) y := by
  induction e with
  | Var i =>
    intro s d ρ y
    simp only [lift_free_vars_core]
    split
    · rename_i h
      simp only [sem]
      rw [if_neg (by omega)]
    · rename_i h
      simp only [sem]
      rw [if_pos (by omega)]
  | Constant n => intro s d ρ y; exact Iff.rfl
  | App f a ihf iha =>
    intro s d ρ y
    simp only [lift_free_vars_core, sem, ihf, iha]
  | Lambda t b _ ihb =>
    intro s d ρ z
    simp only [lift_free_vars_core, sem, ihb]
    constructor
    · rintro ⟨β, y, hzy, hb⟩
      refine ⟨β, y, hzy, (sem_congr b _ _ ?_ y).1 hb⟩
      intro i x
      cases i with
      | zero => simp [valuation.push]
      | succ i =>
        by_cases hi : i < s
        · simp [valuation.push, hi]
        · simp only [valuation.push, hi, if_false, Nat.add_lt_add_iff_right]
          rw [Nat.add_right_comm]
    · rintro ⟨β, y, hzy, hb⟩
      refine ⟨β, y, hzy, (sem_congr b _ _ ?_ y).2 hb⟩
      intro i x
      cases i with
      | zero => simp [valuation.push]
      | succ i =>
        by_cases hi : i < s
        · simp [valuation.push, hi]
        · simp only [valuation.push, hi, if_false, Nat.add_lt_add_iff_right]
          rw [Nat.add_right_comm]
  | Value v => intro s d ρ y; exact Iff.rfl
  | TypeU l => intro s d ρ y; exact Iff.rfl
  | Pi t b _ _ => intro s d ρ y; exact Iff.rfl
  | Let t v b _ _ _ => intro s d ρ y; exact Iff.rfl
  | HEq l r _ _ => intro s d ρ y; exact Iff.rfl
  | MetaVar m => intro s d ρ y; exact Iff.rfl

/-- Instantiating index `k` by a term reads, in the valuation, index `k` as the denotation
of that term and the indices above as those one below. -/
theorem sem_instantiate (b : expr) : ∀ (k : Nat) (a : expr) (ρ : valuation) (y : point),
    sem (instantiate_core b k [a]) ρ y ↔
      sem b (fun i => if i < k then ρ i
                      else if i = k then sem a (fun j => ρ (j + k)) else ρ (i - 1)) y := by
  induction b with
  | Var i =>
    intro k a ρ y
    simp only [instantiate_core, List.length_singleton]
    split
    · rename_i h
      simp only [sem]
      rw [if_pos h]
    · rename_i h
      split
      · rename_i h1
        have hik : i = k := by omega
        subst hik
        simp only [sem, lt_self_iff_false, if_false, if_true, Nat.sub_self, lift_free_vars]
        rw [sem_lift]
        exact Iff.rfl
      · rename_i h1
        simp only [sem]
        rw [if_neg h, if_neg (by omega)]
  | Constant n => intro k a ρ y; exact Iff.rfl
  | App f a1 ihf iha =>
    intro k a ρ y
    simp only [instantiate_core, sem, ihf, iha]
  | Lambda t b _ ihb =>
    intro k a ρ z
    simp only [instantiate_core, sem, ihb]
    have hval : ∀ (β : List point) (i : Nat) (x : point),
        (if i < k + 1 then valuation.push (fun x => x ∈ β) ρ i
         else if i = k + 1 then sem a (fun j => valuation.push (fun x => x ∈ β) ρ (j + (k + 1)))
         else valuation.push (fun x => x ∈ β) ρ (i - 1)) x ↔
        valuation.push (fun x => x ∈ β)
          (fun i => if i < k then ρ i
                    else if i = k then sem a (fun j => ρ (j + k)) else ρ (i - 1)) i x := by
      intro β i x
      cases i with
      | zero => simp [valuation.push]
      | succ i =>
        by_cases hi : i < k
        · simp [valuation.push, hi]
        · by_cases hik : i = k
          · subst hik
            simp only [valuation.push, lt_self_iff_false, if_false, if_true]
            exact Iff.rfl
          · have h1 : ¬ (i + 1 < k + 1) := by omega
            have h2 : ¬ (i + 1 = k + 1) := by omega
            simp only [valuation.push, hi, hik, h1, h2, if_false]
            obtain ⟨j, hj⟩ : ∃ j, i = j + 1 := ⟨i - 1, by omega⟩
            subst hj
            exact Iff.rfl
    constructor
    · rintro ⟨β, y, hzy, hb⟩
      exact ⟨β, y, hzy, (sem_congr b _ _ (hval β) y).1 hb⟩
    · rintro ⟨β, y, hzy, hb⟩
      exact ⟨β, y, hzy, (sem_congr b _ _ (hval β) y).2 hb⟩
  | Value v => intro k a ρ y; exact Iff.rfl
  | TypeU l => intro k a ρ y; exact Iff.rfl
  | Pi t b _ _ => intro k a ρ y; exact Iff.rfl
  | Let t v b _ _ _ => intro k a ρ y; exact Iff.rfl
  | HEq l r _ _ => intro k a ρ y; exact Iff.rfl
  | MetaVar m => intro k a ρ y; exact Iff.rfl

/-- A point of the denotation needs finitely many points of the valuation only. -/
theorem sem_continuous (e : expr) : ∀ (ρ : valuation) (y : point), sem e ρ y →
    ∃ ρf : Nat → List point, (∀ i x, x ∈ ρf i → ρ i x) ∧ sem e (fun i x => x ∈ ρf i) y := by
  induction e with
  | Var i =>
    intro ρ y hy
    refine ⟨fun j => if j = i then [y] else [], ?_, ?_⟩
    · intro j x hx
      by_cases hj : j = i
      · subst hj
        simp at hx
        subst hx
        exact hy
      · simp [hj] at hx
    · simp [sem]
  | Constant n =>
    intro ρ y hy
    exact ⟨fun _ => [], by intro i x hx; simp at hx, hy⟩
  | App f a ihf iha =>
    intro ρ y hy
    obtain ⟨β, hβ, hf⟩ := hy
    obtain ⟨ρ1, hb1, hs1⟩ := ihf ρ _ hf
    have hargs : ∀ γ : List point, (∀ x ∈ γ, sem a ρ x) →
        ∃ ρf : Nat → List point, (∀ i x, x ∈ ρf i → ρ i x) ∧
          ∀ x ∈ γ, sem a (fun i x => x ∈ ρf i) x := by
      intro γ
      induction γ with
      | nil => intro _; exact ⟨fun _ => [], by intro i x hx; simp at hx, by simp⟩
      | cons g γ ih =>
        intro hγ
        obtain ⟨ρ2, hb2, hs2⟩ := ih (fun x hx => hγ x (List.mem_cons_of_mem _ hx))
        obtain ⟨ρ3, hb3, hs3⟩ := iha ρ g (hγ g (List.mem_cons_self _ _))
        refine ⟨fun i => ρ2 i ++ ρ3 i, ?_, ?_⟩
        · intro i x hx
          rcases List.mem_append.1 hx with h | h
          · exact hb2 i x h
          · exact hb3 i x h
        · intro x hx
          rcases List.mem_cons.1 hx with h | h
          · subst h
            exact sem_mono a _ _ (fun i x hx => List.mem_append_right _ hx) _ hs3
          · exact sem_mono a _ _ (fun i x hx => List.mem_append_left _ hx) _ (hs2 x h)
    obtain ⟨ρ2, hb2, hs2⟩ := hargs β hβ
    refine ⟨fun i => ρ1 i ++ ρ2 i, ?_, β, ?_, ?_⟩
    · intro i x hx
      rcases List.mem_append.1 hx with h | h
      · exact hb1 i x h
      · exact hb2 i x h
    · intro x hx
      exact sem_mono a _ _ (fun i x hx => List.mem_append_right _ hx) _ (hs2 x hx)
    · exact sem_mono f _ _ (fun i x hx => List.mem_append_left _ hx) _ hs1
  | Lambda t b _ ihb =>
    intro ρ z hz
    obtain ⟨β, y, hzy, hb⟩ := hz
    obtain ⟨ρ1, hb1, hs1⟩ := ihb _ y hb
    refine ⟨fun i => ρ1 (i + 1), ?_, β, y, hzy, ?_⟩
    · intro i x hx
      exact hb1 (i + 1) x hx
    · refine sem_mono b _ _ ?_ y hs1
      intro i x hx
      cases i with
      | zero => exact hb1 0 x hx
      | succ i => exact hx
  | Value v => intro ρ y hy; exact False.elim hy
  | TypeU l => intro ρ y hy; exact False.elim hy
  | Pi t b _ _ => intro ρ y hy; exact False.elim hy
  | Let t v b _ _ _ => intro ρ y hy; exact False.elim hy
  | HEq l r _ _ => intro ρ y hy; exact False.elim hy
  | MetaVar m => intro ρ y hy; exact False.elim hy

/-- A redex and its contraction denote the same set. -/
theorem sem_beta (d b a : expr) (ρ : valuation) (y : point) :
    sem (expr.App (expr.Lambda d b) a) ρ y ↔ sem (instantiate b [a]) ρ y := by
  unfold instantiate
  rw [sem_instantiate]
  constructor
  · rintro ⟨β, hβ, β1, y1, heq, hb⟩
    simp only [point.arrow.injEq] at heq
    obtain ⟨h1, h2⟩ := heq
    subst h1
    subst h2
    refine sem_mono b _ _ ?_ y hb
    intro i x hx
    cases i with
    | zero => exact hβ x hx
    | succ i => exact hx
  · intro h
    obtain ⟨ρ1, hb1, hs1⟩ := sem_continuous b _ y h
    refine ⟨ρ1 0, ?_, ρ1 0, y, rfl, ?_⟩
    · intro x hx
      exact hb1 0 x hx
    · refine sem_mono b _ _ ?_ y hs1
      intro i x hx
      cases i with
      | zero => exact hx
      | succ i => exact hb1 (i + 1) x hx

/-- Terms equal up to beta denote the same set in every valuation. -/
theorem sem_beta_eq (a b : expr) (h : beta_eq a b) :
    ∀ (ρ : valuation) (y : point), sem a ρ y ↔ sem b ρ y := by
  induction h with
  | refl e => intro ρ y; exact Iff.rfl
  | symm _ ih => intro ρ y; exact (ih ρ y).symm
  | trans _ _ ih1 ih2 => intro ρ y; exact (ih1 ρ y).trans (ih2 ρ y)
  | beta d b a => intro ρ y; exact sem_beta d b a ρ y
  | app _ _ ihf iha => intro ρ y; simp only [sem, ihf, iha]
  | lambda _ _ _ ihb => intro ρ y; simp only [sem, ihb]
  | pi _ _ _ _ => intro ρ y; exact Iff.rfl
  | elet _ _ _ _ _ _ => intro ρ y; exact Iff.rfl
  | heq _ _ _ _ => intro ρ y; exact Iff.rfl

/-- A variable is not equal up to beta to a constant. -/
theorem var_not_beta_eq_constant (i : Nat) (n : name) :
    ¬ beta_eq (expr.Var i) (expr.Constant n) := by
  intro h
  have := (sem_beta_eq _ _ h (fun _ _ => False) point.atom).2 rfl
  exact this

/-- C1, as stated, fails: the claim is for every substitution array. From the array in
which `?0` is already assigned `?1`, matching the pattern `?0` against the closed target
`c` returns true (the call follows the assignment and assigns `?1 := c`), but the pattern
instantiated with the final array is the variable `?1`, which is not `c` up to beta. -/
theorem hop_match_sound_counterexample :
    vars_below (Const "c") 0 = true ∧
    (∀ fuel, hop_match (fuel + 2) (expr.Var 0) (Const "c") chained_subst =
      match_result.done true [some (Const "c"), some (expr.Var 1)]) ∧
    instantiate_subst [some (Const "c"), some (expr.Var 1)] (expr.Var 0) = expr.Var 1 ∧
    ¬ beta_eq (instantiate_subst [some (Const "c"), some (expr.Var 1)] (expr.Var 0))
      (Const "c") := by
  refine ⟨rfl, fun fuel => rfl, rfl, ?_⟩
  have h : instantiate_subst [some (Const "c"), some (expr.Var 1)] (expr.Var 0) = expr.Var 1 :=
    rfl
  rw [h]
  exact var_not_beta_eq_constant 1 (mk_name "c")

/-- C1 (amended): for every pattern `p`, target `t` without free variables and substitution
array `s` whose assigned entries have no free variables (in particular the array with
every entry unassigned), if `hop_match(p, t, s)` returns true, at whatever recursion bound,
then the pattern with its logical variables replaced by the entries of the final array is
equal to `t` up to beta. -/
theorem hop_match_sound (fuel : Nat) (p t : expr) (s s1 : subst)
    (ht : vars_below t 0 = true) (hs : subst_closed s)
    (h : hop_match fuel p t s = match_result.done true s1) :
    beta_eq (instantiate_subst s1 p) t := by
  obtain ⟨hc1, _, hb1⟩ := match_fuel_sound fuel s p t [] 0 s1 hs ht trivial rfl h
  exact hb1 s1 hc1 (subst_extends_refl s1)

/-- C1 (amended), at the pattern `g ?x ?x` and the target `g a a` from the unassigned
array: the matcher returns true with `?x := a`. -/
theorem hop_match_sound_witness :
    vars_below target_g_a_a 0 = true ∧ subst_closed [none] ∧
    hop_match 3 pattern_g_x_x target_g_a_a [none] = match_result.done true [some (Const "a")] ∧
    beta_eq (instantiate_subst [some (Const "a")] pattern_g_x_x) target_g_a_a :=
  ⟨rfl, fun v hv => by simp at hv, rfl,
    hop_match_sound 3 pattern_g_x_x target_g_a_a [none] [some (Const "a")] rfl
      (fun v hv => by simp at hv) rfl⟩

/-- The first entry for the token up the chain, for any of the per-level tables. -/
theorem find_nud_eq_findSome (c : List lean_extension) (n : name) :
    lean_extension.find_nud c n = (c.findSome? (fun e => e.m_nud n)).getD none := by
  induction c with
  | nil => rfl
  | cons e parent ih =>
    simp only [lean_extension.find_nud, List.findSome?]
    cases h : e.m_nud n with
    | none => simpa using ih
    | some op => simp

/-- See `find_nud_eq_findSome`. -/
theorem find_led_eq_findSome (c : List lean_extension) (n : name) :
    lean_extension.find_led c n = (c.findSome? (fun e => e.m_led n)).getD none := by
  induction c with
  | nil => rfl
  | cons e parent ih =>
    simp only [lean_extension.find_led, List.findSome?]
    cases h : e.m_led n with
    | none => simpa using ih
    | some op => simp

/-- C11: on a frontend, `find_nud` and `find_led` return the entry of the frontend's own
table for the token when it has one, and otherwise what the same query returns on the
parent chain; they return the first entry met up the chain, and the null descriptor when
no level has an entry. -/
theorem find_nud_find_led_child_first (s : frontend) (n : name) :
    (∀ op, s.here.ext.m_nud n = some op → lean_extension.find_nud s.chain n = op) ∧
    (s.here.ext.m_nud n = none →
      lean_extension.find_nud s.chain n = lean_extension.find_nud s.parent_chain n) ∧
    (∀ op, s.here.ext.m_led n = some op → lean_extension.find_led s.chain n = op) ∧
    (s.here.ext.m_led n = none →
      lean_extension.find_led s.chain n = lean_extension.find_led s.parent_chain n) ∧
    lean_extension.find_nud s.chain n = (s.chain.findSome? (fun e => e.m_nud n)).getD none ∧
    lean_extension.find_led s.chain n = (s.chain.findSome? (fun e => e.m_led n)).getD none ∧
    ((∀ e ∈ s.chain, e.m_nud n = none) → lean_extension.find_nud s.chain n = none) ∧
    ((∀ e ∈ s.chain, e.m_led n = none) → lean_extension.find_led s.chain n = none) := by
  refine ⟨?_, ?_, ?_, ?_, find_nud_eq_findSome _ _, find_led_eq_findSome _ _, ?_, ?_⟩
  · intro op h
    simp [frontend.chain, lean_extension.find_nud, h]
  · intro h
    simp [frontend.chain, frontend.parent_chain, lean_extension.find_nud, h]
  · intro op h
    simp [frontend.chain, lean_extension.find_led, h]
  · intro h
    simp [frontend.chain, frontend.parent_chain, lean_extension.find_led, h]
  · intro h
    rw [find_nud_eq_findSome]
    have : s.chain.findSome? (fun e => e.m_nud n) = none := by
      rw [List.findSome?_eq_none_iff]
      exact h
    rw [this]
    rfl
  · intro h
    rw [find_led_eq_findSome]
    have : s.chain.findSome? (fun e => e.m_led n) = none := by
      rw [List.findSome?_eq_none_iff]
      exact h
    rw [this]
    rfl

/-- C12, as stated, fails: after `infixl "|" 65` in the parent and the mixfix `| _ |` with
precedence 30 in the child, the lbp computed from the child's own tables is 30, but the
lbp of `|` in the child is 65, the precedence of the led operator of the parent. -/
theorem get_lbp_parent_monotone_counterexample :
    lbp_shadow_frontend.here.ext.m_led (mk_name "|") = none ∧
    lbp_shadow_frontend.here.ext.m_other_lbp (mk_name "|") = some 30 ∧
    lean_extension.get_lbp lbp_shadow_frontend.heap [lbp_shadow_frontend.here.ext] (mk_name "|") =
      some 30 ∧
    lean_extension.get_lbp lbp_shadow_frontend.heap lbp_shadow_frontend.parent_chain (mk_name "|") =
      some 65 ∧
    lean_extension.get_lbp lbp_shadow_frontend.heap lbp_shadow_frontend.chain (mk_name "|") =
      some 65 ∧
    lean_extension.get_lbp lbp_shadow_frontend.heap lbp_shadow_frontend.chain (mk_name "|") ≠
      (lean_extension.get_lbp lbp_shadow_frontend.heap [lbp_shadow_frontend.here.ext]
        (mk_name "|")).orElse
        (fun _ => lean_extension.get_lbp lbp_shadow_frontend.heap lbp_shadow_frontend.parent_chain
          (mk_name "|")) := by
  refine ⟨by decide, by decide, by decide, by decide, by decide, by decide⟩

/-- C12 (amended): for a token for which the frontend has a led entry of its own, or has no
entry of its own in the table of other parts, or for which no ancestor has a led operator,
the lbp of the token is the lbp computed from the frontend's own led and other-parts
tables alone when that is defined, and the lbp of the token in the parent otherwise. In
the remaining case (no led entry of its own, and an ancestor has a led operator for the
token) the lbp is the precedence of the ancestor's operator, whatever the frontend's own
table of other parts holds. -/
theorem get_lbp_child_spec (s : frontend) (n : name)
    (hled : ∀ op, s.here.ext.m_led n = some op → (s.heap.deref op).isSome = true) :
    (((s.here.ext.m_led n).isSome = true ∨ s.here.ext.m_other_lbp n = none ∨
        s.heap.deref (lean_extension.find_led s.parent_chain n) = none) →
      lean_extension.get_lbp s.heap s.chain n =
        (lean_extension.get_lbp s.heap [s.here.ext] n).orElse
          (fun _ => lean_extension.get_lbp s.heap s.parent_chain n)) ∧
    (s.here.ext.m_led n = none →
      ∀ i, s.heap.deref (lean_extension.find_led s.parent_chain n) = some i →
        lean_extension.get_lbp s.heap s.chain n = some i.m_precedence) := by
  constructor
  · intro hcase
    cases hl : s.here.ext.m_led n with
    | some op =>
      have hd := hled op hl
      obtain ⟨i, hi⟩ := Option.isSome_iff_exists.1 hd
      simp [lean_extension.get_lbp, frontend.chain, lean_extension.find_led, hl, hi]
    | none =>
      have hc : s.here.ext.m_other_lbp n = none ∨
          s.heap.deref (lean_extension.find_led s.parent_chain n) = none := by
        rcases hcase with h | h | h
        · rw [hl] at h
          simp at h
        · exact Or.inl h
        · exact Or.inr h
      cases ho : s.here.ext.m_other_lbp n with
      | none =>
        simp [lean_extension.get_lbp, frontend.chain, frontend.parent_chain,
          lean_extension.find_led, lean_extension.get_other_lbp, hl, ho, op_heap.deref]
      | some p =>
        have hp : s.heap.deref (lean_extension.find_led s.parent_chain n) = none := by
          rcases hc with h | h
          · rw [ho] at h
            simp at h
          · exact h
        simp only [frontend.parent_chain] at hp
        have hdn : s.heap.deref none = none := rfl
        simp [lean_extension.get_lbp, frontend.chain,
          lean_extension.find_led, lean_extension.get_other_lbp, hl, ho, hdn, hp]
  · intro hl i hi
    simp only [frontend.parent_chain] at hi
    simp [lean_extension.get_lbp, frontend.chain, lean_extension.find_led, hl, hi]

/-- C12 (amended), at the child of the frontend with `infixl "+" 65`: the child has no entry
for `+`, its lbp is the one of the parent. -/
theorem get_lbp_child_spec_witness :
    (∀ op, child_of_frontend_with_plus.here.ext.m_led (mk_name "+") = some op →
      (child_of_frontend_with_plus.heap.deref op).isSome = true) ∧
    child_of_frontend_with_plus.here.ext.m_other_lbp (mk_name "+") = none ∧
    lean_extension.get_lbp child_of_frontend_with_plus.heap child_of_frontend_with_plus.chain
      (mk_name "+") = some 65 ∧
    lean_extension.get_lbp child_of_frontend_with_plus.heap child_of_frontend_with_plus.chain
      (mk_name "+") =
      (lean_extension.get_lbp child_of_frontend_with_plus.heap
        [child_of_frontend_with_plus.here.ext] (mk_name "+")).orElse
        (fun _ => lean_extension.get_lbp child_of_frontend_with_plus.heap
          child_of_frontend_with_plus.parent_chain (mk_name "+")) :=
  ⟨fun op h => by simp [child_of_frontend_with_plus, frontend.mk_child, lean_extension.init,
      table.empty] at h,
   by decide, by decide,
   (get_lbp_child_spec child_of_frontend_with_plus (mk_name "+")
      (fun op h => by simp [child_of_frontend_with_plus, frontend.mk_child, lean_extension.init,
        table.empty] at h)).1 (Or.inr (Or.inl (by decide)))⟩

/-- The entry of the table of other parts found for the token: the first one up the chain. -/
theorem get_other_lbp_eq_findSome (c : List lean_extension) (n : name) :
    lean_extension.get_other_lbp c n = c.findSome? (fun e => e.m_other_lbp n) := by
  induction c with
  | nil => rfl
  | cons e parent ih =>
    simp only [lean_extension.get_other_lbp, List.findSome?]
    cases h : e.m_other_lbp n with
    | none => simpa using ih
    | some p => simp

/-- C13: in a state whose handles have cells, the lbp of a token is the precedence of the
led operator found for the token if there is one; otherwise it is the entry found for the
token in the tables of other parts (the first one up the chain), and none when no level
has such an entry. -/
theorem get_lbp_spec (s : frontend) (n : name) (hv : s.valid) :
    (∀ b, lean_extension.find_led s.chain n = some b →
      ∃ i, s.heap.deref (some b) = some i ∧
        lean_extension.get_lbp s.heap s.chain n = some i.m_precedence) ∧
    (lean_extension.find_led s.chain n = none →
      lean_extension.get_lbp s.heap s.chain n = lean_extension.get_other_lbp s.chain n ∧
      lean_extension.get_lbp s.heap s.chain n = s.chain.findSome? (fun e => e.m_other_lbp n) ∧
      ((∀ e ∈ s.chain, e.m_other_lbp n = none) →
        lean_extension.get_lbp s.heap s.chain n = none)) := by
  constructor
  · intro b hb
    obtain ⟨e, he, hh⟩ := find_led_holds s.chain n b hb
    have hlt := hv e he b hh
    refine ⟨s.heap[b], ?_, ?_⟩
    · simp [op_heap.deref, hlt]
    · simp [lean_extension.get_lbp, hb, op_heap.deref, hlt]
  · intro hn
    have h1 : lean_extension.get_lbp s.heap s.chain n = lean_extension.get_other_lbp s.chain n := by
      simp [lean_extension.get_lbp, hn, op_heap.deref]
    refine ⟨h1, ?_, ?_⟩
    · rw [h1, get_other_lbp_eq_findSome]
    · intro hall
      rw [h1, get_other_lbp_eq_findSome, List.findSome?_eq_none_iff]
      exact hall

/-- C13, in the state after `infixl "|" 65` in the parent and the mixfix `| _ |` 30 in the
child: the led operator found for `|` is the one of the parent, and the lbp is its
precedence. -/
theorem get_lbp_spec_witness :
    lbp_shadow_frontend.valid ∧
    lean_extension.find_led lbp_shadow_frontend.chain (mk_name "|") = some 0 ∧
    ∃ i, lbp_shadow_frontend.heap.deref (some 0) = some i ∧ i.m_precedence = 65 ∧
      lean_extension.get_lbp lbp_shadow_frontend.heap lbp_shadow_frontend.chain (mk_name "|") =
        some i.m_precedence :=
  have hv : lbp_shadow_frontend.valid := (run_wf lbp_shadow_ops).1
  have h := (get_lbp_spec lbp_shadow_frontend (mk_name "|") hv).1 0 (by decide)
  ⟨hv, by decide, by
    obtain ⟨i, hi, hl⟩ := h
    refine ⟨i, hi, ?_, hl⟩
    have h65 : lean_extension.get_lbp lbp_shadow_frontend.heap lbp_shadow_frontend.chain
        (mk_name "|") = some 65 := by decide
    rw [h65] at hl
    exact (Option.some.inj hl).symm⟩

/-- The loop over the non-leading parts writes the table of other parts only. -/
theorem register_parts_other (prec : Nat) (parts : List name) : ∀ s : frontend,
    (register_parts prec parts s).here.ext.other_tables = s.here.ext.other_tables ∧
    (register_parts prec parts s).here.objects = s.here.objects ∧
    (register_parts prec parts s).here.has_children = s.here.has_children := by
  induction parts with
  | nil => intro s; exact ⟨rfl, rfl, rfl⟩
  | cons part rest ih =>
    intro s
    simp only [register_parts]
    obtain ⟨h1, h2, h3⟩ := ih ({ (s.set_ext { s.here.ext with
      m_other_lbp := s.here.ext.m_other_lbp.insert part prec }) with
      ios := s.ios ++ lean_extension.check_precedence s.heap s.chain part prec })
    exact ⟨h1, h2, h3⟩

/-- Registering a descriptor writes the notation tables only. -/
theorem register_new_op_other (s : frontend) (op : op_ref) (d : expr) (led : Bool) :
    (register_new_op s op d led).here.ext.other_tables = s.here.ext.other_tables ∧
    (register_new_op s op d led).here.objects = s.here.objects ∧
    (register_new_op s op d led).here.has_children = s.here.has_children := by
  unfold register_new_op
  obtain ⟨h1, h2, h3⟩ := register_parts_other
    (get_precedence (register_new_op_head s op d led).heap op)
    (get_op_name_parts (register_new_op_head s op d led).heap op).tail
    (register_new_op_head s op d led)
  rw [h1, h2, h3]
  unfold register_new_op_head
  cases led <;>
    simp [frontend.set_ext, lean_extension.insert_op, lean_extension.insert_expr_to_operator_entry,
      lean_extension.other_tables]

/-- Unbinding the denotations of a descriptor writes the table from denotations to operators
only. -/
theorem remove_bindings_other (h : op_heap) (parent : List lean_extension) (e : lean_extension)
    (op : op_ref) :
    (lean_extension.remove_bindings h parent e op).other_tables = e.other_tables := by
  unfold lean_extension.remove_bindings
  split
  · rename_i i _
    generalize i.m_exprs = l
    induction l generalizing e with
    | nil => rfl
    | cons x rest ih =>
      simp only [List.foldl]
      rw [ih]
      unfold lean_extension.remove_binding
      split <;> rfl
  · rfl

/-- Registering a notation leaves the ancestors, the declarations of the environment and
the tables of implicit arguments, coercions and aliases as they were. -/
theorem add_new_op_other (s : frontend) (i : operator_info.imp) (d : expr) (led : Bool) :
    (add_new_op s i d led).ancestors = s.ancestors ∧
    (add_new_op s i d led).here.ext.other_tables = s.here.ext.other_tables ∧
    (add_new_op s i d led).here.objects = s.here.objects ∧
    (add_new_op s i d led).here.has_children = s.here.has_children := by
  let s1 : frontend := { s with heap := s.heap ++ [i] }
  have hn : s1.heap.deref (some s.heap.length) = some i := deref_alloc_new _ _
  have hunf : add_new_op s i d led =
      add_neutral_object (add_op_core s1 (some s.heap.length) d led).1
        (neutral_object.notation_declaration (add_op_core s1 (some s.heap.length) d led).2 d) := rfl
  rw [hunf]
  simp only [add_neutral_object]
  have hreg : ∀ (S : frontend) (m : op_ref), S.ancestors = s.ancestors →
      S.here.ext.other_tables = s.here.ext.other_tables → S.here.objects = s.here.objects →
      S.here.has_children = s.here.has_children →
      (register_new_op S m d led).ancestors = s.ancestors ∧
      (register_new_op S m d led).here.ext.other_tables = s.here.ext.other_tables ∧
      (register_new_op S m d led).here.objects = s.here.objects ∧
      (register_new_op S m d led).here.has_children = s.here.has_children := by
    intro S m h1 h2 h3 h4
    obtain ⟨r1, r2, r3⟩ := register_new_op_other S m d led
    have ranc : (register_new_op S m d led).ancestors = S.ancestors := by
      unfold register_new_op
      rw [(register_parts_frame _ _ _).2.1]
      unfold register_new_op_head
      cases led <;> rfl
    exact ⟨by rw [ranc, h1], by rw [r1, h2], by rw [r2, h3], by rw [r3, h4]⟩
  rcases add_op_core_cases s1 s.heap.length i d led hn with
    ⟨_, hcore⟩ | ⟨a, c, _, _, _, _, _, hcore⟩ | ⟨a, c, _, _, _, _, _, hcore⟩ | ⟨dg, a, _, _, _, hcore⟩
  · rw [hcore]
    exact hreg s1 _ rfl rfl rfl rfl
  · rw [hcore]
    exact ⟨rfl, rfl, rfl, rfl⟩
  · rw [hcore]
    exact hreg _ _ rfl rfl rfl rfl
  · rw [hcore]
    exact hreg (conflict_state s1 dg (some a)) _ rfl (remove_bindings_other _ _ _ _) rfl rfl

/-- Registering a descriptor conses it to the entry of the denotation. -/
theorem register_new_op_entries (s : frontend) (a : Nat) (i : operator_info.imp) (d : expr)
    (led : Bool) (hi : s.heap.deref (some a) = some i)
    (h : ∀ x, s.here.ext.m_expr_to_operators x ≠ some []) :
    ∀ x, (register_new_op s (some a) d led).here.ext.m_expr_to_operators x ≠ some [] := by
  intro x
  rw [(register_new_op_spec s a i d led hi).2.2.2.2.1]
  simp only [table.insert]
  split
  · simp
  · exact h x

/-- Unbinding leaves the hiding sentinel or no entry. -/
theorem remove_bindings_entries (hp : op_heap) (parent : List lean_extension) (e : lean_extension)
    (op : op_ref) (h : ∀ x, e.m_expr_to_operators x ≠ some []) :
    ∀ x, (lean_extension.remove_bindings hp parent e op).m_expr_to_operators x ≠ some [] := by
  intro x
  unfold lean_extension.remove_bindings
  split
  · rw [remove_binding_foldl]
    split
    · split <;> simp
    · exact h x
  · exact h x

/-- Registering a notation leaves no empty entry. -/
theorem add_new_op_entries (s : frontend) (i : operator_info.imp) (d : expr) (led : Bool)
    (h : ∀ x, s.here.ext.m_expr_to_operators x ≠ some []) :
    ∀ x, (add_new_op s i d led).here.ext.m_expr_to_operators x ≠ some [] := by
  let s1 : frontend := { s with heap := s.heap ++ [i] }
  have hn : s1.heap.deref (some s.heap.length) = some i := deref_alloc_new _ _
  have hunf : add_new_op s i d led =
      add_neutral_object (add_op_core s1 (some s.heap.length) d led).1
        (neutral_object.notation_declaration (add_op_core s1 (some s.heap.length) d led).2 d) := rfl
  rw [hunf]
  simp only [add_neutral_object]
  rcases add_op_core_cases s1 s.heap.length i d led hn with
    ⟨_, hcore⟩ | ⟨a, c, _, _, _, _, _, hcore⟩ | ⟨a, c, _, hc, _, _, _, hcore⟩ | ⟨dg, a, _, _, _, hcore⟩
  · rw [hcore]
    exact register_new_op_entries s1 _ i d led hn h
  · rw [hcore]
    intro x
    simp only [frontend.set_ext, lean_extension.insert_expr_to_operator_entry, table.insert]
    split
    · simp
    · exact h x
  · rw [hcore]
    have hc1 : ({ s1 with heap := s1.heap ++ [c] } : frontend).heap.deref (some s1.heap.length) =
        some c := deref_alloc_new _ _
    exact register_new_op_entries _ _ c d led hc1 h
  · rw [hcore]
    exact register_new_op_entries (conflict_state s1 dg (some a)) _ i d led hn
      (remove_bindings_entries _ _ _ _ h)

/-- The operations leave no empty entry. -/
theorem apply_entries_nonempty (s : frontend) (op : frontend_op) (h : s.entries_nonempty) :
    (s.apply op).entries_nonempty := by
  have hhere : ∀ x, s.here.ext.m_expr_to_operators x ≠ some [] :=
    h s.here.ext (List.mem_cons_self _ _)
  have hanc : ∀ e ∈ s.ancestors.map (fun c => c.ext), ∀ x, e.m_expr_to_operators x ≠ some [] :=
    fun e he => h e (List.mem_cons_of_mem _ he)
  have hkeep : ∀ s1 : frontend, s1.ancestors = s.ancestors →
      s1.here.ext.m_expr_to_operators = s.here.ext.m_expr_to_operators → s1.entries_nonempty := by
    intro s1 h1 h2 e he x
    rcases List.mem_cons.1 he with h0 | h0
    · rw [h0, h2]
      exact hhere x
    · rw [h1] at h0
      exact hanc e h0 x
  cases op with
  | register f parts prec d led =>
    intro e he x
    rcases List.mem_cons.1 he with h0 | h0
    · rw [h0]
      exact add_new_op_entries s _ d led hhere x
    · have : (s.apply (frontend_op.register f parts prec d led)).ancestors = s.ancestors :=
        (add_new_op_other s _ d led).1
      rw [this] at h0
      exact hanc e h0 x
  | child =>
    intro e he x
    rcases List.mem_cons.1 he with h0 | h0
    · rw [h0]
      simp [frontend.apply, frontend.mk_child, lean_extension.init, table.empty]
    · simp only [frontend.apply, frontend.mk_child, List.map_cons] at h0
      exact h e h0 x
  | mark_implicit n implicit =>
    obtain ⟨h1, h2, _, _, h5⟩ := apply_other_frame s (frontend_op.mark_implicit n implicit)
      (by intro _ _ _ _ _; simp) (by simp)
    exact hkeep _ h2 h5
  | mk_coercion tc fuel f =>
    obtain ⟨h1, h2, _, _, h5⟩ := apply_other_frame s (frontend_op.mk_coercion tc fuel f)
      (by intro _ _ _ _ _; simp) (by simp)
    exact hkeep _ h2 h5
  | mk_alias n e =>
    obtain ⟨h1, h2, _, _, h5⟩ := apply_other_frame s (frontend_op.mk_alias n e)
      (by intro _ _ _ _ _; simp) (by simp)
    exact hkeep _ h2 h5
  | declare o =>
    obtain ⟨h1, h2, _, _, h5⟩ := apply_other_frame s (frontend_op.declare o)
      (by intro _ _ _ _ _; simp) (by simp)
    exact hkeep _ h2 h5

/-- No reachable state has an empty entry. -/
theorem run_entries_nonempty (ops : List frontend_op) :
    (frontend.init.run ops).entries_nonempty := by
  have hgen : ∀ (l : List frontend_op) (s : frontend), s.entries_nonempty →
      (s.run l).entries_nonempty := by
    intro l
    induction l with
    | nil => intro s hs; exact hs
    | cons op rest ih =>
      intro s hs
      exact ih (s.apply op) (apply_entries_nonempty s op hs)
  apply hgen
  intro e he x
  simp only [frontend.chain, frontend.init, List.map_nil, List.mem_singleton] at he
  rw [he]
  simp [lean_extension.init, table.empty]

/-- C14: with unicode allowed, in every reachable state, when the frontend has an entry for
the denotation the result of `find_op_for` is the first descriptor of the entry's list
(the list is never empty), in particular no descriptor when the entry is the hiding
sentinel, whatever the parent has for the denotation; when the frontend has no entry the
result is the answer of the parent. -/
theorem find_op_for_unicode_spec (ops : List frontend_op) (d : expr) :
    (∀ l, (frontend.init.run ops).here.ext.m_expr_to_operators d = some l →
      ∃ op rest, l = op :: rest ∧
        lean_extension.find_op_for (frontend.init.run ops).heap (frontend.init.run ops).chain d true
          = op) ∧
    ((frontend.init.run ops).here.ext.m_expr_to_operators d = some [none] →
      lean_extension.find_op_for (frontend.init.run ops).heap (frontend.init.run ops).chain d true
        = none) ∧
    ((frontend.init.run ops).here.ext.m_expr_to_operators d = none →
      lean_extension.find_op_for (frontend.init.run ops).heap (frontend.init.run ops).chain d true
        = lean_extension.find_op_for (frontend.init.run ops).heap
            (frontend.init.run ops).parent_chain d true) := by
  refine ⟨?_, ?_, ?_⟩
  · intro l hl
    cases l with
    | nil =>
      exact absurd hl (run_entries_nonempty ops _ (List.mem_cons_self _ _) d)
    | cons op rest =>
      refine ⟨op, rest, rfl, ?_⟩
      simp [frontend.chain, lean_extension.find_op_for, hl]
  · intro hl
    simp [frontend.chain, lean_extension.find_op_for, hl]
  · intro hl
    simp [frontend.chain, frontend.parent_chain, lean_extension.find_op_for, hl]

/-- C14, at the hiding sentinel: after `infixl "+" 65` for `nat_add` in the parent and the
redefinition `infixr "+" 70` for `int_add` in the child, the child's entry for `nat_add` is
the sentinel and its answer is no descriptor, while the parent still answers its
descriptor. -/
theorem find_op_for_unicode_spec_witness :
    redefine_in_child.here.ext.m_expr_to_operators (Const "nat_add") = some [none] ∧
    lean_extension.find_op_for redefine_in_child.heap redefine_in_child.parent_chain
      (Const "nat_add") true = some 0 ∧
    lean_extension.find_op_for redefine_in_child.heap redefine_in_child.chain
      (Const "nat_add") true = none :=
  ⟨by decide, by decide,
    (find_op_for_unicode_spec redefine_in_child_ops (Const "nat_add")).2.1 (by decide)⟩

/-- The loop that removes the explicit suffix reads the flags below its counter only. -/
theorem trim_explicit_suffix_congr (l l1 : List Bool) (k : Nat)
    (h : ∀ i, i < k → l.getD i false = l1.getD i false) :
    lean_extension.trim_explicit_suffix l k = lean_extension.trim_explicit_suffix l1 k := by
  induction k with
  | zero => rfl
  | succ m ih =>
    simp only [lean_extension.trim_explicit_suffix]
    rw [h m (by omega), ih (fun i hi => h i (by omega))]

/-- The counter only decreases. -/
theorem trim_explicit_suffix_le (l : List Bool) (k : Nat) :
    lean_extension.trim_explicit_suffix l k ≤ k := by
  induction k with
  | zero => simp [lean_extension.trim_explicit_suffix]
  | succ m ih =>
    simp only [lean_extension.trim_explicit_suffix]
    split
    · omega
    · omega

/-- The flags kept by `mark_implicit_arguments` are the flags without their trailing
explicit flags. -/
theorem take_trim_eq_trim_flags (l : List Bool) :
    l.take (lean_extension.trim_explicit_suffix l l.length) = trim_flags l := by
  induction l using List.reverseRecOn with
  | nil => rfl
  | append_singleton l1 b ih =>
    have hlen : (l1 ++ [b]).length = l1.length + 1 := by simp
    have hget : (l1 ++ [b]).getD l1.length false = b := by simp
    have hcongr : lean_extension.trim_explicit_suffix (l1 ++ [b]) l1.length =
        lean_extension.trim_explicit_suffix l1 l1.length := by
      apply trim_explicit_suffix_congr
      intro i hi
      simp [List.getD_eq_getElem?_getD, List.getElem?_append_left hi]
    rw [hlen]
    simp only [lean_extension.trim_explicit_suffix, hget]
    cases b with
    | false =>
      simp only [Bool.not_false, if_true]
      rw [hcongr, List.take_append_of_le_length (trim_explicit_suffix_le l1 l1.length), ih]
      simp [trim_flags]
    | true =>
      simp only [Bool.not_true, Bool.false_eq_true, if_false]
      rw [← hlen, List.take_length]
      simp [trim_flags]

/-- C15: after a successful `mark_implicit_arguments(n, flags)` the flags recorded for `n`
are the flag list without its trailing explicit flags, `has_implicit_arguments(n)` holds,
`get_explicit_version(n)` is `mk_explicit_name(n)` and is marked explicit, and for every
other name the recorded flags, `has_implicit_arguments` and `get_explicit_version` are
unchanged, as is `is_explicit` for every name other than the explicit version of `n`. -/
theorem mark_implicit_arguments_spec (s s1 : frontend) (n : name) (implicit : List Bool)
    (h : mark_implicit_arguments s n implicit = Except.ok s1) :
    lean_extension.get_implicit_arguments_name s1.chain n = trim_flags implicit ∧
    lean_extension.get_implicit_arguments s1.chain (expr.Constant n) = trim_flags implicit ∧
    trim_flags implicit ≠ [] ∧
    lean_extension.has_implicit_arguments s1.chain n = true ∧
    lean_extension.mk_explicit_name n = some (lean_extension.get_explicit_version s1.chain n) ∧
    lean_extension.is_explicit s1.chain (lean_extension.get_explicit_version s1.chain n) = true ∧
    (∀ m, m ≠ n →
      lean_extension.get_implicit_arguments_name s1.chain m =
        lean_extension.get_implicit_arguments_name s.chain m ∧
      lean_extension.has_implicit_arguments s1.chain m =
        lean_extension.has_implicit_arguments s.chain m ∧
      lean_extension.get_explicit_version s1.chain m =
        lean_extension.get_explicit_version s.chain m) ∧
    (∀ m, m ≠ lean_extension.get_explicit_version s1.chain n →
      lean_extension.is_explicit s1.chain m = lean_extension.is_explicit s.chain m) := by
  obtain ⟨_, obj, ev, _, _, hev, _, _, htrim, _, hanc, _, _, _, hext⟩ :=
    mark_implicit_arguments_ok s s1 n implicit h
  have hchain : s1.chain = s1.here.ext :: s.ancestors.map (fun c => c.ext) := by
    simp [frontend.chain, hanc]
  have hgev : lean_extension.get_explicit_version s1.chain n = ev := by
    rw [hchain, hext]
    simp [lean_extension.get_explicit_version, table.insert]
  rw [hgev]
  have hne : trim_flags implicit ≠ [] := by
    rw [← take_trim_eq_trim_flags]
    intro h0
    have := take_trim_last implicit htrim
    rw [h0] at this
    simp at this
  have hflags : lean_extension.get_implicit_arguments_name s1.chain n = trim_flags implicit := by
    rw [hchain, hext]
    simp [lean_extension.get_implicit_arguments_name, table.insert, take_trim_eq_trim_flags]
  refine ⟨hflags, ?_, hne, ?_, hev, ?_, ?_, ?_⟩
  · simp [lean_extension.get_implicit_arguments, is_constant, const_name, hflags]
  · rw [hchain, hext]
    simp [lean_extension.has_implicit_arguments, table.insert]
  · rw [hchain, hext]
    simp [lean_extension.is_explicit]
  · intro m hm
    rw [hchain, hext]
    simp [frontend.chain, lean_extension.get_implicit_arguments_name,
      lean_extension.has_implicit_arguments, lean_extension.get_explicit_version, table.insert, hm]
  · intro m hm
    rw [hchain, hext]
    simp [frontend.chain, lean_extension.is_explicit, hm]

/-- C15, at `f : N → N → N` marked with the flags `[true, false]`: the flags recorded are
`[true]` and the explicit version is `@f`. -/
theorem mark_implicit_arguments_spec_witness :
    mark_implicit_arguments declared_f (mk_name "f") [true, false] = Except.ok marked_f ∧
    trim_flags [true, false] = [true] ∧
    lean_extension.get_implicit_arguments_name marked_f.chain (mk_name "f") =
      trim_flags [true, false] ∧
    lean_extension.get_explicit_version marked_f.chain (mk_name "f") = mk_name "@f" :=
  ⟨rfl, by decide,
    (mark_implicit_arguments_spec declared_f marked_f (mk_name "f") [true, false] rfl).1,
    by decide⟩

/-- The implicit information read on a chain depends on the implicit table of its first
level and on the rest of the chain. -/
theorem has_implicit_arguments_cons_congr (e1 e2 : lean_extension) (p : List lean_extension)
    (h : e1.m_implicit_table = e2.m_implicit_table) (n : name) :
    lean_extension.has_implicit_arguments (e1 :: p) n =
      lean_extension.has_implicit_arguments (e2 :: p) n := by
  simp [lean_extension.has_implicit_arguments, h]

/-- No operation removes implicit information. -/
theorem apply_has_implicit (s : frontend) (op : frontend_op) (n : name)
    (h : lean_extension.has_implicit_arguments s.chain n = true) :
    lean_extension.has_implicit_arguments (s.apply op).chain n = true := by
  have hkeep : ∀ s1 : frontend, s1.ancestors = s.ancestors →
      s1.here.ext.m_implicit_table = s.here.ext.m_implicit_table →
      lean_extension.has_implicit_arguments s1.chain n = true := by
    intro s1 h1 h2
    rw [← h]
    simp only [frontend.chain, h1]
    exact has_implicit_arguments_cons_congr _ _ _ h2 n
  cases op with
  | register f parts prec d led =>
    obtain ⟨h1, h2, _, _⟩ := add_new_op_other s (mixfix_op f parts prec) d led
    simp only [lean_extension.other_tables, Prod.mk.injEq] at h2
    exact hkeep _ h1 h2.1
  | child =>
    have hc : (s.apply frontend_op.child).chain = lean_extension.init :: s.chain := rfl
    have h0 : lean_extension.has_implicit_arguments (lean_extension.init :: s.chain) n =
        lean_extension.has_implicit_arguments s.chain n := by
      simp [lean_extension.has_implicit_arguments, lean_extension.init, table.empty]
    rw [hc, h0]
    exact h
  | mark_implicit m implicit =>
    simp only [frontend.apply]
    cases hres : mark_implicit_arguments s m implicit with
    | error e => exact h
    | ok s1 =>
      obtain ⟨_, obj, ev, _, _, _, _, _, _, _, hanc, _, _, _, hext⟩ :=
        mark_implicit_arguments_ok s s1 m implicit hres
      simp only [frontend.chain, hanc, hext]
      simp only [frontend.chain] at h
      simp only [lean_extension.has_implicit_arguments, table.insert] at h ⊢
      by_cases hnm : n = m
      · simp [hnm]
      · simpa [hnm] using h
  | mk_coercion tc fuel f =>
    simp only [frontend.apply]
    cases hres : add_coercion tc fuel s f with
    | error e => exact h
    | ok s1 =>
      obtain ⟨_, h2, _, _, _, _, _, h8⟩ := add_coercion_ok_frame tc fuel s s1 f hres
      exact hkeep _ h2 h8
  | mk_alias m e =>
    simp only [frontend.apply]
    cases hres : add_alias s m e with
    | error e => exact h
    | ok s1 =>
      obtain ⟨_, h2, _, _, _, _, _, h8⟩ := add_alias_ok_frame s s1 m e hres
      exact hkeep _ h2 h8
  | declare o =>
    simp only [frontend.apply, add_object]
    split
    · exact h
    · exact hkeep _ rfl rfl

/-- See `apply_has_implicit`. -/
theorem run_has_implicit (ops : List frontend_op) : ∀ (s : frontend) (n : name),
    lean_extension.has_implicit_arguments s.chain n = true →
    lean_extension.has_implicit_arguments (s.run ops).chain n = true := by
  induction ops with
  | nil => intro s n h; exact h
  | cons op rest ih =>
    intro s n h
    exact ih (s.apply op) n (apply_has_implicit s op n h)

/-- C16: after a successful `mark_implicit_arguments(n, flags)`, every later
`mark_implicit_arguments(n, flags1)`, after any operations, on the same frontend or on a
child of it, for any flags, fails; and `mark_implicit_arguments(n, ·)` fails whenever the
environment has an object named `mk_explicit_name(n)`. -/
theorem mark_implicit_twice_rejected (s : frontend) (n : name) :
    (∀ implicit s1, mark_implicit_arguments s n implicit = Except.ok s1 →
      ∀ (ops : List frontend_op) (flags : List Bool),
        ∃ err, mark_implicit_arguments (s1.run ops) n flags = Except.error err) ∧
    (∀ explicit_version, lean_extension.mk_explicit_name n = some explicit_version →
      (find_object s.cells explicit_version).isSome = true →
      ∀ flags : List Bool, ∃ err, mark_implicit_arguments s n flags = Except.error err) := by
  constructor
  · intro implicit s1 h ops flags
    have h1 : lean_extension.has_implicit_arguments s1.chain n = true :=
      (mark_implicit_arguments_spec s s1 n implicit h).2.2.2.1
    have h2 := run_has_implicit ops s1 n h1
    cases hres : mark_implicit_arguments (s1.run ops) n flags with
    | error e => exact ⟨e, rfl⟩
    | ok s2 =>
      obtain ⟨_, obj, ev, _, hno, _⟩ := mark_implicit_arguments_ok _ s2 n flags hres
      rw [hno] at h2
      exact absurd h2 (by simp)
  · intro ev hev hobj flags
    cases hres : mark_implicit_arguments s n flags with
    | error e => exact ⟨e, rfl⟩
    | ok s2 =>
      obtain ⟨_, obj, ev1, _, _, hev1, hfresh, _⟩ := mark_implicit_arguments_ok _ s2 n flags hres
      rw [hev] at hev1
      simp only [Option.some.injEq] at hev1
      subst hev1
      rw [hfresh] at hobj
      exact absurd hobj (by simp)

/-- C16, at `f` marked with `[true, false]`: marking `f` again fails in a child of the
environment; and marking `g` fails in an environment that has an object named `@g`. -/
theorem mark_implicit_twice_rejected_witness :
    mark_implicit_arguments declared_f (mk_name "f") [true, false] = Except.ok marked_f ∧
    mark_implicit_arguments child_of_marked_f (mk_name "f") [true] =
      Except.error frontend_error.already_has_implicit ∧
    (∃ err, mark_implicit_arguments child_of_marked_f (mk_name "f") [true] = Except.error err) ∧
    (find_object declared_g_and_explicit_g.cells (mk_name "@g")).isSome = true ∧
    (∃ err, mark_implicit_arguments declared_g_and_explicit_g (mk_name "g") [true] =
      Except.error err) :=
  ⟨rfl, rfl,
    (mark_implicit_twice_rejected declared_f (mk_name "f")).1 [true, false] marked_f rfl
      [frontend_op.child] [true],
    by decide,
    (mark_implicit_twice_rejected declared_g_and_explicit_g (mk_name "g")).2 (mk_name "@g") rfl
      (by decide) [true]⟩

/-- The loop that removes the explicit suffix stops above zero when some flag is implicit. -/
theorem trim_explicit_suffix_ne_zero (flags : List Bool) (h : true ∈ flags) :
    lean_extension.trim_explicit_suffix flags flags.length ≠ 0 := by
  intro h0
  have h1 := take_trim_eq_trim_flags flags
  rw [h0, List.take_zero] at h1
  have h2 : flags.reverse.dropWhile (fun b => !b) = [] := by
    have := congrArg List.reverse h1
    simpa [trim_flags] using this.symm
  rw [List.dropWhile_eq_nil_iff] at h2
  have := h2 true (List.mem_reverse.2 h)
  simp at this

/-- C17: `mark_implicit_arguments(n, flags)` fails when `n` does not name a definition,
postulate or builtin, and fails when there are more flags than leading Pi binders in the
type of `n`; when there are not more, the error for too many arguments is not raised, and
the call succeeds if the other requirements hold (the environment has no children, `n`
has no implicit information yet, its explicit name is not taken, some flag is implicit). -/
theorem mark_implicit_arity_spec (s : frontend) (n : name) (flags : List Bool) :
    ((∀ obj, find_object s.cells n = some obj →
        obj.kind ≠ object_kind.Definition ∧ obj.kind ≠ object_kind.Postulate ∧
          obj.kind ≠ object_kind.Builtin) →
      ∃ err, mark_implicit_arguments s n flags = Except.error err) ∧
    (∀ obj, find_object s.cells n = some obj →
      lean_extension.count_pi obj.get_type < flags.length →
      ∃ err, mark_implicit_arguments s n flags = Except.error err) ∧
    (∀ obj, find_object s.cells n = some obj →
      flags.length ≤ lean_extension.count_pi obj.get_type →
      mark_implicit_arguments s n flags ≠ Except.error frontend_error.too_many_arguments) ∧
    (∀ obj explicit_version, find_object s.cells n = some obj →
      flags.length ≤ lean_extension.count_pi obj.get_type →
      s.here.has_children = false →
      (obj.kind = object_kind.Definition ∨ obj.kind = object_kind.Postulate ∨
        obj.kind = object_kind.Builtin) →
      lean_extension.has_implicit_arguments s.chain n = false →
      lean_extension.mk_explicit_name n = some explicit_version →
      find_object s.cells explicit_version = none →
      true ∈ flags →
      ∃ s1, mark_implicit_arguments s n flags = Except.ok s1) := by
  refine ⟨?_, ?_, ?_, ?_⟩
  · intro hk
    cases hres : mark_implicit_arguments s n flags with
    | error e => exact ⟨e, rfl⟩
    | ok s2 =>
      exfalso
      unfold mark_implicit_arguments at hres
      split at hres
      · simp at hres
      · split at hres
        · simp at hres
        · rename_i obj hobj
          have hkind := hk obj hobj
          rw [if_pos hkind] at hres
          simp at hres
  · intro obj hobj hlt
    cases hres : mark_implicit_arguments s n flags with
    | error e => exact ⟨e, rfl⟩
    | ok s2 =>
      obtain ⟨_, obj1, ev, hobj1, _, _, _, hle, _⟩ := mark_implicit_arguments_ok _ s2 n flags hres
      rw [hobj] at hobj1
      simp only [Option.some.injEq] at hobj1
      subst hobj1
      omega
  · intro obj hobj hle hres
    unfold mark_implicit_arguments at hres
    rw [hobj] at hres
    simp only at hres
    split at hres
    · simp at hres
    · split at hres
      · simp at hres
      · split at hres
        · simp at hres
        · split at hres
          · simp at hres
          · split at hres
            · simp at hres
            · rw [if_neg (by omega)] at hres
              split at hres <;> simp at hres
  · intro obj ev hobj hle hch hkind hno hev hfresh htrue
    unfold mark_implicit_arguments
    rw [hch, hobj]
    simp only [Bool.false_eq_true, if_false]
    rw [if_neg (by
      intro hc
      rcases hkind with h | h | h
      · exact hc.1 h
      · exact hc.2.1 h
      · exact hc.2.2 h)]
    rw [hno]
    simp only [Bool.false_eq_true, if_false, hev, hfresh, Option.isSome_none]
    rw [if_neg (by omega), if_neg (trim_explicit_suffix_ne_zero flags htrue)]
    exact ⟨_, rfl⟩

/-- C17, at `f : N → N → N`: three flags are too many, two are accepted; and `h`, which
names nothing, cannot be marked. -/
theorem mark_implicit_arity_spec_witness :
    (∃ obj, find_object declared_f.cells (mk_name "f") = some obj ∧
      lean_extension.count_pi obj.get_type = 2) ∧
    mark_implicit_arguments declared_f (mk_name "f") [true, true, true] =
      Except.error frontend_error.too_many_arguments ∧
    (∃ err, mark_implicit_arguments declared_f (mk_name "f") [true, true, true] =
      Except.error err) ∧
    mark_implicit_arguments declared_f (mk_name "f") [true, true] ≠
      Except.error frontend_error.too_many_arguments ∧
    (∃ s1, mark_implicit_arguments declared_f (mk_name "f") [true, true] = Except.ok s1) ∧
    (∃ err, mark_implicit_arguments declared_f (mk_name "h") [true] = Except.error err) :=
  ⟨⟨_, rfl, rfl⟩, rfl,
    (mark_implicit_arity_spec declared_f (mk_name "f") [true, true, true]).2.1 _ rfl (by decide),
    (mark_implicit_arity_spec declared_f (mk_name "f") [true, true]).2.2.1 _ rfl (by decide),
    ⟨_, rfl⟩,
    (mark_implicit_arity_spec declared_f (mk_name "h") [true]).1
      (fun obj h => by simp [declared_f, frontend.run, frontend.apply, add_object, frontend.init,
        frontend.cells, find_object, mk_name] at h)⟩

/-- What a successful `add_coercion` has checked and done. -/
theorem add_coercion_ok (tc : expr → Option expr) (fuel : Nat) (s s1 : frontend) (f : expr)
    (h : add_coercion tc fuel s f = Except.ok s1) :
    ∃ ty from_type to_type,
      tc f = some ty ∧ is_arrow ty = true ∧
      lean_extension.coercion_type_normalization fuel s.cells (abst_domain ty) = some from_type ∧
      lean_extension.coercion_type_normalization fuel s.cells (abst_body ty) = some to_type ∧
      from_type ≠ to_type ∧
      lean_extension.get_coercion_core s.chain from_type to_type = none ∧
      s1.ancestors = s.ancestors ∧ s1.here.objects = s.here.objects ∧
      s1.here.has_children = s.here.has_children ∧
      s1.here.ext = { s.here.ext with
        m_coercion_map := s.here.ext.m_coercion_map.insert (from_type, to_type) f,
        m_coercion_set := fun x => if x = f then true else s.here.ext.m_coercion_set x,
        m_type_coercions := s.here.ext.m_type_coercions.insert from_type
          ((to_type, f) :: lean_extension.get_coercions_core s.chain from_type) } := by
  unfold add_coercion at h
  cases ht : tc f with
  | none => simp [ht] at h
  | some ty =>
    simp only [ht] at h
    split at h
    · simp at h
    · rename_i harrow
      split at h
      · rename_i from_type to_type hfrom hto
        split at h
        · simp at h
        · rename_i hne
          split at h
          · simp at h
          · rename_i hnone
            simp only [Except.ok.injEq] at h
            subst h
            refine ⟨ty, from_type, to_type, rfl, by simpa using harrow, hfrom, hto, hne, ?_,
              rfl, rfl, rfl, rfl⟩
            simpa using hnone
      · simp at h

/-- The queries on the coercion tables of a chain depend on the coercion tables of its
first level and on the rest of the chain. -/
theorem get_coercion_core_cons_congr (e1 e2 : lean_extension) (p : List lean_extension)
    (h : e1.m_coercion_map = e2.m_coercion_map) (a b : expr) :
    lean_extension.get_coercion_core (e1 :: p) a b =
      lean_extension.get_coercion_core (e2 :: p) a b := by
  simp [lean_extension.get_coercion_core, h]

/-- See `get_coercion_core_cons_congr`. -/
theorem get_coercions_core_cons_congr (e1 e2 : lean_extension) (p : List lean_extension)
    (h : e1.m_type_coercions = e2.m_type_coercions) (a : expr) :
    lean_extension.get_coercions_core (e1 :: p) a =
      lean_extension.get_coercions_core (e2 :: p) a := by
  simp [lean_extension.get_coercions_core, h]

/-- Uniqueness only reads the coercion tables. -/
theorem coercions_unique_congr (e1 e2 : lean_extension) (p : List lean_extension)
    (h1 : e1.m_coercion_map = e2.m_coercion_map) (h2 : e1.m_type_coercions = e2.m_type_coercions)
    (h : coercions_unique (e1 :: p)) : coercions_unique (e2 :: p) := by
  obtain ⟨u1, u2, u3⟩ := h
  refine ⟨?_, ?_, ?_⟩
  · intro k
    have := u1 k
    simpa [List.countP_cons, h1] using this
  · intro a b f hm
    rw [← get_coercion_core_cons_congr e1 e2 p h1]
    rw [← get_coercions_core_cons_congr e1 e2 p h2] at hm
    exact u2 a b f hm
  · intro a
    rw [← get_coercions_core_cons_congr e1 e2 p h2]
    exact u3 a

/-- The coercion registered for a pair is the entry of the first level that has one. -/
theorem get_coercion_core_none (c : List lean_extension) (a b : expr) :
    lean_extension.get_coercion_core c a b = none ↔ ∀ e ∈ c, e.m_coercion_map (a, b) = none := by
  induction c with
  | nil => simp [lean_extension.get_coercion_core]
  | cons e p ih =>
    simp only [lean_extension.get_coercion_core, List.mem_cons, forall_eq_or_imp]
    cases he : e.m_coercion_map (a, b) with
    | none => simpa using ih
    | some g => simp

/-- Registering a coercion for a pair that has none on the chain keeps uniqueness. -/
theorem coercions_unique_insert (e : lean_extension) (p : List lean_extension)
    (from_type to_type f : expr)
    (hnone : lean_extension.get_coercion_core (e :: p) from_type to_type = none)
    (hu : coercions_unique (e :: p)) :
    coercions_unique ({ e with
        m_coercion_map := e.m_coercion_map.insert (from_type, to_type) f,
        m_coercion_set := fun x => if x = f then true else e.m_coercion_set x,
        m_type_coercions := e.m_type_coercions.insert from_type
          ((to_type, f) :: lean_extension.get_coercions_core (e :: p) from_type) } :: p) := by
  obtain ⟨u1, u2, u3⟩ := hu
  have hall := (get_coercion_core_none (e :: p) from_type to_type).1 hnone
  have hnew : ∀ a b, lean_extension.get_coercion_core ({ e with
        m_coercion_map := e.m_coercion_map.insert (from_type, to_type) f,
        m_coercion_set := fun x => if x = f then true else e.m_coercion_set x,
        m_type_coercions := e.m_type_coercions.insert from_type
          ((to_type, f) :: lean_extension.get_coercions_core (e :: p) from_type) } :: p) a b =
      if (a, b) = (from_type, to_type) then some f
      else lean_extension.get_coercion_core (e :: p) a b := by
    intro a b
    simp only [lean_extension.get_coercion_core, table.insert]
    split_ifs <;> rfl
  have hlist : ∀ a, lean_extension.get_coercions_core ({ e with
        m_coercion_map := e.m_coercion_map.insert (from_type, to_type) f,
        m_coercion_set := fun x => if x = f then true else e.m_coercion_set x,
        m_type_coercions := e.m_type_coercions.insert from_type
          ((to_type, f) :: lean_extension.get_coercions_core (e :: p) from_type) } :: p) a =
      if a = from_type then (to_type, f) :: lean_extension.get_coercions_core (e :: p) from_type
      else lean_extension.get_coercions_core (e :: p) a := by
    intro a
    simp only [lean_extension.get_coercions_core, table.insert]
    split_ifs <;> rfl
  have hfresh : ∀ g, (to_type, g) ∉ lean_extension.get_coercions_core (e :: p) from_type := by
    intro g hg
    have := u2 from_type to_type g hg
    rw [hnone] at this
    simp at this
  refine ⟨?_, ?_, ?_⟩
  · intro k
    by_cases hk : k = (from_type, to_type)
    · subst hk
      have hp : p.countP (fun e => (e.m_coercion_map (from_type, to_type)).isSome) = 0 := by
        rw [List.countP_eq_zero]
        intro x hx
        rw [hall x (List.mem_cons_of_mem _ hx)]
        simp
      simp [List.countP_cons, table.insert, hp]
    · have := u1 k
      simpa [List.countP_cons, table.insert, hk] using this
  · intro a b g hm
    rw [hlist] at hm
    rw [hnew]
    by_cases ha : a = from_type
    · subst ha
      rw [if_pos rfl] at hm
      rcases List.mem_cons.1 hm with h0 | h0
      · simp only [Prod.mk.injEq] at h0
        rw [h0.1, h0.2]
        simp
      · have hb : b ≠ to_type := by
          intro hb
          subst hb
          exact hfresh g h0
        rw [if_neg (by simp [hb])]
        exact u2 a b g h0
    · rw [if_neg ha] at hm
      rw [if_neg (by simp [ha])]
      exact u2 a b g hm
  · intro a
    rw [hlist]
    by_cases ha : a = from_type
    · subst ha
      rw [if_pos rfl, List.map_cons, List.nodup_cons]
      refine ⟨?_, u3 a⟩
      intro hin
      obtain ⟨⟨b, g⟩, hbg, hb⟩ := List.mem_map.1 hin
      simp only at hb
      subst hb
      exact hfresh g hbg
    · rw [if_neg ha]
      exact u3 a

/-- A fresh child level keeps uniqueness. -/
theorem coercions_unique_child (c : List lean_extension) (hu : coercions_unique c) :
    coercions_unique (lean_extension.init :: c) := by
  obtain ⟨u1, u2, u3⟩ := hu
  have hq : ∀ a b, lean_extension.get_coercion_core (lean_extension.init :: c) a b =
      lean_extension.get_coercion_core c a b := by
    intro a b
    simp [lean_extension.get_coercion_core, lean_extension.init, table.empty]
  have hl : ∀ a, lean_extension.get_coercions_core (lean_extension.init :: c) a =
      lean_extension.get_coercions_core c a := by
    intro a
    simp [lean_extension.get_coercions_core, lean_extension.init, table.empty]
  refine ⟨?_, ?_, ?_⟩
  · intro k
    have := u1 k
    simpa [List.countP_cons, lean_extension.init, table.empty] using this
  · intro a b g hm
    rw [hq]
    rw [hl] at hm
    exact u2 a b g hm
  · intro a
    rw [hl]
    exact u3 a

/-- Every operation keeps the coercions unique. -/
theorem apply_coercions_unique (s : frontend) (op : frontend_op) (h : coercions_unique s.chain) :
    coercions_unique (s.apply op).chain := by
  have hkeep : ∀ s1 : frontend, s1.ancestors = s.ancestors →
      s.here.ext.m_coercion_map = s1.here.ext.m_coercion_map →
      s.here.ext.m_type_coercions = s1.here.ext.m_type_coercions →
      coercions_unique s1.chain := by
    intro s1 h1 h2 h3
    have : s1.chain = s1.here.ext :: s.ancestors.map (fun c => c.ext) := by
      simp [frontend.chain, h1]
    rw [this]
    exact coercions_unique_congr _ _ _ h2 h3 h
  cases op with
  | register f parts prec d led =>
    obtain ⟨h1, h2, _, _⟩ := add_new_op_other s (mixfix_op f parts prec) d led
    simp only [lean_extension.other_tables, Prod.mk.injEq] at h2
    exact hkeep _ h1 h2.2.1.symm h2.2.2.2.1.symm
  | child =>
    exact coercions_unique_child _ h
  | mark_implicit m implicit =>
    simp only [frontend.apply]
    cases hres : mark_implicit_arguments s m implicit with
    | error e => exact h
    | ok s1 =>
      obtain ⟨_, obj, ev, _, _, _, _, _, _, _, hanc, _, _, _, hext⟩ :=
        mark_implicit_arguments_ok s s1 m implicit hres
      exact hkeep _ hanc (by rw [hext]) (by rw [hext])
  | mk_coercion tc fuel f =>
    simp only [frontend.apply]
    cases hres : add_coercion tc fuel s f with
    | error e => exact h
    | ok s1 =>
      obtain ⟨ty, a, b, _, _, _, _, _, hnone, hanc, _, _, hext⟩ := add_coercion_ok tc fuel s s1 f hres
      have : s1.chain = s1.here.ext :: s.ancestors.map (fun c => c.ext) := by
        simp [frontend.chain, hanc]
      rw [this, hext]
      exact coercions_unique_insert s.here.ext _ a b f hnone h
  | mk_alias m e =>
    simp only [frontend.apply]
    cases hres : add_alias s m e with
    | error e => exact h
    | ok s1 =>
      unfold add_alias at hres
      split at hres
      · simp at hres
      · simp only [Except.ok.injEq] at hres
        subst hres
        exact hkeep _ rfl rfl rfl
  | declare o =>
    simp only [frontend.apply, add_object]
    split
    · exact h
    · exact hkeep _ rfl rfl rfl

/-- In every reachable state the coercions are unique. -/
theorem run_coercions_unique (ops : List frontend_op) :
    coercions_unique (frontend.init.run ops).chain := by
  have hgen : ∀ (l : List frontend_op) (s : frontend), coercions_unique s.chain →
      coercions_unique (s.run l).chain := by
    intro l
    induction l with
    | nil => intro s hs; exact hs
    | cons op rest ih =>
      intro s hs
      exact ih (s.apply op) (apply_coercions_unique s op hs)
  apply hgen
  refine ⟨?_, ?_, ?_⟩
  · intro k
    simp [frontend.chain, frontend.init, lean_extension.init, table.empty]
  · intro a b g hm
    simp [frontend.chain, frontend.init, lean_extension.init, table.empty,
      lean_extension.get_coercions_core] at hm
  · intro a
    simp [frontend.chain, frontend.init, lean_extension.init, table.empty,
      lean_extension.get_coercions_core]

/-- The objects found in an environment depend on its own objects and on its ancestors. -/
theorem find_object_cons_congr (c1 c2 : environment_cell) (rest : List environment_cell)
    (h : c1.objects = c2.objects) (n : name) :
    find_object (c1 :: rest) n = find_object (c2 :: rest) n := by
  simp [find_object, h]

/-- The normalization of a type reads the environment through `find_object` only. -/
theorem coercion_type_normalization_congr (env1 env2 : List environment_cell)
    (h : ∀ n, find_object env1 n = find_object env2 n) (fuel : Nat) :
    ∀ t, lean_extension.coercion_type_normalization fuel env1 t =
      lean_extension.coercion_type_normalization fuel env2 t := by
  induction fuel with
  | zero => intro t; rfl
  | succ m ih =>
    intro t
    simp only [lean_extension.coercion_type_normalization, h, ih]

/-- C19: after a successful `add_coercion(f)` with `f : A → B`, `get_coercion(A, B)` returns
`f`, `is_coercion(f)` holds, `get_coercions(A)` is the previous `get_coercions(A)` with the
pair of the normalized `B` and `f` added at the front, and the coercion registered for
every other normalized pair, as well as the list of every other normalized source type, is
unchanged. -/
theorem add_coercion_spec (tc : expr → Option expr) (fuel : Nat) (s s1 : frontend) (f : expr)
    (h : add_coercion tc fuel s f = Except.ok s1) :
    ∃ ty from_type to_type,
      tc f = some ty ∧
      lean_extension.coercion_type_normalization fuel s.cells (abst_domain ty) = some from_type ∧
      lean_extension.coercion_type_normalization fuel s.cells (abst_body ty) = some to_type ∧
      lean_extension.get_coercion fuel s1.cells s1.chain (abst_domain ty) (abst_body ty) =
        some (some f) ∧
      lean_extension.is_coercion s1.chain f = true ∧
      lean_extension.get_coercions fuel s.cells s.chain (abst_domain ty) =
        some (lean_extension.get_coercions_core s.chain from_type) ∧
      lean_extension.get_coercions fuel s1.cells s1.chain (abst_domain ty) =
        some ((to_type, f) :: lean_extension.get_coercions_core s.chain from_type) ∧
      (∀ a b, (a, b) ≠ (from_type, to_type) →
        lean_extension.get_coercion_core s1.chain a b =
          lean_extension.get_coercion_core s.chain a b) ∧
      (∀ x y a b, lean_extension.coercion_type_normalization fuel s.cells x = some a →
        lean_extension.coercion_type_normalization fuel s.cells y = some b →
        (a, b) ≠ (from_type, to_type) →
        lean_extension.get_coercion fuel s1.cells s1.chain x y =
          lean_extension.get_coercion fuel s.cells s.chain x y) ∧
      (∀ a, a ≠ from_type →
        lean_extension.get_coercions_core s1.chain a =
          lean_extension.get_coercions_core s.chain a) := by
  obtain ⟨ty, a, b, hty, _, ha, hb, _, _, hanc, hobj, _, hext⟩ := add_coercion_ok tc fuel s s1 f h
  have hchain : s1.chain = s1.here.ext :: s.ancestors.map (fun c => c.ext) := by
    simp [frontend.chain, hanc]
  have hfind : ∀ n, find_object s1.cells n = find_object s.cells n := by
    intro n
    simp only [frontend.cells, hanc]
    exact find_object_cons_congr _ _ _ hobj n
  have hnorm : ∀ t, lean_extension.coercion_type_normalization fuel s1.cells t =
      lean_extension.coercion_type_normalization fuel s.cells t :=
    coercion_type_normalization_congr _ _ hfind fuel
  have hcore : ∀ x y, lean_extension.get_coercion_core s1.chain x y =
      if (x, y) = (a, b) then some f else lean_extension.get_coercion_core s.chain x y := by
    intro x y
    rw [hchain, hext]
    simp only [frontend.chain, lean_extension.get_coercion_core, table.insert]
    split_ifs <;> rfl
  have hlist : ∀ x, lean_extension.get_coercions_core s1.chain x =
      if x = a then (b, f) :: lean_extension.get_coercions_core s.chain a
      else lean_extension.get_coercions_core s.chain x := by
    intro x
    rw [hchain, hext]
    simp only [frontend.chain, lean_extension.get_coercions_core, table.insert]
    split_ifs <;> rfl
  refine ⟨ty, a, b, hty, ha, hb, ?_, ?_, ?_, ?_, ?_, ?_, ?_⟩
  · simp only [lean_extension.get_coercion, hnorm, ha, hb, hcore]
    simp
  · rw [hchain, hext]
    simp [lean_extension.is_coercion]
  · simp only [lean_extension.get_coercions, ha]
  · simp only [lean_extension.get_coercions, hnorm, ha, hlist]
    simp
  · intro x y hxy
    rw [hcore, if_neg hxy]
  · intro x y x1 y1 hx hy hxy
    simp only [lean_extension.get_coercion, hnorm, hx, hy, hcore]
    rw [if_neg hxy]
  · intro x hx
    rw [hlist, if_neg hx]

/-- C19, in the child of the frontend with `nat_to_int : Nat → Int`: after `int_to_real :
Int → Real` is registered, it is the coercion from `Int` to `Real`, the list of `Int` is
that pair alone, and the coercion from `Nat` to `Int` is still `nat_to_int`. -/
theorem add_coercion_spec_witness :
    add_coercion coercion_oracle 2 child_of_frontend_with_coercion (Const "int_to_real") =
      Except.ok child_with_second_coercion ∧
    lean_extension.get_coercion 2 child_with_second_coercion.cells
      child_with_second_coercion.chain (Const "Int") (Const "Real") =
        some (some (Const "int_to_real")) ∧
    lean_extension.get_coercions 2 child_with_second_coercion.cells
      child_with_second_coercion.chain (Const "Int") =
        some [(Const "Real", Const "int_to_real")] ∧
    lean_extension.get_coercion 2 child_with_second_coercion.cells
      child_with_second_coercion.chain (Const "Nat") (Const "Int") =
        some (some (Const "nat_to_int")) ∧
    ∃ ty from_type to_type,
      coercion_oracle (Const "int_to_real") = some ty ∧
      lean_extension.coercion_type_normalization 2 child_of_frontend_with_coercion.cells
        (abst_domain ty) = some from_type ∧
      lean_extension.coercion_type_normalization 2 child_of_frontend_with_coercion.cells
        (abst_body ty) = some to_type ∧
      lean_extension.is_coercion child_with_second_coercion.chain (Const "int_to_real") = true :=
  have h := add_coercion_spec coercion_oracle 2 child_of_frontend_with_coercion
    child_with_second_coercion (Const "int_to_real") rfl
  ⟨rfl, by decide, by decide, by decide, by
    obtain ⟨ty, a, b, h1, h2, h3, _, h5, _⟩ := h
    exact ⟨ty, a, b, h1, h2, h3, h5⟩⟩

/-- Reading back the flags written by the loop of `write`. -/
theorem read_bools_write (v : List Bool) : ∀ (rest : byte_stream) (acc : List Bool),
    read_bools v.length (v.map (fun b => if b then 1 else 0) ++ rest) acc = (acc ++ v, rest) := by
  induction v with
  | nil => intro rest acc; simp [read_bools]
  | cons b v ih =>
    intro rest acc
    simp only [List.length_cons, List.map_cons, List.cons_append, read_bools,
      deserializer_core.read_bool]
    rw [ih]
    cases b <;> simp

/-- The flags written one by one. -/
theorem foldl_write_bool (v : List Bool) : ∀ out : byte_stream,
    v.foldl (fun out b => out ++ serializer_core.write_bool b) out =
      out ++ v.map (fun b => if b then 1 else 0) := by
  induction v with
  | nil => intro out; simp
  | cons b v ih =>
    intro out
    rw [List.foldl_cons, ih]
    simp [serializer_core.write_bool]

/-- Removing the trailing explicit flags twice is removing them once. -/
theorem trim_flags_idem (l : List Bool) : trim_flags (trim_flags l) = trim_flags l := by
  unfold trim_flags
  rw [List.reverse_reverse]
  congr 1
  generalize l.reverse = r
  induction r with
  | nil => rfl
  | cons b r ih =>
    by_cases hb : (!b) = true
    · simp only [List.dropWhile_cons, hb, if_true]
      exact ih
    · simp only [List.dropWhile_cons, hb, if_false]
      simp [hb]

/-- The tag written by `write` is read back by the dispatch. -/
theorem read_string_imp (d : byte_stream) :
    deserializer_core.read_string (serializer_core.write_string "Imp" ++ d) =
      some ("Imp".toList.map Char.toNat, d) := rfl

/-- C20: the record written for the mark-implicit declaration of a successful
`mark_implicit_arguments(n, flags)` is the tag `"Imp"`, the name, the count of the recorded
flags and these flags as one byte each, in order; reading the record back, after the
dispatch on the tag, calls `mark_implicit_arguments` with the same name and the same flags
and consumes exactly the record; and when that call succeeds on an environment, the entry
it records for `n` in the implicit table is the entry of the original marking. The
encodings of the name and of the count, which the sources only declare, are any encodings
that read back what they write. -/
theorem mark_implicit_round_trip (c : codec) (s0 s1 : frontend) (n : name) (implicit : List Bool)
    (hmark : mark_implicit_arguments s0 n implicit = Except.ok s1)
    (hlen : implicit.length < 2 ^ 32)
    (hname : ∀ d, c.read_name (c.write_name n ++ d) = some (n, d))
    (hcount : ∀ k d, k < 2 ^ 32 → c.read_unsigned (c.write_unsigned k ++ d) = some (k, d)) :
    s1.here.neutral.getLast? =
      some (neutral_object.mark_implicit_command n (trim_flags implicit)) ∧
    mark_implicit_command.write c n (trim_flags implicit) =
      serializer_core.write_string "Imp" ++ (c.write_name n ++
        (c.write_unsigned (trim_flags implicit).length ++
          (trim_flags implicit).map (fun b => if b then 1 else 0))) ∧
    ∀ (s : frontend) (rest : byte_stream),
      read_object c s (mark_implicit_command.write c n (trim_flags implicit) ++ rest) =
        some (mark_implicit_arguments s n (trim_flags implicit), rest) ∧
      ∀ s2, mark_implicit_arguments s n (trim_flags implicit) = Except.ok s2 →
        s2.here.ext.m_implicit_table n = s1.here.ext.m_implicit_table n := by
  obtain ⟨_, obj, ev, _, _, hev, _, _, _, _, _, _, _, hneutral, hext⟩ :=
    mark_implicit_arguments_ok s0 s1 n implicit hmark
  rw [take_trim_eq_trim_flags] at hneutral hext
  have hvlen : (trim_flags implicit).length < 2 ^ 32 := by
    rw [← take_trim_eq_trim_flags, List.length_take]
    omega
  have hwrite : mark_implicit_command.write c n (trim_flags implicit) =
      serializer_core.write_string "Imp" ++ (c.write_name n ++
        (c.write_unsigned (trim_flags implicit).length ++
          (trim_flags implicit).map (fun b => if b then 1 else 0))) := by
    unfold mark_implicit_command.write
    simp only [Nat.mod_eq_of_lt hvlen, foldl_write_bool, List.append_assoc]
  refine ⟨?_, hwrite, ?_⟩
  · rw [hneutral]
    simp
  · intro s rest
    constructor
    · rw [hwrite]
      simp only [List.append_assoc]
      unfold read_object
      rw [read_string_imp]
      simp only [if_true]
      unfold read_mark_implicit
      rw [hname]
      simp only
      rw [hcount _ _ hvlen]
      simp only
      rw [read_bools_write]
      simp
    · intro s2 h2
      obtain ⟨_, obj2, ev2, _, _, hev2, _, _, _, _, _, _, _, _, hext2⟩ :=
        mark_implicit_arguments_ok s s2 n (trim_flags implicit) h2
      rw [take_trim_eq_trim_flags, trim_flags_idem] at hext2
      rw [hev] at hev2
      simp only [Option.some.injEq] at hev2
      subst hev2
      rw [hext, hext2]
      simp [table.insert]

/-- The simple codec reads back the counts it writes. -/
theorem simple_codec_unsigned (k : Nat) (d : byte_stream) (hk : k < 2 ^ 32) :
    simple_codec.read_unsigned (simple_codec.write_unsigned k ++ d) = some (k, d) := by
  simp only [simple_codec, List.cons_append, List.nil_append]
  congr 2
  omega

/-- C20, at `f` marked with the flags `[true, false]` and the simple codec: the record is
the bytes of `"Imp"`, of the name `f`, of the count 1 and the flag 1, and reading it back
in the environment where `f` is declared records the same entry. -/
theorem mark_implicit_round_trip_witness :
    mark_implicit_arguments declared_f (mk_name "f") [true, false] = Except.ok marked_f ∧
    mark_implicit_command.write simple_codec (mk_name "f") (trim_flags [true, false]) =
      [73, 109, 112, 0, 1, 102, 0, 0, 0, 0, 0, 1, 1] ∧
    read_object simple_codec declared_f
      (mark_implicit_command.write simple_codec (mk_name "f") (trim_flags [true, false]) ++ [7]) =
        some (mark_implicit_arguments declared_f (mk_name "f") (trim_flags [true, false]), [7]) ∧
    marked_f.here.ext.m_implicit_table (mk_name "f") = some ([true], mk_name "@f") :=
  have h := mark_implicit_round_trip simple_codec declared_f marked_f (mk_name "f") [true, false]
    rfl (by decide) (fun d => rfl) simple_codec_unsigned
  ⟨rfl, by decide, (h.2.2 declared_f [7]).1, by decide⟩

/-- The chain of binary Thens from a rewriter that already reached `(tp, P)` from `t0`. -/
theorem foldl_then_chain (env : rw_env) (ctx : context) (t0 : expr) (rs : List rewriter) :
    ∀ (acc : rewriter) (tp P : expr) (steps : List (expr × expr)),
      acc env ctx t0 = some (tp, P) → rewrite_chain env ctx rs tp steps →
      (rs.foldl mk_then_rewriter acc) env ctx t0 =
        some (left_nested_trans (env.infer_type ctx t0) t0 tp P steps) := by
  induction rs with
  | nil =>
    intro acc tp P steps hacc hc
    cases hc
    exact hacc
  | cons r rs ih =>
    intro acc tp P steps hacc hc
    cases hc with
    | cons _ _ _ t1 p1 rest h1 h2 =>
      have hstep : mk_then_rewriter acc r env ctx t0 =
          some (t1, Trans (env.infer_type ctx t0) t0 tp t1 P p1) := by
        simp [mk_then_rewriter, hacc, h1]
      exact ih (mk_then_rewriter acc r) t1 _ rest hstep h2

/-- C21: for rewriters `r1, ..., rn` (the list `r :: rs`) and a term
`t0` such that each `ri` applied to `t(i-1)` returns `(ti, pi)`, `then(r1, ..., rn)` applied
to `t0` returns `(tn, Pn)` with `P1 = p1` and `Pi = trans(T, t0, t(i-1), ti, P(i-1), pi)`,
`T` being the type of `t0`: the trans proofs are nested to the left and start at `t0`; for
two rewriters this is `(t2, trans(T, t0, t1, t2, p1, p2))`. -/
theorem then_rewriter_spec (env : rw_env) (ctx : context) (r : rewriter) (rs : List rewriter)
    (t0 t1 p1 : expr) (steps : List (expr × expr))
    (hchain : rewrite_chain env ctx (r :: rs) t0 ((t1, p1) :: steps)) :
    mk_then_rewriter_list (r :: rs) env ctx t0 =
      some (left_nested_trans (env.infer_type ctx t0) t0 t1 p1 steps) ∧
    (∀ r2 t2 p2, rs = [r2] → steps = [(t2, p2)] →
      mk_then_rewriter_list (r :: rs) env ctx t0 =
        some (t2, Trans (env.infer_type ctx t0) t0 t1 t2 p1 p2)) := by
  have hmain : mk_then_rewriter_list (r :: rs) env ctx t0 =
      some (left_nested_trans (env.infer_type ctx t0) t0 t1 p1 steps) := by
    cases hchain with
    | cons _ _ _ _ _ _ h1 h2 =>
      exact foldl_then_chain env ctx t0 rs r t1 p1 steps h1 h2
  refine ⟨hmain, ?_⟩
  intro r2 t2 p2 hrs hsteps
  rw [hmain, hsteps]
  rfl

/-- C21, the two tests: `then(ADD_COMM, ADD_ID)` on `0 + a` gives `a` with
`Trans(Nat, 0+a, a+0, a, ADD_COMM 0 a, ADD_ID a)`, and the chain of four rewriters on
`0 + (a + 0)` gives `a` with the three Trans nested to the left. -/
theorem then_rewriter_spec_witness :
    rewrite_chain nat_env [] [add_comm_thm_rewriter, add_id_thm_rewriter] (nAdd nZero (Const "a"))
      [(nAdd (Const "a") nZero, mk_app [Const "ADD_COMM", nZero, Const "a"]),
       (Const "a", mk_app [Const "ADD_ID", Const "a"])] ∧
    mk_then_rewriter_list [add_comm_thm_rewriter, add_id_thm_rewriter] nat_env []
      (nAdd nZero (Const "a")) =
      some (Const "a", Trans Nat_type (nAdd nZero (Const "a")) (nAdd (Const "a") nZero) (Const "a")
        (mk_app [Const "ADD_COMM", nZero, Const "a"]) (mk_app [Const "ADD_ID", Const "a"])) ∧
    mk_then_rewriter_list
      [add_assoc_thm_rewriter, add_id_thm_rewriter, add_comm_thm_rewriter, add_id_thm_rewriter]
      nat_env [] (nAdd nZero (nAdd (Const "a") nZero)) =
      some (Const "a",
        Trans Nat_type (nAdd nZero (nAdd (Const "a") nZero)) (nAdd (Const "a") nZero) (Const "a")
          (Trans Nat_type (nAdd nZero (nAdd (Const "a") nZero)) (nAdd nZero (Const "a"))
            (nAdd (Const "a") nZero)
            (Trans Nat_type (nAdd nZero (nAdd (Const "a") nZero))
              (nAdd (nAdd nZero (Const "a")) nZero) (nAdd nZero (Const "a"))
              (mk_app [Const "ADD_ASSOC", nZero, Const "a", nZero])
              (mk_app [Const "ADD_ID", nAdd nZero (Const "a")]))
            (mk_app [Const "ADD_COMM", nZero, Const "a"]))
          (mk_app [Const "ADD_ID", Const "a"])) :=
  have hc : rewrite_chain nat_env [] [add_comm_thm_rewriter, add_id_thm_rewriter]
      (nAdd nZero (Const "a"))
      [(nAdd (Const "a") nZero, mk_app [Const "ADD_COMM", nZero, Const "a"]),
       (Const "a", mk_app [Const "ADD_ID", Const "a"])] :=
    rewrite_chain.cons _ _ _ _ _ _ (by decide)
      (rewrite_chain.cons _ _ _ _ _ _ (by decide) (rewrite_chain.nil _))
  ⟨hc,
   (then_rewriter_spec nat_env [] add_comm_thm_rewriter [add_id_thm_rewriter]
      (nAdd nZero (Const "a")) _ _ _ hc).2 add_id_thm_rewriter _ _ rfl rfl,
   by decide⟩

/-- The chain of binary Orelses from a rewriter: its result if it does not fail, the first
result of the others otherwise. -/
theorem foldl_orelse (env : rw_env) (ctx : context) (t : expr) (rs : List rewriter) :
    ∀ acc : rewriter, (rs.foldl mk_orelse_rewriter acc) env ctx t =
      match acc env ctx t with
      | some res => some res
      | none => rs.findSome? (fun x => x env ctx t) := by
  induction rs with
  | nil =>
    intro acc
    cases h : acc env ctx t <;> simp [h]
  | cons r rs ih =>
    intro acc
    rw [List.foldl_cons, ih]
    cases h : acc env ctx t with
    | some res => simp [mk_orelse_rewriter, h]
    | none => cases h2 : r env ctx t <;> simp [mk_orelse_rewriter, h, h2, List.findSome?]

/-- C22: `orelse(r1, ..., rn)` applied to `t` returns the result, term and proof, of the
first `ri`, in order, that does not fail on `t`; it fails iff all of them fail; and
`orelse(fail, r)` and `orelse(r, fail)` are `r`. -/
theorem orelse_rewriter_spec (env : rw_env) (ctx : context) (t : expr) (r : rewriter)
    (rs : List rewriter) :
    mk_orelse_rewriter_list (r :: rs) env ctx t = (r :: rs).findSome? (fun x => x env ctx t) ∧
    (∀ pre x post res, r :: rs = pre ++ x :: post → (∀ y ∈ pre, y env ctx t = none) →
      x env ctx t = some res → mk_orelse_rewriter_list (r :: rs) env ctx t = some res) ∧
    (mk_orelse_rewriter_list (r :: rs) env ctx t = none ↔ ∀ x ∈ r :: rs, x env ctx t = none) ∧
    mk_orelse_rewriter mk_fail_rewriter r = r ∧
    mk_orelse_rewriter r mk_fail_rewriter = r := by
  have hmain : mk_orelse_rewriter_list (r :: rs) env ctx t =
      (r :: rs).findSome? (fun x => x env ctx t) := by
    simp only [mk_orelse_rewriter_list, foldl_orelse, List.findSome?]
    cases h : r env ctx t <;> rfl
  refine ⟨hmain, ?_, ?_, ?_, ?_⟩
  · intro pre x post res hsplit hpre hx
    rw [hmain, hsplit, List.findSome?_append]
    have hnone : pre.findSome? (fun x => x env ctx t) = none := by
      rw [List.findSome?_eq_none_iff]
      exact hpre
    rw [hnone]
    simp [List.findSome?, hx]
  · rw [hmain, List.findSome?_eq_none_iff]
  · funext env1 ctx1 t1
    simp [mk_orelse_rewriter, mk_fail_rewriter]
  · funext env1 ctx1 t1
    simp only [mk_orelse_rewriter, mk_fail_rewriter]
    cases h : r env1 ctx1 t1 <;> rfl

/-- C22, the test: `orelse(ADD_ASSOC, ADD_COMM, ADD_ID)` on `a + b`: the first rewriter
fails, the second returns `(b + a, ADD_COMM a b)`. -/
theorem orelse_rewriter_spec_witness :
    add_assoc_thm_rewriter nat_env [] (nAdd (Const "a") (Const "b")) = none ∧
    add_comm_thm_rewriter nat_env [] (nAdd (Const "a") (Const "b")) =
      some (nAdd (Const "b") (Const "a"), mk_app [Const "ADD_COMM", Const "a", Const "b"]) ∧
    mk_orelse_rewriter_list [add_assoc_thm_rewriter, add_comm_thm_rewriter, add_id_thm_rewriter]
      nat_env [] (nAdd (Const "a") (Const "b")) =
      some (nAdd (Const "b") (Const "a"), mk_app [Const "ADD_COMM", Const "a", Const "b"]) :=
  ⟨by decide, by decide,
   (orelse_rewriter_spec nat_env [] (nAdd (Const "a") (Const "b")) add_assoc_thm_rewriter
      [add_comm_thm_rewriter, add_id_thm_rewriter]).2.1 [add_assoc_thm_rewriter]
      add_comm_thm_rewriter [add_id_thm_rewriter] _ rfl
      (fun y hy => by
        rw [List.mem_singleton] at hy
        rw [hy]
        decide)
      (by decide)⟩

/-- C23, as stated, fails: on `a + 0`, the rewriter of `ADD_ID` returns `(a, ADD_ID a)`, and
`then(id, ADD_ID)` returns the same term with another proof, the trans of `refl(a + 0)`
and `ADD_ID a`. -/
theorem then_id_counterexample :
    add_id_thm_rewriter nat_env [] (nAdd (Const "a") nZero) =
      some (Const "a", mk_app [Const "ADD_ID", Const "a"]) ∧
    mk_then_rewriter mk_id_rewriter add_id_thm_rewriter nat_env [] (nAdd (Const "a") nZero) =
      some (Const "a", Trans Nat_type (nAdd (Const "a") nZero) (nAdd (Const "a") nZero) (Const "a")
        (Refl Nat_type (nAdd (Const "a") nZero)) (mk_app [Const "ADD_ID", Const "a"])) ∧
    mk_then_rewriter mk_id_rewriter add_id_thm_rewriter nat_env [] (nAdd (Const "a") nZero) ≠
      add_id_thm_rewriter nat_env [] (nAdd (Const "a") nZero) := by
  refine ⟨by decide, by decide, by decide⟩

/-- C23 (amended): for every rewriter `r` and term `t`, `then(id, r)` applied to `t` fails
exactly when `r` fails on `t`, and when `r` returns `(t1, p)` it returns the same term `t1`
with the proof `trans(T, t, t, t1, refl(T, t), p)`, `T` being the type of `t`. -/
theorem then_id_spec (r : rewriter) (env : rw_env) (ctx : context) (t : expr) :
    (mk_then_rewriter mk_id_rewriter r env ctx t = none ↔ r env ctx t = none) ∧
    (∀ t1 p, r env ctx t = some (t1, p) →
      mk_then_rewriter mk_id_rewriter r env ctx t =
        some (t1, Trans (env.infer_type ctx t) t t t1 (Refl (env.infer_type ctx t) t) p)) ∧
    (mk_then_rewriter mk_id_rewriter r env ctx t).map Prod.fst = (r env ctx t).map Prod.fst := by
  cases h : r env ctx t with
  | none => simp [mk_then_rewriter, mk_id_rewriter, h]
  | some res =>
    obtain ⟨t1, p⟩ := res
    simp [mk_then_rewriter, mk_id_rewriter, h]

/-- C27, evaluation at the failing input: on the pattern `fun (A : Type) (x : A), ?F A x`,
whose arguments are all the context variables in binding order, against
`fun (A : Type) (x : A), x`, the matcher returns false and assigns nothing, for every
recursion bound that lets it return: the domain `A` of `x`, a variable of the context of
`x`, is looked up among the arguments by their indices in the whole context. On
`fun (A B : Type) (x : A), ?F B x` against `fun (A B : Type) (x : A), x` it returns true and
assigns `fun (B : Type) (x : B), x`, whose second domain is `B` where the context records
`A`. With the closed domains `N` and `M` the solution has the domains of the context. -/
theorem proj_dependent_domain :
    (∀ fuel, hop_match (fuel + 3) pattern_F_A_x target_A_x_x [none] =
      match_result.done false [none]) ∧
    hop_match_fn.args_are_distinct_locally_bound_vars
      (mk_app [expr.Var 2, expr.Var 1, expr.Var 0]) 2 = some [expr.Var 1, expr.Var 0] ∧
    hop_match_fn.proj_core (expr.Var 0) 2 [expr.Var 1, expr.Var 0] 2 = some (expr.Var 0) ∧
    hop_match_fn.proj (expr.Var 0) [some (expr.Var 0), some Type0] 2 [expr.Var 1, expr.Var 0] =
      none ∧
    (∀ fuel, hop_match (fuel + 4) pattern_F_B_x target_A_B_x_x [none] =
      match_result.done true [some (expr.Lambda Type0 (expr.Lambda (expr.Var 0) (expr.Var 0)))]) ∧
    (∀ fuel, hop_match (fuel + 3) pattern_F_y_x target_f_y_fxy [none] =
      match_result.done true [some solution_F]) := by
  refine ⟨fun fuel => rfl, rfl, rfl, rfl, fun fuel => rfl, fun fuel => rfl⟩

/-- The search of `proj_core` finds nothing when no position holds the index. -/
theorem find_var_none (vars : List expr) (vs v : Nat) : ∀ (n i : Nat),
    (∀ k, i ≤ k → k < vs → var_idx (vars.getD k (expr.Var 0)) ≠ v) →
    hop_match_fn.find_var vars vs v n i = none := by
  intro n
  induction n with
  | zero => intro i _; rfl
  | succ m ih =>
    intro i h
    simp only [hop_match_fn.find_var]
    split
    · rename_i hlt
      rw [if_neg (h i (Nat.le_refl i) hlt)]
      exact ih (i + 1) (fun k hk hkv => h k (by omega) hkv)
    · rfl

/-- The projection fails on a term with a free occurrence of a locally bound variable that
is not among the variables searched. -/
theorem proj_core_at_none (cs : Nat) (vars : List expr) (vs j : Nat) (hj : j < cs)
    (hnot : ∀ k, k < vs → var_idx (vars.getD k (expr.Var 0)) ≠ j) (t : expr) :
    ∀ d, occurs_free j t d = true → hop_match_fn.proj_core_at cs vars vs t d = none := by
  induction t with
  | Var i =>
    intro d h
    simp only [occurs_free, decide_eq_true_eq] at h
    subst h
    simp only [hop_match_fn.proj_core_at]
    rw [if_neg (by omega)]
    simp only [Nat.add_sub_cancel, hj, if_true]
    rw [find_var_none vars vs j vs 0 (fun k _ hk => hnot k hk)]
  | Constant n => intro d h; simp [occurs_free] at h
  | Value v => intro d h; simp [occurs_free] at h
  | TypeU l => intro d h; simp [occurs_free] at h
  | MetaVar m => intro d h; simp [occurs_free] at h
  | App f a ihf iha =>
    intro d h
    simp only [occurs_free, Bool.or_eq_true] at h
    simp only [hop_match_fn.proj_core_at]
    rcases h with h | h
    · rw [ihf d h]
    · rw [iha d h]
      split <;> simp_all
  | HEq f a ihf iha =>
    intro d h
    simp only [occurs_free, Bool.or_eq_true] at h
    simp only [hop_match_fn.proj_core_at]
    rcases h with h | h
    · rw [ihf d h]
    · rw [iha d h]
      split <;> simp_all
  | Lambda f a ihf iha =>
    intro d h
    simp only [occurs_free, Bool.or_eq_true] at h
    simp only [hop_match_fn.proj_core_at]
    rcases h with h | h
    · rw [ihf d h]
    · rw [iha (d + 1) h]
      split <;> simp_all
  | Pi f a ihf iha =>
    intro d h
    simp only [occurs_free, Bool.or_eq_true] at h
    simp only [hop_match_fn.proj_core_at]
    rcases h with h | h
    · rw [ihf d h]
    · rw [iha (d + 1) h]
      split <;> simp_all
  | Let ty v b iht ihv ihb =>
    intro d h
    simp only [occurs_free, Bool.or_eq_true] at h
    simp only [hop_match_fn.proj_core_at]
    rcases h with (h | h) | h
    · rw [iht d h]
    · rw [ihv d h]
      split <;> simp_all
    · rw [ihb (d + 1) h]
      split <;> simp_all

/-- C28: for a pattern `?F x1 ... xn` whose head is an unassigned logical variable and whose
arguments are distinct locally bound variables, if the target contains a free occurrence
of a locally bound variable that is not one of the arguments, `match` returns false and
leaves the buffer as it was. -/
theorem match_rule4_failure (fuel : Nat) (s : subst) (p t : expr) (ctx : context) (cs i j : Nat)
    (vars : List expr) (hp : is_app p = true) (hhead : arg p 0 = expr.Var i) (hi : cs ≤ i)
    (hun : hop_match_fn.get_subst s (expr.Var i) cs = some none)
    (hvars : hop_match_fn.args_are_distinct_locally_bound_vars p cs = some vars)
    (hj : j < cs) (hocc : occurs_free j t 0 = true) (hnot : expr.Var j ∉ vars) :
    vars = (get_args p).drop 1 ∧
    hop_match_fn.proj t ctx cs vars = none ∧
    hop_match_fn.match_ (fuel + 1) s p t ctx cs = match_result.done false s := by
  obtain ⟨hveq, hloc⟩ := args_are_distinct_loop_spec cs _ [] vars hvars
  rw [List.nil_append] at hveq
  have hne : ∀ k, k < vars.length → var_idx (vars.getD k (expr.Var 0)) ≠ j := by
    intro k hk hidx
    have hmem : vars.getD k (expr.Var 0) ∈ vars := by
      rw [List.getD_eq_getElem?_getD, List.getElem?_eq_getElem hk]
      exact List.getElem_mem hk
    have hloc1 : ∀ x ∈ vars, hop_match_fn.is_locally_bound x cs = true := by
      rw [hveq]
      exact hloc
    obtain ⟨m, hm, _⟩ := is_locally_bound_inv _ cs (hloc1 _ hmem)
    rw [hm] at hidx hmem
    simp only [var_idx] at hidx
    rw [hidx] at hmem
    exact hnot hmem
  have hproj : hop_match_fn.proj t ctx cs vars = none := by
    unfold hop_match_fn.proj hop_match_fn.proj_core
    rw [proj_core_at_none cs vars vars.length j hj hne t 0 hocc]
  refine ⟨hveq, hproj, ?_⟩
  have hnfv : hop_match_fn.is_free_var p cs = false := by
    cases p <;> simp [is_app] at hp
    simp [hop_match_fn.is_free_var, is_var]
  have hfv : hop_match_fn.is_free_var (expr.Var i) cs = true := by
    simp [hop_match_fn.is_free_var, is_var, var_idx, hi]
  rw [hop_match_fn.match_]
  simp only [hnfv, Bool.false_eq_true, if_false, hp, hhead, hfv, Bool.and_self, if_true, hun,
    hvars, hproj]

/-- C28, under two binders: `?F x` against the other bound variable `y`. -/
theorem match_rule4_failure_witness :
    hop_match_fn.args_are_distinct_locally_bound_vars (expr.App (expr.Var 2) (expr.Var 0)) 2 =
      some [expr.Var 0] ∧
    occurs_free 1 (expr.Var 1) 0 = true ∧ expr.Var 1 ∉ [expr.Var 0] ∧
    hop_match_fn.match_ 1 [none] (expr.App (expr.Var 2) (expr.Var 0)) (expr.Var 1)
      [some (Const "M"), some (Const "N")] 2 = match_result.done false [none] :=
  ⟨rfl, rfl, by decide,
   (match_rule4_failure 0 [none] (expr.App (expr.Var 2) (expr.Var 0)) (expr.Var 1)
      [some (Const "M"), some (Const "N")] 2 2 1 [expr.Var 0] rfl rfl (by decide) rfl rfl
      (by decide) rfl (by decide)).2.2⟩

/-- The renaming made by a successful `proj_core`, at any binder depth. -/
theorem proj_core_at_rename (cs : Nat) (vars : List expr) (k : Nat) (ρ : Nat → Nat)
    (hvars : ∀ i, i < k → var_idx (vars.getD i (expr.Var 0)) < cs →
      ρ (var_idx (vars.getD i (expr.Var 0))) = k - 1 - i)
    (hfree : ∀ j, cs ≤ j → ρ j = j - cs + k) (t : expr) :
    ∀ (d : Nat) (r : expr), hop_match_fn.proj_core_at cs vars k t d = some r →
      r = rename_free_vars ρ t d := by
  induction t with
  | Var i =>
    intro d r h
    simp only [hop_match_fn.proj_core_at] at h
    simp only [rename_free_vars]
    split at h
    · rename_i hlt
      rw [if_pos hlt]
      exact (Option.some.inj h).symm
    · rename_i hlt
      rw [if_neg hlt]
      split at h
      · rename_i hcs
        split at h
        · rename_i i0 hfind
          have h1 := find_var_spec vars k (i - d) k 0 i0 hfind
          have h2 := find_var_lt vars k (i - d) k 0 i0 hfind
          have h3 := hvars i0 h2 (by rw [h1]; exact hcs)
          rw [h1] at h3
          rw [h3]
          rw [← Option.some.inj h]
          congr 1
          omega
        · simp at h
      · rename_i hcs
        rw [hfree (i - d) (by omega)]
        split at h
        · rw [← Option.some.inj h]
          congr 1
          omega
        · rename_i heq
          have hck : cs = k := by
            by_contra hne
            exact heq hne
          rw [← Option.some.inj h]
          congr 1
          omega
  | Constant n => intro d r h; exact (Option.some.inj h).symm
  | Value v => intro d r h; exact (Option.some.inj h).symm
  | TypeU l => intro d r h; exact (Option.some.inj h).symm
  | MetaVar m => intro d r h; exact (Option.some.inj h).symm
  | App f a ihf iha =>
    intro d r h
    simp only [hop_match_fn.proj_core_at] at h
    split at h
    · rename_i f1 a1 hf ha
      rw [← Option.some.inj h, rename_free_vars, ← ihf d f1 hf, ← iha d a1 ha]
    · simp at h
  | HEq f a ihf iha =>
    intro d r h
    simp only [hop_match_fn.proj_core_at] at h
    split at h
    · rename_i f1 a1 hf ha
      rw [← Option.some.inj h, rename_free_vars, ← ihf d f1 hf, ← iha d a1 ha]
    · simp at h
  | Lambda f a ihf iha =>
    intro d r h
    simp only [hop_match_fn.proj_core_at] at h
    split at h
    · rename_i f1 a1 hf ha
      rw [← Option.some.inj h, rename_free_vars, ← ihf d f1 hf, ← iha (d + 1) a1 ha]
    · simp at h
  | Pi f a ihf iha =>
    intro d r h
    simp only [hop_match_fn.proj_core_at] at h
    split at h
    · rename_i f1 a1 hf ha
      rw [← Option.some.inj h, rename_free_vars, ← ihf d f1 hf, ← iha (d + 1) a1 ha]
    · simp at h
  | Let ty v b iht ihv ihb =>
    intro d r h
    simp only [hop_match_fn.proj_core_at] at h
    split at h
    · rename_i t1 v1 b1 ht hv hb
      rw [← Option.some.inj h, rename_free_vars, ← iht d t1 ht, ← ihv d v1 hv,
        ← ihb (d + 1) b1 hb]
    · simp at h
/-- The search of `proj_core` finds a position whenever one holds the variable. -/
theorem find_var_complete (vars : List expr) (vs v i0 : Nat) (hi0 : i0 < vs)
    (hv : var_idx (vars.getD i0 (expr.Var 0)) = v) : ∀ (n i : Nat), i ≤ i0 → i0 - i < n →
    ∃ j, hop_match_fn.find_var vars vs v n i = some j := by
  intro n
  induction n with
  | zero => intro i _ h; omega
  | succ m ih =>
    intro i hle hlt
    simp only [hop_match_fn.find_var]
    rw [if_pos (by omega)]
    by_cases hc : var_idx (vars.getD i (expr.Var 0)) = v
    · rw [if_pos hc]; exact ⟨i, rfl⟩
    · rw [if_neg hc]
      have hne : i ≠ i0 := by
        intro he
        rw [he] at hc
        exact hc hv
      exact ih (i + 1) (by omega) (by omega)

/-- With distinct variables, the search of `proj_core` returns the position of the variable. -/
theorem find_var_distinct (vars : List expr) (k i0 : Nat) (hi0 : i0 < k)
    (hdist : ∀ i1 i2, i1 < k → i2 < k →
      var_idx (vars.getD i1 (expr.Var 0)) = var_idx (vars.getD i2 (expr.Var 0)) → i1 = i2) :
    hop_match_fn.find_var vars k (var_idx (vars.getD i0 (expr.Var 0))) k 0 = some i0 := by
  obtain ⟨j, hj⟩ := find_var_complete vars k _ i0 hi0 rfl k 0 (by omega) (by omega)
  have h1 := find_var_spec vars k _ k 0 j hj
  have h2 := find_var_lt vars k _ k 0 j hj
  rw [hj, hdist j i0 h2 hi0 h1]

/-- With distinct variables, `proj_renaming` sends `vars[i]` to `k - 1 - i`. -/
theorem proj_renaming_vars (cs : Nat) (vars : List expr) (k : Nat)
    (hdist : ∀ i1 i2, i1 < k → i2 < k →
      var_idx (vars.getD i1 (expr.Var 0)) = var_idx (vars.getD i2 (expr.Var 0)) → i1 = i2)
    (i : Nat) (hi : i < k) (hloc : var_idx (vars.getD i (expr.Var 0)) < cs) :
    proj_renaming cs vars k (var_idx (vars.getD i (expr.Var 0))) = k - 1 - i := by
  simp only [proj_renaming]
  rw [if_pos hloc]
  split
  · rename_i i1 hfind
    have h1 := List.find?_some hfind
    have h2 := List.mem_of_find?_eq_some hfind
    rw [List.mem_range] at h2
    rw [hdist i1 i h2 hi (of_decide_eq_true h1)]
  · rename_i hfind
    rw [List.find?_eq_none] at hfind
    have := hfind i (List.mem_range.mpr hi)
    simp at this

/-- C29: when `proj_core(t, ctx_size, vars, k)` succeeds on distinct variables `vars`, its
result is `t` renamed by `proj_renaming`: the locally bound variable `vars[i]`, `i < k`, goes
to the index `k - 1 - i` and a free variable `j ≥ ctx_size` to `j - ctx_size + k`, each shifted
by the binders of `t` crossed, and the variables bound inside `t` are unchanged; in particular
`vars[k-1]` is projected to `#0` and `vars[0]` to `#(k-1)`. -/
theorem proj_core_renaming (t r : expr) (cs : Nat) (vars : List expr) (k : Nat)
    (hdist : ∀ i1 i2, i1 < k → i2 < k →
      var_idx (vars.getD i1 (expr.Var 0)) = var_idx (vars.getD i2 (expr.Var 0)) → i1 = i2)
    (h : hop_match_fn.proj_core t cs vars k = some r) :
    (∀ i, i < k → var_idx (vars.getD i (expr.Var 0)) < cs →
      proj_renaming cs vars k (var_idx (vars.getD i (expr.Var 0))) = k - 1 - i) ∧
    (∀ j, cs ≤ j → proj_renaming cs vars k j = j - cs + k) ∧
    r = rename_free_vars (proj_renaming cs vars k) t 0 ∧
    (∀ v, 0 < k → vars.getD (k - 1) (expr.Var 0) = expr.Var v → v < cs →
      hop_match_fn.proj_core (expr.Var v) cs vars k = some (expr.Var 0)) ∧
    (∀ v, 0 < k → vars.getD 0 (expr.Var 0) = expr.Var v → v < cs →
      hop_match_fn.proj_core (expr.Var v) cs vars k = some (expr.Var (k - 1))) := by
  have hA := proj_renaming_vars cs vars k hdist
  have hB : ∀ j, cs ≤ j → proj_renaming cs vars k j = j - cs + k := by
    intro j hj
    simp only [proj_renaming]
    rw [if_neg (by omega)]
  refine ⟨hA, hB, ?_, ?_, ?_⟩
  · exact proj_core_at_rename cs vars k _ hA hB t 0 r h
  · intro v hk hv hlt
    have hf := find_var_distinct vars k (k - 1) (by omega) hdist
    rw [hv] at hf
    simp only [var_idx] at hf
    simp only [hop_match_fn.proj_core, hop_match_fn.proj_core_at]
    rw [if_neg (by omega)]
    simp only [Nat.sub_zero]
    rw [if_pos hlt, hf]
    simp only [Option.some.injEq, expr.Var.injEq]
    omega
  · intro v hk hv hlt
    have hf := find_var_distinct vars k 0 hk hdist
    rw [hv] at hf
    simp only [var_idx] at hf
    simp only [hop_match_fn.proj_core, hop_match_fn.proj_core_at]
    rw [if_neg (by omega)]
    simp only [Nat.sub_zero]
    rw [if_pos hlt, hf]
    simp only [Option.some.injEq, expr.Var.injEq]
    omega

/-- Witness for C29: projecting `fun _ : N, #0 #1 #3 #5` over the variables `#2, #0` of a
context of size 3 gives `fun _ : N, #0 #1 #2 #4`. -/
theorem proj_core_renaming_witness :
    hop_match_fn.proj_core
      (expr.Lambda (Const "N") (mk_app [expr.Var 0, expr.Var 1, expr.Var 3, expr.Var 5]))
      3 [expr.Var 2, expr.Var 0] 2 =
      some (expr.Lambda (Const "N") (mk_app [expr.Var 0, expr.Var 1, expr.Var 2, expr.Var 4])) ∧
    expr.Lambda (Const "N") (mk_app [expr.Var 0, expr.Var 1, expr.Var 2, expr.Var 4]) =
      rename_free_vars (proj_renaming 3 [expr.Var 2, expr.Var 0] 2)
        (expr.Lambda (Const "N") (mk_app [expr.Var 0, expr.Var 1, expr.Var 3, expr.Var 5])) 0 :=
  ⟨by decide,
   (proj_core_renaming _ _ 3 [expr.Var 2, expr.Var 0] 2
      (by
        intro i1 i2 h1 h2
        interval_cases i1 <;> interval_cases i2 <;> simp [var_idx])
      (by decide)).2.2.1⟩

/-- Continuing with success is the identity on results. -/
theorem and_then_done (r : match_result) :
    hop_match_fn.and_then r (fun s1 => match_result.done true s1) = r := by
  unfold hop_match_fn.and_then
  split <;> rfl

/-- The application loop continues exactly as `and_then`. -/
theorem app_loop_step_eq (r : match_result) (k : subst → match_result) :
    (match r with
      | match_result.done true s1 => k s1
      | other => other) = hop_match_fn.and_then r k := rfl

/-- The application loop when the target has `d > 0` more arguments than the pattern. -/
theorem app_loop_target_longer (m : subst → expr → expr → match_result) (p t : expr) (d : Nat)
    (hd : 0 < d) : ∀ (a : Nat) (s : subst),
    hop_match_fn.app_loop m p t (a + 1) (d + a + 1) s =
      match_pairs m ((List.range a).reverse.map (fun i => (arg p (i + 1), arg t (d + i + 1))) ++
        [(arg p 0, mk_app_first (d + 1) t)]) s := by
  intro a
  induction a with
  | zero =>
    intro s
    simp only [hop_match_fn.app_loop, Nat.add_zero, List.range_zero, List.reverse_nil,
      List.map_nil, List.nil_append, match_pairs]
    rw [if_pos ⟨trivial, hd⟩, app_loop_step_eq]
  | succ a ih =>
    intro s
    have e : d + (a + 1) + 1 = (d + a + 1) + 1 := rfl
    rw [e, hop_match_fn.app_loop]
    rw [if_neg (by omega), if_neg (by omega), app_loop_step_eq, List.range_succ,
      List.reverse_append, List.reverse_singleton, List.singleton_append, List.map_cons,
      List.cons_append, match_pairs]
    congr 1
    funext s1
    exact ih s1

/-- The application loop when the pattern has `d > 0` more arguments than the target. -/
theorem app_loop_pattern_longer (m : subst → expr → expr → match_result) (p t : expr) (d : Nat)
    (hd : 0 < d) : ∀ (a : Nat) (s : subst),
    hop_match_fn.app_loop m p t (d + a + 1) (a + 1) s =
      match_pairs m ((List.range a).reverse.map (fun i => (arg p (d + i + 1), arg t (i + 1))) ++
        [(mk_app_first (d + 1) p, arg t 0)]) s := by
  intro a
  induction a with
  | zero =>
    intro s
    simp only [hop_match_fn.app_loop, Nat.add_zero, List.range_zero, List.reverse_nil,
      List.map_nil, List.nil_append, match_pairs]
    rw [if_neg (by omega), if_pos ⟨trivial, hd⟩, app_loop_step_eq]
  | succ a ih =>
    intro s
    have e : d + (a + 1) + 1 = (d + a + 1) + 1 := rfl
    rw [e, hop_match_fn.app_loop]
    rw [if_neg (by omega), if_neg (by omega), app_loop_step_eq, List.range_succ,
      List.reverse_append, List.reverse_singleton, List.singleton_append, List.map_cons,
      List.cons_append, match_pairs]
    congr 1
    funext s1
    exact ih s1
/-- The threaded conjunction succeeds exactly when every pair matches in order. -/
theorem match_pairs_done_iff (m : subst → expr → expr → match_result) :
    ∀ (l : List (expr × expr)) (s s2 : subst),
      match_pairs m l s = match_result.done true s2 ↔ pairs_match m l s s2 := by
  intro l
  induction l with
  | nil =>
    intro s s2
    simp only [match_pairs, match_result.done.injEq, true_and]
    constructor
    · intro h
      rw [h]
      exact pairs_match.nil s2
    · intro h
      cases h
      rfl
  | cons pt rest ih =>
    intro s s2
    obtain ⟨p, t⟩ := pt
    simp only [match_pairs]
    constructor
    · intro h
      cases hr : m s p t with
      | done b s1 =>
        cases b with
        | true =>
          rw [hr] at h
          exact pairs_match.cons p t rest s s1 s2 hr ((ih s1 s2).mp h)
        | false =>
          rw [hr] at h
          simp [hop_match_fn.and_then] at h
      | exception =>
        rw [hr] at h
        simp [hop_match_fn.and_then] at h
      | out_of_fuel =>
        rw [hr] at h
        simp [hop_match_fn.and_then] at h
    · intro h
      cases h with
      | cons _ _ _ _ s1 _ h1 h2 =>
        rw [h1]
        exact (ih s1 s2).mpr h2

/-- The application case of `match` on nodes of different arities is the threaded
conjunction of the recursive calls on `arity_split_pairs p t`. -/
theorem app_case_eq_match_pairs (fuel : Nat) (s : subst) (p t : expr) (ctx : context) (cs : Nat)
    (hp : is_app p = true) (ht : is_app t = true)
    (hrule : hop_match_fn.is_free_var (arg p 0) cs = false ∨
      (hop_match_fn.get_subst s (arg p 0) cs = some none ∧
        hop_match_fn.args_are_distinct_locally_bound_vars p cs = none))
    (hne : num_args p ≠ num_args t) :
    hop_match_fn.match_ (fuel + 1) s p t ctx cs =
      match_pairs (fun s1 p1 t1 => hop_match_fn.match_ fuel s1 p1 t1 ctx cs)
        (arity_split_pairs p t) s := by
  have hnfv : hop_match_fn.is_free_var p cs = false := by
    cases p <;> simp [is_app] at hp
    simp [hop_match_fn.is_free_var, is_var]
  have hstruct : hop_match_fn.match_ (fuel + 1) s p t ctx cs =
      hop_match_fn.match_structural (hop_match_fn.match_ fuel) s p t ctx cs := by
    rw [hop_match_fn.match_]
    simp only [hnfv, Bool.false_eq_true, if_false, hp, Bool.true_and]
    rcases hrule with h | ⟨h1, h2⟩
    · simp only [h, Bool.false_eq_true, if_false]
    · by_cases hfv : hop_match_fn.is_free_var (arg p 0) cs = true
      · simp only [hfv, if_true, h1, h2]
      · simp only [hfv, Bool.false_eq_true, if_false]
  have hpt : p ≠ t := by
    intro h
    rw [h] at hne
    exact hne rfl
  obtain ⟨m, hm⟩ : ∃ m, num_args p = m + 1 :=
    ⟨num_args p - 1, by
      have := List.length_pos.mpr (get_args_ne_nil p)
      unfold num_args
      omega⟩
  obtain ⟨n, hn⟩ : ∃ n, num_args t = n + 1 :=
    ⟨num_args t - 1, by
      have := List.length_pos.mpr (get_args_ne_nil t)
      unfold num_args
      omega⟩
  have hloop : hop_match_fn.match_structural (hop_match_fn.match_ fuel) s p t ctx cs =
      hop_match_fn.app_loop (fun s1 p1 t1 => hop_match_fn.match_ fuel s1 p1 t1 ctx cs) p t
        (num_args p) (num_args t) s := by
    cases p <;> simp [is_app] at hp
    cases t <;> simp [is_app] at ht
    simp only [hop_match_fn.match_structural, if_neg hpt, is_eq_heq, Bool.false_and,
      Bool.false_eq_true, if_false, expr.kind, ne_eq, not_true_eq_false]
  rw [hstruct, hloop]
  simp only [arity_split_pairs, hm, hn, Nat.add_sub_cancel]
  by_cases hlt : m < n
  · rw [if_pos hlt]
    obtain ⟨d, rfl⟩ : ∃ d, n = d + m := ⟨n - m, by omega⟩
    simp only [Nat.add_sub_cancel]
    exact app_loop_target_longer _ p t d (by omega) m s
  · rw [if_neg hlt]
    obtain ⟨d, rfl⟩ : ∃ d, m = d + n := ⟨m - n, by omega⟩
    simp only [Nat.add_sub_cancel]
    exact app_loop_pattern_longer _ p t d (by omega) n s

/-- C30: for application nodes `p = h p1 ... pm` and `t = g t1 ... tn` with `m ≠ n`, when the
logical-variable rules do not apply at the top (the head of `p` is not a logical variable, or
it is an unassigned one whose arguments are not distinct locally bound variables), `match`
is the conjunction of the recursive calls on `arity_split_pairs p t`, from right to left with
the substitution threaded through, and so succeeds exactly when every pair matches in that
order: for `m < n`, each `pi` against `t(n-m+i)` and at the end `h` against
`g t1 ... t(n-m)`; for `m > n`, each `p(m-n+i)` against `ti` and at the end
`h p1 ... p(m-n)` against `g`. -/
theorem app_arity_split (fuel : Nat) (s : subst) (p t : expr) (ctx : context) (cs : Nat)
    (hp : is_app p = true) (ht : is_app t = true)
    (hrule : hop_match_fn.is_free_var (arg p 0) cs = false ∨
      (hop_match_fn.get_subst s (arg p 0) cs = some none ∧
        hop_match_fn.args_are_distinct_locally_bound_vars p cs = none))
    (hne : num_args p ≠ num_args t) :
    hop_match_fn.match_ (fuel + 1) s p t ctx cs =
      match_pairs (fun s1 p1 t1 => hop_match_fn.match_ fuel s1 p1 t1 ctx cs)
        (arity_split_pairs p t) s ∧
    ∀ s2, hop_match_fn.match_ (fuel + 1) s p t ctx cs = match_result.done true s2 ↔
      pairs_match (fun s1 p1 t1 => hop_match_fn.match_ fuel s1 p1 t1 ctx cs)
        (arity_split_pairs p t) s s2 := by
  have key : hop_match_fn.match_ (fuel + 1) s p t ctx cs =
      match_pairs (fun s1 p1 t1 => hop_match_fn.match_ fuel s1 p1 t1 ctx cs)
        (arity_split_pairs p t) s := by
    exact app_case_eq_match_pairs fuel s p t ctx cs hp ht hrule hne
  refine ⟨key, fun s2 => ?_⟩
  rw [key]
  exact match_pairs_done_iff _ _ s s2

/-- Witness for C30: `?F a` against `g b a` succeeds with `?F := g b`. -/
theorem app_arity_split_witness :
    hop_match_fn.match_ 2 [none] (expr.App (expr.Var 0) (Const "a"))
        (mk_app [Const "g", Const "b", Const "a"]) [] 0 =
      match_pairs (fun s1 p1 t1 => hop_match_fn.match_ 1 s1 p1 t1 [] 0)
        [(Const "a", Const "a"), (expr.Var 0, expr.App (Const "g") (Const "b"))] [none] ∧
    hop_match 2 (expr.App (expr.Var 0) (Const "a")) (mk_app [Const "g", Const "b", Const "a"])
        [none] = match_result.done true [some (expr.App (Const "g") (Const "b"))] :=
  ⟨(app_arity_split 1 [none] (expr.App (expr.Var 0) (Const "a"))
      (mk_app [Const "g", Const "b", Const "a"]) [] 0 rfl rfl (Or.inr ⟨rfl, rfl⟩)
      (by decide)).1,
   by decide⟩

/-- C31, counterexample: a `Let` pattern against itself is matched by the test `p == t`, so
the matcher returns true on a `Let` pattern. -/
theorem match_let_counterexample :
    hop_match 1 (expr.Let (Const "N") (Const "a") (expr.Var 0))
      (expr.Let (Const "N") (Const "a") (expr.Var 0)) [] = match_result.done true [] := by
  decide

/-- C31, amended: on a pattern that is a `Let` term the matcher needs no recursive call; it
returns true when the target is the pattern itself (the test `p == t`) and false on every
other target, and leaves the substitution as it was. -/
theorem match_let_spec (fuel : Nat) (s : subst) (ty v b t : expr) (ctx : context) (cs : Nat) :
    hop_match_fn.match_ (fuel + 1) s (expr.Let ty v b) t ctx cs =
      match_result.done (decide (expr.Let ty v b = t)) s := by
  rw [hop_match_fn.match_]
  simp only [hop_match_fn.is_free_var, is_var, is_app, Bool.false_and, Bool.false_eq_true,
    if_false, hop_match_fn.match_structural, is_eq_heq]
  by_cases h : expr.Let ty v b = t
  · rw [if_pos h, decide_eq_true h]
  · rw [if_neg h, decide_eq_false h]
    split
    · rfl
    · cases t <;> simp_all [expr.kind]

/-- The loop over the non-leading parts, on a list made of two. -/
theorem register_parts_append (prec : Nat) (l1 l2 : List name) : ∀ s : frontend,
    register_parts prec (l1 ++ l2) s = register_parts prec l2 (register_parts prec l1 s) := by
  induction l1 with
  | nil => intro s; rfl
  | cons x rest ih =>
    intro s
    simp only [List.cons_append, register_parts]
    exact ih _

/-- After the loop every part it went through has the new precedence in `m_other_lbp`. -/
theorem register_parts_other_lbp (prec : Nat) (parts : List name) (x : name) : ∀ s : frontend,
    (register_parts prec parts s).here.ext.m_other_lbp x =
      if x ∈ parts then some prec else s.here.ext.m_other_lbp x := by
  induction parts with
  | nil => intro s; simp [register_parts]
  | cons part rest ih =>
    intro s
    simp only [register_parts]
    rw [ih]
    by_cases hx : x ∈ rest
    · simp [hx]
    · by_cases hxp : x = part
      · simp [hx, hxp, frontend.set_ext, table.insert]
      · simp [hx, hxp, frontend.set_ext, table.insert]

/-- The diagnostics of `check_precedence`: one exactly when the token has a precedence and
it differs from the new one. -/
theorem check_precedence_mem (h : op_heap) (c : List lean_extension) (n : name) (prec : Nat)
    (x : diagnostic) :
    x ∈ lean_extension.check_precedence h c n prec ↔
      ∃ old, x = diagnostic.precedence_changed n old prec ∧
        lean_extension.get_lbp h c n = some old ∧ old ≠ prec := by
  unfold lean_extension.check_precedence
  cases hl : lean_extension.get_lbp h c n with
  | none => simp
  | some old =>
    by_cases ho : old = prec
    · simp only [ne_eq, ho, not_true_eq_false, if_false, List.not_mem_nil, Option.some.injEq,
        false_iff, not_exists, not_and]
      intro o _ h1 h2
      exact h2 h1.symm
    · simp only [ne_eq, ho, not_false_eq_true, if_true, List.mem_singleton, Option.some.injEq]
      constructor
      · intro hx
        exact ⟨old, hx, rfl, ho⟩
      · rintro ⟨o, hx, rfl, _⟩
        exact hx

/-- At most one diagnostic is written by `check_precedence`. -/
theorem check_precedence_length (h : op_heap) (c : List lean_extension) (n : name) (prec : Nat) :
    (lean_extension.check_precedence h c n prec).length ≤ 1 := by
  unfold lean_extension.check_precedence
  split
  · split <;> simp
  · simp

/-- The descriptor read by `register_new_op` after `add_expr`: parts and precedence are
those of the cell. -/
theorem register_new_op_head_cell (s : frontend) (a : Nat) (i : operator_info.imp) (d : expr)
    (led : Bool) (hi : s.heap.deref (some a) = some i) :
    get_op_name_parts (register_new_op_head s (some a) d led).heap (some a) = i.m_op_parts ∧
    get_precedence (register_new_op_head s (some a) d led).heap (some a) = i.m_precedence := by
  have hi1 := deref_add_expr_same s.heap a d i hi
  have hh : (register_new_op_head s (some a) d led).heap = s.heap.add_expr (some a) d := by
    unfold register_new_op_head
    cases led <;> simp [frontend.set_ext]
  rw [hh]
  simp [get_op_name_parts, get_precedence, hi1]
/-- C32: when `register_new_op` registers a descriptor with parts `t0 :: ts` and precedence
`p`, it goes through every non-leading part; at the part `ti = ts[k]` it writes at most one
diagnostic, and writes `precedence_changed ti old p` exactly when `get_lbp(ti)` in the state
of that moment is `some old` with `old ≠ p`; in both cases the loop goes on to the end and
the entry of `ti` in `m_other_lbp` is `p`, right after the step and when the registration
is complete. -/
theorem register_new_op_precedence (s : frontend) (a : Nat) (i : operator_info.imp) (d : expr)
    (led : Bool) (hi : s.heap.deref (some a) = some i) (k : Nat)
    (hk : k < i.m_op_parts.tail.length) :
    ∃ ti, i.m_op_parts.tail[k]? = some ti ∧
      (∃ ds, (register_new_op_upto s (some a) d led (k + 1)).ios =
          (register_new_op_upto s (some a) d led k).ios ++ ds ∧ ds.length ≤ 1 ∧
        ∀ x, x ∈ ds ↔ ∃ old, x = diagnostic.precedence_changed ti old i.m_precedence ∧
          lean_extension.get_lbp (register_new_op_upto s (some a) d led k).heap
            (register_new_op_upto s (some a) d led k).chain ti = some old ∧
          old ≠ i.m_precedence) ∧
      (register_new_op_upto s (some a) d led (k + 1)).here.ext.m_other_lbp ti =
        some i.m_precedence ∧
      register_new_op s (some a) d led =
        register_new_op_upto s (some a) d led i.m_op_parts.tail.length ∧
      (register_new_op s (some a) d led).here.ext.m_other_lbp ti = some i.m_precedence := by
  obtain ⟨hparts, hprec⟩ := register_new_op_head_cell s a i d led hi
  have hget : i.m_op_parts.tail[k]? = some (i.m_op_parts.tail.get ⟨k, hk⟩) :=
    List.getElem?_eq_getElem hk
  have hfull : register_new_op s (some a) d led =
      register_parts i.m_precedence i.m_op_parts.tail (register_new_op_head s (some a) d led) := by
    unfold register_new_op
    simp only [hparts, hprec]
  have hupto : ∀ j, register_new_op_upto s (some a) d led j =
      register_parts i.m_precedence (i.m_op_parts.tail.take j)
        (register_new_op_head s (some a) d led) := by
    intro j
    unfold register_new_op_upto
    simp only [hparts, hprec]
  have hstep : register_new_op_upto s (some a) d led (k + 1) =
      register_parts i.m_precedence [i.m_op_parts.tail.get ⟨k, hk⟩]
        (register_new_op_upto s (some a) d led k) := by
    rw [hupto, hupto, List.take_succ, hget, Option.toList, register_parts_append]
  refine ⟨_, hget, ?_, ?_, ?_, ?_⟩
  · refine ⟨lean_extension.check_precedence (register_new_op_upto s (some a) d led k).heap
      (register_new_op_upto s (some a) d led k).chain (i.m_op_parts.tail.get ⟨k, hk⟩)
      i.m_precedence, ?_, check_precedence_length _ _ _ _, fun x => check_precedence_mem _ _ _ _ x⟩
    rw [hstep]
    rfl
  · rw [hstep, register_parts_other_lbp]
    simp
  · rw [hfull, hupto, List.take_length]
  · rw [hfull, register_parts_other_lbp, if_pos (List.get_mem _ _ _)]

/-- Witness for C32: registering `if _ + _ else _` at precedence 10 where `+` is an infix
operator of precedence 65 writes the diagnostic for `+` and sets its entry to 10. -/
theorem register_new_op_precedence_witness :
    (register_new_op frontend_with_if_cell (some 1) (Const "ite") false).ios =
      [diagnostic.precedence_changed (mk_name "+") 65 10] ∧
    (register_new_op frontend_with_if_cell (some 1) (Const "ite") false).here.ext.m_other_lbp
      (mk_name "+") = some 10 := by
  obtain ⟨ti, hti, _, _, _, h⟩ := register_new_op_precedence frontend_with_if_cell 1
    (mixfix_op fixity.Mixfixc [mk_name "if", mk_name "+", mk_name "else"] 10) (Const "ite") false
    rfl 0 (by decide)
  have hti1 : ti = mk_name "+" := (Option.some.inj hti).symm
  rw [hti1] at h
  exact ⟨by decide, h⟩

/-- While a led operator of precedence `prec` is bound to the token `t0` in the environment
operated on, the loop over the non-leading parts writes no diagnostic naming `t0`. -/
theorem register_parts_led_token (prec : Nat) (t0 : name) (a : Nat) (i : operator_info.imp)
    (hp : i.m_precedence = prec) (parts : List name) : ∀ s : frontend,
    s.here.ext.m_led t0 = some (some a) → s.heap.deref (some a) = some i →
    ∃ ds, (register_parts prec parts s).ios = s.ios ++ ds ∧
      ∀ old p, diagnostic.precedence_changed t0 old p ∉ ds := by
  induction parts with
  | nil =>
    intro s _ _
    exact ⟨[], by simp [register_parts], by simp⟩
  | cons part rest ih =>
    intro s hled hcell
    simp only [register_parts]
    obtain ⟨ds, hds, hno⟩ := ih
      { (s.set_ext { s.here.ext with m_other_lbp := s.here.ext.m_other_lbp.insert part prec }) with
        ios := s.ios ++ lean_extension.check_precedence s.heap s.chain part prec }
      hled hcell
    refine ⟨lean_extension.check_precedence s.heap s.chain part prec ++ ds, ?_, ?_⟩
    · rw [hds, List.append_assoc]
    · intro old p hmem
      rcases List.mem_append.1 hmem with hm | hm
      · obtain ⟨o, hx, hl, hne⟩ := (check_precedence_mem _ _ _ _ _).1 hm
        simp only [diagnostic.precedence_changed.injEq] at hx
        obtain ⟨hpart, _, _⟩ := hx
        rw [← hpart] at hl
        have hlbp : lean_extension.get_lbp s.heap s.chain t0 = some prec := by
          simp only [lean_extension.get_lbp, frontend.chain, lean_extension.find_led, hled, hcell, hp]
        rw [hlbp] at hl
        exact hne (Option.some.inj hl).symm
      · exact hno old p hm

/-- C40: when a led operator is registered, `check_precedence` of its leading token runs
after `insert_op`, so `get_lbp` of the token is already the new precedence and the check
writes nothing; nor does the loop over the other parts: no precedence diagnostic naming the
leading token is written by `register_new_op`, whatever precedence the token had before. -/
theorem led_head_no_diagnostic (s : frontend) (a : Nat) (i : operator_info.imp) (d : expr)
    (hi : s.heap.deref (some a) = some i) :
    lean_extension.get_lbp (s.heap.add_expr (some a) d)
      (lean_extension.insert_expr_to_operator_entry
        (lean_extension.insert_op (s.heap.add_expr (some a) d) s.here.ext (some a) true) d (some a) ::
        s.parent_chain)
      (i.m_op_parts.headD name.anonymous) = some i.m_precedence ∧
    (register_new_op_head s (some a) d true).ios = s.ios ∧
    ∃ ds, (register_new_op s (some a) d true).ios = s.ios ++ ds ∧
      ∀ old p, diagnostic.precedence_changed (i.m_op_parts.headD name.anonymous) old p ∉ ds := by
  have hi1 := deref_add_expr_same s.heap a d i hi
  obtain ⟨hparts, hprec⟩ := register_new_op_head_cell s a i d true hi
  have hlbp : lean_extension.get_lbp (s.heap.add_expr (some a) d)
      (lean_extension.insert_expr_to_operator_entry
        (lean_extension.insert_op (s.heap.add_expr (some a) d) s.here.ext (some a) true) d (some a) ::
        s.parent_chain)
      (i.m_op_parts.headD name.anonymous) = some i.m_precedence := by
    simp [lean_extension.get_lbp, lean_extension.find_led, lean_extension.insert_op,
      lean_extension.insert_expr_to_operator_entry, lean_extension.get_op_name, hi1, table.insert]
  have hhead : (register_new_op_head s (some a) d true).ios = s.ios := by
    have hc : lean_extension.check_precedence (s.heap.add_expr (some a) d)
        (lean_extension.insert_expr_to_operator_entry
          (lean_extension.insert_op (s.heap.add_expr (some a) d) s.here.ext (some a) true) d (some a) ::
          s.parent_chain)
        (i.m_op_parts.headD name.anonymous) i.m_precedence = [] := by
      unfold lean_extension.check_precedence
      rw [hlbp]
      simp
    simp only [register_new_op_head, if_true, frontend.set_ext, frontend.chain, get_op_name_parts,
      get_precedence, hi1]
    have hc1 := hc
    simp only [frontend.parent_chain] at hc1
    rw [hc1, List.append_nil]
  refine ⟨hlbp, hhead, ?_⟩
  have hled : (register_new_op_head s (some a) d true).here.ext.m_led
      (i.m_op_parts.headD name.anonymous) = some (some a) := by
    simp [register_new_op_head, frontend.set_ext, lean_extension.insert_op,
      lean_extension.insert_expr_to_operator_entry, lean_extension.get_op_name, hi1, table.insert]
  have hcell : (register_new_op_head s (some a) d true).heap.deref (some a) =
      some { i with m_exprs := d :: i.m_exprs } := by
    simp only [register_new_op_head, if_true, frontend.set_ext]
    exact hi1
  obtain ⟨ds, hds, hno⟩ := register_parts_led_token i.m_precedence
    (i.m_op_parts.headD name.anonymous) a { i with m_exprs := d :: i.m_exprs } rfl
    i.m_op_parts.tail (register_new_op_head s (some a) d true) hled hcell
  refine ⟨ds, ?_, hno⟩
  unfold register_new_op
  simp only [hparts, hprec]
  rw [hds, hhead]

/-- Witness for C40: `+` is a led operator of precedence 65; registering `infixl "+" 70`
writes no diagnostic. -/
theorem led_head_no_diagnostic_witness :
    lean_extension.get_lbp frontend_with_plus_cell.heap frontend_with_plus_cell.chain
      (mk_name "+") = some 65 ∧
    (register_new_op_head frontend_with_plus_cell (some 1) (Const "nat_add2") true).ios =
      frontend_with_plus_cell.ios ∧
    (register_new_op frontend_with_plus_cell (some 1) (Const "nat_add2") true).ios = [] :=
  ⟨by decide,
   (led_head_no_diagnostic frontend_with_plus_cell 1 (infixl_op (mk_name "+") 70)
      (Const "nat_add2") rfl).2.1,
   by decide⟩

/-- C33: `mk_explicit_name` by cases: it throws on the anonymous name (and on no other); on a
name whose last segment is a numeral it returns the name extended with the string segment
`explicit`; on a name whose last segment is the string `s` it returns the same prefix with
the last segment `@s`, so that the atomic name `s` becomes the atomic name `@s`. -/
theorem mk_explicit_name_spec :
    lean_extension.mk_explicit_name name.anonymous = none ∧
    (∀ n, lean_extension.mk_explicit_name n = none ↔ n = name.anonymous) ∧
    (∀ p k, lean_extension.mk_explicit_name (name.num p k) =
      some (name.str (name.num p k) "explicit")) ∧
    (∀ p s, lean_extension.mk_explicit_name (name.str p s) = some (name.str p ("@" ++ s))) ∧
    (∀ s, lean_extension.mk_explicit_name (name.str name.anonymous s) =
      some (name.str name.anonymous ("@" ++ s))) ∧
    lean_extension.mk_explicit_name (name.str (mk_name "Nat") "add") =
      some (name.str (mk_name "Nat") "@add") ∧
    lean_extension.mk_explicit_name (name.num (mk_name "f") 3) =
      some (name.str (name.num (mk_name "f") 3) "explicit") := by
  refine ⟨rfl, ?_, fun _ _ => rfl, fun _ _ => rfl, fun _ => rfl, by decide, by decide⟩
  intro n
  cases n <;> simp [lean_extension.mk_explicit_name]

/-- C34, counterexample: with `A` defined as the arrow type `N → N`, the normalization of the
constant `A` is `N → N`, not `A`: the constant is replaced by a value that is not a
constant. -/
theorem coercion_type_normalization_counterexample :
    lean_extension.coercion_type_normalization 2 env_with_arrow_definition (Const "A") =
      some (expr.Pi (Const "N") (Const "N")) ∧
    expr.Pi (Const "N") (Const "N") ≠ Const "A" ∧
    is_constant (expr.Pi (Const "N") (Const "N")) = false := by
  decide

/-- The normalization loop only returns the end of the chain of definitions. -/
theorem coercion_type_normalization_sound (env : List environment_cell) :
    ∀ (fuel : Nat) (t r : expr),
      lean_extension.coercion_type_normalization fuel env t = some r → unfolds_to env t r := by
  intro fuel
  induction fuel with
  | zero => intro t r h; simp [lean_extension.coercion_type_normalization] at h
  | succ m ih =>
    intro t r h
    simp only [lean_extension.coercion_type_normalization] at h
    split at h
    · rename_i hc
      cases t <;> simp [is_constant] at hc
      rename_i n
      simp only [const_name] at h
      split at h
      · rename_i obj hobj
        split at h
        · rename_i hk
          split at h
          · rename_i v hv
            exact unfolds_to.step n obj v r hobj hk hv (ih v r h)
          · rename_i hv
            rw [← Option.some.inj h]
            refine unfolds_to.stop _ ?_
            intro n1 obj1 v1 hn ho1 _ hv1
            cases hn
            rw [hobj] at ho1
            cases ho1
            rw [hv] at hv1
            exact Option.noConfusion hv1
        · rename_i hk
          rw [← Option.some.inj h]
          refine unfolds_to.stop _ ?_
          intro n1 obj1 v1 hn ho1 hk1 _
          cases hn
          rw [hobj] at ho1
          cases ho1
          exact hk hk1
      · rename_i hobj
        rw [← Option.some.inj h]
        refine unfolds_to.stop _ ?_
        intro n1 obj1 v1 hn ho1 _ _
        cases hn
        rw [hobj] at ho1
        exact Option.noConfusion ho1
    · rename_i hc
      rw [← Option.some.inj h]
      refine unfolds_to.stop _ ?_
      intro n1 obj1 v1 hn _ _ _
      rw [hn] at hc
      exact hc rfl

/-- The normalization loop reaches the end of every finite chain of definitions. -/
theorem coercion_type_normalization_complete (env : List environment_cell) (t r : expr)
    (h : unfolds_to env t r) :
    ∃ fuel, lean_extension.coercion_type_normalization fuel env t = some r := by
  induction h with
  | stop t hstop =>
    refine ⟨1, ?_⟩
    simp only [lean_extension.coercion_type_normalization]
    split
    · rename_i hc
      cases t <;> simp [is_constant] at hc
      rename_i n
      simp only [const_name]
      split
      · rename_i obj hobj
        split
        · rename_i hk
          split
          · rename_i v hv
            exact absurd hv (hstop n obj v rfl hobj hk)
          · rfl
        · rfl
      · rfl
    · rfl
  | step n obj v r hobj hk hv _ ih =>
    obtain ⟨fuel, hf⟩ := ih
    refine ⟨fuel + 1, ?_⟩
    simp only [lean_extension.coercion_type_normalization, is_constant, if_true, const_name, hobj,
      hk, hv]
    exact hf
/-- C34, amended: the quick normalization follows the chain of definitions: it returns `r`
(for some bound on its loop) exactly when `r` is reached from `t` by replacing, again and
again, a constant that names a definition by the value of the definition, whatever the
value is, until the term is not such a constant. Hence a non-constant term and a constant
that is not a definition are returned unchanged, a constant that names a definition is
normalized as the value of the definition, and a constant defined as a non-constant term
is replaced by that term. -/
theorem coercion_type_normalization_spec (env : List environment_cell) (t r : expr) :
    ((∃ fuel, lean_extension.coercion_type_normalization fuel env t = some r) ↔
      unfolds_to env t r) ∧
    (is_constant t = false →
      ∀ fuel, lean_extension.coercion_type_normalization (fuel + 1) env t = some t) ∧
    (∀ n, t = expr.Constant n →
      (∀ obj, find_object env n = some obj → obj.kind ≠ object_kind.Definition) →
      ∀ fuel, lean_extension.coercion_type_normalization (fuel + 1) env t = some t) ∧
    (∀ n obj v, t = expr.Constant n → find_object env n = some obj →
      obj.kind = object_kind.Definition → obj.get_value = some v →
      (∀ fuel, lean_extension.coercion_type_normalization (fuel + 1) env t =
        lean_extension.coercion_type_normalization fuel env v) ∧
      (is_constant v = false →
        ∀ fuel, lean_extension.coercion_type_normalization (fuel + 2) env t = some v)) := by
  refine ⟨⟨?_, coercion_type_normalization_complete env t r⟩, ?_, ?_, ?_⟩
  · rintro ⟨fuel, h⟩
    exact coercion_type_normalization_sound env fuel t r h
  · intro hc fuel
    simp [lean_extension.coercion_type_normalization, hc]
  · intro n ht hobj fuel
    subst ht
    simp only [lean_extension.coercion_type_normalization, is_constant, if_true, const_name]
    cases ho : find_object env n with
    | none => rfl
    | some obj => simp [hobj obj ho]
  · intro n obj v ht hobj hk hv
    subst ht
    have h1 : ∀ fuel, lean_extension.coercion_type_normalization (fuel + 1) env (expr.Constant n) =
        lean_extension.coercion_type_normalization fuel env v := by
      intro fuel
      simp only [lean_extension.coercion_type_normalization, is_constant, if_true, const_name,
        hobj, hk, hv]
    refine ⟨h1, ?_⟩
    intro hc fuel
    rw [h1]
    simp [lean_extension.coercion_type_normalization, hc]

/-- Witness for C34: `B` is defined as `A` and `A` as `N → N`; the normalization of `B` is
`N → N`. -/
theorem coercion_type_normalization_spec_witness :
    lean_extension.coercion_type_normalization 3 env_with_arrow_definition (Const "B") =
      some (expr.Pi (Const "N") (Const "N")) ∧
    unfolds_to env_with_arrow_definition (Const "B") (expr.Pi (Const "N") (Const "N")) :=
  ⟨by decide,
   (coercion_type_normalization_spec env_with_arrow_definition (Const "B")
      (expr.Pi (Const "N") (Const "N"))).1.mp ⟨3, by decide⟩⟩

/-- The conjunction of two calls keeps the assignments when both calls do. -/
theorem and_then_grows (r : match_result) (k : subst → match_result) (s : subst)
    (hr : ∀ b s1, r = match_result.done b s1 → subst_extends s s1)
    (hk : ∀ s1 b s2, k s1 = match_result.done b s2 → subst_extends s1 s2)
    (b : Bool) (s2 : subst) (h : hop_match_fn.and_then r k = match_result.done b s2) :
    subst_extends s s2 := by
  unfold hop_match_fn.and_then at h
  split at h
  · rename_i s1
    exact subst_extends_trans _ _ _ (hr true s1 rfl) (hk s1 b s2 h)
  · exact hr b s2 h

/-- The application loop keeps the assignments when the recursive calls do. -/
theorem app_loop_grows (m : subst → expr → expr → match_result) (p t : expr)
    (hm : ∀ s p1 t1 b s1, m s p1 t1 = match_result.done b s1 → subst_extends s s1) :
    ∀ (i1 i2 : Nat) (s : subst) (b : Bool) (s2 : subst),
      hop_match_fn.app_loop m p t i1 i2 s = match_result.done b s2 → subst_extends s s2 := by
  intro i1
  induction i1 with
  | zero =>
    intro i2 s b s2 h
    simp only [hop_match_fn.app_loop, match_result.done.injEq] at h
    rw [← h.2]
    exact subst_extends_refl s
  | succ j ih =>
    intro i2 s b s2 h
    cases i2 with
    | zero =>
      simp only [hop_match_fn.app_loop, match_result.done.injEq] at h
      rw [← h.2]
      exact subst_extends_refl s
    | succ l =>
      rw [hop_match_fn.app_loop] at h
      refine and_then_grows _ (fun s0 => hop_match_fn.app_loop m p t j l s0) s ?_
        (fun s1 b1 s3 hk => ih l s1 b1 s3 hk) b s2 h
      intro b1 s1 hr
      split at hr
      · exact hm _ _ _ _ _ hr
      · split at hr
        · exact hm _ _ _ _ _ hr
        · exact hm _ _ _ _ _ hr

/-- The part of `match` from the test `p == t` on keeps the assignments when the recursive
calls do. -/
theorem match_structural_grows (m : subst → expr → expr → context → Nat → match_result)
    (hm : ∀ s p t ctx cs b s1, m s p t ctx cs = match_result.done b s1 → subst_extends s s1)
    (s : subst) (p t : expr) (ctx : context) (cs : Nat) (b : Bool) (s2 : subst)
    (h : hop_match_fn.match_structural m s p t ctx cs = match_result.done b s2) :
    subst_extends s s2 := by
  unfold hop_match_fn.match_structural at h
  split at h
  · simp only [match_result.done.injEq] at h
    rw [← h.2]
    exact subst_extends_refl s
  · split at h
    · exact and_then_grows _ _ s (fun b1 s1 hr => hm _ _ _ _ _ _ _ hr)
        (fun s1 b1 s3 hk => hm _ _ _ _ _ _ _ hk) b s2 h
    · split at h
      · simp only [match_result.done.injEq] at h
        rw [← h.2]
        exact subst_extends_refl s
      · split at h
        · exact app_loop_grows _ _ _ (fun s0 p1 t1 b1 s1 hr => hm _ _ _ _ _ _ _ hr) _ _ s b s2 h
        · exact and_then_grows _ _ s (fun b1 s1 hr => hm _ _ _ _ _ _ _ hr)
            (fun s1 b1 s3 hk => hm _ _ _ _ _ _ _ hk) b s2 h
        · exact and_then_grows _ _ s (fun b1 s1 hr => hm _ _ _ _ _ _ _ hr)
            (fun s1 b1 s3 hk => hm _ _ _ _ _ _ _ hk) b s2 h
        · simp only [match_result.done.injEq] at h
          rw [← h.2]
          exact subst_extends_refl s

/-- Whatever `match` answers, the buffer it leaves keeps the length and the assignments of
the buffer it started from. -/
theorem match_grows : ∀ (fuel : Nat) (s : subst) (p t : expr) (ctx : context) (cs : Nat)
    (b : Bool) (s2 : subst),
    hop_match_fn.match_ fuel s p t ctx cs = match_result.done b s2 → subst_extends s s2 := by
  intro fuel
  induction fuel with
  | zero => intro s p t ctx cs b s2 h; simp [hop_match_fn.match_] at h
  | succ n ih =>
    intro s p t ctx cs b s2 h
    rw [hop_match_fn.match_] at h
    split at h
    · rename_i hfv
      obtain ⟨i, rfl, _⟩ := is_free_var_inv p cs hfv
      split at h
      · simp at h
      · exact ih _ _ _ _ _ _ _ h
      · rename_i hun
        split at h
        · simp only [match_result.done.injEq] at h
          rw [← h.2]
          exact subst_extends_refl s
        · simp only [match_result.done.injEq] at h
          rw [← h.2]
          exact (assign_spec s i cs t hun).1
    · split at h
      · rename_i hcond
        simp only [Bool.and_eq_true] at hcond
        obtain ⟨i, hi, _⟩ := is_free_var_inv _ cs hcond.2
        split at h
        · simp at h
        · exact ih _ _ _ _ _ _ _ h
        · rename_i hun
          split at h
          · split at h
            · rename_i new_t _
              simp only [match_result.done.injEq] at h
              rw [← h.2, hi]
              rw [hi] at hun
              exact (assign_spec s i cs new_t hun).1
            · simp only [match_result.done.injEq] at h
              rw [← h.2]
              exact subst_extends_refl s
          · exact match_structural_grows _ ih s p t ctx cs b s2 h
      · exact match_structural_grows _ ih s p t ctx cs b s2 h
/-- C35: whatever `hop_match` answers, true or false, the substitution array it leaves has
the length of the array it was given and every slot that was assigned holds the same value;
and nothing is rolled back on failure: matching `g b ?x` against `g c a` from
`[unassigned, c]` first assigns `?x := a`, then fails on `b` against `c`, and returns false
with the array `[a, c]`. -/
theorem hop_match_subst_grows (fuel : Nat) (p t : expr) (s : subst) (b : Bool) (s1 : subst)
    (h : hop_match fuel p t s = match_result.done b s1) :
    s1.length = s.length ∧
    (∀ (i : Nat) (v : expr), s[i]? = some (some v) → s1[i]? = some (some v)) ∧
    hop_match 2 (mk_app [Const "g", Const "b", expr.Var 1])
        (mk_app [Const "g", Const "c", Const "a"]) [none, some (Const "c")] =
      match_result.done false [some (Const "a"), some (Const "c")] := by
  obtain ⟨h1, h2⟩ := match_grows fuel s p t [] 0 b s1 h
  exact ⟨h1.symm, h2, by decide⟩

/-- Witness for C35: the failing match of `g b ?x` against `g c a` keeps the slot that was
assigned before the call. -/
theorem hop_match_subst_grows_witness :
    hop_match 2 (mk_app [Const "g", Const "b", expr.Var 1])
        (mk_app [Const "g", Const "c", Const "a"]) [none, some (Const "c")] =
      match_result.done false [some (Const "a"), some (Const "c")] ∧
    ∀ (i : Nat) (v : expr), [none, some (Const "c")][i]? = some (some v) →
      [some (Const "a"), some (Const "c")][i]? = some (some v) :=
  ⟨by decide,
   (hop_match_subst_grows 2 (mk_app [Const "g", Const "b", expr.Var 1])
      (mk_app [Const "g", Const "c", Const "a"]) [none, some (Const "c")] false
      [some (Const "a"), some (Const "c")] (by decide)).2.1⟩

/-- The command `mark_implicit_arguments_m` ends as the function `mark_implicit_arguments`
says, and when it throws the state is the one it started from. -/
theorem mark_implicit_arguments_m_exit (s : frontend) (n : name) (implicit : List Bool) :
    (mark_implicit_arguments_m n implicit).exit s =
      match mark_implicit_arguments s n implicit with
      | Except.ok s1 => (Except.ok (), s1)
      | Except.error e => (Except.error e, s) := by
  unfold mark_implicit_arguments_m mark_implicit_arguments frontend_m.exit
  by_cases h1 : s.here.has_children = true
  · simp only [bind, ExceptT.bind, ExceptT.mk, ExceptT.bindCont, StateT.bind, ExceptT.run, StateT.run,
      get, getThe, MonadStateOf.get, liftM, monadLift, MonadLift.monadLift, ExceptT.lift, StateT.get,
      pure, StateT.pure, ExceptT.pure, Functor.map, StateT.map, throw, throwThe,
      MonadExceptOf.throw, modify, modifyGet, MonadStateOf.modifyGet, MonadState.modifyGet,
      StateT.modifyGet,
      h1, if_true]
  · cases ho : find_object s.cells n with
    | none =>
      simp only [bind, ExceptT.bind, ExceptT.mk, ExceptT.bindCont, StateT.bind, ExceptT.run, StateT.run,
        get, getThe, MonadStateOf.get, liftM, monadLift, MonadLift.monadLift, ExceptT.lift, StateT.get,
        pure, StateT.pure, ExceptT.pure, Functor.map, StateT.map, throw, throwThe,
        MonadExceptOf.throw, modify, modifyGet, MonadStateOf.modifyGet, MonadState.modifyGet,
        StateT.modifyGet,
        h1, ho, Bool.false_eq_true, if_false]
    | some obj =>
      by_cases h2 : obj.kind ≠ object_kind.Definition ∧ obj.kind ≠ object_kind.Postulate ∧
          obj.kind ≠ object_kind.Builtin
      · simp only [bind, ExceptT.bind, ExceptT.mk, ExceptT.bindCont, StateT.bind, ExceptT.run, StateT.run,
          get, getThe, MonadStateOf.get, liftM, monadLift, MonadLift.monadLift, ExceptT.lift, StateT.get,
          pure, StateT.pure, ExceptT.pure, Functor.map, StateT.map, throw, throwThe,
          MonadExceptOf.throw, modify, modifyGet, MonadStateOf.modifyGet, MonadState.modifyGet,
          StateT.modifyGet,
          h1, ho, Bool.false_eq_true, if_false]
        rw [if_pos h2, if_pos h2]
        rfl
      · by_cases h3 : lean_extension.has_implicit_arguments s.chain n = true
        · simp only [bind, ExceptT.bind, ExceptT.mk, ExceptT.bindCont, StateT.bind, ExceptT.run, StateT.run,
            get, getThe, MonadStateOf.get, liftM, monadLift, MonadLift.monadLift, ExceptT.lift, StateT.get,
            pure, StateT.pure, ExceptT.pure, Functor.map, StateT.map, throw, throwThe,
            MonadExceptOf.throw, modify, modifyGet, MonadStateOf.modifyGet, MonadState.modifyGet,
            StateT.modifyGet,
            h1, ho, h2, h3, Bool.false_eq_true, if_false, if_true]
        · cases hm : lean_extension.mk_explicit_name n with
          | none =>
            simp only [bind, ExceptT.bind, ExceptT.mk, ExceptT.bindCont, StateT.bind, ExceptT.run, StateT.run,
              get, getThe, MonadStateOf.get, liftM, monadLift, MonadLift.monadLift, ExceptT.lift, StateT.get,
              pure, StateT.pure, ExceptT.pure, Functor.map, StateT.map, throw, throwThe,
              MonadExceptOf.throw, modify, modifyGet, MonadStateOf.modifyGet, MonadState.modifyGet,
              StateT.modifyGet,
              h1, ho, h2, h3, Bool.false_eq_true, if_false]
          | some ev =>
            by_cases h4 : (find_object s.cells ev).isSome = true
            · simp only [bind, ExceptT.bind, ExceptT.mk, ExceptT.bindCont, StateT.bind, ExceptT.run, StateT.run,
                get, getThe, MonadStateOf.get, liftM, monadLift, MonadLift.monadLift, ExceptT.lift, StateT.get,
                pure, StateT.pure, ExceptT.pure, Functor.map, StateT.map, throw, throwThe,
                MonadExceptOf.throw, modify, modifyGet, MonadStateOf.modifyGet, MonadState.modifyGet,
                StateT.modifyGet,
                h1, ho, h2, h3, h4, Bool.false_eq_true, if_false, if_true]
            · by_cases h5 : lean_extension.count_pi obj.get_type < implicit.length
              · simp only [bind, ExceptT.bind, ExceptT.mk, ExceptT.bindCont, StateT.bind, ExceptT.run, StateT.run,
                  get, getThe, MonadStateOf.get, liftM, monadLift, MonadLift.monadLift, ExceptT.lift, StateT.get,
                  pure, StateT.pure, ExceptT.pure, Functor.map, StateT.map, throw, throwThe,
                  MonadExceptOf.throw, modify, modifyGet, MonadStateOf.modifyGet, MonadState.modifyGet,
                  StateT.modifyGet,
                  h1, ho, h2, h3, h4, h5, Bool.false_eq_true, if_false, if_true]
              · by_cases h6 : lean_extension.trim_explicit_suffix implicit implicit.length = 0
                · simp only [bind, ExceptT.bind, ExceptT.mk, ExceptT.bindCont, StateT.bind, ExceptT.run, StateT.run,
                    get, getThe, MonadStateOf.get, liftM, monadLift, MonadLift.monadLift, ExceptT.lift, StateT.get,
                    pure, StateT.pure, ExceptT.pure, Functor.map, StateT.map, throw, throwThe,
                    MonadExceptOf.throw, modify, modifyGet, MonadStateOf.modifyGet, MonadState.modifyGet,
                    StateT.modifyGet,
                    h1, ho, h2, h3, h4, h5, h6, Bool.false_eq_true, if_false, if_true]
                · simp only [bind, ExceptT.bind, ExceptT.mk, ExceptT.bindCont, StateT.bind, ExceptT.run, StateT.run,
                    get, getThe, MonadStateOf.get, liftM, monadLift, MonadLift.monadLift, ExceptT.lift, StateT.get,
                    pure, StateT.pure, ExceptT.pure, Functor.map, StateT.map, throw, throwThe,
                    MonadExceptOf.throw, modify, modifyGet, MonadStateOf.modifyGet, MonadState.modifyGet,
                    StateT.modifyGet,
                    h1, ho, h2, h3, h4, h5, h6, Bool.false_eq_true, if_false]
                  rfl
/-- C36: whenever `mark_implicit_arguments` throws, whichever check failed (the frontend has
children, the object is unknown or of the wrong kind, the name already has implicit
information, the name is anonymous or its explicit version already exists, there are more
flags than arguments, or all flags are explicit), the state in which it throws is the state
it was called in: the table of implicit arguments and the set of explicit names are as
before the call and neither a declaration record nor an object has been added. -/
theorem mark_implicit_atomic (s : frontend) (n : name) (implicit : List Bool)
    (e : frontend_error)
    (h : ((mark_implicit_arguments_m n implicit).exit s).1 = Except.error e) :
    ((mark_implicit_arguments_m n implicit).exit s).2 = s ∧
    ((mark_implicit_arguments_m n implicit).exit s).2.here.ext.m_implicit_table =
      s.here.ext.m_implicit_table ∧
    ((mark_implicit_arguments_m n implicit).exit s).2.here.ext.m_explicit_names =
      s.here.ext.m_explicit_names ∧
    ((mark_implicit_arguments_m n implicit).exit s).2.here.neutral = s.here.neutral ∧
    ((mark_implicit_arguments_m n implicit).exit s).2.here.objects = s.here.objects ∧
    mark_implicit_arguments s n implicit = Except.error e := by
  rw [mark_implicit_arguments_m_exit] at h ⊢
  cases hr : mark_implicit_arguments s n implicit with
  | ok s1 => rw [hr] at h; simp at h
  | error e1 =>
    rw [hr] at h
    simp only [Except.error.injEq] at h
    subst h
    exact ⟨rfl, rfl, rfl, rfl, rfl, rfl⟩

/-- Witness for C36: marking the arguments of `f` a second time throws and leaves the state
as it was. -/
theorem mark_implicit_atomic_witness :
    ((mark_implicit_arguments_m (mk_name "f") [true]).exit marked_f).1 =
      Except.error frontend_error.already_has_implicit ∧
    ((mark_implicit_arguments_m (mk_name "f") [true]).exit marked_f).2 = marked_f :=
  ⟨rfl, (mark_implicit_atomic marked_f (mk_name "f") [true]
    frontend_error.already_has_implicit rfl).1⟩

/-- The loop over the non-leading parts adds no declaration. -/
theorem register_parts_neutral (prec : Nat) (parts : List name) : ∀ s : frontend,
    (register_parts prec parts s).here.neutral = s.here.neutral := by
  induction parts with
  | nil => intro s; rfl
  | cons part rest ih =>
    intro s
    simp only [register_parts]
    rw [ih]
    rfl

/-- Registering a descriptor adds no declaration. -/
theorem register_new_op_neutral (s : frontend) (op : op_ref) (d : expr) (led : Bool) :
    (register_new_op s op d led).here.neutral = s.here.neutral := by
  unfold register_new_op
  rw [register_parts_neutral]
  unfold register_new_op_head
  cases led <;> rfl

/-- The declarations after a notation is registered: one notation declaration more. -/
theorem add_new_op_neutral (s : frontend) (i : operator_info.imp) (d : expr) (led : Bool) :
    ∃ op, (add_new_op s i d led).here.neutral =
      s.here.neutral ++ [neutral_object.notation_declaration op d] := by
  let s1 : frontend := { s with heap := s.heap ++ [i] }
  have hn : s1.heap.deref (some s.heap.length) = some i := deref_alloc_new _ _
  have hunf : add_new_op s i d led =
      add_neutral_object (add_op_core s1 (some s.heap.length) d led).1
        (neutral_object.notation_declaration (add_op_core s1 (some s.heap.length) d led).2 d) := rfl
  rw [hunf]
  simp only [add_neutral_object]
  refine ⟨(add_op_core s1 (some s.heap.length) d led).2, ?_⟩
  congr 1
  rcases add_op_core_cases s1 s.heap.length i d led hn with
    ⟨_, hcore⟩ | ⟨a, c, _, _, _, _, _, hcore⟩ | ⟨a, c, _, _, _, _, _, hcore⟩ | ⟨dg, a, _, _, _, hcore⟩
  · rw [hcore]
    exact register_new_op_neutral _ _ _ _
  · rw [hcore]
    rfl
  · rw [hcore]
    exact register_new_op_neutral _ _ _ _
  · rw [hcore]
    exact register_new_op_neutral _ _ _ _

/-- The declarations and the ancestors after a successful `add_coercion`. -/
theorem add_coercion_neutral (tc : expr → Option expr) (fuel : Nat) (s s1 : frontend) (f : expr)
    (h : add_coercion tc fuel s f = Except.ok s1) :
    s1.ancestors = s.ancestors ∧
    s1.here.neutral = s.here.neutral ++ [neutral_object.coercion_declaration f] := by
  unfold add_coercion at h
  cases ht : tc f with
  | none => simp [ht] at h
  | some ty =>
    simp only [ht] at h
    split at h
    · simp at h
    · split at h
      · split at h
        · simp at h
        · split at h
          · simp at h
          · simp only [Except.ok.injEq] at h
            subst h
            exact ⟨rfl, rfl⟩
      · simp at h

/-- The declarations and the ancestors after a successful `add_alias`. -/
theorem add_alias_neutral (s s1 : frontend) (n : name) (e : expr)
    (h : add_alias s n e = Except.ok s1) :
    s1.ancestors = s.ancestors ∧
    s1.here.neutral = s.here.neutral ++ [neutral_object.alias_declaration n e] := by
  unfold add_alias at h
  split at h
  · simp at h
  · simp only [Except.ok.injEq] at h
    subst h
    exact ⟨rfl, rfl⟩

/-- Every operation keeps the recorded flag lists trimmed. -/
theorem apply_records_trimmed (s : frontend) (op : frontend_op)
    (h : s.implicit_records_trimmed) : (s.apply op).implicit_records_trimmed := by
  have hframe : ∀ s1 : frontend, s1.ancestors = s.ancestors →
      (∀ n l, neutral_object.mark_implicit_command n l ∈ s1.here.neutral →
        neutral_object.mark_implicit_command n l ∈ s.here.neutral ∨ l.getLast? = some true) →
      s1.implicit_records_trimmed := by
    intro s1 h1 h2 c hc n l hl
    simp only [frontend.cells, List.mem_cons] at hc
    rcases hc with rfl | hc
    · rcases h2 n l hl with h3 | h3
      · exact h s.here (by simp [frontend.cells]) n l h3
      · exact h3
    · rw [h1] at hc
      exact h c (by simp only [frontend.cells, List.mem_cons]; right; exact hc) n l hl
  cases op with
  | register f parts prec d led =>
    obtain ⟨op, hop⟩ := add_new_op_neutral s (mixfix_op f parts prec) d led
    refine hframe _ (add_new_op_other s _ d led).1 ?_
    intro n l hl
    simp only [frontend.apply] at hl
    rw [hop] at hl
    simp only [List.mem_append, List.mem_singleton] at hl
    rcases hl with hl | hl
    · exact Or.inl hl
    · cases hl
  | mark_implicit n implicit =>
    simp only [frontend.apply]
    cases hm : mark_implicit_arguments s n implicit with
    | error e => exact h
    | ok s1 =>
      obtain ⟨_, obj, ev, _, _, _, _, _, hsz, _, h2, _, _, h3, _⟩ :=
        mark_implicit_arguments_ok s s1 n implicit hm
      refine hframe s1 h2 ?_
      intro m l hl
      rw [h3] at hl
      simp only [List.mem_append, List.mem_singleton, neutral_object.mark_implicit_command.injEq] at hl
      rcases hl with hl | ⟨_, hl⟩
      · exact Or.inl hl
      · right
        rw [hl]
        exact take_trim_last implicit hsz
  | mk_coercion tc fuel f =>
    simp only [frontend.apply]
    cases hm : add_coercion tc fuel s f with
    | error e => exact h
    | ok s1 =>
      obtain ⟨h1, h2⟩ := add_coercion_neutral tc fuel s s1 f hm
      refine hframe s1 h1 ?_
      intro m l hl
      rw [h2] at hl
      simp only [List.mem_append, List.mem_singleton] at hl
      rcases hl with hl | hl
      · exact Or.inl hl
      · cases hl
  | mk_alias n e =>
    simp only [frontend.apply]
    cases hm : add_alias s n e with
    | error e => exact h
    | ok s1 =>
      obtain ⟨h1, h2⟩ := add_alias_neutral s s1 n e hm
      refine hframe s1 h1 ?_
      intro m l hl
      rw [h2] at hl
      simp only [List.mem_append, List.mem_singleton] at hl
      rcases hl with hl | hl
      · exact Or.inl hl
      · cases hl
  | declare o =>
    simp only [frontend.apply, add_object]
    split
    · exact h
    · exact hframe _ rfl (fun n l hl => Or.inl hl)
  | child =>
    intro c hc n l hl
    simp only [frontend.apply, frontend.mk_child, frontend.cells, List.mem_cons] at hc
    rcases hc with rfl | rfl | hc
    · simp at hl
    · exact h s.here (by simp [frontend.cells]) n l hl
    · exact h c (by simp only [frontend.cells, List.mem_cons]; right; exact hc) n l hl

/-- In every state reached from the fresh frontend the recorded flag lists are trimmed. -/
theorem run_records_trimmed (ops : List frontend_op) :
    (frontend.init.run ops).implicit_records_trimmed := by
  have hinit : frontend.init.implicit_records_trimmed := by
    intro c hc n l hl
    simp [frontend.cells, frontend.init] at hc
    subst hc
    simp at hl
  have hgen : ∀ (l : List frontend_op) (s : frontend), s.implicit_records_trimmed →
      (s.run l).implicit_records_trimmed := by
    intro l
    induction l with
    | nil => intro s h; exact h
    | cons op rest ih => intro s h; exact ih (s.apply op) (apply_records_trimmed s op h)
  exact hgen ops _ hinit
/-- C37: in every state reached from the fresh frontend by the frontend operations, every
flag vector stored in a table of implicit arguments, and every flag list of a mark-implicit
declaration record, of the environment or of an ancestor, is non-empty and ends with an
implicit flag; and the flags found for a name or a denotation are empty or end with an
implicit flag. -/
theorem implicit_table_invariant (ops : List frontend_op) :
    (∀ e ∈ (frontend.init.run ops).chain, ∀ n info, e.m_implicit_table n = some info →
      info.1 ≠ [] ∧ info.1.getLast? = some true) ∧
    (∀ c ∈ (frontend.init.run ops).cells, ∀ n l,
      neutral_object.mark_implicit_command n l ∈ c.neutral → l ≠ [] ∧ l.getLast? = some true) ∧
    (∀ n : name, lean_extension.get_implicit_arguments_name (frontend.init.run ops).chain n = [] ∨
      (lean_extension.get_implicit_arguments_name (frontend.init.run ops).chain n).getLast? =
        some true) ∧
    (∀ d : expr, lean_extension.get_implicit_arguments (frontend.init.run ops).chain d = [] ∨
      (lean_extension.get_implicit_arguments (frontend.init.run ops).chain d).getLast? =
        some true) := by
  have hne : ∀ l : List Bool, l.getLast? = some true → l ≠ [] := by
    intro l hl h
    rw [h] at hl
    simp at hl
  have ht := run_flags_trimmed ops
  have hr := run_records_trimmed ops
  refine ⟨?_, ?_, ?_, ?_⟩
  · intro e he n info hn
    exact ⟨hne _ (ht e he n info hn), ht e he n info hn⟩
  · intro c hc n l hl
    exact ⟨hne _ (hr c hc n l hl), hr c hc n l hl⟩
  · intro n
    have := get_implicit_arguments_trimmed _ ht (expr.Constant n)
    simpa [lean_extension.get_implicit_arguments, is_constant, const_name] using this
  · intro d
    exact get_implicit_arguments_trimmed _ ht d

/-- The test `is_coercion` on a chain depends on the coercion set of its first level and on
the rest of the chain. -/
theorem is_coercion_cons_congr (e1 e2 : lean_extension) (p : List lean_extension)
    (h : e1.m_coercion_set = e2.m_coercion_set) (f : expr) :
    lean_extension.is_coercion (e1 :: p) f = lean_extension.is_coercion (e2 :: p) f := by
  simp [lean_extension.is_coercion, h]

/-- Consistency only reads the coercion tables. -/
theorem coercions_consistent_congr (e1 e2 : lean_extension) (p : List lean_extension)
    (h1 : e1.m_coercion_map = e2.m_coercion_map) (h2 : e1.m_type_coercions = e2.m_type_coercions)
    (h3 : e1.m_coercion_set = e2.m_coercion_set)
    (h : coercions_consistent (e1 :: p)) : coercions_consistent (e2 :: p) := by
  obtain ⟨c1, c2⟩ := h
  refine ⟨?_, ?_⟩
  · intro a b f hq
    rw [← get_coercion_core_cons_congr e1 e2 p h1] at hq
    rw [← get_coercions_core_cons_congr e1 e2 p h2]
    exact c1 a b f hq
  · intro f
    rw [← is_coercion_cons_congr e1 e2 p h3, c2 f]
    constructor
    · rintro ⟨a, b, hq⟩
      exact ⟨a, b, by rw [← get_coercion_core_cons_congr e1 e2 p h1]; exact hq⟩
    · rintro ⟨a, b, hq⟩
      exact ⟨a, b, by rw [get_coercion_core_cons_congr e1 e2 p h1]; exact hq⟩

/-- Registering a coercion for a pair that has none on the chain keeps the tables
consistent. -/
theorem coercions_consistent_insert (e : lean_extension) (p : List lean_extension)
    (from_type to_type f : expr)
    (hnone : lean_extension.get_coercion_core (e :: p) from_type to_type = none)
    (hc : coercions_consistent (e :: p)) :
    coercions_consistent ({ e with
        m_coercion_map := e.m_coercion_map.insert (from_type, to_type) f,
        m_coercion_set := fun x => if x = f then true else e.m_coercion_set x,
        m_type_coercions := e.m_type_coercions.insert from_type
          ((to_type, f) :: lean_extension.get_coercions_core (e :: p) from_type) } :: p) := by
  obtain ⟨c1, c2⟩ := hc
  have hnew : ∀ a b, lean_extension.get_coercion_core ({ e with
        m_coercion_map := e.m_coercion_map.insert (from_type, to_type) f,
        m_coercion_set := fun x => if x = f then true else e.m_coercion_set x,
        m_type_coercions := e.m_type_coercions.insert from_type
          ((to_type, f) :: lean_extension.get_coercions_core (e :: p) from_type) } :: p) a b =
      if (a, b) = (from_type, to_type) then some f
      else lean_extension.get_coercion_core (e :: p) a b := by
    intro a b
    simp only [lean_extension.get_coercion_core, table.insert]
    split_ifs <;> rfl
  have hlist : ∀ a, lean_extension.get_coercions_core ({ e with
        m_coercion_map := e.m_coercion_map.insert (from_type, to_type) f,
        m_coercion_set := fun x => if x = f then true else e.m_coercion_set x,
        m_type_coercions := e.m_type_coercions.insert from_type
          ((to_type, f) :: lean_extension.get_coercions_core (e :: p) from_type) } :: p) a =
      if a = from_type then (to_type, f) :: lean_extension.get_coercions_core (e :: p) from_type
      else lean_extension.get_coercions_core (e :: p) a := by
    intro a
    simp only [lean_extension.get_coercions_core, table.insert]
    split_ifs <;> rfl
  have hset : ∀ g, lean_extension.is_coercion ({ e with
        m_coercion_map := e.m_coercion_map.insert (from_type, to_type) f,
        m_coercion_set := fun x => if x = f then true else e.m_coercion_set x,
        m_type_coercions := e.m_type_coercions.insert from_type
          ((to_type, f) :: lean_extension.get_coercions_core (e :: p) from_type) } :: p) g =
      if g = f then true else lean_extension.is_coercion (e :: p) g := by
    intro g
    simp only [lean_extension.is_coercion]
    by_cases hg : g = f
    · simp [hg]
    · simp [hg]
  refine ⟨?_, ?_⟩
  · intro a b g hq
    rw [hnew] at hq
    rw [hlist]
    by_cases hab : (a, b) = (from_type, to_type)
    · rw [if_pos hab] at hq
      simp only [Prod.mk.injEq] at hab
      rw [if_pos hab.1, hab.2, ← Option.some.inj hq]
      exact List.mem_cons_self _ _
    · rw [if_neg hab] at hq
      by_cases ha : a = from_type
      · rw [if_pos ha]
        subst ha
        exact List.mem_cons_of_mem _ (c1 a b g hq)
      · rw [if_neg ha]
        exact c1 a b g hq
  · intro g
    rw [hset]
    constructor
    · intro hg
      by_cases hgf : g = f
      · exact ⟨from_type, to_type, by rw [hnew, if_pos rfl, hgf]⟩
      · rw [if_neg hgf] at hg
        obtain ⟨a, b, hq⟩ := (c2 g).1 hg
        refine ⟨a, b, ?_⟩
        rw [hnew]
        by_cases hab : (a, b) = (from_type, to_type)
        · simp only [Prod.mk.injEq] at hab
          rw [hab.1, hab.2, hnone] at hq
          exact absurd hq (by simp)
        · rw [if_neg hab]
          exact hq
    · rintro ⟨a, b, hq⟩
      rw [hnew] at hq
      by_cases hab : (a, b) = (from_type, to_type)
      · rw [if_pos hab] at hq
        rw [if_pos (Option.some.inj hq).symm]
      · rw [if_neg hab] at hq
        by_cases hgf : g = f
        · rw [if_pos hgf]
        · rw [if_neg hgf]
          exact (c2 g).2 ⟨a, b, hq⟩

/-- A fresh child level keeps the tables consistent. -/
theorem coercions_consistent_child (c : List lean_extension) (hc : coercions_consistent c) :
    coercions_consistent (lean_extension.init :: c) := by
  obtain ⟨c1, c2⟩ := hc
  have hq : ∀ a b, lean_extension.get_coercion_core (lean_extension.init :: c) a b =
      lean_extension.get_coercion_core c a b := by
    intro a b
    simp [lean_extension.get_coercion_core, lean_extension.init, table.empty]
  have hl : ∀ a, lean_extension.get_coercions_core (lean_extension.init :: c) a =
      lean_extension.get_coercions_core c a := by
    intro a
    simp [lean_extension.get_coercions_core, lean_extension.init, table.empty]
  have hs : ∀ f, lean_extension.is_coercion (lean_extension.init :: c) f =
      lean_extension.is_coercion c f := by
    intro f
    simp [lean_extension.is_coercion, lean_extension.init]
  refine ⟨?_, ?_⟩
  · intro a b f h
    rw [hq] at h
    rw [hl]
    exact c1 a b f h
  · intro f
    rw [hs, c2 f]
    constructor
    · rintro ⟨a, b, h⟩
      exact ⟨a, b, by rw [hq]; exact h⟩
    · rintro ⟨a, b, h⟩
      exact ⟨a, b, by rw [← hq]; exact h⟩
/-- Every operation keeps the coercion tables consistent. -/
theorem apply_coercions_consistent (s : frontend) (op : frontend_op)
    (h : coercions_consistent s.chain) : coercions_consistent (s.apply op).chain := by
  have hkeep : ∀ s1 : frontend, s1.ancestors = s.ancestors →
      s.here.ext.m_coercion_map = s1.here.ext.m_coercion_map →
      s.here.ext.m_type_coercions = s1.here.ext.m_type_coercions →
      s.here.ext.m_coercion_set = s1.here.ext.m_coercion_set →
      coercions_consistent s1.chain := by
    intro s1 h1 h2 h3 h4
    have : s1.chain = s1.here.ext :: s.ancestors.map (fun c => c.ext) := by
      simp [frontend.chain, h1]
    rw [this]
    exact coercions_consistent_congr _ _ _ h2 h3 h4 h
  cases op with
  | register f parts prec d led =>
    obtain ⟨h1, h2, _, _⟩ := add_new_op_other s (mixfix_op f parts prec) d led
    simp only [lean_extension.other_tables, Prod.mk.injEq] at h2
    exact hkeep _ h1 h2.2.1.symm h2.2.2.2.1.symm h2.2.2.1.symm
  | child =>
    exact coercions_consistent_child _ h
  | mark_implicit m implicit =>
    simp only [frontend.apply]
    cases hres : mark_implicit_arguments s m implicit with
    | error e => exact h
    | ok s1 =>
      obtain ⟨_, obj, ev, _, _, _, _, _, _, _, hanc, _, _, _, hext⟩ :=
        mark_implicit_arguments_ok s s1 m implicit hres
      exact hkeep _ hanc (by rw [hext]) (by rw [hext]) (by rw [hext])
  | mk_coercion tc fuel f =>
    simp only [frontend.apply]
    cases hres : add_coercion tc fuel s f with
    | error e => exact h
    | ok s1 =>
      obtain ⟨ty, a, b, _, _, _, _, _, hnone, hanc, _, _, hext⟩ := add_coercion_ok tc fuel s s1 f hres
      have : s1.chain = s1.here.ext :: s.ancestors.map (fun c => c.ext) := by
        simp [frontend.chain, hanc]
      rw [this, hext]
      exact coercions_consistent_insert s.here.ext _ a b f hnone h
  | mk_alias m e =>
    simp only [frontend.apply]
    cases hres : add_alias s m e with
    | error e => exact h
    | ok s1 =>
      unfold add_alias at hres
      split at hres
      · simp at hres
      · simp only [Except.ok.injEq] at hres
        subst hres
        exact hkeep _ rfl rfl rfl rfl
  | declare o =>
    simp only [frontend.apply, add_object]
    split
    · exact h
    · exact hkeep _ rfl rfl rfl rfl

/-- In every reachable state the coercion tables are consistent. -/
theorem run_coercions_consistent (ops : List frontend_op) :
    coercions_consistent (frontend.init.run ops).chain := by
  have hgen : ∀ (l : List frontend_op) (s : frontend), coercions_consistent s.chain →
      coercions_consistent (s.run l).chain := by
    intro l
    induction l with
    | nil => intro s hs; exact hs
    | cons op rest ih =>
      intro s hs
      exact ih (s.apply op) (apply_coercions_consistent s op hs)
  apply hgen
  refine ⟨?_, ?_⟩
  · intro a b g hq
    simp [frontend.chain, frontend.init, lean_extension.init, table.empty,
      lean_extension.get_coercion_core] at hq
  · intro g
    simp [frontend.chain, frontend.init, lean_extension.init, table.empty,
      lean_extension.get_coercion_core, lean_extension.is_coercion]

/-- C38: in every state reached from the fresh frontend by the frontend operations (which act
on the environment operated on, never on an ancestor), the three coercion tables agree: the
pair `(B, f)` is listed by `get_coercions_core(A)` iff `get_coercion_core(A, B)` is `f`,
and `is_coercion(f)` holds iff `f` is the coercion registered for some pair; in the child
with the coercions `nat_to_int` (inherited) and `int_to_real`, both are coercions and each
is listed for its source type. -/
theorem coercion_tables_consistent (ops : List frontend_op) (a b f : expr) :
    ((b, f) ∈ lean_extension.get_coercions_core (frontend.init.run ops).chain a ↔
      lean_extension.get_coercion_core (frontend.init.run ops).chain a b = some f) ∧
    (lean_extension.is_coercion (frontend.init.run ops).chain f = true ↔
      ∃ x y, lean_extension.get_coercion_core (frontend.init.run ops).chain x y = some f) ∧
    lean_extension.get_coercions_core child_with_second_coercion.chain (Const "Nat") =
      [(Const "Int", Const "nat_to_int")] ∧
    lean_extension.get_coercions_core child_with_second_coercion.chain (Const "Int") =
      [(Const "Real", Const "int_to_real")] ∧
    lean_extension.is_coercion child_with_second_coercion.chain (Const "nat_to_int") = true ∧
    lean_extension.is_coercion child_with_second_coercion.chain (Const "int_to_real") = true := by
  obtain ⟨c1, c2⟩ := run_coercions_consistent ops
  obtain ⟨_, u2, _⟩ := run_coercions_unique ops
  exact ⟨⟨u2 a b f, c1 a b f⟩, c2 f, by decide, by decide, by decide, by decide⟩

/-- Writing the table of aliases does not change what `get_aliased` answers. -/
theorem get_aliased_set_aliases (s : frontend) (m : table name expr) (e : expr) :
    lean_extension.get_aliased (s.set_ext { s.here.ext with m_aliases := m }).chain e =
      lean_extension.get_aliased s.chain e := by
  simp [frontend.chain, frontend.set_ext, lean_extension.get_aliased]

/-- The command `add_alias_m` ends as the function `add_alias` says, and when it throws the
state is the one it started from. -/
theorem add_alias_m_exit (s : frontend) (n : name) (e : expr) :
    (add_alias_m n e).exit s =
      match add_alias s n e with
      | Except.ok s1 => (Except.ok (), s1)
      | Except.error err => (Except.error err, s) := by
  have hal := get_aliased_set_aliases s (s.here.ext.m_aliases.insert n e) e
  unfold add_alias_m add_alias frontend_m.exit
  by_cases h1 : (lean_extension.get_alias s.chain n).isSome = true
  · simp only [bind, ExceptT.bind, ExceptT.mk, ExceptT.bindCont, StateT.bind, ExceptT.run, StateT.run,
      get, getThe, MonadStateOf.get, liftM, monadLift, MonadLift.monadLift, ExceptT.lift, StateT.get,
      pure, StateT.pure, ExceptT.pure, Functor.map, StateT.map, throw, throwThe,
      MonadExceptOf.throw, modify, modifyGet, MonadStateOf.modifyGet, MonadState.modifyGet,
      StateT.modifyGet,
      h1, if_true]
  · cases hl : lean_extension.get_aliased s.chain e with
    | none =>
      rw [hl] at hal
      simp only [bind, ExceptT.bind, ExceptT.mk, ExceptT.bindCont, StateT.bind, ExceptT.run, StateT.run,
        get, getThe, MonadStateOf.get, liftM, monadLift, MonadLift.monadLift, ExceptT.lift, StateT.get,
        pure, StateT.pure, ExceptT.pure, Functor.map, StateT.map, throw, throwThe,
        MonadExceptOf.throw, modify, modifyGet, MonadStateOf.modifyGet, MonadState.modifyGet,
        StateT.modifyGet,
        h1, hl, hal, Bool.false_eq_true, if_false]
      rfl
    | some l =>
      rw [hl] at hal
      simp only [bind, ExceptT.bind, ExceptT.mk, ExceptT.bindCont, StateT.bind, ExceptT.run, StateT.run,
        get, getThe, MonadStateOf.get, liftM, monadLift, MonadLift.monadLift, ExceptT.lift, StateT.get,
        pure, StateT.pure, ExceptT.pure, Functor.map, StateT.map, throw, throwThe,
        MonadExceptOf.throw, modify, modifyGet, MonadStateOf.modifyGet, MonadState.modifyGet,
        StateT.modifyGet,
        h1, hl, hal, Bool.false_eq_true, if_false]
      rfl
/-- What a successful `add_alias` has checked and done. -/
theorem add_alias_ok (s s1 : frontend) (n : name) (e : expr)
    (h : add_alias s n e = Except.ok s1) :
    lean_extension.get_alias s.chain n = none ∧ s1.ancestors = s.ancestors ∧
    s1.here.ext = { s.here.ext with
      m_aliases := s.here.ext.m_aliases.insert n e,
      m_inv_aliases := s.here.ext.m_inv_aliases.insert e
        (n :: (lean_extension.get_aliased s.chain e).getD []) } := by
  unfold add_alias at h
  split at h
  · simp at h
  · rename_i hno
    simp only [Except.ok.injEq] at h
    subst h
    refine ⟨?_, rfl, ?_⟩
    · cases hq : lean_extension.get_alias s.chain n with
      | none => rfl
      | some v => rw [hq] at hno; simp at hno
    · cases hl : lean_extension.get_aliased s.chain e <;>
        simp [add_neutral_object, frontend.set_ext]

/-- The alias queries on a chain depend on the alias tables of its first level and on the
rest of the chain. -/
theorem aliases_inverse_congr (e1 e2 : lean_extension) (p : List lean_extension)
    (h1 : e1.m_aliases = e2.m_aliases) (h2 : e1.m_inv_aliases = e2.m_inv_aliases)
    (h : aliases_inverse (e1 :: p)) : aliases_inverse (e2 :: p) := by
  intro n e
  have := h n e
  simpa [lean_extension.get_alias, lean_extension.get_aliased, h1, h2] using this

/-- Adding an alias for a name that has none on the chain keeps the two tables inverse. -/
theorem aliases_inverse_insert (x : lean_extension) (p : List lean_extension) (n : name)
    (e : expr) (hnone : lean_extension.get_alias (x :: p) n = none)
    (hi : aliases_inverse (x :: p)) :
    aliases_inverse ({ x with
      m_aliases := x.m_aliases.insert n e,
      m_inv_aliases := x.m_inv_aliases.insert e
        (n :: (lean_extension.get_aliased (x :: p) e).getD []) } :: p) := by
  have hnew : ∀ m, lean_extension.get_alias ({ x with
      m_aliases := x.m_aliases.insert n e,
      m_inv_aliases := x.m_inv_aliases.insert e
        (n :: (lean_extension.get_aliased (x :: p) e).getD []) } :: p) m =
      if m = n then some e else lean_extension.get_alias (x :: p) m := by
    intro m
    simp only [lean_extension.get_alias, table.insert]
    split_ifs <;> rfl
  have hinv : ∀ v, lean_extension.get_aliased ({ x with
      m_aliases := x.m_aliases.insert n e,
      m_inv_aliases := x.m_inv_aliases.insert e
        (n :: (lean_extension.get_aliased (x :: p) e).getD []) } :: p) v =
      if v = e then some (n :: (lean_extension.get_aliased (x :: p) e).getD [])
      else lean_extension.get_aliased (x :: p) v := by
    intro v
    simp only [lean_extension.get_aliased, table.insert]
    split_ifs <;> rfl
  intro m v
  rw [hnew, hinv]
  by_cases hm : m = n
  · subst hm
    rw [if_pos rfl]
    constructor
    · intro hv
      have hve : v = e := (Option.some.inj hv).symm
      rw [if_pos hve]
      exact ⟨_, rfl, List.mem_cons_self _ _⟩
    · rintro ⟨l, hl, hml⟩
      by_cases hve : v = e
      · rw [hve]
      · rw [if_neg hve] at hl
        have := (hi m v).2 ⟨l, hl, hml⟩
        rw [hnone] at this
        exact absurd this (by simp)
  · rw [if_neg hm]
    constructor
    · intro hv
      obtain ⟨l, hl, hml⟩ := (hi m v).1 hv
      by_cases hve : v = e
      · rw [if_pos hve]
        subst hve
        refine ⟨_, rfl, List.mem_cons_of_mem _ ?_⟩
        rw [hl]
        exact hml
      · rw [if_neg hve]
        exact ⟨l, hl, hml⟩
    · rintro ⟨l, hl, hml⟩
      by_cases hve : v = e
      · rw [if_pos hve] at hl
        subst hve
        rw [← Option.some.inj hl] at hml
        rcases List.mem_cons.1 hml with h1 | h1
        · exact absurd h1 hm
        · cases hq : lean_extension.get_aliased (x :: p) v with
          | none => rw [hq] at h1; simp at h1
          | some l0 =>
            rw [hq] at h1
            exact (hi m v).2 ⟨l0, hq, h1⟩
      · rw [if_neg hve] at hl
        exact (hi m v).2 ⟨l, hl, hml⟩

/-- A fresh child level keeps the two tables inverse. -/
theorem aliases_inverse_child (c : List lean_extension) (hi : aliases_inverse c) :
    aliases_inverse (lean_extension.init :: c) := by
  intro n e
  have := hi n e
  simpa [lean_extension.get_alias, lean_extension.get_aliased, lean_extension.init,
    table.empty] using this

/-- Every operation keeps the two alias tables inverse. -/
theorem apply_aliases_inverse (s : frontend) (op : frontend_op) (h : aliases_inverse s.chain) :
    aliases_inverse (s.apply op).chain := by
  have hkeep : ∀ s1 : frontend, s1.ancestors = s.ancestors →
      s.here.ext.m_aliases = s1.here.ext.m_aliases →
      s.here.ext.m_inv_aliases = s1.here.ext.m_inv_aliases →
      aliases_inverse s1.chain := by
    intro s1 h1 h2 h3
    have : s1.chain = s1.here.ext :: s.ancestors.map (fun c => c.ext) := by
      simp [frontend.chain, h1]
    rw [this]
    exact aliases_inverse_congr _ _ _ h2 h3 h
  cases op with
  | register f parts prec d led =>
    obtain ⟨h1, h2, _, _⟩ := add_new_op_other s (mixfix_op f parts prec) d led
    simp only [lean_extension.other_tables, Prod.mk.injEq] at h2
    exact hkeep _ h1 h2.2.2.2.2.2.1.symm h2.2.2.2.2.2.2.symm
  | child =>
    exact aliases_inverse_child _ h
  | mark_implicit m implicit =>
    simp only [frontend.apply]
    cases hres : mark_implicit_arguments s m implicit with
    | error e => exact h
    | ok s1 =>
      obtain ⟨_, obj, ev, _, _, _, _, _, _, _, hanc, _, _, _, hext⟩ :=
        mark_implicit_arguments_ok s s1 m implicit hres
      exact hkeep _ hanc (by rw [hext]) (by rw [hext])
  | mk_coercion tc fuel f =>
    simp only [frontend.apply]
    cases hres : add_coercion tc fuel s f with
    | error e => exact h
    | ok s1 =>
      obtain ⟨ty, a, b, _, _, _, _, _, _, hanc, _, _, hext⟩ := add_coercion_ok tc fuel s s1 f hres
      exact hkeep _ hanc (by rw [hext]) (by rw [hext])
  | mk_alias m e =>
    simp only [frontend.apply]
    cases hres : add_alias s m e with
    | error e => exact h
    | ok s1 =>
      obtain ⟨hnone, hanc, hext⟩ := add_alias_ok s s1 m e hres
      have : s1.chain = s1.here.ext :: s.ancestors.map (fun c => c.ext) := by
        simp [frontend.chain, hanc]
      rw [this, hext]
      exact aliases_inverse_insert s.here.ext _ m e hnone h
  | declare o =>
    simp only [frontend.apply, add_object]
    split
    · exact h
    · exact hkeep _ rfl rfl rfl

/-- In every reachable state the two alias tables are inverse to each other. -/
theorem run_aliases_inverse (ops : List frontend_op) :
    aliases_inverse (frontend.init.run ops).chain := by
  have hgen : ∀ (l : List frontend_op) (s : frontend), aliases_inverse s.chain →
      aliases_inverse (s.run l).chain := by
    intro l
    induction l with
    | nil => intro s hs; exact hs
    | cons op rest ih =>
      intro s hs
      exact ih (s.apply op) (apply_aliases_inverse s op hs)
  apply hgen
  intro n e
  simp [frontend.chain, frontend.init, lean_extension.init, table.empty,
    lean_extension.get_alias, lean_extension.get_aliased]
/-- C39: `add_alias(n, e)` throws, in the state it was called in, when `n` has an alias in
the frontend or in an ancestor; otherwise it succeeds, `get_alias(n)` is then `e` and
`get_aliased(e)` is `n` followed by the names it had before; and in every state reached
from the fresh frontend by the frontend operations (which never write an ancestor),
`get_alias(m) = v` iff `m` occurs in `get_aliased(v)`. -/
theorem add_alias_spec (s : frontend) (n : name) (e : expr) :
    ((lean_extension.get_alias s.chain n).isSome = true →
      (add_alias_m n e).exit s = (Except.error frontend_error.alias_exists, s)) ∧
    (lean_extension.get_alias s.chain n = none →
      ((add_alias_m n e).exit s).1 = Except.ok () ∧
      lean_extension.get_alias ((add_alias_m n e).exit s).2.chain n = some e ∧
      lean_extension.get_aliased ((add_alias_m n e).exit s).2.chain e =
        some (n :: (lean_extension.get_aliased s.chain e).getD [])) ∧
    (∀ (ops : List frontend_op) (m : name) (v : expr),
      lean_extension.get_alias (frontend.init.run ops).chain m = some v ↔
        ∃ l, lean_extension.get_aliased (frontend.init.run ops).chain v = some l ∧ m ∈ l) := by
  refine ⟨?_, ?_, fun ops m v => run_aliases_inverse ops m v⟩
  · intro h
    rw [add_alias_m_exit]
    simp [add_alias, h]
  · intro h
    rw [add_alias_m_exit]
    cases hr : add_alias s n e with
    | error err =>
      simp [add_alias, h] at hr
    | ok s1 =>
      obtain ⟨_, hanc, hext⟩ := add_alias_ok s s1 n e hr
      have hchain : s1.chain = s1.here.ext :: s.ancestors.map (fun c => c.ext) := by
        simp [frontend.chain, hanc]
      refine ⟨rfl, ?_, ?_⟩
      · simp only [hchain, hext, lean_extension.get_alias, table.insert, if_true]
      · simp only [hchain, hext, lean_extension.get_aliased, table.insert, if_true]

/-- Witness for C39: `plus` is an alias of `nat_add`; declaring `plus` again throws and
leaves the state as it was, and declaring the alias `add` of `nat_add` puts `add` in front
of `plus`. -/
theorem add_alias_spec_witness :
    (add_alias_m (mk_name "plus") (Const "nat_mul")).exit frontend_with_alias =
      (Except.error frontend_error.alias_exists, frontend_with_alias) ∧
    lean_extension.get_aliased
      ((add_alias_m (mk_name "add") (Const "nat_add")).exit frontend_with_alias).2.chain
      (Const "nat_add") = some [mk_name "add", mk_name "plus"] :=
  ⟨(add_alias_spec frontend_with_alias (mk_name "plus") (Const "nat_mul")).1 (by decide),
   by decide⟩

/-- The lookup `get_subst` throws exactly on a variable without slot. -/
theorem get_subst_eq_none (s : subst) (x : expr) (cs : Nat) :
    hop_match_fn.get_subst s x cs = none ↔ s.length ≤ var_idx x - cs := by
  simp only [hop_match_fn.get_subst]
  split <;> simp_all

/-- A call whose pattern is, or is headed by, a logical variable without slot throws. -/
theorem match_no_slot (fuel : Nat) (c : match_call) (h : c.no_slot) :
    hop_match_fn.match_ (fuel + 1) c.s c.p c.t c.ctx c.cs = match_result.exception := by
  rw [hop_match_fn.match_]
  rcases h with ⟨hfv, hlen⟩ | ⟨hnfv, happ, hfv, hlen⟩
  · rw [if_pos hfv, (get_subst_eq_none _ _ _).2 hlen]
  · rw [if_neg (by simp [hnfv]), if_pos (by simp [happ, hfv]), (get_subst_eq_none _ _ _).2 hlen]

/-- The conjunction of two calls throws when the first does, or when the first returns true
and the second throws. -/
theorem and_then_exception (r : match_result) (k : subst → match_result) :
    hop_match_fn.and_then r k = match_result.exception ↔
      r = match_result.exception ∨ ∃ s1, r = match_result.done true s1 ∧
        k s1 = match_result.exception := by
  unfold hop_match_fn.and_then
  split
  · rename_i s1
    constructor
    · intro h
      exact Or.inr ⟨s1, rfl, h⟩
    · rintro (h | ⟨s2, h, hk⟩)
      · simp at h
      · simp only [match_result.done.injEq, true_and] at h
        rw [h]
        exact hk
  · rename_i hne
    constructor
    · intro h
      exact Or.inl h
    · rintro (h | ⟨s2, h, _⟩)
      · exact h
      · exact absurd h (hne s2)

/-- The call made by an iteration of the application loop. -/
theorem app_loop_pair_call (m : subst → expr → expr → match_result) (p t : expr)
    (i1 i2 : Nat) (s : subst) :
    (if i1 = 0 ∧ 0 < i2 then m s (arg p i1) (mk_app_first (i2 + 1) t)
      else if i2 = 0 ∧ 0 < i1 then m s (mk_app_first (i1 + 1) p) (arg t i2)
      else m s (arg p i1) (arg t i2)) =
    m s (app_loop_pair p t i1 i2).1 (app_loop_pair p t i1 i2).2 := by
  unfold app_loop_pair
  split
  · rfl
  · split <;> rfl

/-- The application loop throws exactly when one of the calls it makes throws. -/
theorem app_loop_exception (m : subst → expr → expr → match_result) (p t : expr) :
    ∀ (i1 i2 : Nat) (s : subst),
      hop_match_fn.app_loop m p t i1 i2 s = match_result.exception ↔
        ∃ s2 p2 t2, app_loop_calls m p t i1 i2 s s2 p2 t2 ∧
          m s2 p2 t2 = match_result.exception := by
  intro i1
  induction i1 with
  | zero =>
    intro i2 s
    simp only [hop_match_fn.app_loop]
    constructor
    · intro h
      simp at h
    · rintro ⟨s2, p2, t2, hc, _⟩
      cases hc
  | succ j ih =>
    intro i2 s
    cases i2 with
    | zero =>
      simp only [hop_match_fn.app_loop]
      constructor
      · intro h
        simp at h
      · rintro ⟨s2, p2, t2, hc, _⟩
        cases hc
    | succ l =>
      rw [hop_match_fn.app_loop]
      simp only [app_loop_pair_call]
      rw [app_loop_step_eq, and_then_exception]
      constructor
      · rintro (h | ⟨s1, h1, h2⟩)
        · exact ⟨s, _, _, app_loop_calls.first j l s, h⟩
        · obtain ⟨s2, p2, t2, hc, he⟩ := (ih l s1).1 h2
          exact ⟨s2, p2, t2, app_loop_calls.rest j l s s1 s2 p2 t2 h1 hc, he⟩
      · rintro ⟨s2, p2, t2, hc, he⟩
        cases hc with
        | first => exact Or.inl he
        | rest _ _ _ s1 _ _ _ h1 hr =>
          exact Or.inr ⟨s1, h1, (ih l s1).2 ⟨s2, p2, t2, hr, he⟩⟩
/-- The structural part of `match` throws exactly when one of the calls it makes throws. -/
theorem match_structural_exception (m : subst → expr → expr → context → Nat → match_result)
    (s : subst) (p t : expr) (ctx : context) (cs : Nat) :
    hop_match_fn.match_structural m s p t ctx cs = match_result.exception ↔
      ∃ c, structural_calls m s p t ctx cs c ∧
        m c.s c.p c.t c.ctx c.cs = match_result.exception := by
  unfold hop_match_fn.match_structural
  by_cases hpt : p = t
  · rw [if_pos hpt]
    constructor
    · intro h
      simp at h
    · rintro ⟨c, hc, _⟩
      cases hc <;> contradiction
  · rw [if_neg hpt]
    by_cases hheq : (is_eq_heq p && is_eq_heq t) = true
    · rw [if_pos hheq, and_then_exception]
      simp only [Bool.and_eq_true] at hheq
      constructor
      · rintro (h | ⟨s1, h1, h2⟩)
        · exact ⟨_, structural_calls.heq_lhs hpt hheq.1 hheq.2, h⟩
        · exact ⟨_, structural_calls.heq_rhs s1 hpt hheq.1 hheq.2 h1, h2⟩
      · rintro ⟨c, hc, he⟩
        cases hc with
        | heq_lhs => exact Or.inl he
        | heq_rhs s1 _ _ _ h1 => exact Or.inr ⟨s1, h1, he⟩
        | app s2 p2 t2 _ hp _ _ =>
          obtain ⟨l, r, rfl⟩ := is_eq_heq_inv p hheq.1
          simp [is_app] at hp
        | lambda_domain pd pb td tb _ hp _ => rw [hp] at hheq; simp [is_eq_heq] at hheq
        | lambda_body pd pb td tb s1 _ hp _ _ => rw [hp] at hheq; simp [is_eq_heq] at hheq
        | pi_domain pd pb td tb _ hp _ => rw [hp] at hheq; simp [is_eq_heq] at hheq
        | pi_body pd pb td tb s1 _ hp _ _ => rw [hp] at hheq; simp [is_eq_heq] at hheq
    · rw [if_neg hheq]
      by_cases hk : p.kind ≠ t.kind
      · rw [if_pos hk]
        constructor
        · intro h
          simp at h
        · rintro ⟨c, hc, _⟩
          cases hc with
          | heq_lhs _ h1 h2 => simp [h1, h2] at hheq
          | heq_rhs s1 _ h1 h2 _ => simp [h1, h2] at hheq
          | app s2 p2 t2 _ hp ht _ =>
            cases p <;> simp [is_app] at hp
            cases t <;> simp [is_app] at ht
            simp [expr.kind] at hk
          | lambda_domain pd pb td tb _ hp ht => rw [hp, ht] at hk; simp [expr.kind] at hk
          | lambda_body pd pb td tb s1 _ hp ht _ => rw [hp, ht] at hk; simp [expr.kind] at hk
          | pi_domain pd pb td tb _ hp ht => rw [hp, ht] at hk; simp [expr.kind] at hk
          | pi_body pd pb td tb s1 _ hp ht _ => rw [hp, ht] at hk; simp [expr.kind] at hk
      · rw [if_neg hk]
        simp only [ne_eq, not_not] at hk
        cases p with
        | App pf pa =>
          have ht : is_app t = true := by
            cases t <;> simp [expr.kind] at hk
            rfl
          simp only
          rw [app_loop_exception]
          constructor
          · rintro ⟨s2, p2, t2, hc, he⟩
            exact ⟨⟨s2, p2, t2, ctx, cs⟩, structural_calls.app s2 p2 t2 hpt rfl ht hc, he⟩
          · rintro ⟨c, hc, he⟩
            cases hc with
            | heq_lhs _ h1 _ => simp [is_eq_heq] at h1
            | heq_rhs s1 _ h1 _ _ => simp [is_eq_heq] at h1
            | app s2 p2 t2 _ _ _ hl => exact ⟨s2, p2, t2, hl, he⟩
            | lambda_domain pd pb td tb _ hp _ => cases hp
            | lambda_body pd pb td tb s1 _ hp _ _ => cases hp
            | pi_domain pd pb td tb _ hp _ => cases hp
            | pi_body pd pb td tb s1 _ hp _ _ => cases hp
        | Lambda pd pb =>
          cases t <;> simp [expr.kind] at hk
          rename_i td tb
          simp only
          rw [and_then_exception]
          constructor
          · rintro (h | ⟨s1, h1, h2⟩)
            · exact ⟨_, structural_calls.lambda_domain pd pb td tb hpt rfl rfl, h⟩
            · exact ⟨_, structural_calls.lambda_body pd pb td tb s1 hpt rfl rfl h1, h2⟩
          · rintro ⟨c, hc, he⟩
            cases hc with
            | heq_lhs _ h1 _ => simp [is_eq_heq] at h1
            | heq_rhs s1 _ h1 _ _ => simp [is_eq_heq] at h1
            | app s2 p2 t2 _ hp _ _ => simp [is_app] at hp
            | lambda_domain pd1 pb1 td1 tb1 _ hp ht =>
              cases hp; cases ht
              exact Or.inl he
            | lambda_body pd1 pb1 td1 tb1 s1 _ hp ht h1 =>
              cases hp; cases ht
              exact Or.inr ⟨s1, h1, he⟩
            | pi_domain pd1 pb1 td1 tb1 _ hp _ => cases hp
            | pi_body pd1 pb1 td1 tb1 s1 _ hp _ _ => cases hp
        | Pi pd pb =>
          cases t <;> simp [expr.kind] at hk
          rename_i td tb
          simp only
          rw [and_then_exception]
          constructor
          · rintro (h | ⟨s1, h1, h2⟩)
            · exact ⟨_, structural_calls.pi_domain pd pb td tb hpt rfl rfl, h⟩
            · exact ⟨_, structural_calls.pi_body pd pb td tb s1 hpt rfl rfl h1, h2⟩
          · rintro ⟨c, hc, he⟩
            cases hc with
            | heq_lhs _ h1 _ => simp [is_eq_heq] at h1
            | heq_rhs s1 _ h1 _ _ => simp [is_eq_heq] at h1
            | app s2 p2 t2 _ hp _ _ => simp [is_app] at hp
            | lambda_domain pd1 pb1 td1 tb1 _ hp _ => cases hp
            | lambda_body pd1 pb1 td1 tb1 s1 _ hp _ _ => cases hp
            | pi_domain pd1 pb1 td1 tb1 _ hp ht =>
              cases hp; cases ht
              exact Or.inl he
            | pi_body pd1 pb1 td1 tb1 s1 _ hp ht h1 =>
              cases hp; cases ht
              exact Or.inr ⟨s1, h1, he⟩
        | Var i =>
          simp only
          constructor
          · intro h; simp at h
          · rintro ⟨c, hc, _⟩
            cases hc with
            | heq_lhs _ h1 _ => simp [is_eq_heq] at h1
            | heq_rhs s1 _ h1 _ _ => simp [is_eq_heq] at h1
            | app s2 p2 t2 _ hp _ _ => simp [is_app] at hp
            | lambda_domain pd1 pb1 td1 tb1 _ hp _ => cases hp
            | lambda_body pd1 pb1 td1 tb1 s1 _ hp _ _ => cases hp
            | pi_domain pd1 pb1 td1 tb1 _ hp _ => cases hp
            | pi_body pd1 pb1 td1 tb1 s1 _ hp _ _ => cases hp
        | Constant n =>
          simp only
          constructor
          · intro h; simp at h
          · rintro ⟨c, hc, _⟩
            cases hc with
            | heq_lhs _ h1 _ => simp [is_eq_heq] at h1
            | heq_rhs s1 _ h1 _ _ => simp [is_eq_heq] at h1
            | app s2 p2 t2 _ hp _ _ => simp [is_app] at hp
            | lambda_domain pd1 pb1 td1 tb1 _ hp _ => cases hp
            | lambda_body pd1 pb1 td1 tb1 s1 _ hp _ _ => cases hp
            | pi_domain pd1 pb1 td1 tb1 _ hp _ => cases hp
            | pi_body pd1 pb1 td1 tb1 s1 _ hp _ _ => cases hp
        | Value v =>
          simp only
          constructor
          · intro h; simp at h
          · rintro ⟨c, hc, _⟩
            cases hc with
            | heq_lhs _ h1 _ => simp [is_eq_heq] at h1
            | heq_rhs s1 _ h1 _ _ => simp [is_eq_heq] at h1
            | app s2 p2 t2 _ hp _ _ => simp [is_app] at hp
            | lambda_domain pd1 pb1 td1 tb1 _ hp _ => cases hp
            | lambda_body pd1 pb1 td1 tb1 s1 _ hp _ _ => cases hp
            | pi_domain pd1 pb1 td1 tb1 _ hp _ => cases hp
            | pi_body pd1 pb1 td1 tb1 s1 _ hp _ _ => cases hp
        | TypeU l =>
          simp only
          constructor
          · intro h; simp at h
          · rintro ⟨c, hc, _⟩
            cases hc with
            | heq_lhs _ h1 _ => simp [is_eq_heq] at h1
            | heq_rhs s1 _ h1 _ _ => simp [is_eq_heq] at h1
            | app s2 p2 t2 _ hp _ _ => simp [is_app] at hp
            | lambda_domain pd1 pb1 td1 tb1 _ hp _ => cases hp
            | lambda_body pd1 pb1 td1 tb1 s1 _ hp _ _ => cases hp
            | pi_domain pd1 pb1 td1 tb1 _ hp _ => cases hp
            | pi_body pd1 pb1 td1 tb1 s1 _ hp _ _ => cases hp
        | MetaVar mv =>
          simp only
          constructor
          · intro h; simp at h
          · rintro ⟨c, hc, _⟩
            cases hc with
            | heq_lhs _ h1 _ => simp [is_eq_heq] at h1
            | heq_rhs s1 _ h1 _ _ => simp [is_eq_heq] at h1
            | app s2 p2 t2 _ hp _ _ => simp [is_app] at hp
            | lambda_domain pd1 pb1 td1 tb1 _ hp _ => cases hp
            | lambda_body pd1 pb1 td1 tb1 s1 _ hp _ _ => cases hp
            | pi_domain pd1 pb1 td1 tb1 _ hp _ => cases hp
            | pi_body pd1 pb1 td1 tb1 s1 _ hp _ _ => cases hp
        | Let ty v b =>
          simp only
          constructor
          · intro h; simp at h
          · rintro ⟨c, hc, _⟩
            cases hc with
            | heq_lhs _ h1 _ => simp [is_eq_heq] at h1
            | heq_rhs s1 _ h1 _ _ => simp [is_eq_heq] at h1
            | app s2 p2 t2 _ hp _ _ => simp [is_app] at hp
            | lambda_domain pd1 pb1 td1 tb1 _ hp _ => cases hp
            | lambda_body pd1 pb1 td1 tb1 s1 _ hp _ _ => cases hp
            | pi_domain pd1 pb1 td1 tb1 _ hp _ => cases hp
            | pi_body pd1 pb1 td1 tb1 s1 _ hp _ _ => cases hp
        | HEq l r =>
          have ht : is_eq_heq t = true := by
            cases t <;> simp [expr.kind] at hk
            rfl
          exact absurd (show (is_eq_heq (expr.HEq l r) && is_eq_heq t) = true by rw [ht]; rfl) hheq
/-- The body of `match` throws exactly when the variable it asks `get_subst` for has no
slot, or when one of the recursive calls it makes throws. -/
theorem match_body_exception (fuel : Nat) (c : match_call) :
    hop_match_fn.match_ (fuel + 1) c.s c.p c.t c.ctx c.cs = match_result.exception ↔
      c.no_slot ∨ ∃ c1, match_calls fuel c c1 ∧
        hop_match_fn.match_ fuel c1.s c1.p c1.t c1.ctx c1.cs = match_result.exception := by
  rw [hop_match_fn.match_]
  by_cases hfv : hop_match_fn.is_free_var c.p c.cs = true
  · rw [if_pos hfv]
    cases hg : hop_match_fn.get_subst c.s c.p c.cs with
    | none =>
      simp only [true_iff]
      exact Or.inl (Or.inl ⟨hfv, (get_subst_eq_none _ _ _).1 hg⟩)
    | some o =>
      cases o with
      | some v =>
        simp only
        constructor
        · intro h
          exact Or.inr ⟨_, match_calls.var_assigned v hfv hg, h⟩
        · rintro (hns | ⟨c1, hc, he⟩)
          · rcases hns with ⟨_, hlen⟩ | ⟨hnfv, _⟩
            · rw [(get_subst_eq_none _ _ _).2 hlen] at hg
              exact absurd hg (by simp)
            · rw [hfv] at hnfv
              exact absurd hnfv (by simp)
          · cases hc with
            | var_assigned v1 _ hg1 =>
              rw [hg] at hg1
              simp only [Option.some.injEq] at hg1
              rw [hg1]
              exact he
            | head_assigned v1 hnfv _ _ _ => rw [hfv] at hnfv; exact absurd hnfv (by simp)
            | structural c2 hnfv _ _ => rw [hfv] at hnfv; exact absurd hnfv (by simp)
      | none =>
        simp only
        constructor
        · intro h
          split at h <;> simp at h
        · rintro (hns | ⟨c1, hc, he⟩)
          · rcases hns with ⟨_, hlen⟩ | ⟨hnfv, _⟩
            · rw [(get_subst_eq_none _ _ _).2 hlen] at hg
              exact absurd hg (by simp)
            · rw [hfv] at hnfv
              exact absurd hnfv (by simp)
          · cases hc with
            | var_assigned v1 _ hg1 =>
              rw [hg] at hg1
              exact absurd hg1 (by simp)
            | head_assigned v1 hnfv _ _ _ => rw [hfv] at hnfv; exact absurd hnfv (by simp)
            | structural c2 hnfv _ _ => rw [hfv] at hnfv; exact absurd hnfv (by simp)
  · rw [if_neg hfv]
    have hnfv : hop_match_fn.is_free_var c.p c.cs = false := by
      cases h : hop_match_fn.is_free_var c.p c.cs with
      | false => rfl
      | true => exact absurd h hfv
    by_cases hh : (is_app c.p && hop_match_fn.is_free_var (arg c.p 0) c.cs) = true
    · rw [if_pos hh]
      have hh2 := hh
      simp only [Bool.and_eq_true] at hh2
      cases hg : hop_match_fn.get_subst c.s (arg c.p 0) c.cs with
      | none =>
        simp only [true_iff]
        exact Or.inl (Or.inr ⟨hnfv, hh2.1, hh2.2, (get_subst_eq_none _ _ _).1 hg⟩)
      | some o =>
        cases o with
        | some v =>
          simp only
          constructor
          · intro h
            exact Or.inr ⟨_, match_calls.head_assigned v hnfv hh2.1 hh2.2 hg, h⟩
          · rintro (hns | ⟨c1, hc, he⟩)
            · rcases hns with ⟨hfv1, _⟩ | ⟨_, _, _, hlen⟩
              · exact absurd hfv1 hfv
              · rw [(get_subst_eq_none _ _ _).2 hlen] at hg
                exact absurd hg (by simp)
            · cases hc with
              | var_assigned v1 hfv1 _ => exact absurd hfv1 hfv
              | head_assigned v1 _ _ _ hg1 =>
                rw [hg] at hg1
                simp only [Option.some.injEq] at hg1
                rw [hg1]
                exact he
              | structural c2 _ hcond _ =>
                rcases hcond with h1 | ⟨h1, _⟩
                · rw [hh] at h1
                  exact absurd h1 (by simp)
                · rw [hg] at h1
                  exact absurd h1 (by simp)
        | none =>
          simp only
          cases hv : hop_match_fn.args_are_distinct_locally_bound_vars c.p c.cs with
          | some vars =>
            simp only
            constructor
            · intro h
              split at h <;> simp at h
            · rintro (hns | ⟨c1, hc, he⟩)
              · rcases hns with ⟨hfv1, _⟩ | ⟨_, _, _, hlen⟩
                · exact absurd hfv1 hfv
                · rw [(get_subst_eq_none _ _ _).2 hlen] at hg
                  exact absurd hg (by simp)
              · cases hc with
                | var_assigned v1 hfv1 _ => exact absurd hfv1 hfv
                | head_assigned v1 _ _ _ hg1 =>
                  rw [hg] at hg1
                  exact absurd hg1 (by simp)
                | structural c2 _ hcond _ =>
                  rcases hcond with h1 | ⟨_, h1⟩
                  · rw [hh] at h1
                    exact absurd h1 (by simp)
                  · rw [hv] at h1
                    exact absurd h1 (by simp)
          | none =>
            simp only
            rw [match_structural_exception]
            constructor
            · rintro ⟨c1, hc, he⟩
              exact Or.inr ⟨c1, match_calls.structural c1 hnfv (Or.inr ⟨hg, hv⟩) hc, he⟩
            · rintro (hns | ⟨c1, hc, he⟩)
              · rcases hns with ⟨hfv1, _⟩ | ⟨_, _, _, hlen⟩
                · exact absurd hfv1 hfv
                · rw [(get_subst_eq_none _ _ _).2 hlen] at hg
                  exact absurd hg (by simp)
              · cases hc with
                | var_assigned v1 hfv1 _ => exact absurd hfv1 hfv
                | head_assigned v1 _ _ _ hg1 =>
                  rw [hg] at hg1
                  exact absurd hg1 (by simp)
                | structural c2 _ _ hs => exact ⟨c1, hs, he⟩
    · rw [if_neg hh]
      have hh2 : (is_app c.p && hop_match_fn.is_free_var (arg c.p 0) c.cs) = false := by
        cases h : (is_app c.p && hop_match_fn.is_free_var (arg c.p 0) c.cs) with
        | false => rfl
        | true => exact absurd h hh
      rw [match_structural_exception]
      constructor
      · rintro ⟨c1, hc, he⟩
        exact Or.inr ⟨c1, match_calls.structural c1 hnfv (Or.inl hh2) hc, he⟩
      · rintro (hns | ⟨c1, hc, he⟩)
        · rcases hns with ⟨hfv1, _⟩ | ⟨_, ha, hf, _⟩
          · exact absurd hfv1 hfv
          · rw [ha, hf] at hh
            exact absurd rfl hh
        · cases hc with
          | var_assigned v1 hfv1 _ => exact absurd hfv1 hfv
          | head_assigned v1 _ ha hf _ =>
            rw [ha, hf] at hh
            exact absurd rfl hh
          | structural c2 _ _ hs => exact ⟨c1, hs, he⟩

/-- A call throws exactly when matching reaches a call whose pattern is, or is headed by, a
logical variable without slot. -/
theorem match_exception_iff : ∀ (fuel : Nat) (c : match_call),
    hop_match_fn.match_ fuel c.s c.p c.t c.ctx c.cs = match_result.exception ↔
      ∃ fuel2 c2, match_reaches fuel c (fuel2 + 1) c2 ∧ c2.no_slot := by
  intro fuel
  induction fuel with
  | zero =>
    intro c
    constructor
    · intro h
      simp [hop_match_fn.match_] at h
    · rintro ⟨fuel2, c2, hr, _⟩
      cases hr
  | succ n ih =>
    intro c
    rw [match_body_exception]
    constructor
    · rintro (hns | ⟨c1, hc, he⟩)
      · exact ⟨n, c, match_reaches.here _ _, hns⟩
      · obtain ⟨fuel2, c2, hr, hns⟩ := (ih c1).1 he
        exact ⟨fuel2, c2, match_reaches.call n c c1 _ c2 hc hr, hns⟩
    · rintro ⟨fuel2, c2, hr, hns⟩
      cases hr with
      | here => exact Or.inl hns
      | call _ _ c1 _ _ hc hr1 => exact Or.inr ⟨c1, hc, (ih c1).2 ⟨fuel2, c2, hr1, hns⟩⟩
/-- C3 (amended): `hop_match` throws exactly when matching reaches, through the recursive
calls it makes, a call whose pattern is a logical variable whose index minus `ctx_size` is
outside the range of the substitution buffer, or an application whose head is one; in
particular when the pattern itself is such a variable or such an application, while an
out-of-range variable that matching does not reach throws nothing. When the free
variables of the pattern, of the target and of the terms already assigned all are in
range, no call throws, whatever the budget: the outcome is true, false, or no return at
all, as on `g (?F ?F) ?F` against `g c (fun x : T, x x)`. -/
theorem hop_match_exception_spec (fuel : Nat) (p t : expr) (s : subst) :
    (hop_match fuel p t s = match_result.exception ↔
      ∃ fuel2 c, match_reaches fuel ⟨s, p, t, [], 0⟩ (fuel2 + 1) c ∧ c.no_slot) ∧
    ((is_var p = true ∨ (is_app p = true ∧ is_var (arg p 0) = true)) →
      s.length ≤ var_idx (arg p 0) →
      hop_match (fuel + 1) p t s = match_result.exception) ∧
    (vars_below p s.length = true → vars_below t s.length = true →
      (∀ v, some v ∈ s → vars_below v s.length = true) →
      hop_match fuel p t s ≠ match_result.exception) ∧
    (∀ k, hop_match k pattern_g_FF_F target_g_c_self [none] = match_result.out_of_fuel) := by
  refine ⟨match_exception_iff fuel ⟨s, p, t, [], 0⟩, ?_, ?_, hop_match_diverges⟩
  · intro hp hlen
    refine match_no_slot fuel ⟨s, p, t, [], 0⟩ ?_
    rcases hp with hv | ⟨ha, hv⟩
    · have harg : arg p 0 = p := by
        cases p <;> simp [is_var] at hv
        rfl
      rw [harg] at hlen
      exact Or.inl ⟨by simp [hop_match_fn.is_free_var, hv], by simpa using hlen⟩
    · have hnv : hop_match_fn.is_free_var p 0 = false := by
        cases p <;> simp [is_app] at ha
        simp [hop_match_fn.is_free_var, is_var]
      exact Or.inr ⟨hnv, ha, by simp [hop_match_fn.is_free_var, hv], by simpa using hlen⟩
  · intro hp ht hs
    exact (match_in_range s.length fuel s p t [] 0 ⟨rfl, hs⟩ (by simpa using hp) (by simpa using ht)
      trivial rfl).1

/-- C3, instances: the pattern `?3` with a one-slot buffer throws; matching `f ?5` against
`f c` reaches the call of `?5` against `c` and throws; the in-range problem
`fun (x : N) (y : M), ?F y x` against `fun (x : N) (y : M), f y (f x y)` does not. -/
theorem hop_match_exception_spec_witness :
    (is_var (expr.Var 3) = true ∧ [(none : Option expr)].length ≤ var_idx (arg (expr.Var 3) 0)) ∧
    hop_match 2 (expr.Var 3) (Const "c") [none] = match_result.exception ∧
    hop_match 2 pattern_f_var5 (expr.App (Const "f") (Const "c")) [none] =
      match_result.exception ∧
    (vars_below pattern_F_y_x 1 = true ∧ vars_below target_f_y_fxy 1 = true) ∧
    hop_match 5 pattern_F_y_x target_f_y_fxy [none] ≠ match_result.exception :=
  ⟨⟨rfl, by decide⟩,
   (hop_match_exception_spec 1 (expr.Var 3) (Const "c") [none]).2.1 (Or.inl rfl) (by decide),
   (hop_match_exception_spec 2 pattern_f_var5 (expr.App (Const "f") (Const "c")) [none]).1.mpr
     ⟨0, ⟨[none], expr.Var 5, Const "c", [], 0⟩,
      match_reaches.call 1 _ _ 1 _
        (match_calls.structural _ rfl (Or.inl rfl)
          (structural_calls.app [none] (expr.Var 5) (Const "c") (by decide) rfl rfl
            (app_loop_calls.first 1 1 [none])))
        (match_reaches.here 1 _),
      Or.inl ⟨rfl, by decide⟩⟩,
   ⟨by decide, by decide⟩,
   (hop_match_exception_spec 5 pattern_F_y_x target_f_y_fxy [none]).2.2.1 (by decide) (by decide)
     (fun v hv => by simp at hv)⟩

end ElabCore
